import Mathlib

/-!
# tistouchess: board representation and make/unmake protocol

A shallow embedding of `src/board.cpp`, `src/move.hpp` and `src/types.hpp`.
Machine integers are natural numbers (or integers for the signed `int8_t`
coordinates) with explicit truncation where the C++ code truncates.
-/

namespace Tistou

/-! ## types.hpp -/

/-- Piece codes of `enum Piece : uint8_t`. -/
abbrev Piece := Nat

def P_EMPTY : Piece := 0
def P_PAWN : Piece := 1
def P_BISHOP : Piece := 2
def P_KNIGHT : Piece := 3
def P_ROOK : Piece := 4
def P_QUEEN : Piece := 5
def P_KING : Piece := 6
def P_INVALID_PIECE : Piece := 7
def P_PIECE_MASK : Nat := 0x07

/-- Colour codes of `enum Color : uint8_t`. -/
abbrev Color := Nat

def C_BLACK : Color := 0x00
def C_WHITE : Color := 0x01
def C_EMPTY : Color := 0x02

/-- The `(Color)(0x01 - (uint8_t)c)` of `other_color`: the subtraction is done on
`int` and the result is cast back to the 8-bit enumeration. -/
def other_color (c : Color) : Color := ((1 - (c : Int)) % 256).toNat

def CR_KING_WHITE : Nat := 1 <<< 0
def CR_QUEEN_WHITE : Nat := 1 <<< 1
def CR_KING_BLACK : Nat := 1 <<< 2
def CR_QUEEN_BLACK : Nat := 1 <<< 3

/-- A square: `struct Pos` with its two `int8_t` coordinates. -/
structure Pos where
  row : Int
  column : Int
deriving DecidableEq, Repr

/-- The value of `uint8_t x = pos.column + pos.row * 8`. -/
def Pos.index (pos : Pos) : Nat := ((pos.column + pos.row * 8) % 256).toNat

/-- A square of the 8x8 board: both coordinates within `0..7`. -/
def Pos.onBoard (pos : Pos) : Prop :=
  0 ≤ pos.row ∧ pos.row ≤ 7 ∧ 0 ≤ pos.column ∧ pos.column ≤ 7

instance (pos : Pos) : Decidable pos.onBoard := by
  delta Pos.onBoard; exact inferInstance

/-- Truncation of an `int` to `uint8_t`. -/
def u8 (x : Int) : Nat := (x % 256).toNat

/-- Reinterpretation of a `uint8_t` as `int8_t` (two's complement). -/
def i8 (n : Nat) : Int := if n % 256 < 128 then ((n % 256 : Nat) : Int) else ((n % 256 : Nat) : Int) - 256

/-! ## board.hpp (declarations) and move.hpp -/

/-- Modelled from the spec: `board.hpp` is not among the sources. The packed
`m_flags` word of `Board` holds "castling + en-passant + side + king-check"; its
bit layout is unknown, so each component is kept as a field of a record and
the accessors of `Board` read and write the fields. -/
structure Flags where
  castle_rights : Nat
  en_passant : Nat
  next_move : Color
  king_checked : Nat
deriving DecidableEq, Repr

/-- Modelled from the spec: the data members of `class Board` (`board.hpp` is not
among the sources). `m_board` is the 32-byte packed array of `board.cpp`, two
squares per byte; the king squares are the cached positions of both kings,
indexed by colour. -/
structure Board where
  m_board : Nat → Nat
  m_flags : Flags
  m_key : Nat
  m_half_move_counter : Nat
  m_ply_count : Nat
  m_king_pos : Color → Pos

/-- The `struct NullMove` of `move.hpp`. -/
structure NullMove where
  m_board_state_before : Flags
  m_board_key_before : Nat
  half_move_before : Nat
deriving DecidableEq, Repr

/-- The `struct Move` of `move.hpp`. The last two fields, `evaluation` and
`best_from_pv`, are the ones `engine.cpp` reads and writes on a move; the
`move.hpp` among the sources does not declare them, and its default
constructor is taken to zero them. -/
structure Move where
  score : Int
  see_value : Int
  mvv_lva_value : Int
  src : Pos
  dst : Pos
  color : Color
  piece : Piece
  taken_piece : Piece
  promote_piece : Piece
  en_passant : Bool
  killer : Bool
  mate_killer : Bool
  hash_move : Bool
  takes : Bool
  castling : Bool
  legal : Bool
  legal_checked : Bool
  promote : Bool
  checks : Bool
  mate : Bool
  pat : Bool
  m_board_state_before : Flags
  m_board_key_before : Nat
  half_move_before : Nat
  evaluation : Int
  best_from_pv : Bool
deriving DecidableEq, Repr

/-- Modelled from the spec: the accessor `Board::get_flags` of the missing `board.hpp`. -/
def Board.get_flags (b : Board) : Flags := b.m_flags

/-- Modelled from the spec: the accessor `Board::get_key` of the missing `board.hpp`. -/
def Board.get_key (b : Board) : Nat := b.m_key

/-- Modelled from the spec: the accessor `Board::get_half_move` of the missing `board.hpp`. -/
def Board.get_half_move (b : Board) : Nat := b.m_half_move_counter

/-- Modelled from the spec: `Board::get_castle_rights` of the missing `board.hpp`;
it returns a `uint8_t` (see `make_move`). -/
def Board.get_castle_rights (b : Board) : Nat := b.m_flags.castle_rights % 256

/-- Modelled from the spec: `Board::set_castle_rights` of the missing `board.hpp`. -/
def Board.set_castle_rights (b : Board) (v : Nat) : Board :=
  { b with m_flags := { b.m_flags with castle_rights := v } }

/-- Modelled from the spec: `Board::get_next_move` of the missing `board.hpp`. -/
def Board.get_next_move (b : Board) : Color := b.m_flags.next_move

/-- Modelled from the spec: `Board::set_next_move` of the missing `board.hpp`. -/
def Board.set_next_move (b : Board) (c : Color) : Board :=
  { b with m_flags := { b.m_flags with next_move := c } }

/-- Modelled from the spec: the constant `CAN_EN_PASSANT` of the missing
`board.hpp`, the presence bit that the code ors onto a file index `0..7`; the
lowest bit above the three file bits is taken. -/
def CAN_EN_PASSANT : Nat := 8

/-- Modelled from the spec: `Board::set_en_passant_pos` of the missing `board.hpp`. -/
def Board.set_en_passant_pos (b : Board) (v : Nat) : Board :=
  { b with m_flags := { b.m_flags with en_passant := v } }

/-- Modelled from the spec: `Board::has_en_passant` of the missing `board.hpp`:
the presence bit of the en-passant state is set. -/
def Board.has_en_passant (b : Board) : Bool := b.m_flags.en_passant &&& CAN_EN_PASSANT != 0

/-- Modelled from the spec: the file index `0..7` held by the en-passant state
(`board.hpp` is missing). -/
def Board.en_passant_file (b : Board) : Nat := b.m_flags.en_passant &&& 7

/-- Modelled from the spec: `Board::set_king_checked` of the missing `board.hpp`. -/
def Board.set_king_checked (b : Board) (v : Nat) : Board :=
  { b with m_flags := { b.m_flags with king_checked := v } }

/-- Modelled from the spec: `Board::is_king_checked` of the missing `board.hpp`.
`make_move` stores Black's bit at position 0 and White's at position 1, that is
at the position of the colour code. -/
def Board.is_king_checked (b : Board) (clr : Color) : Bool :=
  (b.m_flags.king_checked >>> clr) &&& 1 == 1

/-- Modelled from the spec: `Board::get_king_pos` of the missing `board.hpp`. -/
def Board.get_king_pos (b : Board) (clr : Color) : Pos := b.m_king_pos clr

/-- Modelled from the spec: `Board::set_king_pos` of the missing `board.hpp`. -/
def Board.set_king_pos (b : Board) (pos : Pos) (clr : Color) : Board :=
  { b with m_king_pos := fun c => if c = clr then pos else b.m_king_pos c }

/-- The default constructor `Move::Move()`. -/
def Move.default : Move :=
  { score := -999999, see_value := 0, mvv_lva_value := 0,
    src := ⟨-1, -1⟩, dst := ⟨-1, -1⟩,
    color := C_BLACK, piece := P_INVALID_PIECE, taken_piece := P_EMPTY,
    promote_piece := P_EMPTY,
    en_passant := false, killer := false, mate_killer := false, hash_move := false,
    takes := false, castling := false, legal := false, legal_checked := false,
    promote := false, checks := false, mate := false, pat := false,
    m_board_state_before := ⟨0, 0, 0, 0⟩, m_board_key_before := 0, half_move_before := 0,
    evaluation := 0, best_from_pv := false }

/-- The constructor `Move::Move(const Board&)`: the undo snapshot is taken from
the board; `half_move_before` is a `uint8_t`. -/
def Move.ofBoard (b : Board) : Move :=
  { Move.default with
    m_board_state_before := b.get_flags
    m_board_key_before := b.get_key
    half_move_before := b.get_half_move % 256 }

/-- The constructor `NullMove::NullMove(const Board&)`. -/
def NullMove.ofBoard (b : Board) : NullMove :=
  { m_board_state_before := b.get_flags
    m_board_key_before := b.get_key
    half_move_before := b.get_half_move % 256 }

/-- The collaborators of `board.cpp` whose code is not among the sources, taken
as parameters: the move generator's `find_move_to_position` (the size of the
move list it leaves, called with at most one move wanted and captures only),
the incremental hash updates of `HashMethods`, and `Board::get_en_passant_pos`
(a read of the flags word: the file with a rank implied by the side to move). -/
structure Env where
  find_move_to_position : Board → Pos → Color → Nat
  hash_make_move : Board → Nat → Move → Nat → Nat
  hash_make_null_move : Board → Nat → NullMove → Nat
  get_en_passant_pos : Flags → Pos

/-! ## board.cpp -/

/-- The function `Board::get_piece_at`; `none` stands for `std::abort()`. There `x` is an
`int`, so `x >> 1` and `x & 1` are the floor quotient and remainder by two. -/
def Board.get_piece_at (b : Board) (pos : Pos) : Option Piece :=
  if pos.column > 7 ∨ pos.row > 7 then none
  else
    let x : Int := pos.column + pos.row * 8
    let q : Nat := u8 (x / 2)
    let n : Nat := u8 (x % 2)
    let val : Nat := (b.m_board q >>> (4 * n)) &&& P_PIECE_MASK
    some val

/-- The function `Board::get_color_at`; `none` stands for `std::abort()`. -/
def Board.get_color_at (b : Board) (pos : Pos) : Option Color :=
  if pos.column > 7 ∨ pos.row > 7 then none
  else
    let x : Nat := pos.index
    let q : Nat := x >>> 1
    let n : Nat := x &&& 1
    let val : Nat := (b.m_board q >>> (4 * n)) &&& 0x0F
    if val = 0 then some C_EMPTY else some (val >>> 3)

/-- The function `Board::set_piece_at` (release build: the `CHESS_DEBUG` checks are
compiled out). -/
def Board.set_piece_at (b : Board) (pos : Pos) (p : Piece) (c : Color) : Board :=
  let x : Nat := pos.index
  let q : Nat := x >>> 1
  let n : Nat := x &&& 1
  let store : Nat := b.m_board q
  let newval : Nat := (p ||| (c <<< 3)) % 256
  let b1 : Board :=
    { b with m_board := fun i =>
        if i = q then ((store &&& (0x0F <<< (4 * (1 - n)))) ||| (newval <<< (4 * n))) % 256
        else b.m_board i }
  if p = P_KING then b1.set_king_pos pos c else b1

/-- The function `Board::is_square_attacked`: the answer together with the board it leaves;
`none` stands for the `std::abort()` of `get_piece_at`. -/
def Board.is_square_attacked (env : Env) (b : Board) (pos : Pos) (attacked_by_clr : Color) :
    Option (Bool × Board) :=
  match b.get_piece_at pos with
  | none => none
  | some pc =>
    let fake_piece : Bool := pc == P_EMPTY
    let b1 := if fake_piece then b.set_piece_at pos P_PAWN (other_color attacked_by_clr) else b
    let size := env.find_move_to_position b1 pos attacked_by_clr
    let b2 := if fake_piece then b1.set_piece_at pos P_EMPTY C_BLACK else b1
    some (size == 1, b2)

/-- The function `Board::compute_king_checked`. -/
def Board.compute_king_checked (env : Env) (b : Board) (clr : Color) : Nat :=
  let p := b.get_king_pos clr
  let size := env.find_move_to_position b p (other_color clr)
  if size = 1 then 1 else 0

/-- The castling rights lost "by moving" in `Board::make_move`; `x &= ~m` on
`uint8_t` keeps the bits of `x` outside `m`. -/
def castle_rights_by_moving (r0 : Nat) (move : Move) : Nat :=
  let isWhite : Bool := move.color == C_WHITE
  if move.piece = P_ROOK then
    if move.src.column = 0 then
      r0 &&& (0xFF ^^^ (if isWhite then CR_QUEEN_WHITE else CR_QUEEN_BLACK))
    else if move.src.column = 7 then
      r0 &&& (0xFF ^^^ (if isWhite then CR_KING_WHITE else CR_KING_BLACK))
    else r0
  else if move.piece = P_KING then
    r0 &&& (0xFF ^^^ (if isWhite then (CR_KING_WHITE ||| CR_QUEEN_WHITE)
                      else (CR_KING_BLACK ||| CR_QUEEN_BLACK)))
  else r0

/-- The castling rights lost "by capturing" in `Board::make_move`. -/
def castle_rights_by_capturing (r1 : Nat) (move : Move) : Nat :=
  let isWhite : Bool := move.color == C_WHITE
  if move.takes ∧ move.taken_piece = P_ROOK then
    if move.dst.column = 7 then
      r1 &&& (0xFF ^^^ (if isWhite then CR_KING_BLACK else CR_KING_WHITE))
    else if move.dst.column = 0 then
      r1 &&& (0xFF ^^^ (if isWhite then CR_QUEEN_BLACK else CR_QUEEN_WHITE))
    else r1
  else r1

/-- The castling-rights update at the head of `Board::make_move`: the value of
`new_castle_rights` after both blocks. -/
def new_castle_rights (old_castle_rights : Nat) (move : Move) : Nat :=
  castle_rights_by_capturing (castle_rights_by_moving old_castle_rights move) move

/-- The rook's corner square in a castling move (`rook_src` of `make_move` and
`unmake_move`). -/
def rook_src (move : Move) : Pos :=
  ⟨i8 (u8 move.src.row), i8 (if u8 move.dst.column = 6 then 7 else 0)⟩

/-- The rook's square after castling (`rook_dst` of `make_move` and `unmake_move`). -/
def rook_dst (move : Move) : Pos :=
  ⟨i8 (u8 move.src.row), i8 (if u8 move.dst.column = 6 then 5 else 3)⟩

/-- The block "MOVE PIECES AROUND" of `Board::make_move`. -/
def Board.move_pieces (env : Env) (b : Board) (move : Move) : Board :=
  let b :=
    if move.promote then b.set_piece_at move.dst move.promote_piece move.color
    else b.set_piece_at move.dst move.piece move.color
  let b := b.set_piece_at move.src P_EMPTY C_BLACK
  let b :=
    if move.en_passant then b.set_piece_at (env.get_en_passant_pos b.m_flags) P_EMPTY C_BLACK
    else b
  if move.castling then
    (b.set_piece_at (rook_src move) P_EMPTY C_BLACK).set_piece_at (rook_dst move) P_ROOK
      move.color
  else b

/-- The function `Board::make_move` (release build). -/
def Board.make_move (env : Env) (b : Board) (move : Move) : Board :=
  -- castling rights
  let old_castle_rights := b.get_castle_rights
  let ncr := new_castle_rights old_castle_rights move
  let b := if ncr ≠ old_castle_rights then b.set_castle_rights ncr else b
  -- hash key
  let b := { b with m_key := env.hash_make_move b b.m_key move (old_castle_rights ^^^ ncr) }
  -- move pieces around
  let b := b.move_pieces env move
  -- en passant state
  let b :=
    if move.piece = P_PAWN ∧ (move.src.row - move.dst.row).natAbs = 2 then
      b.set_en_passant_pos (u8 move.dst.column ||| CAN_EN_PASSANT)
    else b.set_en_passant_pos 0
  -- side to move
  let b := b.set_next_move (other_color b.get_next_move)
  -- 50 move rule clock
  let b :=
    if move.takes ∨ move.piece = P_PAWN then { b with m_half_move_counter := 0 }
    else { b with m_half_move_counter := b.m_half_move_counter + 1 }
  -- ply counter
  let b := { b with m_ply_count := b.m_ply_count + 1 }
  -- check state
  let checks := b.compute_king_checked env C_BLACK ||| (b.compute_king_checked env C_WHITE <<< 1)
  b.set_king_checked checks

/-- The block "MOVE PIECES AROUND" of `Board::unmake_move`. -/
def Board.unmove_pieces (env : Env) (b : Board) (move : Move) : Board :=
  let b := b.set_piece_at move.src move.piece move.color
  let clr : Color := if move.takes then other_color move.color else C_BLACK
  let b :=
    if move.en_passant then
      (b.set_piece_at (env.get_en_passant_pos b.m_flags) P_PAWN clr).set_piece_at move.dst
        P_EMPTY C_BLACK
    else b.set_piece_at move.dst move.taken_piece clr
  if move.castling then
    (b.set_piece_at (rook_src move) P_ROOK move.color).set_piece_at (rook_dst move) P_EMPTY
      C_BLACK
  else b

/-- The function `Board::unmake_move`. The FEN string it builds first is never used. -/
def Board.unmake_move (env : Env) (b : Board) (move : Move) : Board :=
  let b := { b with m_flags := move.m_board_state_before }
  let b := { b with m_key := move.m_board_key_before }
  let b := b.unmove_pieces env move
  let b := { b with m_ply_count := b.m_ply_count - 1 }
  { b with m_half_move_counter := move.half_move_before }

/-- The function `Board::make_null_move`. -/
def Board.make_null_move (env : Env) (b : Board) (m : NullMove) : Board :=
  let b := { b with m_ply_count := b.m_ply_count + 1 }
  let b := { b with m_key := env.hash_make_null_move b b.m_key m }
  let b := b.set_next_move (other_color b.get_next_move)
  if b.has_en_passant then b.set_en_passant_pos 0 else b

/-- The function `Board::unmake_null_move`. -/
def Board.unmake_null_move (b : Board) (m : NullMove) : Board :=
  let b := { b with m_ply_count := b.m_ply_count - 1 }
  let b := b.set_next_move (other_color b.get_next_move)
  let b := { b with m_key := m.m_board_key_before }
  let b := { b with m_flags := m.m_board_state_before }
  { b with m_half_move_counter := m.half_move_before }

/-! ## Views used in the proofs -/

/-- The 4-bit content of square number `k` in the packed array. -/
def nibbleAt (f : Nat → Nat) (k : Nat) : Nat := (f (k >>> 1) >>> (4 * (k &&& 1))) &&& 0x0F

/-- The packed array after the byte update of `set_piece_at` for square number `k`. -/
def writeNibble (f : Nat → Nat) (k v : Nat) : Nat → Nat := fun i =>
  if i = k >>> 1 then
    ((f (k >>> 1) &&& (0x0F <<< (4 * (1 - (k &&& 1))))) ||| (v <<< (4 * (k &&& 1)))) % 256
  else f i

/-- The 4-bit code stored for a piece and a colour: `newval` of `set_piece_at`. -/
def squareCode (p : Piece) (c : Color) : Nat := (p ||| (c <<< 3)) % 256


/-- Every byte of the packed array is a byte. -/
def Board.wf (b : Board) : Prop := ∀ i, b.m_board i < 256

/-- The board handed to the block "MOVE PIECES AROUND" by `make_move`: castling
rights and hash key are already updated. -/
def Board.castle_key_step (env : Env) (b : Board) (move : Move) : Board :=
  let old_castle_rights := b.get_castle_rights
  let ncr := new_castle_rights old_castle_rights move
  let b := if ncr ≠ old_castle_rights then b.set_castle_rights ncr else b
  { b with m_key := env.hash_make_move b b.m_key move (old_castle_rights ^^^ ncr) }

/-- The undo snapshot of the record is the one taken from `P`. -/
def SnapshotOf (P : Board) (m : Move) : Prop :=
  m.m_board_state_before = P.get_flags ∧ m.m_board_key_before = P.get_key ∧
  m.half_move_before = P.get_half_move

instance (P : Board) (m : Move) : Decidable (SnapshotOf P m) := by
  delta SnapshotOf; exact inferInstance

/-- The moving piece of the record stands on the source square of `P`, a
moving king stands on its cached square, and the mover is the side to move. -/
def MoverOnSource (P : Board) (m : Move) : Prop :=
  m.src.onBoard ∧ m.dst.onBoard ∧ m.src ≠ m.dst ∧
  m.color ≤ 1 ∧ 1 ≤ m.piece ∧ m.piece ≤ 6 ∧
  P.get_piece_at m.src = some m.piece ∧ P.get_color_at m.src = some m.color ∧
  (m.piece = P_KING → P.get_king_pos m.color = m.src) ∧
  m.color = P.get_next_move

instance (P : Board) (m : Move) : Decidable (MoverOnSource P m) := by
  delta MoverOnSource; exact inferInstance

/-- The destination square of `P` holds the captured piece of an ordinary
capture and is empty otherwise; a promotion is that of a pawn to bishop,
knight, rook or queen. -/
def TargetAgrees (P : Board) (m : Move) : Prop :=
  (m.takes = true → m.en_passant = false →
    1 ≤ m.taken_piece ∧ m.taken_piece ≤ 5 ∧
    P.get_piece_at m.dst = some m.taken_piece ∧
    P.get_color_at m.dst = some (other_color m.color)) ∧
  (m.takes = false → m.taken_piece = P_EMPTY) ∧
  ((m.takes = false ∨ m.en_passant = true) → P.get_color_at m.dst = some C_EMPTY) ∧
  (m.promote = true → m.piece = P_PAWN ∧ 2 ≤ m.promote_piece ∧ m.promote_piece ≤ 5)

instance (P : Board) (m : Move) : Decidable (TargetAgrees P m) := by
  delta TargetAgrees; exact inferInstance

/-- An en-passant capture: a pawn takes the pawn standing on the en-passant
square of `P`. -/
def EnPassantAgrees (env : Env) (P : Board) (m : Move) : Prop :=
  m.en_passant = true →
    m.takes = true ∧ m.piece = P_PAWN ∧ m.castling = false ∧
    (m.taken_piece = P_PAWN ∨ m.taken_piece = P_EMPTY) ∧
    (env.get_en_passant_pos P.m_flags).onBoard ∧
    env.get_en_passant_pos P.m_flags ≠ m.src ∧ env.get_en_passant_pos P.m_flags ≠ m.dst ∧
    P.get_piece_at (env.get_en_passant_pos P.m_flags) = some P_PAWN ∧
    P.get_color_at (env.get_en_passant_pos P.m_flags) = some (other_color m.color)

instance (env : Env) (P : Board) (m : Move) : Decidable (EnPassantAgrees env P m) := by
  delta EnPassantAgrees; exact inferInstance

/-- A castling move: the king goes from column 4 to column 6 or 2 of its row,
the rook stands in its corner and the square it crosses to is empty. -/
def CastlingAgrees (P : Board) (m : Move) : Prop :=
  m.castling = true →
    m.piece = P_KING ∧ m.takes = false ∧ m.src.column = 4 ∧ m.dst.row = m.src.row ∧
    (m.dst.column = 6 ∨ m.dst.column = 2) ∧
    P.get_piece_at (rook_src m) = some P_ROOK ∧
    P.get_color_at (rook_src m) = some m.color ∧
    P.get_color_at (rook_dst m) = some C_EMPTY

instance (P : Board) (m : Move) : Decidable (CastlingAgrees P m) := by
  delta CastlingAgrees; exact inferInstance

/-- A legal move of position `P` whose record was built from `P`: the undo
snapshot is that of `P` and piece, colour and captured piece agree with the
squares of `P`. -/
def LegalRecord (env : Env) (P : Board) (m : Move) : Prop :=
  SnapshotOf P m ∧ MoverOnSource P m ∧ TargetAgrees P m ∧ EnPassantAgrees env P m ∧
  CastlingAgrees P m

instance (env : Env) (P : Board) (m : Move) : Decidable (LegalRecord env P m) := by
  delta LegalRecord; exact inferInstance

/-! ## Sample inputs -/

/-- A sample choice of the missing collaborators: no attack is ever found, the
key is left alone, and the en-passant square is that of the pawn that just
moved two rows (row 4 when White is to move, row 3 when Black is). -/
def sampleEnv : Env :=
  { find_move_to_position := fun _ _ _ => 0
    hash_make_move := fun _ key _ _ => key
    hash_make_null_move := fun _ key _ => key
    get_en_passant_pos := fun fl =>
      ⟨if fl.next_move = C_WHITE then 4 else 3, ((fl.en_passant &&& 7 : Nat) : Int)⟩ }

/-- The board with no piece on it. -/
def emptyBoard : Board :=
  { m_board := fun _ => 0
    m_flags := ⟨0, 0, C_WHITE, 0⟩
    m_key := 0
    m_half_move_counter := 0
    m_ply_count := 0
    m_king_pos := fun _ => ⟨-1, -1⟩ }

/-- The squares of the sample position: white Ke1, Rh1, Pe5, Pb7; black Ke8, Ra8, Pd5. -/
def sampleSquares : Board :=
  ((((((emptyBoard.set_piece_at ⟨0, 4⟩ P_KING C_WHITE).set_piece_at ⟨0, 7⟩ P_ROOK C_WHITE
    ).set_piece_at ⟨4, 4⟩ P_PAWN C_WHITE).set_piece_at ⟨6, 1⟩ P_PAWN C_WHITE
    ).set_piece_at ⟨7, 4⟩ P_KING C_BLACK).set_piece_at ⟨7, 0⟩ P_ROOK C_BLACK
    ).set_piece_at ⟨4, 3⟩ P_PAWN C_BLACK

/-- The sample position: White to move, all castling rights, Black has just
played d7-d5, halfmove counter 0, ply 20. -/
def sampleBoard : Board :=
  { sampleSquares with
    m_flags := ⟨15, 3 ||| CAN_EN_PASSANT, C_WHITE, 0⟩
    m_key := 12345
    m_half_move_counter := 0
    m_ply_count := 20 }

/-- The quiet move Ke1-e2 in the sample position. -/
def quietMove : Move :=
  { Move.ofBoard sampleBoard with
    src := ⟨0, 4⟩, dst := ⟨1, 4⟩, color := C_WHITE, piece := P_KING }

/-- The capture with promotion b7xa8=Q in the sample position. -/
def captureMove : Move :=
  { Move.ofBoard sampleBoard with
    src := ⟨6, 1⟩, dst := ⟨7, 0⟩, color := C_WHITE, piece := P_PAWN
    takes := true, taken_piece := P_ROOK, promote := true, promote_piece := P_QUEEN }

/-- The promotion b7-b8=N in the sample position. -/
def promotionMove : Move :=
  { Move.ofBoard sampleBoard with
    src := ⟨6, 1⟩, dst := ⟨7, 1⟩, color := C_WHITE, piece := P_PAWN
    promote := true, promote_piece := P_KNIGHT }

/-- The castling move Ke1-g1 in the sample position. -/
def castlingMove : Move :=
  { Move.ofBoard sampleBoard with
    src := ⟨0, 4⟩, dst := ⟨0, 6⟩, color := C_WHITE, piece := P_KING, castling := true }

/-- The en-passant capture e5xd6 in the sample position. -/
def enPassantMove : Move :=
  { Move.ofBoard sampleBoard with
    src := ⟨4, 4⟩, dst := ⟨5, 3⟩, color := C_WHITE, piece := P_PAWN
    takes := true, taken_piece := P_PAWN, en_passant := true }

/-! ## Castling rights: the bits named by the specification -/

/-- The two castling-right bits of the side of colour `c` (White iff `c = C_WHITE`). -/
def moverBits (c : Color) : Nat :=
  if c = C_WHITE then CR_KING_WHITE ||| CR_QUEEN_WHITE else CR_KING_BLACK ||| CR_QUEEN_BLACK

/-- The bits the specification has a move clear by moving: both of the mover's bits
for a king move, the mover's queenside bit for a rook leaving column 0, the
mover's kingside bit for a rook leaving column 7. -/
def clearedByMoving (m : Move) : Nat :=
  if m.piece = P_KING then moverBits m.color
  else if m.piece = P_ROOK ∧ m.src.column = 0 then
    (if m.color = C_WHITE then CR_QUEEN_WHITE else CR_QUEEN_BLACK)
  else if m.piece = P_ROOK ∧ m.src.column = 7 then
    (if m.color = C_WHITE then CR_KING_WHITE else CR_KING_BLACK)
  else 0

/-- A position with a black rook away from its back rank on column 7: white
Ke1, Be2; black Ke8, Rh8, Rh5. Black still has the kingside castling right
(king and h8 rook have not moved), White is to move. -/
def offRankBoard : Board :=
  { (((((emptyBoard.set_piece_at ⟨0, 4⟩ P_KING C_WHITE).set_piece_at ⟨1, 4⟩ P_BISHOP C_WHITE
      ).set_piece_at ⟨7, 4⟩ P_KING C_BLACK).set_piece_at ⟨7, 7⟩ P_ROOK C_BLACK
      ).set_piece_at ⟨4, 7⟩ P_ROOK C_BLACK) with
    m_flags := ⟨CR_KING_BLACK, 0, C_WHITE, 0⟩
    m_key := 777
    m_half_move_counter := 3
    m_ply_count := 60 }

/-- The capture Be2xh5 in `offRankBoard`: a rook is taken on column 7, row 4. -/
def offRankCapture : Move :=
  { Move.ofBoard offRankBoard with
    src := ⟨1, 4⟩, dst := ⟨4, 7⟩, color := C_WHITE, piece := P_BISHOP
    takes := true, taken_piece := P_ROOK }

/-- The double pawn push b7-b5 by Black on the sample squares. -/
def doublePush : Move :=
  { Move.default with
    src := ⟨6, 1⟩, dst := ⟨4, 1⟩, color := C_BLACK, piece := P_PAWN }

/-! ## Hash keyer (transposition_table.hpp is not among the sources) -/

/-- Modelled from the spec: the Zobrist table of `HashMethods`, "one random key
per (square, color, piece) triple, one per castling-right bit, one per
en-passant file, and one for side-to-move". The seeds are parameters. -/
structure Zobrist where
  piece : Nat → Color → Piece → Nat
  castle : Nat → Nat
  en_passant : Nat → Nat
  side : Nat

/-- Modelled from the spec: the seed that square number `k` (row `k / 8`, column
`k % 8`) contributes to `full_hash`: that of the piece standing there, nothing
for an empty square. -/
def squareKey (Z : Zobrist) (b : Board) (k : Nat) : Nat :=
  match b.get_piece_at ⟨(k / 8 : Nat), (k % 8 : Nat)⟩, b.get_color_at ⟨(k / 8 : Nat), (k % 8 : Nat)⟩ with
  | some p, some c => if p = P_EMPTY then 0 else Z.piece k c p
  | _, _ => 0

/-- The XOR of `g 0, ..., g (n-1)`. -/
def xorRange (g : Nat → Nat) : Nat → Nat
  | 0 => 0
  | n + 1 => xorRange g n ^^^ g n

/-- Modelled from the spec: the seeds of the castling-right bits set in `r`. -/
def castleHash (Z : Zobrist) (r : Nat) : Nat :=
  xorRange (fun i => if r.testBit i then Z.castle i else 0) 4

/-- Modelled from the spec: the seed of the en-passant file, when the state is present. -/
def enPassantHash (Z : Zobrist) (b : Board) : Nat :=
  if b.has_en_passant then Z.en_passant b.en_passant_file else 0

/-- Modelled from the spec: the side-to-move seed, applied when Black is to move. -/
def sideHash (Z : Zobrist) (b : Board) : Nat :=
  if b.get_next_move = C_BLACK then Z.side else 0

/-- Modelled from the spec: `HashMethods::full_hash` of the missing
`transposition_table.hpp`: "XORs all applicable seeds over the current
position" (64 squares, castling rights, en-passant file, side to move). -/
def full_hash (Z : Zobrist) (b : Board) : Nat :=
  xorRange (squareKey Z b) 64 ^^^ castleHash Z b.get_castle_rights ^^^ enPassantHash Z b ^^^
    sideHash Z b

/-- Modelled from the spec: `HashMethods::make_move` of the missing
`transposition_table.hpp`, the incremental update of section 4.1 step 2: the XOR
of the moving piece out of the source, the piece (possibly promoted) into the
destination, the captured piece out of the destination or out of the
en-passant square, the rook's two squares on castling, the side-to-move
toggle, the en-passant file toggles for the cleared and the newly set file, and
each castling-right bit that changed. -/
def hash_make_move (Z : Zobrist) (epPos : Flags → Pos) (b : Board) (key : Nat) (move : Move)
    (castle_mask : Nat) : Nat :=
  key
  ^^^ Z.piece move.src.index move.color move.piece
  ^^^ Z.piece move.dst.index move.color (if move.promote then move.promote_piece else move.piece)
  ^^^ (if move.takes then
        (if move.en_passant then Z.piece (epPos b.m_flags).index (other_color move.color) P_PAWN
         else Z.piece move.dst.index (other_color move.color) move.taken_piece)
       else 0)
  ^^^ (if move.castling then
        Z.piece (rook_src move).index move.color P_ROOK ^^^
          Z.piece (rook_dst move).index move.color P_ROOK
       else 0)
  ^^^ Z.side
  ^^^ (if b.has_en_passant then Z.en_passant b.en_passant_file else 0)
  ^^^ (if move.piece = P_PAWN ∧ (move.src.row - move.dst.row).natAbs = 2 then
        Z.en_passant (u8 move.dst.column) else 0)
  ^^^ castleHash Z castle_mask

/-- Modelled from the spec: `HashMethods::make_null_move`: the side-to-move toggle
and the toggle of a cleared en-passant file. -/
def hash_make_null_move (Z : Zobrist) (b : Board) (key : Nat) (_m : NullMove) : Nat :=
  key ^^^ Z.side ^^^ (if b.has_en_passant then Z.en_passant b.en_passant_file else 0)

/-- The collaborators with the hash keyer modelled from the spec; the move
generator and the en-passant square remain parameters. -/
def zobristEnv (Z : Zobrist) (gen : Board → Pos → Color → Nat) (epPos : Flags → Pos) : Env :=
  { find_move_to_position := gen
    hash_make_move := hash_make_move Z epPos
    hash_make_null_move := hash_make_null_move Z
    get_en_passant_pos := epPos }

/-- The function `Board::load_position`: the FEN reader (a parameter here, `none` when it
throws) fills the board, then the key is recomputed in full. -/
def Board.load_position (reader : Board → String → Option Board) (Z : Zobrist) (b : Board)
    (fen_position : String) : Option Board :=
  match reader b fen_position with
  | none => none
  | some b1 => some { b1 with m_key := full_hash Z b1 }

/-- One step of play on the board: making a move or unmaking the last move made. -/
inductive Op where
  | make (m : Move)
  | unmake

/-- A sequence of `make_move` and `unmake_move` calls, each `unmake_move` given
the move of the matching `make_move` (the moves made and not yet unmade are
kept on a stack); `none` when a move is not a legal record of the position it
is made in, or when there is nothing to unmake. -/
def play (env : Env) : List Op → Board × List Move → Option (Board × List Move)
  | [], s => some s
  | Op.make m :: ops, (b, st) =>
    if LegalRecord env b m then play env ops (b.make_move env m, m :: st) else none
  | Op.unmake :: ops, (b, m :: st) => play env ops (b.unmake_move env m, st)
  | Op.unmake :: _, (_, []) => none

/-- The positions reached by legal moves from a position whose key is the full hash:
`Chain st b` holds when `b` arises from such a position by making the moves of
`st`, last move first. -/
def Chain (env : Env) (Z : Zobrist) : List Move → Board → Prop
  | [], b => b.wf ∧ b.m_key = full_hash Z b
  | m :: rest, b => ∃ P : Board, LegalRecord env P m ∧ b = P.make_move env m ∧ Chain env Z rest P

/-- The seed contributed by a square holding the 4-bit code `v`. -/
def nibbleKey (Z : Zobrist) (k v : Nat) : Nat :=
  if v &&& 7 = P_EMPTY then 0 else Z.piece k (v >>> 3) (v &&& 7)

/-! ## Sample inputs for the hash key -/

/-- A sample Zobrist table (any table will do). -/
def sampleZobrist : Zobrist :=
  { piece := fun k c p => 1 + p + 8 * c + 16 * k
    castle := fun i => 2048 + i
    en_passant := fun f => 4096 + f
    side := 8192 }

/-- The sample collaborators with the modelled hash keyer. -/
def sampleZobristEnv : Env :=
  zobristEnv sampleZobrist sampleEnv.find_move_to_position sampleEnv.get_en_passant_pos

/-- A FEN reader standing for the real one: it leaves the sample position. -/
def sampleReader : Board → String → Option Board := fun _ _ => some sampleBoard

/-- The sample position as `load_position` leaves it: the key is the full hash. -/
def loadedBoard : Board :=
  { sampleBoard with m_key := full_hash sampleZobrist sampleBoard }

/-- The quiet move Ke1-e2 with its record built from `loadedBoard`. -/
def loadedQuiet : Move :=
  { quietMove with m_board_key_before := loadedBoard.get_key }

/-- The capture with promotion b7xa8=Q with its record built from `loadedBoard`. -/
def loadedCapture : Move :=
  { captureMove with m_board_key_before := loadedBoard.get_key }

/-! ## Cached king squares -/

/-- Invariant I2: for each colour the cached king square is a square of the
board, and a square of the board holds the king of that colour exactly when it
is the cached one. -/
def KingsCached (b : Board) : Prop :=
  ∀ c < 2, (b.get_king_pos c).onBoard ∧
    ∀ r < 8, ∀ col < 8,
      ((b.get_piece_at ⟨((r : Nat) : Int), ((col : Nat) : Int)⟩ = some P_KING ∧
        b.get_color_at ⟨((r : Nat) : Int), ((col : Nat) : Int)⟩ = some c) ↔
        (⟨((r : Nat) : Int), ((col : Nat) : Int)⟩ : Pos) = b.get_king_pos c)

instance (b : Board) : Decidable (KingsCached b) := by
  delta KingsCached; exact inferInstance

/-- The invariant I2 read on the packed array and the cache. -/
def KingsN (f : Nat → Nat) (kp : Color → Pos) : Prop :=
  ∀ c, c ≤ 1 → (kp c).onBoard ∧
    ∀ pos : Pos, pos.onBoard → (nibbleAt f pos.index = squareCode P_KING c ↔ pos = kp c)

/-! ## fen_reader.cpp -/

/-- The exception `invalid_fen_string`. -/
inductive FenException where
  | invalid_fen_string
deriving DecidableEq, Repr

/-- A `std::istringstream`: the characters not yet read, and whether the stream
has stopped being good (a read ran into the end, or an extraction failed). -/
structure IStream where
  rest : List Char
  bad : Bool
deriving DecidableEq, Repr

/-- The value of `char c = input.get()` at the end of the stream: `EOF`
narrowed to `char`. -/
def EOF_CHAR : Char := Char.ofNat 255

/-- The function `get_piece_by_char_fen` of `move.hpp`. -/
def get_piece_by_char_fen (c : Char) : Piece :=
  if c = 'p' ∨ c = 'P' then P_PAWN
  else if c = 'r' ∨ c = 'R' then P_ROOK
  else if c = 'b' ∨ c = 'B' then P_BISHOP
  else if c = 'n' ∨ c = 'N' then P_KNIGHT
  else if c = 'q' ∨ c = 'Q' then P_QUEEN
  else if c = 'k' ∨ c = 'K' then P_KING
  else P_INVALID_PIECE

/-- The function `get_fen_char_by_piece` of `move.hpp`. -/
def get_fen_char_by_piece (p : Piece) : Char :=
  if p = P_PAWN then 'p'
  else if p = P_ROOK then 'r'
  else if p = P_BISHOP then 'b'
  else if p = P_KNIGHT then 'n'
  else if p = P_QUEEN then 'q'
  else if p = P_KING then 'k'
  else ' '

/-- The function `get_color_by_char_fen`. -/
def get_color_by_char_fen (c : Char) : Color :=
  if 'a' ≤ c ∧ c ≤ 'z' then C_BLACK
  else if 'A' ≤ c ∧ c ≤ 'Z' then C_WHITE
  else C_EMPTY

/-- The loop of `remove_whitespace` on a good stream: `get` while the character
is a space, then `putback` of the last one; at the end of the stream `get`
returns `EOF` and the stream is no longer good, so `putback` does nothing. -/
def skip_spaces : List Char → IStream
  | [] => ⟨[], true⟩
  | c :: cs => if c = ' ' then skip_spaces cs else ⟨c :: cs, false⟩

/-- The function `remove_whitespace`. On a stream that is not good `get`
returns `EOF` at once and `putback` fails. -/
def remove_whitespace (input : IStream) : IStream :=
  if input.bad then input else skip_spaces input.rest

/-- The characters a `get` loop will see: none when the stream is not good. -/
def IStream.pending (input : IStream) : List Char :=
  if input.bad then [] else input.rest

/-- The advance of `cur_pos` after a square is written: `++cur_pos.column`, and
at column 8 back to column 0 with `--cur_pos.row` (both `int8_t`). -/
def next_square (cur_pos : Pos) : Pos :=
  let column := i8 (u8 (cur_pos.column + 1))
  if column = 8 then ⟨i8 (u8 (cur_pos.row - 1)), 0⟩ else ⟨cur_pos.row, column⟩

/-- The inner loop of `fen_read_position` for a digit: `length` empty squares. -/
def fill_empty : Nat → Board → Pos → Board × Pos
  | 0, b, cur_pos => (b, cur_pos)
  | n + 1, b, cur_pos =>
    fill_empty n (b.set_piece_at cur_pos P_EMPTY C_BLACK) (next_square cur_pos)

/-- The loop `for (;;)` of `fen_read_position` over the characters that `get`
will return; at the end of the stream `get` returns `EOF`, which is neither a
piece letter nor a digit. -/
def fen_read_position_loop : List Char → Board → Pos → Except FenException (Board × IStream)
  | [], b, cur_pos =>
    if cur_pos.row > 7 then .ok (b, ⟨[], true⟩) else .error .invalid_fen_string
  | c :: cs, b, cur_pos =>
    if c = ' ' then .ok (b, ⟨cs, false⟩)
    else if c = '/' then
      if cur_pos.column ≠ 0 ∨ cur_pos.row ≥ 8 then .error .invalid_fen_string
      else fen_read_position_loop cs b cur_pos
    else if cur_pos.row > 7 then .ok (b, ⟨cs, false⟩)
    else
      let p := get_piece_by_char_fen c
      let clr := get_color_by_char_fen c
      if p ≠ P_INVALID_PIECE then
        fen_read_position_loop cs (b.set_piece_at cur_pos p clr) (next_square cur_pos)
      else if '1' ≤ c ∧ c ≤ '8' then
        let r := fill_empty (c.toNat - '0'.toNat) b cur_pos
        fen_read_position_loop cs r.1 r.2
      else .error .invalid_fen_string

/-- The function `fen_read_position`. -/
def fen_read_position (b : Board) (input : IStream) : Except FenException (Board × IStream) :=
  match fen_read_position_loop input.pending b ⟨7, 0⟩ with
  | .error e => .error e
  | .ok (b, input) => .ok (b, remove_whitespace input)

/-- The function `fen_read_next_to_move`: its loop runs at most once. -/
def fen_read_next_to_move (b : Board) (input : IStream) :
    Except FenException (Board × IStream) :=
  match input.pending with
  | [] => .error .invalid_fen_string
  | c :: cs =>
    if c = ' ' then .ok (b, remove_whitespace ⟨cs, false⟩)
    else if c = 'w' then .ok (b.set_next_move C_WHITE, remove_whitespace ⟨cs, false⟩)
    else if c = 'b' then .ok (b.set_next_move C_BLACK, remove_whitespace ⟨cs, false⟩)
    else .error .invalid_fen_string

/-- The loop of `fen_read_castle_rights`, with the local `castle_rights`. -/
def fen_read_castle_rights_loop : List Char → Nat → Except FenException (Nat × IStream)
  | [], _ => .error .invalid_fen_string
  | c :: cs, castle_rights =>
    if c = ' ' ∨ c = '-' then .ok (castle_rights, ⟨cs, false⟩)
    else if c = 'k' then fen_read_castle_rights_loop cs (castle_rights ||| CR_KING_BLACK)
    else if c = 'q' then fen_read_castle_rights_loop cs (castle_rights ||| CR_QUEEN_BLACK)
    else if c = 'K' then fen_read_castle_rights_loop cs (castle_rights ||| CR_KING_WHITE)
    else if c = 'Q' then fen_read_castle_rights_loop cs (castle_rights ||| CR_QUEEN_WHITE)
    else .error .invalid_fen_string

/-- The function `fen_read_castle_rights`. -/
def fen_read_castle_rights (b : Board) (input : IStream) :
    Except FenException (Board × IStream) :=
  match fen_read_castle_rights_loop input.pending 0x00 with
  | .error e => .error e
  | .ok (castle_rights, input) => .ok (b.set_castle_rights castle_rights, remove_whitespace input)

/-- The loop of `fen_read_en_passant_position`, with the local `en_passant_pos`. -/
def fen_read_en_passant_loop : List Char → Pos → Except FenException (Pos × IStream)
  | [], _ => .error .invalid_fen_string
  | c :: cs, en_passant_pos =>
    if c = '-' then .ok (⟨0, 0⟩, ⟨cs, false⟩)
    else if c = ' ' then .ok (en_passant_pos, ⟨cs, false⟩)
    else if 'a' ≤ c ∧ c ≤ 'h' then
      fen_read_en_passant_loop cs { en_passant_pos with column := (c.toNat : Int) - 'a'.toNat }
    else if '1' ≤ c ∧ c ≤ '8' then
      fen_read_en_passant_loop cs { en_passant_pos with row := (c.toNat : Int) - '1'.toNat }
    else .error .invalid_fen_string

/-- The function `fen_read_en_passant_position`: only the column is kept. -/
def fen_read_en_passant_position (b : Board) (input : IStream) :
    Except FenException (Board × IStream) :=
  match fen_read_en_passant_loop input.pending ⟨0, 0⟩ with
  | .error e => .error e
  | .ok (en_passant_pos, input) =>
    let b := if en_passant_pos.row = 0 then b.set_en_passant_pos 0
      else b.set_en_passant_pos (CAN_EN_PASSANT ||| u8 en_passant_pos.column)
    .ok (b, remove_whitespace input)

/-- The test `std::isspace` of the classic locale. -/
def isspace (c : Char) : Bool :=
  c = ' ' || c = '\t' || c = '\n' || c = Char.ofNat 11 || c = Char.ofNat 12 || c = '\r'

/-- The value of a run of decimal digits. -/
def digits_value (ds : List Char) : Nat :=
  ds.foldl (fun a d => 10 * a + (d.toNat - '0'.toNat)) 0

/-- The extraction `reader >> value` into an `int`. A stream that is not good
leaves the variable alone; so does one that ends during the leading white
space. With no digit the variable becomes 0 and the extraction fails; out of
the range of `int` it is clamped and the extraction fails; digits that run to
the end of the stream leave it not good. -/
def read_int (reader : IStream) (value : Int) : Int × IStream :=
  if reader.bad then (value, reader)
  else
    match reader.rest.dropWhile isspace with
    | [] => (value, ⟨[], true⟩)
    | c :: cs =>
      let negative := c = '-'
      let r := if c = '-' ∨ c = '+' then cs else c :: cs
      let ds := r.takeWhile Char.isDigit
      let r1 := r.dropWhile Char.isDigit
      if ds = [] then (0, ⟨r1, true⟩)
      else
        let v : Int := if negative then -(digits_value ds : Int) else (digits_value ds : Int)
        if v > 2147483647 then (2147483647, ⟨r1, true⟩)
        else if v < -2147483648 then (-2147483648, ⟨r1, true⟩)
        else (v, ⟨r1, r1.isEmpty⟩)

/-- The value of an `int` expression computed in 32 bits, two's complement. -/
def wrap32 (x : Int) : Int := (x + 2147483648) % 4294967296 - 2147483648

/-- Modelled from the spec: `Board::set_half_move` of the missing `board.hpp`;
the halfmove counter is a non-negative integer. -/
def Board.set_half_move (b : Board) (v : Int) : Board :=
  { b with m_half_move_counter := v.toNat }

/-- Modelled from the spec: `Board::set_ply_count` of the missing `board.hpp`;
the ply count is a non-negative integer. -/
def Board.set_ply_count (b : Board) (v : Int) : Board :=
  { b with m_ply_count := v.toNat }

/-- Modelled from the spec: `Board::get_full_move` of the missing `board.hpp`,
the full-move number `ply/2 + 1`. -/
def Board.get_full_move (b : Board) : Nat := b.m_ply_count / 2 + 1

/-- The first part of `FenReader::load_position`: the four field readers. -/
def fen_read_fields (b : Board) (fen_position : String) :
    Except FenException (Board × IStream) :=
  let reader : IStream := ⟨fen_position.toList, false⟩
  let reader := remove_whitespace reader
  match fen_read_position b reader with
  | .error e => .error e
  | .ok (b, reader) =>
    match fen_read_next_to_move b reader with
    | .error e => .error e
    | .ok (b, reader) =>
      match fen_read_castle_rights b reader with
      | .error e => .error e
      | .ok (b, reader) => fen_read_en_passant_position b reader

/-- The second part of `FenReader::load_position`: the two counters. -/
def fen_read_counters (b : Board) (reader : IStream) : Board :=
  let half_move : Int := 0
  let r := read_int reader half_move
  let b := b.set_half_move r.1
  let full_move : Int := 1
  let r := read_int r.2 full_move
  let full_move := r.1
  let clr := b.get_next_move
  if clr = C_WHITE then b.set_ply_count (wrap32 (wrap32 (2 * full_move) - 2))
  else b.set_ply_count (wrap32 (wrap32 (2 * full_move) - 1))

/-- The function `FenReader::load_position`. -/
def FenReader.load_position (b : Board) (fen_position : String) : Except FenException Board :=
  match fen_read_fields b fen_position with
  | .error e => .error e
  | .ok (b, reader) => .ok (fen_read_counters b reader)

/-- Modelled from the spec: `pos_to_square_name`, declared in the missing
`move_generation.hpp`: the file letter `a..h` followed by the rank digit `1..8`. -/
def pos_to_square_name (pos : Pos) : List Char :=
  [Char.ofNat ('a'.toNat + u8 pos.column), Char.ofNat ('1'.toNat + u8 pos.row)]

/-- The function `std::to_string` on a non-negative number. -/
def to_string (n : Nat) : List Char := Nat.toDigits 10 n

/-- One turn of the inner loop of `write_fen_position`: the square at `row`,
`col`, with the buffer written so far and `num_empty`. -/
def write_fen_square (b : Board) (row : Nat) (st : Option (List Char × Nat)) (col : Nat) :
    Option (List Char × Nat) :=
  match st with
  | none => none
  | some (buf, num_empty) =>
    let pos : Pos := ⟨(row : Int), (col : Int)⟩
    match b.get_piece_at pos with
    | none => none
    | some p =>
      if p ≠ P_EMPTY then
        let buf := if num_empty > 0 then buf ++ [Char.ofNat ('0'.toNat + num_empty)] else buf
        let c := get_fen_char_by_piece p
        match b.get_color_at pos with
        | none => none
        | some clr =>
          let c := if clr = C_WHITE then Char.ofNat (c.toNat + 'A'.toNat - 'a'.toNat) else c
          some (buf ++ [c], 0)
      else some (buf, num_empty + 1)

/-- One turn of the outer loop of `write_fen_position`: the row `7 - irow`. -/
def write_fen_row (b : Board) (buf : Option (List Char)) (irow : Nat) : Option (List Char) :=
  match buf with
  | none => none
  | some buf =>
    let row := 7 - irow
    match (List.range 8).foldl (write_fen_square b row) (some (buf, 0)) with
    | none => none
    | some (buf, num_empty) =>
      let buf := if num_empty > 0 then buf ++ [Char.ofNat ('0'.toNat + num_empty)] else buf
      some (if row > 0 then buf ++ ['/'] else buf)

/-- The castling letters of `write_fen_position`: `castlingChars[i]` for each
set bit `i` of the rights, or `-` when none is set. -/
def write_castling (rights : Nat) : List Char :=
  let cs := (List.range 4).foldl
    (fun acc i => if rights &&& (1 <<< i) ≠ 0 then acc ++ [['K', 'Q', 'k', 'q'].getD i ' ']
      else acc) []
  if cs = [] then ['-'] else cs

/-- The function `write_fen_position`; `none` stands for the `std::abort` of
the square getters. The en-passant square is the one the accessor
`get_en_passant_pos` gives. -/
def write_fen_position (env : Env) (b : Board) : Option (List Char) :=
  match (List.range 8).foldl (write_fen_row b) (some []) with
  | none => none
  | some buf =>
    let buf := buf ++ [' ', if b.get_next_move = C_WHITE then 'w' else 'b', ' ']
    let buf := buf ++ write_castling b.get_castle_rights ++ [' ']
    let eppos := env.get_en_passant_pos b.get_flags
    let buf := if eppos.row > 0 then buf ++ pos_to_square_name eppos else buf ++ ['-']
    some (buf ++ [' '] ++ to_string b.get_half_move ++ [' '] ++ to_string b.get_full_move)

/-- Modelled from the spec: `Board::get_en_passant_pos` of the missing
`board.hpp`. The en-passant state is a file with a rank implied by the side to
move, and `make_move` clears the captured pawn on the square this accessor
gives, after it has put the capturing pawn on its destination: the square is
the one of the pawn that made the double push, on row 4 when White is to move
and on row 3 when Black is. Without an en-passant file the row is 0. -/
def en_passant_square (fl : Flags) : Pos :=
  if fl.en_passant &&& CAN_EN_PASSANT != 0 then
    ⟨if fl.next_move = C_WHITE then 4 else 3, ((fl.en_passant &&& 7 : Nat) : Int)⟩
  else ⟨0, 0⟩

/-- The collaborators of the sample positions, with the en-passant accessor
`en_passant_square`. -/
def fenEnv : Env := { sampleEnv with get_en_passant_pos := en_passant_square }

/-- The starting position. -/
def startFen : String := "rnbqkbnr/pppppppp/8/8/8/8/PPPPPPPP/RNBQKBNR w KQkq - 0 1"

/-- The position after 1. e4, with its en-passant target square e3. -/
def e4Fen : String := "rnbqkbnr/pppppppp/8/8/4P3/8/PPPP1PPP/RNBQKBNR b KQkq e3 0 1"

/-- What `write_fen_position` gives for a loaded FEN text. -/
def reload (env : Env) (fen_position : String) : Option (List Char) :=
  match FenReader.load_position emptyBoard fen_position with
  | .error _ => none
  | .ok b => write_fen_position env b

/-- A position text with a ninth piece on the first rank: 65 squares. -/
def overFen : String := "rnbqkbnr/pppppppp/8/8/8/8/PPPPPPPP/RNBQKBNRQ w KQkq - 0 1"

/-- A position text with a castling right and the full-move number 31. -/
def move31Fen : String := "4k2r/8/8/7r/8/8/4B3/4K3 w k - 3 31"

/-- The byte `i` of the packed array after loading a FEN text into the empty
board; `none` when the reader throws. -/
def loaded_byte (fen_position : String) (i : Nat) : Option Nat :=
  match FenReader.load_position emptyBoard fen_position with
  | .error _ => none
  | .ok b => some (b.m_board i)

/-- The board and the stream that the four field readers leave for a FEN text
loaded into the empty board. -/
def fields_of (fen_position : String) : Board × IStream :=
  match fen_read_fields emptyBoard fen_position with
  | .ok r => r
  | .error _ => (emptyBoard, ⟨[], true⟩)

/-! ## Rejected FEN texts -/

/-- The piece letters of the piece-placement field. -/
def piece_letters : List Char := ['p', 'P', 'r', 'R', 'b', 'B', 'n', 'N', 'q', 'Q', 'k', 'K']

/-- A character the piece-placement field may hold: a piece letter, a digit
`1..8` or the rank separator. -/
def placement_char (c : Char) : Prop :=
  c ∈ piece_letters ∨ ('1' ≤ c ∧ c ≤ '8') ∨ c = '/'

instance (c : Char) : Decidable (placement_char c) := by
  delta placement_char; exact inferInstance

/-- The number of squares a character of the piece-placement field describes:
one for a piece letter, `d` for the digit `d`. -/
def squares_of_char (c : Char) : Nat :=
  if c ∈ piece_letters then 1 else if '1' ≤ c ∧ c ≤ '8' then c.toNat - '0'.toNat else 0

/-- The number of squares a run of characters describes. -/
def squares_described : List Char → Nat
  | [] => 0
  | c :: cs => squares_of_char c + squares_described cs

/-- The square `cur_pos` of `fen_read_position` once `n` squares are written. -/
def square_after (n : Nat) : Pos := ⟨7 - ((n / 8 : Nat) : Int), ((n % 8 : Nat) : Int)⟩

/-- The stream that `fen_read_position` leaves, `none` when it throws. -/
def after_position (b : Board) (fen_position : String) : Option IStream :=
  match fen_read_position b (remove_whitespace ⟨fen_position.toList, false⟩) with
  | .error _ => none
  | .ok (_, r) => some r

/-- The stream that `fen_read_next_to_move` leaves, `none` when it or
`fen_read_position` throws. -/
def after_side (b : Board) (fen_position : String) : Option IStream :=
  match fen_read_position b (remove_whitespace ⟨fen_position.toList, false⟩) with
  | .error _ => none
  | .ok (b1, r1) =>
    match fen_read_next_to_move b1 r1 with
    | .error _ => none
    | .ok (_, r2) => some r2

/-- A position text whose castling field `-a` holds the letter `a`. -/
def dashFen : String := "8/8/8/8/8/8/8/8 w -a - 0 1"

/-! ## engine.hpp and engine.cpp: the search -/

/-- The `struct Stats` of `engine.hpp`; the counters are `uint32_t` and are
taken not to wrap. -/
structure Stats where
  num_cutoffs : Nat
  num_cut_by_killer : Nat
  num_cut_by_best_pv : Nat
  num_leaf_nodes : Nat
  num_faillow_node : Nat
  num_pvnode : Nat
  num_nodes : Nat
  num_move_visited : Nat
  num_move_skipped : Nat
  num_move_generated : Nat
  num_hash_hits : Nat
  num_hash_conflicts : Nat
deriving DecidableEq, Repr

/-- The constructor `Stats::Stats()`. -/
def Stats.zero : Stats := ⟨0, 0, 0, 0, 0, 0, 0, 0, 0, 0, 0, 0⟩

/-- Modelled from the spec: a bucket of the transposition table
(`transposition_table.hpp` is not among the sources); the fields are the ones
`negamax` reads and writes. The best move is held as the two `to_val()` square
numbers and the promotion piece; scores are `int32_t`, taken as integers. -/
structure HashEntry where
  key : Nat
  depth : Int
  score : Int
  exact_score : Bool
  lower_bound : Bool
  upper_bound : Bool
  hashmove_src : Int
  hashmove_dst : Int
  promote_piece : Piece
deriving DecidableEq, Repr

/-- The data members of `struct NegamaxEngine` that the search reads and
writes (the timers are left out). `m_hash` is the bucket array of the missing
`Hash` class and `m_stats` the two-level map, an absent entry being the zero
`Stats` that `operator[]` would create. The last two fields stand for the other
thread that raises `m_stop_required`: the number of further polls of the flag
that still find it unset, `none` when nobody raises it, and whether that thread
is the timer of `_start_uci_background`, which raises
`m_stop_required_by_timeout` as well. -/
structure NegamaxEngine where
  m_killers : List (List Move)
  m_max_depth : Nat
  m_current_max_depth : Nat
  m_hash : Nat → HashEntry
  m_stats : Int → Int → Stats
  m_total_nodes : Nat
  m_total_quiescence_nodes : Nat
  m_run_id : Nat
  m_stop_required : Bool
  m_stop_required_by_timeout : Bool
  m_running : Bool
  stop_clock : Option Nat
  stop_by_timer : Bool

/-- One read of `m_stop_required`: the value found and the engine after it. -/
def NegamaxEngine.poll (e : NegamaxEngine) : Bool × NegamaxEngine :=
  if e.m_stop_required then (true, e)
  else
    match e.stop_clock with
    | none => (false, e)
    | some 0 =>
      (true, { e with
        m_stop_required := true
        m_stop_required_by_timeout := e.m_stop_required_by_timeout || e.stop_by_timer
        stop_clock := none })
    | some (n + 1) => (false, { e with stop_clock := some n })

/-- An update of `m_stats[max_depth][current_depth]`. -/
def NegamaxEngine.update_stats (e : NegamaxEngine) (max_depth current_depth : Int)
    (f : Stats → Stats) : NegamaxEngine :=
  { e with m_stats := fun d c =>
      if d = max_depth ∧ c = current_depth then f (e.m_stats d c) else e.m_stats d c }

/-- The collaborators of the search whose code is not among the sources
(`move_generation.hpp`, `move_ordering.hpp`, `evaluation.hpp`,
`transposition_table.hpp`), taken as parameters: the collaborators of the
board, the evaluator, the move generator with its captures-only switch, the two
orderings, the rebuilding of the hash move from its squares, the piece values
and the bucket number that `Hash::get` gives to a key. -/
structure SearchEnv where
  env : Env
  evaluate_board : Board → Int
  enumerate_moves : Board → Bool → List Move
  reorder_mvv_lva : Board → List Move → List Move
  reorder_moves : Board → List Move → Int → Int → List Move → List (List Move) → Move → Bool →
    List Move
  generate_move_for_squares : Board → Int → Int → Piece → Move
  piece_value : Piece → Int
  bucket : Nat → Nat

/-- What `quiesce` leaves: the value returned, the engine and the board. -/
structure SearchResult where
  val : Int
  e : NegamaxEngine
  b : Board

/-- The move loop of `quiesce` and what follows it. The recursive call is the
parameter `rec`; `n` is `num_legal_move`. -/
def quiesce_loop (S : SearchEnv)
    (rec : NegamaxEngine → Board → Int → Int → Int → Int → Option SearchResult)
    (color beta current_depth : Int) :
    List Move → NegamaxEngine → Board → Int → Nat → Option SearchResult
  | [], e, b, alpha, n =>
    if n = 0 then
      let clr := b.get_next_move
      if b.is_king_checked clr then some ⟨-20000 + 5 * current_depth, e, b⟩
      else some ⟨0, e, b⟩
    else some ⟨alpha, e, b⟩
  | move :: rest, e, b, alpha, n =>
    let b := b.make_move S.env move
    if b.is_king_checked move.color then
      let b := b.unmake_move S.env move
      quiesce_loop S rec color beta current_depth rest e b alpha n
    else
      let n := n + 1
      let move := { move with legal_checked := true, legal := true }
      let BIG_DELTA : Int := if move.promote then 975 + 775 else 975
      let pval := S.piece_value move.taken_piece
      if pval + BIG_DELTA < alpha then some ⟨alpha, e, b.unmake_move S.env move⟩
      else
        match rec e b (-color) (-beta) (-alpha) (current_depth + 1) with
        | none => none
        | some r =>
          let val := -r.val
          let b := r.b.unmake_move S.env move
          if val ≥ beta then some ⟨beta, r.e, b⟩
          else
            quiesce_loop S rec color beta current_depth rest r.e b
              (if val > alpha then val else alpha) n

/-- The function `NegamaxEngine::quiesce`, with fuel for the recursion depth:
`none` when the fuel runs out. The arguments are the engine, the board, `color`,
`alpha`, `beta` and `current_depth`. -/
def quiesce (S : SearchEnv) :
    Nat → NegamaxEngine → Board → Int → Int → Int → Int → Option SearchResult
  | 0, _, _, _, _, _, _ => none
  | fuel + 1, e, b, color, alpha, beta, current_depth =>
    let p := e.poll
    if p.1 then some ⟨beta, p.2, b⟩
    else
      let e := p.2
      let standing_pat := color * S.evaluate_board b
      if standing_pat + 4000 < alpha then some ⟨alpha, e, b⟩
      else
        let e := { e with m_total_quiescence_nodes := e.m_total_quiescence_nodes + 1 }
        if standing_pat ≥ beta then some ⟨beta, e, b⟩
        else
          let alpha := if alpha < standing_pat then standing_pat else alpha
          let moveList := S.reorder_mvv_lva b (S.enumerate_moves b true)
          quiesce_loop S (quiesce S fuel) color beta current_depth moveList e b alpha 0

/-- What `negamax` leaves: the value returned, the engine, the board, the
parent PV and the list behind `topLevelOrdering` (`none` for `nullptr`). -/
structure NegamaxResult where
  val : Int
  e : NegamaxEngine
  b : Board
  parentPv : List Move
  topLevelOrdering : Option (List Move)

/-- The function `Pos::to_val`, an `int8_t`. -/
def Pos.to_val (p : Pos) : Int := i8 (u8 (p.row * 8 + p.column))

/-- The comparison `Move::operator==` of `move.hpp`. -/
def Move.same (m o : Move) : Bool :=
  m.dst == o.dst && m.src == o.src && m.piece == o.piece && m.promote == o.promote &&
    m.promote_piece == o.promote_piece

/-- The PV collection of `negamax`: the first entry of the parent PV becomes
`move`, the PV is cut to that entry and `currentPv` is put after it. -/
def collect_pv (move : Move) (currentPv : List Move) : List Move := move :: currentPv

/-- What the transposition probe of `negamax` decides: a `return`, or going on
with a value of `alpha` and the hash move. -/
inductive Probe where
  | ret (val : Int) (e : NegamaxEngine) (parentPv : List Move)
  | go (alpha : Int) (e : NegamaxEngine) (hash_move : Move) (has_hash_move : Bool)

/-- The transposition probe of `negamax`: from `auto &hashentry = m_hash.get(bkey)`
to the end of the `if (hashentry.key == bkey) ... else if ...` statement. The
local `currentPv` is still empty there. -/
def tt_probe (S : SearchEnv) (e : NegamaxEngine) (b : Board)
    (max_depth remaining_depth current_depth alpha beta : Int) (parentPv : List Move) :
    Probe :=
  let bkey := b.get_key
  let hashentry := e.m_hash (S.bucket bkey)
  if hashentry.key = bkey then
    let hash_move := S.generate_move_for_squares b hashentry.hashmove_src
      hashentry.hashmove_dst hashentry.promote_piece
    let has_hash_move : Bool := hash_move.src.row != -1
    if hashentry.depth ≥ remaining_depth then
      if hashentry.exact_score then
        let e := e.update_stats max_depth current_depth
          (fun st => { st with num_hash_hits := st.num_hash_hits + 1 })
        let parentPv := collect_pv hash_move []
        if hashentry.score ≥ beta then .ret beta e parentPv
        else if hashentry.score ≤ alpha then .ret alpha e parentPv
        else .ret hashentry.score e parentPv
      else if hashentry.lower_bound then
        if hashentry.score ≥ beta then
          .ret beta (e.update_stats max_depth current_depth
            (fun st => { st with num_hash_hits := st.num_hash_hits + 1 })) parentPv
        else if hashentry.score ≥ alpha then .go hashentry.score e hash_move has_hash_move
        else .go alpha e hash_move has_hash_move
      else if hashentry.upper_bound then
        if hashentry.score ≤ alpha then
          .ret alpha (e.update_stats max_depth current_depth
            (fun st => { st with num_hash_hits := st.num_hash_hits + 1 })) parentPv
        else .go alpha e hash_move has_hash_move
      else .go alpha e hash_move has_hash_move
    else .go alpha e hash_move has_hash_move
  else if hashentry.key ≠ 0 ∧ hashentry.key ≠ bkey then
    .go alpha (e.update_stats max_depth current_depth
      (fun st => { st with num_hash_conflicts := st.num_hash_conflicts + 1 })) Move.default false
  else .go alpha e Move.default false

/-- The locals of the move loop of `negamax` that the loop changes, with the
engine, the board and the parent PV; `moveList` holds the moves already passed,
as the loop leaves them. -/
structure LoopState where
  e : NegamaxEngine
  b : Board
  alpha : Int
  parentPv : List Move
  currentPv : List Move
  bestMove : Move
  oldval : Int
  cutoff : Bool
  raise_alpha : Bool
  use_aspiration : Bool
  num_move_visited : Nat
  num_legal_move : Nat
  moveList : List Move

/-- How the move loop of `negamax` is left: by the `return beta` under a stop
request, or at its end or by `break`. -/
inductive LoopExit where
  | returned (val : Int) (s : LoopState)
  | finished (s : LoopState)

/-- The type of `negamax` once the fuel is given: engine, board, `max_depth`,
`remaining_depth`, `current_depth`, `color`, `alpha`, `beta`, parent PV,
previous PV, `topLevelOrdering`. -/
abbrev NegamaxCall : Type :=
  NegamaxEngine → Board → Int → Int → Int → Int → Int → Int → List Move → List Move →
    Option (List Move) → Option NegamaxResult

/-- The widening re-searches of `negamax`: the `while` loop on `k`, which makes
at most four turns (`n` counts the turns left). `(int32_t)(coeff *
initial_window_size)` with `coeff = 1.0 / (8 >> k)` is the quotient rounded
towards zero. -/
def widen_loop (rec : NegamaxCall)
    (max_depth remaining_depth current_depth color alpha beta initial_window_size : Int)
    (previousPv : List Move) :
    Nat → Nat → Int → Int → NegamaxEngine → Board → List Move →
      Option (Int × NegamaxEngine × Board × List Move)
  | 0, _, val, _, e, b, currentPv => some (val, e, b, currentPv)
  | n + 1, k, val, lower, e, b, currentPv =>
    if val > alpha ∧ val < beta ∧ lower > -beta ∧ k ≤ 3 then
      let lower : Int :=
        if k < 3 then min (-alpha - Int.tdiv initial_window_size (8 >>> k : Nat)) (lower - 1)
        else -beta
      match rec e b max_depth (remaining_depth - 1) (current_depth + 1) (-color) lower (-alpha)
          currentPv previousPv none with
      | none => none
      | some r =>
        widen_loop rec max_depth remaining_depth current_depth color alpha beta
          initial_window_size previousPv n (k + 1) (-r.val) lower r.e r.b r.parentPv
    else some (val, e, b, currentPv)

/-- The search of one legal move in the loop of `negamax`: null window and
widening when `use_aspiration && remaining_depth >= 2`, full window otherwise.
It gives `val`, the engine, the board and `currentPv`. -/
def search_move (rec : NegamaxCall)
    (max_depth remaining_depth current_depth color alpha beta : Int) (previousPv : List Move)
    (use_aspiration : Bool) (e : NegamaxEngine) (b : Board) (currentPv : List Move) :
    Option (Int × NegamaxEngine × Board × List Move) :=
  if use_aspiration ∧ remaining_depth ≥ 2 then
    match rec e b max_depth (remaining_depth - 1) (current_depth + 1) (-color) (-alpha - 1)
        (-alpha) currentPv previousPv none with
    | none => none
    | some r =>
      let val := -r.val
      if val > alpha ∧ val < beta then
        widen_loop rec max_depth remaining_depth current_depth color alpha beta
          (beta - alpha) previousPv 4 0 val (-alpha - 1) r.e r.b r.parentPv
      else some (val, r.e, r.b, r.parentPv)
  else
    match rec e b max_depth (remaining_depth - 1) (current_depth + 1) (-color) (-beta)
        (-alpha) currentPv previousPv none with
    | none => none
    | some r => some (-r.val, r.e, r.b, r.parentPv)

/-- The killer update of `negamax` on a cutoff by a move that is neither a
capture nor flagged killer: the move is pushed on `m_killers[current_depth]`
unless an equal move is there, and the front is erased beyond 10 entries. -/
def push_killer (m_killers : List (List Move)) (current_depth : Int) (move : Move) :
    List (List Move) :=
  let killers := m_killers.getD current_depth.toNat []
  let already_in := killers.any (fun m => m.same move)
  if ¬ already_in then
    let killers := killers ++ [move]
    let killers := if killers.length > 10 then killers.drop 1 else killers
    m_killers.set current_depth.toNat killers
  else m_killers

/-- The value `std::numeric_limits<int32_t>::min()`. -/
def INT32_MIN : Int := -2147483648

/-- The move loop of `negamax` over the moves still to come. `clr` is the side
to move at entry; the other parameters are those of `negamax`. -/
def negamax_loop (S : SearchEnv) (rec : NegamaxCall) (clr : Color)
    (max_depth remaining_depth current_depth color beta : Int) (previousPv : List Move) :
    List Move → LoopState → Option LoopExit
  | [], s => some (.finished s)
  | move :: rest, s =>
    if move.legal_checked ∧ ¬ move.legal then
      negamax_loop S rec clr max_depth remaining_depth current_depth color beta previousPv rest
        { s with moveList := s.moveList ++ [move] }
    else
      let s := { s with num_move_visited := s.num_move_visited + 1 }
      let b := s.b.make_move S.env move
      if b.is_king_checked clr then
        let move := { move with legal_checked := true, legal := false, evaluation := INT32_MIN }
        let b := b.unmake_move S.env move
        negamax_loop S rec clr max_depth remaining_depth current_depth color beta previousPv rest
          { s with b := b, moveList := s.moveList ++ [move] }
      else
        let move := { move with legal_checked := true, legal := true }
        let s := { s with num_legal_move := s.num_legal_move + 1 }
        match search_move rec max_depth remaining_depth current_depth color s.alpha beta
            previousPv s.use_aspiration s.e b s.currentPv with
        | none => none
        | some (val, e, b, currentPv) =>
          let b := b.unmake_move S.env move
          let s := { s with e := e, b := b, currentPv := currentPv }
          let s := if val > s.oldval then { s with oldval := val, bestMove := move } else s
          if val ≥ beta then
            let s := { s with alpha := beta }
            let p := s.e.poll
            let s := { s with e := p.2 }
            if p.1 then some (.returned beta { s with moveList := s.moveList ++ move :: rest })
            else
              let s := { s with bestMove := move, cutoff := true }
              let s := { s with e := s.e.update_stats max_depth current_depth (fun st =>
                if move.best_from_pv then
                  { st with num_cut_by_best_pv := st.num_cut_by_best_pv + 1 }
                else if move.killer then
                  { st with num_cut_by_killer := st.num_cut_by_killer + 1 }
                else st) }
              if ¬ move.takes ∧ ¬ move.killer then
                let mk : Bool := decide (val ≥ 20000 - (max_depth + 1) * 5)
                let move := { move with killer := true, mate_killer := mk }
                some (.finished { s with
                  e := { s.e with m_killers := push_killer s.e.m_killers current_depth move }
                  moveList := s.moveList ++ move :: rest })
              else some (.finished { s with moveList := s.moveList ++ move :: rest })
          else if val > s.alpha then
            negamax_loop S rec clr max_depth remaining_depth current_depth color beta previousPv
              rest
              { s with
                alpha := val, bestMove := move, parentPv := collect_pv move currentPv
                raise_alpha := true, use_aspiration := true
                moveList := s.moveList ++ [move] }
          else
            negamax_loop S rec clr max_depth remaining_depth current_depth color beta previousPv
              rest { s with moveList := s.moveList ++ [move] }

/-- The write of the transposition table at the end of `negamax`: from `bool
replace = ...` to the end of the `if (cutoff) ... else if (raise_alpha) ... else
...` statement, with the counter that each branch bumps. -/
def tt_store (S : SearchEnv) (e : NegamaxEngine) (bkey : Nat)
    (max_depth remaining_depth current_depth alpha : Int) (bestMove : Move)
    (cutoff raise_alpha : Bool) : NegamaxEngine :=
  let hashentry := e.m_hash (S.bucket bkey)
  let replace : Bool := hashentry.key = 0 ∨ remaining_depth > hashentry.depth
  let hashentry :=
    if replace then
      { hashentry with
        score := alpha, depth := remaining_depth, key := bkey
        hashmove_src := bestMove.src.to_val, hashmove_dst := bestMove.dst.to_val
        promote_piece := bestMove.promote_piece }
    else hashentry
  let hashentry :=
    if cutoff then
      if replace then
        { hashentry with exact_score := false, lower_bound := true, upper_bound := false }
      else hashentry
    else if raise_alpha then
      if replace then
        { hashentry with exact_score := true, lower_bound := false, upper_bound := false }
      else hashentry
    else
      if replace then
        { hashentry with exact_score := false, lower_bound := false, upper_bound := true }
      else hashentry
  let e := e.update_stats max_depth current_depth (fun st =>
    if cutoff then { st with num_cutoffs := st.num_cutoffs + 1 }
    else if raise_alpha then { st with num_pvnode := st.num_pvnode + 1 }
    else { st with num_faillow_node := st.num_faillow_node + 1 })
  { e with m_hash := fun i => if i = S.bucket bkey then hashentry else e.m_hash i }

/-- The type of `quiesce` once the fuel is given. -/
abbrev QuiesceCall : Type :=
  NegamaxEngine → Board → Int → Int → Int → Int → Option SearchResult

/-- The move list of a `negamax` frame: the list behind `topLevelOrdering` when
there is one and it is not empty, else the generated moves, reordered. -/
def negamax_move_list (S : SearchEnv) (e : NegamaxEngine) (b : Board)
    (remaining_depth current_depth : Int) (previousPv : List Move)
    (topLevelOrdering : Option (List Move)) (hash_move : Move) (has_hash_move : Bool) :
    List Move :=
  let generated := S.reorder_moves b (S.enumerate_moves b false) current_depth
    remaining_depth previousPv e.m_killers hash_move has_hash_move
  match topLevelOrdering with
  | none => generated
  | some l => if l.length > 0 then l else generated

/-- The part of `negamax` after the transposition probe: the leaf, the move
loop, the write of the table and the result. `std::sort` is taken as a stable
sort. At `current_depth = 0` the code writes through `topLevelOrdering` without
testing it; the driver, the one caller at that depth, always passes a list, and
for `nullptr` the model gives the sorted list all the same. -/
def negamax_search (S : SearchEnv) (rec : NegamaxCall) (qrec : QuiesceCall)
    (e : NegamaxEngine) (b : Board)
    (max_depth remaining_depth current_depth color alpha beta : Int)
    (parentPv previousPv : List Move) (topLevelOrdering : Option (List Move))
    (hash_move : Move) (has_hash_move : Bool) : Option NegamaxResult :=
  let clr := b.get_next_move
  let bkey := b.get_key
  if remaining_depth = 0 then
    let e := e.update_stats max_depth current_depth
      (fun st => { st with num_leaf_nodes := st.num_leaf_nodes + 1 })
    match qrec e b color alpha beta current_depth with
    | none => none
    | some r => some ⟨r.val, r.e, r.b, parentPv, topLevelOrdering⟩
  else
    let e := { e with m_total_nodes := e.m_total_nodes + 1 }
    let moveList := negamax_move_list S e b remaining_depth current_depth previousPv
      topLevelOrdering hash_move has_hash_move
    match negamax_loop S rec clr max_depth remaining_depth current_depth color beta previousPv
        moveList ⟨e, b, alpha, parentPv, [], Move.default, -999999, false, false, false, 0, 0, []⟩
      with
    | none => none
    | some (.returned val s) => some ⟨val, s.e, s.b, s.parentPv, topLevelOrdering⟩
    | some (.finished s) =>
      let e := s.e.update_stats max_depth current_depth (fun st =>
        { st with
          num_move_visited := st.num_move_visited + s.num_move_visited
          num_move_skipped := st.num_move_skipped + (s.moveList.length - s.num_move_visited)
          num_move_generated := st.num_move_generated + s.moveList.length
          num_nodes := st.num_nodes + 1 })
      let e := tt_store S e bkey max_depth remaining_depth current_depth s.alpha s.bestMove
        s.cutoff s.raise_alpha
      if s.num_legal_move = 0 then
        if s.b.is_king_checked clr then
          some ⟨-20000 + 5 * current_depth, e, s.b, s.parentPv, topLevelOrdering⟩
        else some ⟨0, e, s.b, s.parentPv, topLevelOrdering⟩
      else if current_depth = 0 then
        some ⟨s.alpha, e, s.b, s.parentPv,
          some (s.moveList.insertionSort (fun x y => x.evaluation ≥ y.evaluation))⟩
      else some ⟨s.alpha, e, s.b, s.parentPv, topLevelOrdering⟩

/-- The function `NegamaxEngine::negamax`, with fuel for the recursion depth:
`none` when the fuel runs out. The arguments after the fuel are those of
`NegamaxCall`. -/
def negamax (S : SearchEnv) : Nat → NegamaxCall
  | 0, _, _, _, _, _, _, _, _, _, _, _ => none
  | fuel + 1, e, b, max_depth, remaining_depth, current_depth, color, alpha, beta, parentPv,
      previousPv, topLevelOrdering =>
    let p := e.poll
    if p.1 then some ⟨beta, p.2, b, parentPv, topLevelOrdering⟩
    else
      match tt_probe S p.2 b max_depth remaining_depth current_depth alpha beta parentPv with
      | .ret val e parentPv => some ⟨val, e, b, parentPv, topLevelOrdering⟩
      | .go alpha e hash_move has_hash_move =>
        negamax_search S (negamax S fuel) (quiesce S fuel) e b max_depth remaining_depth
          current_depth color alpha beta parentPv previousPv topLevelOrdering hash_move
          has_hash_move

/-- Whether the probe ended the frame. -/
def Probe.is_ret : Probe → Bool
  | .ret _ _ _ => true
  | .go _ _ _ _ => false

/-- The value of `alpha` after a probe that goes on (the value returned, for
one that ends the frame). -/
def Probe.alpha : Probe → Int
  | .ret val _ _ => val
  | .go alpha _ _ _ => alpha

/-- The engine after the probe. -/
def Probe.e : Probe → NegamaxEngine
  | .ret _ e _ => e
  | .go _ e _ _ => e

/-- The hash move of a probe that goes on. -/
def Probe.hash_move : Probe → Move
  | .ret _ _ _ => Move.default
  | .go _ _ hash_move _ => hash_move

/-- The flag `has_hash_move` of a probe that goes on. -/
def Probe.has_hash_move : Probe → Bool
  | .ret _ _ _ => false
  | .go _ _ _ has_hash_move => has_hash_move

/-- No move of the list is legal on `b` for the side `clr`: each one is already
marked illegal, or leaves the king of `clr` in check once made. -/
def NoLegalMove (S : SearchEnv) (b : Board) (clr : Color) (moves : List Move) : Prop :=
  ∀ m ∈ moves, (m.legal_checked = true ∧ m.legal = false) ∨
    (b.make_move S.env m).is_king_checked clr = true

instance (S : SearchEnv) (b : Board) (clr : Color) (moves : List Move) :
    Decidable (NoLegalMove S b clr moves) := by
  delta NoLegalMove; exact inferInstance

/-- An empty bucket of the transposition table. -/
def emptyEntry : HashEntry := ⟨0, 0, 0, false, false, false, 0, 0, P_EMPTY⟩

/-- An engine at rest: empty table, two empty killer lists, zero counters, no
stop requested and nobody to request one. -/
def idleEngine : NegamaxEngine :=
  { m_killers := [[], []], m_max_depth := 2, m_current_max_depth := 2
    m_hash := fun _ => emptyEntry, m_stats := fun _ _ => Stats.zero
    m_total_nodes := 0, m_total_quiescence_nodes := 0, m_run_id := 0
    m_stop_required := false, m_stop_required_by_timeout := false, m_running := true
    stop_clock := none, stop_by_timer := false }

/-- The engine at rest once a stop is requested. -/
def stoppedEngine : NegamaxEngine := { idleEngine with m_stop_required := true }

/-- A sample choice of the collaborators of the search on the sample position:
the evaluator gives 100, the generator gives the quiet move and the capture of
the sample position (the capture alone when captures only are asked for), the
orderings keep the order, the hash move is not rebuilt, a piece is worth 100
times its code, and all keys share bucket 0. -/
def sampleSearch : SearchEnv :=
  { env := sampleEnv
    evaluate_board := fun _ => 100
    enumerate_moves := fun _ only_takes =>
      if only_takes then [captureMove] else [quietMove, captureMove]
    reorder_mvv_lva := fun _ l => l
    reorder_moves := fun _ l _ _ _ _ _ _ => l
    generate_move_for_squares := fun _ _ _ _ => Move.default
    piece_value := fun p => 100 * (p : Int)
    bucket := fun _ => 0 }

/-- A quiet position: the two kings on e1 and e8, White to move. -/
def kingsBoard : Board :=
  { (emptyBoard.set_piece_at ⟨0, 4⟩ P_KING C_WHITE).set_piece_at ⟨7, 4⟩ P_KING C_BLACK with
    m_flags := ⟨0, 0, C_WHITE, 0⟩ }

/-- The collaborators of the search on the quiet position `kingsBoard`: the
evaluator gives 100 and the generator, asked for captures, finds none. -/
def quietSearch : SearchEnv :=
  { sampleSearch with enumerate_moves := fun _ _ => [] }

/-- The collaborators of the sample position when every square is attacked:
each move leaves the mover in check. -/
def checkSearch : SearchEnv :=
  { sampleSearch with env := { sampleEnv with find_move_to_position := fun _ _ _ => 1 } }

/-- The sample position with White's king in check. -/
def checkedBoard : Board :=
  { sampleBoard with m_flags := ⟨15, 3 ||| CAN_EN_PASSANT, C_WHITE, 2⟩ }

/-- The moves of the sample position with their records built from
`checkedBoard`. -/
def checkedMoves : List Move :=
  [{ quietMove with m_board_state_before := checkedBoard.get_flags },
   { captureMove with m_board_state_before := checkedBoard.get_flags }]

/-- The engine at rest with one exact entry for the key of the sample position:
depth 5, score 40. -/
def hitEngine : NegamaxEngine :=
  { idleEngine with m_hash := fun _ => ⟨12345, 5, 40, true, false, false, 4, 12, P_EMPTY⟩ }

/-- The move list that a `negamax` frame goes through when its probe does not
end it: the engine is the one the poll and the probe leave, with the node
counter bumped. -/
def frame_moves (S : SearchEnv) (e : NegamaxEngine) (b : Board)
    (max_depth remaining_depth current_depth alpha beta : Int)
    (parentPv previousPv : List Move) (topLevelOrdering : Option (List Move)) : List Move :=
  let p := tt_probe S e.poll.2 b max_depth remaining_depth current_depth alpha beta parentPv
  negamax_move_list S { p.e with m_total_nodes := p.e.m_total_nodes + 1 } b remaining_depth
    current_depth previousPv topLevelOrdering p.hash_move p.has_hash_move

/-! ## engine.cpp: the time budget -/

/-- Modelled from the spec: the `struct GoParams` of the missing `uci.hpp`, with
the fields that `_start_uci_background` reads; the times are milliseconds and
are taken as unsigned 64-bit values, like the `basetime` they are copied to. -/
structure GoParams where
  depth : Int
  movetime : Nat
  wtime : Nat
  btime : Nat
  movestogo : Nat
deriving DecidableEq, Repr

/-- The value of `int move_count_wanted = std::max(60u - b.get_full_move(), 10u)`:
the subtraction and the maximum are taken in `unsigned` (32 bits), and the
result is converted to `int`. -/
def move_count_wanted (full_move : Nat) : Int :=
  let u : Nat := (60 + 4294967296 - full_move % 4294967296) % 4294967296
  let m : Nat := max u 10
  if m < 2147483648 then (m : Int) else (m : Int) - 4294967296

/-- The allocation of `_start_uci_background` before the cap, for a clock
`basetime`: `basetime / p.movestogo` when `movestogo` is given, else `basetime /
move_count_wanted`, a division of a `uint64_t` by an `int`, which is converted
to `uint64_t` first. -/
def clock_allocation (basetime movestogo full_move : Nat) : Nat :=
  if movestogo > 0 then basetime / movestogo
  else basetime / (move_count_wanted full_move % 18446744073709551616).toNat

/-- The cap `std::min(time, std::max(15ull, basetime - 200ull))`; the
subtraction is taken in `unsigned long long` (64 bits). -/
def capped_allocation (time basetime : Nat) : Nat :=
  min time (max 15 ((basetime + 18446744073709551616 - 200) % 18446744073709551616))

/-- The time budget of `_start_uci_background`, in milliseconds; 0 stands for
no budget. -/
def time_budget (p : GoParams) (next_move : Color) (full_move : Nat) : Nat :=
  if p.movetime > 0 then p.movetime
  else if p.wtime > 0 ∨ p.btime > 0 then
    let basetime : Nat := if next_move = C_WHITE then p.wtime else p.btime
    capped_allocation (clock_allocation basetime p.movestogo full_move) basetime
  else 0

/-! ## engine.cpp: perft -/

/-- What `perft` leaves: the value returned, the board and the counters `res`. -/
structure PerftResult where
  total : Nat
  b : Board
  res : List Nat

/-- The move loop of `perft`, with the locals `total` and `num_legal_move`
(here `n`); the recursive call is the parameter `rec`. The line printed per
root move is left out. -/
def perft_loop (S : SearchEnv) (rec : Board → List Nat → Option PerftResult) (clr : Color) :
    List Move → Board → List Nat → Nat → Nat → Option (Nat × Board × List Nat × Nat)
  | [], b, res, total, n => some (total, b, res, n)
  | move :: rest, b, res, total, n =>
    let b := b.make_move S.env move
    if b.is_king_checked clr then
      perft_loop S rec clr rest (b.unmake_move S.env move) res total n
    else
      match rec b res with
      | none => none
      | some r =>
        perft_loop S rec clr rest (r.b.unmake_move S.env move) r.res (total + r.total) (n + 1)

/-- The function `NegamaxEngine::perft`. The recursion is on `remaining_depth`,
taken non-negative; `none` stands for an index `max_depth - remaining_depth`
outside the vector `res`. The counters are `uint64_t`, taken not to wrap. -/
def perft (S : SearchEnv) (max_depth : Int) : Nat → Board → List Nat → Option PerftResult
  | 0, b, res => some ⟨1, b, res⟩
  | remaining_depth + 1, b, res =>
    let ml := S.enumerate_moves b false
    let clr := b.get_next_move
    match perft_loop S (perft S max_depth remaining_depth) clr ml b res 0 0 with
    | none => none
    | some (total, b, res, num_legal_move) =>
      let i : Int := max_depth - ((remaining_depth + 1 : Nat) : Int)
      if 0 ≤ i ∧ i.toNat < res.length then
        some ⟨total, b, res.set i.toNat (res.getD i.toNat 0 + num_legal_move)⟩
      else none

/-- The function `NegamaxEngine::do_perft`, without the lines it sends: the
counters are zeroed with length `depth`. -/
def do_perft (S : SearchEnv) (b : Board) (depth : Nat) : Option PerftResult :=
  perft S depth depth b (List.replicate depth 0)

/-- The legal moves of a position: the generated moves after which the king of
the mover is not in check. -/
def legal_moves (S : SearchEnv) (b : Board) : List Move :=
  (S.enumerate_moves b false).filter
    (fun m => !(b.make_move S.env m).is_king_checked m.color)

/-- The sequences of `d` consecutive legal moves from a position. -/
def legal_lines (S : SearchEnv) : Nat → Board → List (List Move)
  | 0, _ => [[]]
  | d + 1, b =>
    (legal_moves S b).flatMap
      (fun m => (legal_lines S d (b.make_move S.env m)).map (fun l => m :: l))

/-- The generator gives, on every well-formed board, move records built from
that board. -/
def GeneratorSound (S : SearchEnv) : Prop :=
  ∀ b : Board, b.wf → ∀ m ∈ S.enumerate_moves b false, LegalRecord S.env b m

/-- Whether a generated move is legal on `b`: once made, the king of the mover
is not in check. -/
def is_legal (S : SearchEnv) (b : Board) (m : Move) : Bool :=
  !(b.make_move S.env m).is_king_checked m.color

/-- The number of sequences of `j + 1` legal moves from `b` that start with a
legal move of the list `ms`. -/
def line_sum (S : SearchEnv) (ms : List Move) (b : Board) (j : Nat) : Nat :=
  ((ms.filter (is_legal S b)).map
    (fun m => (legal_lines S j (b.make_move S.env m)).length)).sum

/-- A king step from `src` to `dst` by the side to move, with its record built
from `b`. -/
def king_step (b : Board) (src dst : Pos) : Move :=
  { Move.ofBoard b with src := src, dst := dst, color := b.get_next_move, piece := P_KING }

/-- A small generator for the sample position: the king steps e1-e2, e1-d1,
e8-e7 and e8-d8, each kept when it is a move record of the board; the square d1
counts as attacked, so that e1-d1 leaves the king in check. -/
def perftSearch : SearchEnv :=
  { sampleSearch with
    env := { sampleEnv with
      find_move_to_position := fun _ pos _ => if pos = ⟨0, 3⟩ then 1 else 0 }
    enumerate_moves := fun b _ =>
      ([king_step b ⟨0, 4⟩ ⟨1, 4⟩, king_step b ⟨0, 4⟩ ⟨0, 3⟩, king_step b ⟨7, 4⟩ ⟨6, 4⟩,
        king_step b ⟨7, 4⟩ ⟨7, 3⟩]).filter
        (fun m => decide (LegalRecord
          { sampleEnv with find_move_to_position := fun _ pos _ => if pos = ⟨0, 3⟩ then 1 else 0 }
          b m)) }

/-! ## The move loop of `negamax`, one move at a time -/

/-- How one turn of the move loop of `negamax` ends: going on to the next move,
leaving the loop by `break`, or leaving the function by `return`. -/
inductive StepExit where
  | next (s : LoopState)
  | stop (s : LoopState)
  | ret (val : Int) (s : LoopState)

/-- The end of one turn of the move loop of `negamax`, from `if (val > oldval)`
on: `s` is the state after the search and the `unmake_move` of `move`. -/
def step_result (max_depth current_depth beta : Int) (move : Move) (s : LoopState)
    (val : Int) : StepExit :=
  let s := if val > s.oldval then { s with oldval := val, bestMove := move } else s
  if val ≥ beta then
    let s := { s with alpha := beta }
    let p := s.e.poll
    let s := { s with e := p.2 }
    if p.1 then .ret beta { s with moveList := s.moveList ++ [move] }
    else
      let s := { s with bestMove := move, cutoff := true }
      let s := { s with e := s.e.update_stats max_depth current_depth (fun st =>
        if move.best_from_pv then
          { st with num_cut_by_best_pv := st.num_cut_by_best_pv + 1 }
        else if move.killer then
          { st with num_cut_by_killer := st.num_cut_by_killer + 1 }
        else st) }
      if ¬ move.takes ∧ ¬ move.killer then
        let mk : Bool := decide (val ≥ 20000 - (max_depth + 1) * 5)
        let move := { move with killer := true, mate_killer := mk }
        .stop { s with
          e := { s.e with m_killers := push_killer s.e.m_killers current_depth move }
          moveList := s.moveList ++ [move] }
      else .stop { s with moveList := s.moveList ++ [move] }
  else if val > s.alpha then
    .next { s with
      alpha := val, bestMove := move, parentPv := collect_pv move s.currentPv
      raise_alpha := true, use_aspiration := true
      moveList := s.moveList ++ [move] }
  else .next { s with moveList := s.moveList ++ [move] }

/-- One turn of the move loop of `negamax`: the body of `negamax_loop` for the
move `move`, the moves still to come being left out of `moveList`. -/
def loop_step (S : SearchEnv) (rec : NegamaxCall) (clr : Color)
    (max_depth remaining_depth current_depth color beta : Int) (previousPv : List Move)
    (move : Move) (s : LoopState) : Option StepExit :=
  if move.legal_checked ∧ ¬ move.legal then
    some (.next { s with moveList := s.moveList ++ [move] })
  else
    let s := { s with num_move_visited := s.num_move_visited + 1 }
    let b := s.b.make_move S.env move
    if b.is_king_checked clr then
      let move := { move with legal_checked := true, legal := false, evaluation := INT32_MIN }
      let b := b.unmake_move S.env move
      some (.next { s with b := b, moveList := s.moveList ++ [move] })
    else
      let move := { move with legal_checked := true, legal := true }
      let s := { s with num_legal_move := s.num_legal_move + 1 }
      match search_move rec max_depth remaining_depth current_depth color s.alpha beta
          previousPv s.use_aspiration s.e b s.currentPv with
      | none => none
      | some (val, e, b, currentPv) =>
        some (step_result max_depth current_depth beta move
          { s with e := e, b := b.unmake_move S.env move, currentPv := currentPv } val)

/-- The states in which the move loop of a frame can stand before a move,
starting from `s0`: those reached by turns that go on to the next move. -/
inductive LoopReach (S : SearchEnv) (rec : NegamaxCall) (clr : Color)
    (max_depth remaining_depth current_depth color beta : Int) (previousPv : List Move)
    (s0 : LoopState) : LoopState → Prop where
  | start : LoopReach S rec clr max_depth remaining_depth current_depth color beta previousPv
      s0 s0
  | step (s s1 : LoopState) (move : Move) :
      LoopReach S rec clr max_depth remaining_depth current_depth color beta previousPv s0 s →
      loop_step S rec clr max_depth remaining_depth current_depth color beta previousPv move s =
        some (.next s1) →
      LoopReach S rec clr max_depth remaining_depth current_depth color beta previousPv s0 s1

/-- The state in which `negamax` enters its move loop. -/
def loop_start (e : NegamaxEngine) (b : Board) (alpha : Int) (parentPv : List Move) :
    LoopState :=
  ⟨e, b, alpha, parentPv, [], Move.default, -999999, false, false, false, 0, 0, []⟩

/-- The invariant of the move loop of a frame entered with `alpha = a0`: no
cutoff so far, the flags `use_aspiration` and `raise_alpha` agree, `alpha` has
not gone below `a0`, and `raise_alpha` tells whether `alpha` has gone above it. -/
def LoopInv (a0 : Int) (s : LoopState) : Prop :=
  s.cutoff = false ∧ s.use_aspiration = s.raise_alpha ∧ a0 ≤ s.alpha ∧
    (s.raise_alpha = true ↔ a0 < s.alpha)

/-- The state carried by an exit of the move loop. -/
def LoopExit.state : LoopExit → LoopState
  | .returned _ s => s
  | .finished s => s

/-- Whether the move loop ended without the `return` under a stop request. -/
def LoopExit.is_finished : LoopExit → Bool
  | .returned _ _ => false
  | .finished _ => true

/-- The state after a run of the move loop, `d` when the run gives none. -/
def exit_state (x : Option LoopExit) (d : LoopState) : LoopState :=
  match x with
  | some r => r.state
  | none => d

/-- The state after a turn of the loop that goes on to the next move, `d`
otherwise. -/
def next_state (x : Option StepExit) (d : LoopState) : LoopState :=
  match x with
  | some (.next s) => s
  | _ => d

/-- Whether a turn of the loop goes on to the next move. -/
def is_next (x : Option StepExit) : Bool :=
  match x with
  | some (.next _) => true
  | _ => false

/-- The state before the move that follows the moves `pre`, when every turn on
`pre` goes on to the next move. -/
def run_moves (S : SearchEnv) (rec : NegamaxCall) (clr : Color)
    (max_depth remaining_depth current_depth color beta : Int) (previousPv : List Move) :
    List Move → LoopState → Option LoopState
  | [], s => some s
  | move :: rest, s =>
    match loop_step S rec clr max_depth remaining_depth current_depth color beta previousPv
        move s with
    | some (.next s1) =>
      run_moves S rec clr max_depth remaining_depth current_depth color beta previousPv rest s1
    | _ => none

/-- A mark that records a search window in a move record. -/
def window_mark (alpha beta : Int) : Move :=
  { Move.default with score := alpha, see_value := beta }

/-- A stand-in for the recursive call of `negamax` that records what it is
asked: it returns the value `v`, leaves the engine and the board alone, and
appends the window it was given to the PV it was given. The loop hands its
`currentPv` from call to call, so that PV ends as the list of the windows
searched. -/
def spyCall (v : Int) : NegamaxCall :=
  fun e b _ _ _ _ alpha beta parentPv _ _ =>
    some ⟨v, e, b, parentPv ++ [window_mark alpha beta], none⟩

/-- The windows that the marks of a PV record. -/
def windows_seen (pv : List Move) : List (Int × Int) :=
  pv.map (fun m => (m.score, m.see_value))

/-! ## Sample runs of the move loop -/

/-- The state in which the sample frame enters its move loop: the engine at
rest, the sample position, `alpha = 0`, an empty parent PV. -/
def sampleStart : LoopState := loop_start idleEngine sampleBoard 0 []

/-- A run of the move loop on the quiet move and the capture of the sample
position, with window `(0, 100)` and remaining depth 3, every search returning
-30: the first move raises `alpha` to 30. -/
def raisingLoop : Option LoopExit :=
  negamax_loop sampleSearch (spyCall (-30)) C_WHITE 3 3 0 1 100 [] [quietMove, captureMove]
    sampleStart

/-- A run of the move loop on the quiet move and the promotion of the sample
position, with window `(0, 100)` and remaining depth 3, every search returning
10: no move raises `alpha`. -/
def failLowLoop : Option LoopExit :=
  negamax_loop sampleSearch (spyCall 10) C_WHITE 3 3 0 1 100 [] [quietMove, promotionMove]
    sampleStart

/-- The lower bounds of the re-searches of a move, in order: the quotients are
rounded towards zero, each of the first three bounds is at least one below the
bound before it (the null window has `-alpha - 1`), and the last is `-beta`. -/
def widen_bounds (alpha beta : Int) : List Int :=
  let l1 := min (-alpha - Int.tdiv (beta - alpha) 8) (-alpha - 1 - 1)
  let l2 := min (-alpha - Int.tdiv (beta - alpha) 4) (l1 - 1)
  let l3 := min (-alpha - Int.tdiv (beta - alpha) 2) (l2 - 1)
  [l1, l2, l3, -beta]

/-- The re-searches of a move over a list of lower bounds: one search per
bound, made while the last value is strictly between `alpha` and `beta` and the
last lower bound is above `-beta`. -/
def widen_spec (rec : NegamaxCall)
    (max_depth remaining_depth current_depth color alpha beta : Int) (previousPv : List Move) :
    List Int → Int → Int → NegamaxEngine → Board → List Move →
      Option (Int × NegamaxEngine × Board × List Move)
  | [], _, val, e, b, currentPv => some (val, e, b, currentPv)
  | l :: ls, lower, val, e, b, currentPv =>
    if val > alpha ∧ val < beta ∧ lower > -beta then
      match rec e b max_depth (remaining_depth - 1) (current_depth + 1) (-color) l (-alpha)
          currentPv previousPv none with
      | none => none
      | some r =>
        widen_spec rec max_depth remaining_depth current_depth color alpha beta previousPv ls l
          (-r.val) r.e r.b r.parentPv
    else some (val, e, b, currentPv)

/-! ## engine.cpp: the iterative deepening driver -/

/-- The function `NegamaxEngine::set_max_depth` of `engine.hpp`: the killer
table is cleared and resized to `maxdepth` empty lists and the statistics are
zeroed; `m_max_depth` is a `uint32_t`. -/
def NegamaxEngine.set_max_depth (e : NegamaxEngine) (maxdepth : Int) : NegamaxEngine :=
  { e with
    m_max_depth := (maxdepth % 4294967296).toNat
    m_killers := List.replicate maxdepth.toNat []
    m_stats := fun _ _ => Stats.zero }

/-- The locals of `iterative_deepening` that its loop changes, with the engine,
the board and the two results `*bestMove` and `*moveFound`. -/
structure DriverState where
  e : NegamaxEngine
  b : Board
  bestMove : Move
  moveFound : Bool
  previousPv : List Move
  topLevelOrdering : List Move

/-- How one iteration of `iterative_deepening` ends: by a `return` with its
value, or by going on to the next depth. -/
inductive IterExit where
  | done (interrupted : Bool) (s : DriverState)
  | next (s : DriverState)

/-- One iteration of the loop of `iterative_deepening`, at depth `depth`.
`elapsed depth` is what `total_timer` shows, in milliseconds, when the search of
that depth is over; `fuel` is the fuel given to `negamax`, and `none` means it
ran out. The lines sent and the statistics shown are left out. -/
def deepening_step (S : SearchEnv) (fuel : Nat) (elapsed : Int → Nat) (max_time_ms : Nat)
    (color : Int) (depth : Int) (s : DriverState) : Option IterExit :=
  let e := { s.e with m_total_nodes := 0, m_total_quiescence_nodes := 0 }
  match negamax S fuel e s.b depth depth 0 color (-999999) 999999 [] s.previousPv
      (some s.topLevelOrdering) with
  | none => none
  | some r =>
    let s := { s with e := r.e, b := r.b
                      topLevelOrdering := r.topLevelOrdering.getD s.topLevelOrdering }
    if (r.e.m_stop_required_by_timeout ∨ max_time_ms > 0) ∧ elapsed depth > max_time_ms then
      some (.done false s)
    else
      let p := s.e.poll
      let s := { s with e := p.2 }
      if p.1 then some (.done true s)
      else if r.parentPv.length > 0 then
        some (.next { s with
          bestMove := r.parentPv.headD Move.default, moveFound := true
          previousPv := r.parentPv })
      else some (.done false { s with moveFound := false })

/-- The loop `for (int depth = 1; depth <= max_depth; ++depth)` of
`iterative_deepening`, with the number of iterations left. -/
def deepening_loop (S : SearchEnv) (fuel : Nat) (elapsed : Int → Nat) (max_time_ms : Nat)
    (color : Int) (max_depth : Int) : Nat → Int → DriverState → Option (Bool × DriverState)
  | 0, _, s => some (false, s)
  | n + 1, depth, s =>
    if depth ≤ max_depth then
      match deepening_step S fuel elapsed max_time_ms color depth s with
      | none => none
      | some (.done interrupted s1) => some (interrupted, s1)
      | some (.next s1) =>
        deepening_loop S fuel elapsed max_time_ms color max_depth n (depth + 1) s1
    else some (false, s)

/-- The function `NegamaxEngine::iterative_deepening`: the value returned and
the state it leaves; `bestMove` is the move behind the pointer at entry. -/
def iterative_deepening (S : SearchEnv) (fuel : Nat) (elapsed : Int → Nat) (e : NegamaxEngine)
    (b : Board) (max_depth : Int) (bestMove : Move) (max_time_ms : Nat) :
    Option (Bool × DriverState) :=
  let color : Int := if b.get_next_move = C_WHITE then 1 else -1
  let e := e.set_max_depth max_depth
  deepening_loop S fuel elapsed max_time_ms color max_depth max_depth.toNat 1
    ⟨e, b, bestMove, false, [], []⟩

/-- The timer thread of `_start_uci_background`: it raises both stop flags
after the time budget, which lasts `polls` polls of the flag; a stop that is
due earlier stays. -/
def NegamaxEngine.arm_timer (e : NegamaxEngine) (polls : Nat) : NegamaxEngine :=
  match e.stop_clock with
  | none => { e with stop_clock := some polls, stop_by_timer := true }
  | some n => if n ≤ polls then e else { e with stop_clock := some polls, stop_by_timer := true }

/-- What a run of `_start_uci_background` leaves: the engine, and the moves
sent with `uci_send_bestmove`, in order. -/
structure UciRun where
  e : NegamaxEngine
  sent : List Move

/-- The depth of a run of `_start_uci_background`: `if (p.depth == 0) p.depth = 7`. -/
def go_depth (p : GoParams) : Int := if p.depth = 0 then 7 else p.depth

/-- The engine as `_start_uci_background` hands it to `iterative_deepening`:
`++m_run_id`, the timer thread scheduled when `time > 0`, `m_running = true`. -/
def NegamaxEngine.go_start (e : NegamaxEngine) (timer_polls time : Nat) : NegamaxEngine :=
  let e := { e with m_run_id := e.m_run_id + 1 }
  let e := if time > 0 then e.arm_timer timer_polls else e
  { e with m_running := true }

/-- The function `NegamaxEngine::_start_uci_background`, the go parameters
`m_uci_go_params` being the argument `p`; `timer_polls` is the number of polls
of the stop flag that the time budget lasts, and `sent` lists the moves given
to `uci_send_bestmove`. The thread handling is left out. -/
def start_uci_background (S : SearchEnv) (fuel : Nat) (elapsed : Int → Nat) (timer_polls : Nat)
    (e : NegamaxEngine) (b : Board) (p : GoParams) : Option UciRun :=
  let best_move := Move.default
  let time := time_budget p b.get_next_move b.get_full_move
  match iterative_deepening S fuel elapsed (e.go_start timer_polls time) b (go_depth p) best_move
      time with
  | none => none
  | some (_, s) =>
    let e := { s.e with m_running := false }
    let sent := if s.moveFound then [s.bestMove] else []
    some ⟨{ e with m_stop_required := false, m_stop_required_by_timeout := false }, sent⟩

/-- The move that the driver would report is the first move of the PV it keeps
from the last iteration that published one. -/
def Published (s : DriverState) : Prop :=
  s.moveFound = true → s.previousPv ≠ [] ∧ s.bestMove = s.previousPv.headD Move.default

/-- The collaborators of the sample position with the king-step generator of
`perftSearch`, which finds no capture when captures only are asked for. -/
def driveSearch : SearchEnv :=
  { perftSearch with
    enumerate_moves := fun b only_takes =>
      if only_takes then [] else perftSearch.enumerate_moves b false }

/-- A result of `negamax` to stand for none. -/
def noResult : NegamaxResult := ⟨0, idleEngine, emptyBoard, [], none⟩

/-- The state in which `iterative_deepening` at depth 1 enters its loop on the
sample position, with the engine at rest. -/
def driveStart : DriverState :=
  ⟨idleEngine.set_max_depth 1, sampleBoard, Move.default, false, [], []⟩

/-- The search of the first iteration from `driveStart`, with fuel 3. -/
def firstSearch : Option NegamaxResult :=
  negamax driveSearch 3
    { driveStart.e with m_total_nodes := 0, m_total_quiescence_nodes := 0 } driveStart.b 1 1 0 1
    (-999999) 999999 [] driveStart.previousPv (some driveStart.topLevelOrdering)

/-- A run of `_start_uci_background` to stand for none. -/
def noRun : UciRun := ⟨idleEngine, []⟩

/-- The run of `go depth 1` on the sample position, the engine at rest. -/
def sampleRun : Option UciRun :=
  start_uci_background driveSearch 3 (fun _ => 0) 0 idleEngine sampleBoard ⟨1, 0, 0, 0, 0⟩

/-- The run of `go depth 1` on the sample position when a stop request is
seen by the first poll of the stop flag. -/
def stoppedRun : Option UciRun :=
  start_uci_background driveSearch 3 (fun _ => 0) 0 { idleEngine with stop_clock := some 0 }
    sampleBoard ⟨1, 0, 0, 0, 0⟩

/-- The king step e1-e2 on the sample position, once found legal by the move
loop of `negamax`. -/
def bestStep : Move :=
  { king_step sampleBoard ⟨0, 4⟩ ⟨1, 4⟩ with legal := true, legal_checked := true }

/-! ## Invariants of the search -/

/-- The state carried by the end of a turn of the move loop. -/
def StepExit.state : StepExit → LoopState
  | .next s => s
  | .stop s => s
  | .ret _ s => s

/-- A killer list as the killer rule of `negamax` keeps it: at most 10 entries,
no entry equal (by `operator==`) to a later one, no capture. -/
def KillerListOk (l : List Move) : Prop :=
  l.length ≤ 10 ∧ l.Pairwise (fun a b => a.same b = false) ∧ ∀ m ∈ l, m.takes = false

/-- Every per-ply list of the killer table is as the killer rule keeps it. -/
def KillersOk (ks : List (List Move)) : Prop := ∀ l ∈ ks, KillerListOk l

/-- The engine at rest with an empty table of `n` killer lists, as
`set_max_depth` leaves it. -/
def freshEngine (n : Int) : NegamaxEngine := idleEngine.set_max_depth n

/-- A search of depth 1 on the sample position with the window `(-10, 0)`: the
king step e1-e2, searched first, gets the value 0 and cuts. -/
def cutSearch : Option NegamaxResult :=
  negamax driveSearch 3 idleEngine sampleBoard 1 1 0 1 (-10) 0 [] [] none

/-- The run of the move loop of the frame `negamax S (fuel + 1) e b ...`, when
neither the stop check nor the transposition probe ends the frame. -/
def frame_loop (S : SearchEnv) (fuel : Nat) (e : NegamaxEngine) (b : Board)
    (max_depth remaining_depth current_depth color alpha beta : Int)
    (parentPv previousPv : List Move) (topLevelOrdering : Option (List Move)) :
    Option LoopExit :=
  let p := tt_probe S e.poll.2 b max_depth remaining_depth current_depth alpha beta parentPv
  negamax_loop S (negamax S fuel) b.get_next_move max_depth remaining_depth current_depth color
    beta previousPv
    (frame_moves S e b max_depth remaining_depth current_depth alpha beta parentPv previousPv
      topLevelOrdering)
    (loop_start { p.e with m_total_nodes := p.e.m_total_nodes + 1 } b p.alpha parentPv)

/-- The value of `num_legal_move` with which the frame leaves its move loop. -/
def frame_legal_count (S : SearchEnv) (fuel : Nat) (e : NegamaxEngine) (b : Board)
    (max_depth remaining_depth current_depth color alpha beta : Int)
    (parentPv previousPv : List Move) (topLevelOrdering : Option (List Move)) : Option Nat :=
  (frame_loop S fuel e b max_depth remaining_depth current_depth color alpha beta parentPv
    previousPv topLevelOrdering).map (fun x => x.state.num_legal_move)

/-- The move lists of the search are made of records of the position they are
asked for: the captures in the order of `reorder_mvv_lva`, and the moves in the
order of `reorder_moves`. -/
def MovesSound (S : SearchEnv) : Prop :=
  ∀ b : Board, b.wf →
    (∀ m ∈ S.reorder_mvv_lva b (S.enumerate_moves b true), LegalRecord S.env b m) ∧
    (∀ (cd rd : Int) (pv : List Move) (ks : List (List Move)) (hm : Move) (hhm : Bool),
      ∀ m ∈ S.reorder_moves b (S.enumerate_moves b false) cd rd pv ks hm hhm,
        LegalRecord S.env b m)

/-! ## The depth bookkeeping of the search -/

/-- What the frame `negamax(b, max_depth, remaining_depth, current_depth, ...)`
needs for its use of `m_killers[current_depth]` to be in bounds, `D` being the
depth given to `iterative_deepening`: the two depths add up to `max_depth`,
which is at most `D`, and when the frame has a move loop
(`remaining_depth >= 1`) the index `current_depth` is within the killer
table. -/
def FrameInBounds (D : Int) (e : NegamaxEngine) (max_depth remaining_depth current_depth : Int) :
    Prop :=
  current_depth + remaining_depth = max_depth ∧ max_depth ≤ D ∧ 0 ≤ current_depth ∧
    0 ≤ remaining_depth ∧ (1 ≤ remaining_depth → current_depth.toNat < e.m_killers.length)

instance (D : Int) (e : NegamaxEngine) (max_depth remaining_depth current_depth : Int) :
    Decidable (FrameInBounds D e max_depth remaining_depth current_depth) := by
  delta FrameInBounds; exact inferInstance

/-- The function `negamax` with a check at the entry of every frame: a frame
that is not `FrameInBounds` fails, which gives `none` like a lack of fuel; the
rest is the body of `negamax`. -/
def negamax_checked (S : SearchEnv) (D : Int) : Nat → NegamaxCall
  | 0, _, _, _, _, _, _, _, _, _, _, _ => none
  | fuel + 1, e, b, max_depth, remaining_depth, current_depth, color, alpha, beta, parentPv,
      previousPv, topLevelOrdering =>
    if FrameInBounds D e max_depth remaining_depth current_depth then
      let p := e.poll
      if p.1 then some ⟨beta, p.2, b, parentPv, topLevelOrdering⟩
      else
        match tt_probe S p.2 b max_depth remaining_depth current_depth alpha beta parentPv with
        | .ret val e parentPv => some ⟨val, e, b, parentPv, topLevelOrdering⟩
        | .go alpha e hash_move has_hash_move =>
          negamax_search S (negamax_checked S D fuel) (quiesce S fuel) e b max_depth
            remaining_depth current_depth color alpha beta parentPv previousPv topLevelOrdering
            hash_move has_hash_move
    else none

/-- The iteration `deepening_step` with the search `call` in place of
`negamax`. -/
def deepening_step_by (call : NegamaxCall) (elapsed : Int → Nat) (max_time_ms : Nat)
    (color : Int) (depth : Int) (s : DriverState) : Option IterExit :=
  let e := { s.e with m_total_nodes := 0, m_total_quiescence_nodes := 0 }
  match call e s.b depth depth 0 color (-999999) 999999 [] s.previousPv
      (some s.topLevelOrdering) with
  | none => none
  | some r =>
    let s := { s with e := r.e, b := r.b
                      topLevelOrdering := r.topLevelOrdering.getD s.topLevelOrdering }
    if (r.e.m_stop_required_by_timeout ∨ max_time_ms > 0) ∧ elapsed depth > max_time_ms then
      some (.done false s)
    else
      let p := s.e.poll
      let s := { s with e := p.2 }
      if p.1 then some (.done true s)
      else if r.parentPv.length > 0 then
        some (.next { s with
          bestMove := r.parentPv.headD Move.default, moveFound := true
          previousPv := r.parentPv })
      else some (.done false { s with moveFound := false })

/-- The loop `deepening_loop` with the search `call` in place of `negamax`. -/
def deepening_loop_by (call : NegamaxCall) (elapsed : Int → Nat) (max_time_ms : Nat)
    (color : Int) (max_depth : Int) : Nat → Int → DriverState → Option (Bool × DriverState)
  | 0, _, s => some (false, s)
  | n + 1, depth, s =>
    if depth ≤ max_depth then
      match deepening_step_by call elapsed max_time_ms color depth s with
      | none => none
      | some (.done interrupted s1) => some (interrupted, s1)
      | some (.next s1) =>
        deepening_loop_by call elapsed max_time_ms color max_depth n (depth + 1) s1
    else some (false, s)

/-- The driver `iterative_deepening` with the search `call` in place of
`negamax`. -/
def iterative_deepening_by (call : NegamaxCall) (elapsed : Int → Nat) (e : NegamaxEngine)
    (b : Board) (max_depth : Int) (bestMove : Move) (max_time_ms : Nat) :
    Option (Bool × DriverState) :=
  let color : Int := if b.get_next_move = C_WHITE then 1 else -1
  let e := e.set_max_depth max_depth
  deepening_loop_by call elapsed max_time_ms color max_depth max_depth.toNat 1
    ⟨e, b, bestMove, false, [], []⟩

/-- The run of `iterative_deepening` to depth 2 on the sample position, the
engine at rest, without time budget. -/
def deepRun : Option (Bool × DriverState) :=
  iterative_deepening driveSearch 5 (fun _ => 0) idleEngine sampleBoard 2 Move.default 0

/-! ## The driver on a table left by a cancelled search -/

/-- The run of `go depth 1` on the sample position, the engine at rest, in
which the root frame finds the stop flag unset and its first child frame finds
it set. -/
def cancelledRun : Option UciRun :=
  start_uci_background driveSearch 3 (fun _ => 0) 0 { idleEngine with stop_clock := some 1 }
    sampleBoard ⟨1, 0, 0, 0, 0⟩

/-- The engine as `cancelledRun` leaves it: both stop flags cleared, nobody
left to raise them, and the table as the cancelled search wrote it. -/
def staleEngine : NegamaxEngine := (cancelledRun.getD noRun).e

/-- The search of the first iteration of `iterative_deepening` to depth 1 on
the sample position from `staleEngine`. -/
def staleSearch : Option NegamaxResult :=
  negamax driveSearch 3
    { staleEngine.set_max_depth 1 with m_total_nodes := 0, m_total_quiescence_nodes := 0 }
    sampleBoard 1 1 0 1 (-999999) 999999 [] [] (some [])

/-- The run of `iterative_deepening` to depth 1 on the sample position from
`staleEngine`, without time budget, `bestMove` being the default move at
entry. -/
def staleRun : Option (Bool × DriverState) :=
  iterative_deepening driveSearch 3 (fun _ => 0) staleEngine sampleBoard 1 Move.default 0

/-- The collaborators of the mated position `checkedBoard`: every square is
attacked and the generator gives the two moves `checkedMoves`, none of them
legal. -/
def mateSearch : SearchEnv :=
  { checkSearch with enumerate_moves := fun _ _ => checkedMoves }

/-- The search of the first iteration of `iterative_deepening` to depth 1 on
the mated position, the engine at rest. -/
def mateSearchResult : Option NegamaxResult :=
  negamax mateSearch 3
    { idleEngine.set_max_depth 1 with m_total_nodes := 0, m_total_quiescence_nodes := 0 }
    checkedBoard 1 1 0 1 (-999999) 999999 [] [] (some [])

/-- The run of `iterative_deepening` to depth 1 on the mated position, the
engine at rest, without time budget. -/
def mateRun : Option (Bool × DriverState) :=
  iterative_deepening mateSearch 3 (fun _ => 0) idleEngine checkedBoard 1 Move.default 0

/-- The driver state `sf` is left by an iteration that is over with the time
budget not found exceeded, the stop flag not found set and an empty PV: such an
iteration clears `moveFound` and leaves `bestMove` and `previousPv` alone. -/
def EmptyIteration (S : SearchEnv) (fuel : Nat) (elapsed : Int → Nat) (max_time_ms : Nat)
    (color : Int) (sf : DriverState) : Prop :=
  ∃ (depth : Int) (s : DriverState) (r : NegamaxResult),
    negamax S fuel { s.e with m_total_nodes := 0, m_total_quiescence_nodes := 0 } s.b depth
      depth 0 color (-999999) 999999 [] s.previousPv (some s.topLevelOrdering) = some r ∧
    ¬ ((r.e.m_stop_required_by_timeout = true ∨ max_time_ms > 0) ∧
      elapsed depth > max_time_ms) ∧
    r.e.poll.1 = false ∧ r.parentPv = [] ∧
    sf.moveFound = false ∧ sf.bestMove = s.bestMove ∧ sf.previousPv = s.previousPv

/-- The driver state between two iterations: either no iteration has published
a move yet (`previousPv` empty, `moveFound` unset), or one has, `moveFound` is
set and `bestMove` is the first move of `previousPv`. -/
def Tracked (s : DriverState) : Prop :=
  (s.previousPv = [] ∧ s.moveFound = false) ∨
  (s.previousPv ≠ [] ∧ s.moveFound = true ∧ s.bestMove = s.previousPv.headD Move.default)

/-! ## Theorems -/

/-! ### Bytes and nibbles -/

set_option maxRecDepth 100000 in
theorem byte_lo_same : ∀ s < 256, ∀ v < 16, (((s &&& 0xF0) ||| v) % 256) &&& 0x0F = v := by
  decide

set_option maxRecDepth 100000 in
theorem byte_lo_other : ∀ s < 256, ∀ v < 16,
    ((((s &&& 0xF0) ||| v) % 256) >>> 4) &&& 0x0F = (s >>> 4) &&& 0x0F := by decide

set_option maxRecDepth 100000 in
theorem byte_hi_same : ∀ s < 256, ∀ v < 16,
    ((((s &&& 0x0F) ||| (v <<< 4)) % 256) >>> 4) &&& 0x0F = v := by decide

set_option maxRecDepth 100000 in
theorem byte_hi_other : ∀ s < 256, ∀ v < 16,
    (((s &&& 0x0F) ||| (v <<< 4)) % 256) &&& 0x0F = s &&& 0x0F := by decide

theorem land_mod_256 (s m : Nat) (hm : m < 256) : s &&& m = (s % 256) &&& m := by
  have h1 : m &&& 255 = m := by
    have := Nat.and_pow_two_sub_one_eq_mod m 8
    simp at this
    rw [this]; exact Nat.mod_eq_of_lt hm
  have h2 : s &&& 255 = s % 256 := by
    have := Nat.and_pow_two_sub_one_eq_mod s 8
    simpa using this
  calc s &&& m = s &&& (m &&& 255) := by rw [h1]
    _ = s &&& (255 &&& m) := by rw [Nat.land_comm m 255]
    _ = (s &&& 255) &&& m := by rw [Nat.land_assoc]
    _ = (s % 256) &&& m := by rw [h2]

theorem shr4_land_mod_256 (s : Nat) : (s >>> 4) &&& 0x0F = ((s % 256) >>> 4) &&& 0x0F := by
  have h := Nat.and_pow_two_sub_one_eq_mod (s >>> 4) 4
  have h' := Nat.and_pow_two_sub_one_eq_mod ((s % 256) >>> 4) 4
  simp at h h'
  rw [h, h', Nat.shiftRight_eq_div_pow, Nat.shiftRight_eq_div_pow]
  omega

theorem nibbleAt_writeNibble (f : Nat → Nat) (k k' v : Nat) (hv : v < 16) :
    nibbleAt (writeNibble f k v) k' = if k' = k then v else nibbleAt f k' := by
  have hk : k &&& 1 = k % 2 := Nat.and_one_is_mod k
  have hk' : k' &&& 1 = k' % 2 := Nat.and_one_is_mod k'
  have hq : k >>> 1 = k / 2 := by simp [Nat.shiftRight_eq_div_pow]
  have hq' : k' >>> 1 = k' / 2 := by simp [Nat.shiftRight_eq_div_pow]
  have hs : f (k / 2) % 256 < 256 := Nat.mod_lt _ (by norm_num)
  unfold nibbleAt writeNibble
  rw [hk, hk', hq, hq']
  by_cases hqq : k' / 2 = k / 2
  · rw [if_pos hqq]
    rcases Nat.mod_two_eq_zero_or_one k with h0 | h0 <;>
    rcases Nat.mod_two_eq_zero_or_one k' with h1 | h1 <;>
    rw [h0, h1] <;> simp only [Nat.sub_zero, Nat.mul_one, Nat.mul_zero, Nat.sub_self,
      Nat.shiftRight_zero, Nat.shiftLeft_zero]
    · have : k' = k := by omega
      rw [if_pos this, land_mod_256 (f (k/2)) _ (by decide : 15 <<< 4 < 256)]
      exact byte_lo_same _ hs v hv
    · have : k' ≠ k := by omega
      rw [if_neg this, land_mod_256 (f (k/2)) _ (by decide : 15 <<< 4 < 256), hqq,
        shr4_land_mod_256 (f (k/2))]
      exact byte_lo_other _ hs v hv
    · have : k' ≠ k := by omega
      rw [if_neg this, land_mod_256 (f (k/2)) _ (by norm_num : 15  < 256), hqq,
        land_mod_256 (f (k/2)) 15 (by norm_num)]
      exact byte_hi_other _ hs v hv
    · have : k' = k := by omega
      rw [if_pos this, land_mod_256 (f (k/2)) _ (by norm_num : 15 < 256)]
      exact byte_hi_same _ hs v hv
  · have : k' ≠ k := fun h => hqq (by rw [h])
    rw [if_neg hqq, if_neg this]

theorem writeNibble_lt (f : Nat → Nat) (k v : Nat) (hf : ∀ i, f i < 256) :
    ∀ i, writeNibble f k v i < 256 := by
  intro i
  unfold writeNibble
  split
  · exact Nat.mod_lt _ (by norm_num)
  · exact hf i

/-! ### Squares -/

theorem Pos.index_eq (pos : Pos) (h : pos.onBoard) :
    ((pos.index : Nat) : Int) = pos.column + pos.row * 8 ∧ pos.index < 64 := by
  obtain ⟨h1, h2, h3, h4⟩ := h
  unfold Pos.index
  constructor <;> omega

theorem Pos.index_inj (p q : Pos) (hp : p.onBoard) (hq : q.onBoard)
    (h : p.index = q.index) : p = q := by
  have h1 := (Pos.index_eq p hp).1
  have h2 := (Pos.index_eq q hq).1
  rw [h] at h1
  obtain ⟨a1, a2, a3, a4⟩ := hp
  obtain ⟨b1, b2, b3, b4⟩ := hq
  cases p; cases q
  simp only [Pos.mk.injEq] at *
  constructor <;> omega

theorem get_piece_at_eq (b : Board) (pos : Pos) (h : pos.onBoard) :
    b.get_piece_at pos = some (nibbleAt b.m_board pos.index &&& 7) := by
  have hi := Pos.index_eq pos h
  obtain ⟨h1, h2, h3, h4⟩ := h
  have hq : u8 ((pos.column + pos.row * 8) / 2) = pos.index >>> 1 := by
    rw [Nat.shiftRight_eq_div_pow]; unfold u8; omega
  have hn : u8 ((pos.column + pos.row * 8) % 2) = pos.index &&& 1 := by
    rw [Nat.and_one_is_mod]; unfold u8; omega
  unfold Board.get_piece_at nibbleAt
  rw [if_neg (by omega)]
  simp only [hq, hn, P_PIECE_MASK]
  rw [Nat.land_assoc]
  rfl

theorem get_color_at_eq (b : Board) (pos : Pos) (h : pos.onBoard) :
    b.get_color_at pos =
      some (if nibbleAt b.m_board pos.index = 0 then C_EMPTY
        else nibbleAt b.m_board pos.index >>> 3) := by
  obtain ⟨h1, h2, h3, h4⟩ := h
  unfold Board.get_color_at nibbleAt
  rw [if_neg (by omega)]
  simp only
  split <;> rfl

theorem set_piece_at_m_board (b : Board) (pos : Pos) (p : Piece) (c : Color) :
    (b.set_piece_at pos p c).m_board = writeNibble b.m_board pos.index (squareCode p c) := by
  unfold Board.set_piece_at writeNibble squareCode Board.set_king_pos
  simp only
  split <;> rfl

theorem squareCode_facts : ∀ p ≤ 6, ∀ c ≤ 1,
    squareCode p c < 16 ∧ squareCode p c &&& 7 = p ∧
    (squareCode p c = 0 ↔ (p = 0 ∧ c = 0)) ∧ (p ≠ 0 → squareCode p c >>> 3 = c) := by
  decide

theorem nibbleAt_set_piece_at (b : Board) (pos pos' : Pos) (p : Piece) (c : Color)
    (hp : p ≤ 6) (hc : c ≤ 1) (h : pos.onBoard) (h' : pos'.onBoard) :
    nibbleAt (b.set_piece_at pos p c).m_board pos'.index =
      if pos' = pos then squareCode p c else nibbleAt b.m_board pos'.index := by
  rw [set_piece_at_m_board, nibbleAt_writeNibble _ _ _ _ (squareCode_facts p hp c hc).1]
  by_cases hpp : pos' = pos
  · rw [if_pos hpp, if_pos (by rw [hpp])]
  · rw [if_neg hpp, if_neg (fun hi => hpp (Pos.index_inj _ _ h' h hi))]

/-- C4: on an on-board square, after `set_piece_at(pos, p, c)` with a piece code
`p` in Empty..King and a colour `c` in Black, White (Black for Empty),
`get_piece_at(pos)` is `p`, `get_color_at(pos)` is `c` for a piece and `C_EMPTY`
for Empty, and both getters return on every other on-board square what they
returned before the call. -/
theorem C4_set_piece_then_get (b : Board) (pos : Pos) (p : Piece) (c : Color)
    (hpos : pos.onBoard) (hp : p ≤ 6) (hc : c ≤ 1) (hpc : p = P_EMPTY → c = C_BLACK) :
    (b.set_piece_at pos p c).get_piece_at pos = some p ∧
    (b.set_piece_at pos p c).get_color_at pos = some (if p = P_EMPTY then C_EMPTY else c) ∧
    ∀ pos' : Pos, pos'.onBoard → pos' ≠ pos →
      (b.set_piece_at pos p c).get_piece_at pos' = b.get_piece_at pos' ∧
      (b.set_piece_at pos p c).get_color_at pos' = b.get_color_at pos' := by
  obtain ⟨f1, f2, f3, f4⟩ := squareCode_facts p hp c hc
  refine ⟨?_, ?_, ?_⟩
  · rw [get_piece_at_eq _ _ hpos, nibbleAt_set_piece_at b pos pos p c hp hc hpos hpos,
      if_pos rfl, f2]
  · rw [get_color_at_eq _ _ hpos, nibbleAt_set_piece_at b pos pos p c hp hc hpos hpos,
      if_pos rfl]
    by_cases h0 : p = P_EMPTY
    · have hc0 := hpc h0
      rw [if_pos h0, if_pos (f3.2 ⟨h0, hc0⟩)]
    · rw [if_neg h0, if_neg (fun hz => h0 (f3.1 hz).1), f4 h0]
  · intro pos' hpos' hne
    rw [get_piece_at_eq _ _ hpos', get_color_at_eq _ _ hpos', get_piece_at_eq _ _ hpos',
      get_color_at_eq _ _ hpos', nibbleAt_set_piece_at b pos pos' p c hp hc hpos hpos',
      if_neg hne]
    exact ⟨rfl, rfl⟩

/-! ### The piece-moving blocks of make_move and unmake_move -/

theorem set_piece_at_m_flags (b : Board) (pos : Pos) (p : Piece) (c : Color) :
    (b.set_piece_at pos p c).m_flags = b.m_flags := by
  unfold Board.set_piece_at Board.set_king_pos
  simp only
  split <;> rfl

theorem set_piece_at_m_key (b : Board) (pos : Pos) (p : Piece) (c : Color) :
    (b.set_piece_at pos p c).m_key = b.m_key := by
  unfold Board.set_piece_at Board.set_king_pos
  simp only
  split <;> rfl

theorem set_piece_at_m_half (b : Board) (pos : Pos) (p : Piece) (c : Color) :
    (b.set_piece_at pos p c).m_half_move_counter = b.m_half_move_counter := by
  unfold Board.set_piece_at Board.set_king_pos
  simp only
  split <;> rfl

theorem set_piece_at_m_ply (b : Board) (pos : Pos) (p : Piece) (c : Color) :
    (b.set_piece_at pos p c).m_ply_count = b.m_ply_count := by
  unfold Board.set_piece_at Board.set_king_pos
  simp only
  split <;> rfl

theorem set_piece_at_m_king_pos (b : Board) (pos : Pos) (p : Piece) (c : Color) :
    (b.set_piece_at pos p c).m_king_pos =
      if p = P_KING then (fun c' => if c' = c then pos else b.m_king_pos c')
      else b.m_king_pos := by
  unfold Board.set_piece_at Board.set_king_pos
  simp only
  split <;> rfl

theorem move_pieces_m_flags (env : Env) (b : Board) (m : Move) :
    (b.move_pieces env m).m_flags = b.m_flags := by
  unfold Board.move_pieces
  simp only
  split_ifs <;> simp only [set_piece_at_m_flags]

theorem move_pieces_m_key (env : Env) (b : Board) (m : Move) :
    (b.move_pieces env m).m_key = b.m_key := by
  unfold Board.move_pieces
  simp only
  split_ifs <;> simp only [set_piece_at_m_key]

theorem move_pieces_m_half (env : Env) (b : Board) (m : Move) :
    (b.move_pieces env m).m_half_move_counter = b.m_half_move_counter := by
  unfold Board.move_pieces
  simp only
  split_ifs <;> simp only [set_piece_at_m_half]

theorem move_pieces_m_ply (env : Env) (b : Board) (m : Move) :
    (b.move_pieces env m).m_ply_count = b.m_ply_count := by
  unfold Board.move_pieces
  simp only
  split_ifs <;> simp only [set_piece_at_m_ply]

theorem unmove_pieces_m_flags (env : Env) (b : Board) (m : Move) :
    (b.unmove_pieces env m).m_flags = b.m_flags := by
  unfold Board.unmove_pieces
  simp only
  split_ifs <;> simp only [set_piece_at_m_flags]

theorem unmove_pieces_m_key (env : Env) (b : Board) (m : Move) :
    (b.unmove_pieces env m).m_key = b.m_key := by
  unfold Board.unmove_pieces
  simp only
  split_ifs <;> simp only [set_piece_at_m_key]

theorem unmove_pieces_m_half (env : Env) (b : Board) (m : Move) :
    (b.unmove_pieces env m).m_half_move_counter = b.m_half_move_counter := by
  unfold Board.unmove_pieces
  simp only
  split_ifs <;> simp only [set_piece_at_m_half]

theorem unmove_pieces_m_ply (env : Env) (b : Board) (m : Move) :
    (b.unmove_pieces env m).m_ply_count = b.m_ply_count := by
  unfold Board.unmove_pieces
  simp only
  split_ifs <;> simp only [set_piece_at_m_ply]

theorem nibble_move_pieces (env : Env) (b : Board) (m : Move) (k : Nat)
    (h1 : squareCode (if m.promote then m.promote_piece else m.piece) m.color < 16)
    (h2 : m.color ≤ 1) :
    nibbleAt (b.move_pieces env m).m_board k =
      if m.castling = true ∧ k = (rook_dst m).index then squareCode P_ROOK m.color
      else if m.castling = true ∧ k = (rook_src m).index then 0
      else if m.en_passant = true ∧ k = (env.get_en_passant_pos b.m_flags).index then 0
      else if k = m.src.index then 0
      else if k = m.dst.index then
        squareCode (if m.promote then m.promote_piece else m.piece) m.color
      else nibbleAt b.m_board k := by
  have hr : squareCode P_ROOK m.color < 16 := (squareCode_facts P_ROOK (by decide) _ h2).1
  have h0 : squareCode P_EMPTY C_BLACK = 0 := by decide
  unfold Board.move_pieces
  cases hp : m.promote <;> cases he : m.en_passant <;> cases hc : m.castling <;>
    simp only [hp, if_true, if_false, Bool.false_eq_true, set_piece_at_m_board,
      set_piece_at_m_flags, true_and, false_and] at h1 ⊢ <;>
    simp only [nibbleAt_writeNibble _ _ _ _ h1, nibbleAt_writeNibble _ _ _ _ hr, h0,
      nibbleAt_writeNibble _ _ _ _ (by decide : 0 < 16)]

theorem nibble_unmove_pieces (env : Env) (b : Board) (m : Move) (k : Nat)
    (h1 : squareCode m.piece m.color < 16) (h2 : m.color ≤ 1)
    (h3 : squareCode m.taken_piece (if m.takes then other_color m.color else C_BLACK) < 16)
    (h4 : squareCode P_PAWN (if m.takes then other_color m.color else C_BLACK) < 16) :
    nibbleAt (b.unmove_pieces env m).m_board k =
      if m.castling = true ∧ k = (rook_dst m).index then 0
      else if m.castling = true ∧ k = (rook_src m).index then squareCode P_ROOK m.color
      else if m.en_passant = true then
        (if k = m.dst.index then 0
         else if k = (env.get_en_passant_pos b.m_flags).index then
           squareCode P_PAWN (if m.takes then other_color m.color else C_BLACK)
         else if k = m.src.index then squareCode m.piece m.color
         else nibbleAt b.m_board k)
      else
        (if k = m.dst.index then
           squareCode m.taken_piece (if m.takes then other_color m.color else C_BLACK)
         else if k = m.src.index then squareCode m.piece m.color
         else nibbleAt b.m_board k) := by
  have hr : squareCode P_ROOK m.color < 16 := (squareCode_facts P_ROOK (by decide) _ h2).1
  have h0 : squareCode P_EMPTY C_BLACK = 0 := by decide
  unfold Board.unmove_pieces
  cases he : m.en_passant <;> cases hc : m.castling <;>
    simp only [if_true, if_false, Bool.false_eq_true, set_piece_at_m_board,
      set_piece_at_m_flags, true_and, false_and] <;>
    simp only [nibbleAt_writeNibble _ _ _ _ h1, nibbleAt_writeNibble _ _ _ _ hr, h0,
      nibbleAt_writeNibble _ _ _ _ h3, nibbleAt_writeNibble _ _ _ _ h4,
      nibbleAt_writeNibble _ _ _ _ (by decide : 0 < 16)]

/-! ### Make / unmake round trip -/

theorem Board.ext_fields (a b : Board) (h1 : a.m_board = b.m_board) (h2 : a.m_flags = b.m_flags)
    (h3 : a.m_key = b.m_key) (h4 : a.m_half_move_counter = b.m_half_move_counter)
    (h5 : a.m_ply_count = b.m_ply_count) (h6 : a.m_king_pos = b.m_king_pos) : a = b := by
  cases a; cases b; simp only [Board.mk.injEq]; exact ⟨h1, h2, h3, h4, h5, h6⟩

theorem nibbleAt_lt (f : Nat → Nat) (k : Nat) : nibbleAt f k < 16 := by
  unfold nibbleAt
  have := Nat.and_pow_two_sub_one_eq_mod (f (k >>> 1) >>> (4 * (k &&& 1))) 4
  simp only [Nat.reducePow, Nat.add_one_sub_one] at this
  rw [this]
  exact Nat.mod_lt _ (by norm_num)

/-- Two byte arrays with the same nibbles are equal. -/
theorem array_ext (f g : Nat → Nat) (hf : ∀ i, f i < 256) (hg : ∀ i, g i < 256)
    (h : ∀ k, nibbleAt f k = nibbleAt g k) : f = g := by
  funext i
  have h0 := h (2 * i)
  have h1 := h (2 * i + 1)
  unfold nibbleAt at h0 h1
  have e0 : (2 * i) >>> 1 = i := by rw [Nat.shiftRight_eq_div_pow]; omega
  have e1 : (2 * i + 1) >>> 1 = i := by rw [Nat.shiftRight_eq_div_pow]; omega
  have n0 : (2 * i) &&& 1 = 0 := by rw [Nat.and_one_is_mod]; omega
  have n1 : (2 * i + 1) &&& 1 = 1 := by rw [Nat.and_one_is_mod]; omega
  rw [e0, n0] at h0
  rw [e1, n1] at h1
  have a1 := Nat.and_pow_two_sub_one_eq_mod (f i >>> (4 * 0)) 4
  have a2 := Nat.and_pow_two_sub_one_eq_mod (g i >>> (4 * 0)) 4
  have a3 := Nat.and_pow_two_sub_one_eq_mod (f i >>> (4 * 1)) 4
  have a4 := Nat.and_pow_two_sub_one_eq_mod (g i >>> (4 * 1)) 4
  simp only [Nat.reducePow, Nat.add_one_sub_one, Nat.reduceMul] at a1 a2 a3 a4
  simp only [Nat.reduceMul] at h0 h1
  rw [a1, a2] at h0
  rw [a3, a4] at h1
  simp only [Nat.shiftRight_zero] at h0
  rw [Nat.shiftRight_eq_div_pow, Nat.shiftRight_eq_div_pow] at h1
  have := hf i
  have := hg i
  omega

theorem nibble_of_square : ∀ v < 16, ∀ p ≤ 6, ∀ c ≤ 1,
    v &&& 7 = p → (if v = 0 then C_EMPTY else v >>> 3) = c → v = squareCode p c := by
  decide

theorem nibble_of_empty_square : ∀ v < 16, (if v = 0 then C_EMPTY else v >>> 3) = C_EMPTY →
    v = 0 := by
  decide

/-- A square on which the getters report piece `p` of colour `c` holds the code of `(p, c)`. -/
theorem nibbleAt_of_holds (b : Board) (pos : Pos) (p : Piece) (c : Color) (h : pos.onBoard)
    (hp : p ≤ 6) (hc : c ≤ 1) (h1 : b.get_piece_at pos = some p)
    (h2 : b.get_color_at pos = some c) : nibbleAt b.m_board pos.index = squareCode p c := by
  rw [get_piece_at_eq _ _ h] at h1
  rw [get_color_at_eq _ _ h] at h2
  exact nibble_of_square _ (nibbleAt_lt _ _) p hp c hc (Option.some.inj h1) (Option.some.inj h2)

/-- A square on which `get_color_at` reports `C_EMPTY` holds the code 0. -/
theorem nibbleAt_of_empty (b : Board) (pos : Pos) (h : pos.onBoard)
    (h2 : b.get_color_at pos = some C_EMPTY) : nibbleAt b.m_board pos.index = 0 := by
  rw [get_color_at_eq _ _ h] at h2
  exact nibble_of_empty_square _ (nibbleAt_lt _ _) (Option.some.inj h2)

theorem other_color_le : ∀ c ≤ 1, other_color c ≤ 1 := by decide

theorem wf_set_piece_at (b : Board) (pos : Pos) (p : Piece) (c : Color) (h : b.wf) :
    (b.set_piece_at pos p c).wf := by
  unfold Board.wf
  rw [set_piece_at_m_board]
  exact writeNibble_lt _ _ _ h

theorem wf_move_pieces (env : Env) (b : Board) (m : Move) (h : b.wf) :
    (b.move_pieces env m).wf := by
  unfold Board.move_pieces
  simp only
  split_ifs <;> repeat (first | exact h | apply wf_set_piece_at)

theorem wf_unmove_pieces (env : Env) (b : Board) (m : Move) (h : b.wf) :
    (b.unmove_pieces env m).wf := by
  unfold Board.unmove_pieces
  simp only
  split_ifs <;> repeat (first | exact h | apply wf_set_piece_at)

theorem rook_squares (m : Move) (h : m.src.onBoard) (hc : m.dst.column = 6 ∨ m.dst.column = 2) :
    rook_src m = ⟨m.src.row, if m.dst.column = 6 then 7 else 0⟩ ∧
    rook_dst m = ⟨m.src.row, if m.dst.column = 6 then 5 else 3⟩ := by
  obtain ⟨h1, h2, h3, h4⟩ := h
  have hr : i8 (u8 m.src.row) = m.src.row := by unfold i8 u8; split <;> omega
  unfold rook_src rook_dst
  rw [hr]
  rcases hc with hc | hc <;> rw [hc] <;> constructor <;> rfl


theorem move_pieces_m_king_pos (env : Env) (b : Board) (m : Move) :
    (b.move_pieces env m).m_king_pos =
      if (if m.promote then m.promote_piece else m.piece) = P_KING then
        (fun c' => if c' = m.color then m.dst else b.m_king_pos c')
      else b.m_king_pos := by
  have e1 : ¬ (P_EMPTY = P_KING) := by decide
  have e2 : ¬ (P_ROOK = P_KING) := by decide
  unfold Board.move_pieces
  cases hp : m.promote <;> cases he : m.en_passant <;> cases hc : m.castling <;>
    simp only [if_true, if_false, Bool.false_eq_true, set_piece_at_m_king_pos, e1, e2]

theorem unmove_pieces_m_king_pos (env : Env) (b : Board) (m : Move)
    (ht : m.en_passant = false → m.taken_piece ≠ P_KING) :
    (b.unmove_pieces env m).m_king_pos =
      if m.piece = P_KING then (fun c' => if c' = m.color then m.src else b.m_king_pos c')
      else b.m_king_pos := by
  have e1 : ¬ (P_EMPTY = P_KING) := by decide
  have e2 : ¬ (P_ROOK = P_KING) := by decide
  have e3 : ¬ (P_PAWN = P_KING) := by decide
  unfold Board.unmove_pieces
  cases he : m.en_passant
  · have ht' := ht he
    cases hc : m.castling <;>
      simp only [if_true, if_false, Bool.false_eq_true, set_piece_at_m_king_pos, e1, e2, e3,
        ht']
  · cases hc : m.castling <;>
      simp only [if_true, if_false, Bool.false_eq_true, set_piece_at_m_king_pos, e1, e2, e3]

theorem castle_key_step_m_board (env : Env) (b : Board) (m : Move) :
    (b.castle_key_step env m).m_board = b.m_board := by
  unfold Board.castle_key_step Board.set_castle_rights
  simp only
  split <;> rfl

theorem castle_key_step_m_king_pos (env : Env) (b : Board) (m : Move) :
    (b.castle_key_step env m).m_king_pos = b.m_king_pos := by
  unfold Board.castle_key_step Board.set_castle_rights
  simp only
  split <;> rfl

theorem castle_key_step_m_flags (env : Env) (b : Board) (m : Move) :
    (b.castle_key_step env m).m_flags =
      if new_castle_rights b.get_castle_rights m ≠ b.get_castle_rights then
        { b.m_flags with castle_rights := new_castle_rights b.get_castle_rights m }
      else b.m_flags := by
  unfold Board.castle_key_step Board.set_castle_rights
  simp only
  split <;> rfl

theorem make_move_m_board (env : Env) (b : Board) (m : Move) :
    (b.make_move env m).m_board = ((b.castle_key_step env m).move_pieces env m).m_board := by
  unfold Board.make_move Board.castle_key_step Board.set_king_checked Board.set_next_move
    Board.set_en_passant_pos
  simp only
  split_ifs <;> rfl

theorem make_move_m_king_pos (env : Env) (b : Board) (m : Move) :
    (b.make_move env m).m_king_pos =
      ((b.castle_key_step env m).move_pieces env m).m_king_pos := by
  unfold Board.make_move Board.castle_key_step Board.set_king_checked Board.set_next_move
    Board.set_en_passant_pos
  simp only
  split_ifs <;> rfl

theorem make_move_m_ply (env : Env) (b : Board) (m : Move) :
    (b.make_move env m).m_ply_count = b.m_ply_count + 1 := by
  have h : ((b.castle_key_step env m).move_pieces env m).m_ply_count = b.m_ply_count := by
    rw [move_pieces_m_ply]
    unfold Board.castle_key_step Board.set_castle_rights
    simp only
    split <;> rfl
  rw [← h]
  unfold Board.make_move Board.castle_key_step Board.set_king_checked Board.set_next_move
    Board.set_en_passant_pos
  simp only
  split_ifs <;> rfl

/-- An en-passant capture by a pawn leaves the castling rights alone. -/
theorem new_castle_rights_pawn (old : Nat) (m : Move) (hp : m.piece = P_PAWN)
    (ht : m.taken_piece = P_PAWN ∨ m.taken_piece = P_EMPTY) :
    new_castle_rights old m = old := by
  have e1 : ¬ (P_PAWN = P_ROOK) := by decide
  have e2 : ¬ (P_PAWN = P_KING) := by decide
  have e3 : ¬ (P_EMPTY = P_ROOK) := by decide
  unfold new_castle_rights castle_rights_by_capturing castle_rights_by_moving
  rcases ht with ht | ht <;> simp only [hp, ht, e1, e2, e3, if_false, and_false]

theorem rook_onBoard (m : Move) (h : m.src.onBoard)
    (hc : m.dst.column = 6 ∨ m.dst.column = 2) :
    (rook_src m).onBoard ∧ (rook_dst m).onBoard := by
  obtain ⟨r1, r2⟩ := rook_squares m h hc
  obtain ⟨x1, x2, x3, x4⟩ := h
  rw [r1, r2]
  rcases hc with hc | hc <;> rw [hc] <;>
    refine ⟨⟨x1, x2, ?_, ?_⟩, ⟨x1, x2, ?_, ?_⟩⟩ <;> simp

theorem squareCode_lt (p : Piece) (c : Color) (hp : p ≤ 6) (hc : c ≤ 1) : squareCode p c < 16 :=
  (squareCode_facts p hp c hc).1

/-- The squares of the board after `make_move` then `unmake_move` of a legal record. -/
theorem roundtrip_m_board (env : Env) (P : Board) (m : Move) (hwf : P.wf)
    (hm : LegalRecord env P m) (B : Board)
    (hB1 : B.m_board = (P.make_move env m).m_board) (hB2 : B.m_flags = P.m_flags) :
    (B.unmove_pieces env m).m_board = P.m_board := by
  obtain ⟨⟨hs1, hs2, hs3⟩, ⟨hsrc, hdst, hne, hc, hp1, hp6, hps, hcs, hk, -⟩,
    ⟨ht1, ht2, ht3, ht4⟩, hep, hca⟩ := hm
  have hBwf : B.wf := by
    unfold Board.wf; rw [hB1, make_move_m_board]
    apply wf_move_pieces
    unfold Board.wf; rw [castle_key_step_m_board]; exact hwf
  apply array_ext _ _ (wf_unmove_pieces env B m hBwf) hwf
  intro k
  have hoc := other_color_le m.color hc
  have hclr : (if m.takes = true then other_color m.color else C_BLACK) ≤ 1 := by
    split
    · exact hoc
    · decide
  have hS : nibbleAt P.m_board m.src.index = squareCode m.piece m.color :=
    nibbleAt_of_holds P m.src m.piece m.color hsrc hp6 hc hps hcs
  have htk : m.taken_piece ≤ 6 := by
    cases htk : m.takes
    · rw [ht2 htk]; decide
    · cases he : m.en_passant
      · exact Nat.le_trans (ht1 htk he).2.1 (by decide)
      · rcases (hep he).2.2.2.1 with h | h <;> rw [h] <;> decide
  have hmoved : (if m.promote = true then m.promote_piece else m.piece) ≤ 6 := by
    split
    · rename_i h; exact Nat.le_trans (ht4 h).2.2 (by decide)
    · exact hp6
  rw [nibble_unmove_pieces env B m k (squareCode_lt _ _ hp6 hc) hc
      (squareCode_lt _ _ htk hclr) (squareCode_lt _ _ (by decide) hclr),
    hB1, make_move_m_board, nibble_move_pieces env _ m k (squareCode_lt _ _ hmoved hc) hc,
    castle_key_step_m_board, hB2]
  cases he : m.en_passant
  · cases hcas : m.castling
    · simp only [Bool.false_eq_true, false_and, if_false]
      cases htk' : m.takes
      · have hD := nibbleAt_of_empty P m.dst hdst (ht3 (Or.inl htk'))
        rw [ht2 htk']
        simp only [Bool.false_eq_true, if_false]
        have : squareCode P_EMPTY C_BLACK = 0 := by decide
        rw [this]
        split_ifs with h1 h2
        · rw [h1, hD]
        · rw [h2, hS]
        · rfl
      · obtain ⟨a1, a2, a3, a4⟩ := ht1 htk' he
        have hD := nibbleAt_of_holds P m.dst m.taken_piece _ hdst htk hoc a3 a4
        simp only [if_true]
        split_ifs with h1 h2
        · rw [h1, hD]
        · rw [h2, hS]
        · rfl
    · obtain ⟨c1, c2, c3, c4, c5, c6, c7, c8⟩ := hca hcas
      obtain ⟨hrs, hrd⟩ := rook_onBoard m hsrc c5
      have hRS := nibbleAt_of_holds P _ P_ROOK m.color hrs (by decide) hc c6 c7
      have hRD := nibbleAt_of_empty P _ hrd c8
      have hD := nibbleAt_of_empty P m.dst hdst (ht3 (Or.inl c2))
      rw [ht2 c2, c2]
      have : squareCode P_EMPTY C_BLACK = 0 := by decide
      simp only [Bool.false_eq_true, if_false, true_and, false_and, this]
      split_ifs with h1 h2 h3 h4
      · rw [h1, hRD]
      · rw [h2, hRS]
      · rw [h3, hD]
      · rw [h4, hS]
      · rfl
  · obtain ⟨e1, e2, e3, e4, e5, e6, e7, e8, e9⟩ := hep he
    have hE := nibbleAt_of_holds P _ P_PAWN _ e5 (by decide) hoc e8 e9
    have hD := nibbleAt_of_empty P m.dst hdst (ht3 (Or.inr he))
    have hfl : (P.castle_key_step env m).m_flags = P.m_flags := by
      rw [castle_key_step_m_flags, new_castle_rights_pawn _ m e2 e4]
      simp only [ne_eq, not_true_eq_false, if_false]
    rw [hfl, e1, e3]
    simp only [Bool.false_eq_true, if_false, if_true, true_and, false_and]
    split_ifs with h1 h2 h3
    · rw [h1, hD]
    · rw [h2, hE]
    · rw [h3, hS]
    · rfl

theorem roundtrip_m_king_pos (env : Env) (P : Board) (m : Move)
    (hm : LegalRecord env P m) (B : Board)
    (hB1 : B.m_king_pos = (P.make_move env m).m_king_pos) :
    (B.unmove_pieces env m).m_king_pos = P.m_king_pos := by
  obtain ⟨-, ⟨hsrc, hdst, hne, hc, hp1, hp6, hps, hcs, hk, -⟩, ⟨ht1, ht2, ht3, ht4⟩, hep, hca⟩ := hm
  have e1 : ¬ (P_EMPTY = P_KING) := by decide
  have e2 : ¬ (P_PAWN = P_KING) := by decide
  have htk : m.en_passant = false → m.taken_piece ≠ P_KING := by
    intro he
    cases htk : m.takes
    · rw [ht2 htk]; exact e1
    · have := (ht1 htk he).2.1
      intro h; rw [h] at this; exact absurd this (by decide)
  rw [unmove_pieces_m_king_pos env B m htk, hB1, make_move_m_king_pos, move_pieces_m_king_pos,
    castle_key_step_m_king_pos]
  by_cases hK : m.piece = P_KING
  · have hpr : m.promote = false := by
      cases hpr : m.promote
      · rfl
      · have := (ht4 hpr).1; rw [hK] at this; exact absurd this (by decide)
    have hkk := hk hK
    unfold Board.get_king_pos at hkk
    rw [hpr]
    simp only [Bool.false_eq_true, if_false, hK, if_true]
    funext c'
    by_cases hcc : c' = m.color
    · rw [if_pos hcc, hcc, hkk]
    · rw [if_neg hcc, if_neg hcc]
  · have hmv : ¬ ((if m.promote = true then m.promote_piece else m.piece) = P_KING) := by
      split
      · rename_i h
        have := (ht4 h).2.2
        intro h'; rw [h'] at this; exact absurd this (by decide)
      · exact hK
    rw [if_neg hK, if_neg hmv]

/-- Undoing a legal move just made gives back the position it was made in. -/
theorem unmake_make (env : Env) (P : Board) (m : Move) (hwf : P.wf)
    (hm : LegalRecord env P m) : (P.make_move env m).unmake_move env m = P := by
  have hs := hm.1
  obtain ⟨hs1, hs2, hs3⟩ := hs
  have hb := roundtrip_m_board env P m hwf hm
    { (P.make_move env m) with m_flags := m.m_board_state_before,
                               m_key := m.m_board_key_before } rfl hs1
  have hkp := roundtrip_m_king_pos env P m hm
    { (P.make_move env m) with m_flags := m.m_board_state_before,
                               m_key := m.m_board_key_before } rfl
  apply Board.ext_fields
  · exact hb
  · show (Board.unmove_pieces env _ m).m_flags = P.m_flags
    rw [unmove_pieces_m_flags]; exact hs1
  · show (Board.unmove_pieces env _ m).m_key = P.m_key
    rw [unmove_pieces_m_key]; exact hs2
  · exact hs3
  · show (Board.unmove_pieces env _ m).m_ply_count - 1 = P.m_ply_count
    rw [unmove_pieces_m_ply]
    show (P.make_move env m).m_ply_count - 1 = P.m_ply_count
    rw [make_move_m_ply]; exact Nat.add_sub_cancel _ _
  · exact hkp

/-- C1: for a board `P` (bytes in its packed array) and a legal move record
built from `P` (snapshot, piece, colour and captured piece agreeing with `P`),
`make_move` followed by `unmake_move` gives back `P` itself: squares, flags
(side to move, castling rights, en-passant state, check bits), king squares,
halfmove counter, ply count and hash key. -/
theorem C1_make_unmake_roundtrip (env : Env) (P : Board) (m : Move) (hwf : P.wf)
    (hm : LegalRecord env P m) : (P.make_move env m).unmake_move env m = P :=
  unmake_make env P m hwf hm

/-! ### Sample inputs -/

theorem emptyBoard_wf : emptyBoard.wf := by
  intro i; show (0 : Nat) < 256; decide

theorem sampleBoard_wf : sampleBoard.wf := by
  show sampleSquares.wf
  unfold sampleSquares
  repeat (first | exact emptyBoard_wf | apply wf_set_piece_at)

set_option maxRecDepth 100000 in
/-- Witness of C1 on the sample position: a quiet move, a capture with
promotion, a promotion, a castling move and an en-passant capture. -/
theorem C1_witness :
    (LegalRecord sampleEnv sampleBoard quietMove ∧
      (sampleBoard.make_move sampleEnv quietMove).unmake_move sampleEnv quietMove =
        sampleBoard) ∧
    (LegalRecord sampleEnv sampleBoard captureMove ∧
      (sampleBoard.make_move sampleEnv captureMove).unmake_move sampleEnv captureMove =
        sampleBoard) ∧
    (LegalRecord sampleEnv sampleBoard promotionMove ∧
      (sampleBoard.make_move sampleEnv promotionMove).unmake_move sampleEnv promotionMove =
        sampleBoard) ∧
    (LegalRecord sampleEnv sampleBoard castlingMove ∧
      (sampleBoard.make_move sampleEnv castlingMove).unmake_move sampleEnv castlingMove =
        sampleBoard) ∧
    (LegalRecord sampleEnv sampleBoard enPassantMove ∧
      (sampleBoard.make_move sampleEnv enPassantMove).unmake_move sampleEnv enPassantMove =
        sampleBoard) :=
  ⟨⟨by decide, C1_make_unmake_roundtrip sampleEnv sampleBoard quietMove sampleBoard_wf
      (by decide)⟩,
   ⟨by decide, C1_make_unmake_roundtrip sampleEnv sampleBoard captureMove sampleBoard_wf
      (by decide)⟩,
   ⟨by decide, C1_make_unmake_roundtrip sampleEnv sampleBoard promotionMove sampleBoard_wf
      (by decide)⟩,
   ⟨by decide, C1_make_unmake_roundtrip sampleEnv sampleBoard castlingMove sampleBoard_wf
      (by decide)⟩,
   ⟨by decide, C1_make_unmake_roundtrip sampleEnv sampleBoard enPassantMove sampleBoard_wf
      (by decide)⟩⟩

set_option maxRecDepth 100000 in
/-- Witness of C4: a white queen put on e4 of the sample position. -/
theorem C4_witness :
    (sampleBoard.set_piece_at ⟨3, 4⟩ P_QUEEN C_WHITE).get_piece_at ⟨3, 4⟩ = some P_QUEEN ∧
    (sampleBoard.set_piece_at ⟨3, 4⟩ P_QUEEN C_WHITE).get_color_at ⟨3, 4⟩ =
      some (if P_QUEEN = P_EMPTY then C_EMPTY else C_WHITE) ∧
    ∀ pos' : Pos, pos'.onBoard → pos' ≠ ⟨3, 4⟩ →
      (sampleBoard.set_piece_at ⟨3, 4⟩ P_QUEEN C_WHITE).get_piece_at pos' =
        sampleBoard.get_piece_at pos' ∧
      (sampleBoard.set_piece_at ⟨3, 4⟩ P_QUEEN C_WHITE).get_color_at pos' =
        sampleBoard.get_color_at pos' :=
  C4_set_piece_then_get sampleBoard ⟨3, 4⟩ P_QUEEN C_WHITE (by decide) (by decide) (by decide)
    (by decide)

/-! ### Null move -/

/-- C2: for a board `P` whose halfmove counter fits the 8-bit field of the
record, and the `NullMove` record built from `P`, `make_null_move` followed by
`unmake_null_move` gives back `P` itself: squares, flags (side to move and
en-passant state included), hash key, halfmove counter, ply count and king
squares. -/
theorem C2_null_move_roundtrip (env : Env) (P : Board) (h : P.m_half_move_counter < 256) :
    (P.make_null_move env (NullMove.ofBoard P)).unmake_null_move (NullMove.ofBoard P) = P := by
  apply Board.ext_fields
  · unfold Board.make_null_move Board.unmake_null_move Board.set_next_move
      Board.set_en_passant_pos
    simp only
    split <;> rfl
  · rfl
  · rfl
  · show P.m_half_move_counter % 256 = P.m_half_move_counter
    exact Nat.mod_eq_of_lt h
  · unfold Board.make_null_move Board.unmake_null_move Board.set_next_move
      Board.set_en_passant_pos
    simp only
    split <;> exact Nat.add_sub_cancel _ _
  · unfold Board.make_null_move Board.unmake_null_move Board.set_next_move
      Board.set_en_passant_pos
    simp only
    split <;> rfl

/-- Witness of C2 on the sample position. -/
theorem C2_witness :
    sampleBoard.m_half_move_counter < 256 ∧
    (sampleBoard.make_null_move sampleEnv (NullMove.ofBoard sampleBoard)).unmake_null_move
      (NullMove.ofBoard sampleBoard) = sampleBoard :=
  ⟨by decide, C2_null_move_roundtrip sampleEnv sampleBoard (by decide)⟩

/-! ### Squares after make_move -/

theorem nibble_make_move (env : Env) (b : Board) (m : Move) (k : Nat)
    (h1 : squareCode (if m.promote then m.promote_piece else m.piece) m.color < 16)
    (h2 : m.color ≤ 1) :
    nibbleAt (b.make_move env m).m_board k =
      if m.castling = true ∧ k = (rook_dst m).index then squareCode P_ROOK m.color
      else if m.castling = true ∧ k = (rook_src m).index then 0
      else if m.en_passant = true ∧
          k = (env.get_en_passant_pos (b.castle_key_step env m).m_flags).index then 0
      else if k = m.src.index then 0
      else if k = m.dst.index then
        squareCode (if m.promote then m.promote_piece else m.piece) m.color
      else nibbleAt b.m_board k := by
  rw [make_move_m_board, nibble_move_pieces env _ m k h1 h2, castle_key_step_m_board]

/-- C5: for a move that is neither castling nor en passant, with source and
destination two different squares of the board and the piece put down a piece
code Pawn..King of colour Black or White, after `make_move` the source square
is empty, the destination square holds the promotion piece if the move
promotes and the moving piece otherwise, in the mover's colour, and every
other square of the board reads as before. -/
theorem C5_make_move_squares (env : Env) (P : Board) (m : Move)
    (hcas : m.castling = false) (hep : m.en_passant = false)
    (hsrc : m.src.onBoard) (hdst : m.dst.onBoard) (hne : m.src ≠ m.dst)
    (hc : m.color ≤ 1)
    (hp : 1 ≤ (if m.promote then m.promote_piece else m.piece) ∧
      (if m.promote then m.promote_piece else m.piece) ≤ 6) :
    (P.make_move env m).get_piece_at m.src = some P_EMPTY ∧
    (P.make_move env m).get_color_at m.src = some C_EMPTY ∧
    (P.make_move env m).get_piece_at m.dst =
      some (if m.promote then m.promote_piece else m.piece) ∧
    (P.make_move env m).get_color_at m.dst = some m.color ∧
    ∀ pos : Pos, pos.onBoard → pos ≠ m.src → pos ≠ m.dst →
      (P.make_move env m).get_piece_at pos = P.get_piece_at pos ∧
      (P.make_move env m).get_color_at pos = P.get_color_at pos := by
  obtain ⟨f1, f2, f3, f4⟩ := squareCode_facts _ hp.2 _ hc
  have hp0 : (if m.promote = true then m.promote_piece else m.piece) ≠ 0 :=
    Nat.pos_iff_ne_zero.mp hp.1
  have hsd : m.src.index ≠ m.dst.index := fun h => hne (Pos.index_inj _ _ hsrc hdst h)
  have key : ∀ k, nibbleAt (P.make_move env m).m_board k =
      if k = m.src.index then 0
      else if k = m.dst.index then
        squareCode (if m.promote then m.promote_piece else m.piece) m.color
      else nibbleAt P.m_board k := by
    intro k
    rw [nibble_make_move env P m k f1 hc, hcas, hep]
    simp only [Bool.false_eq_true, false_and, if_false]
  refine ⟨?_, ?_, ?_, ?_, ?_⟩
  · rw [get_piece_at_eq _ _ hsrc, key, if_pos rfl]; rfl
  · rw [get_color_at_eq _ _ hsrc, key, if_pos rfl]; rfl
  · rw [get_piece_at_eq _ _ hdst, key, if_neg (Ne.symm hsd), if_pos rfl, f2]
  · rw [get_color_at_eq _ _ hdst, key, if_neg (Ne.symm hsd), if_pos rfl,
      if_neg (fun h => hp0 (f3.1 h).1), f4 hp0]
  · intro pos hpos h1 h2
    have i1 : pos.index ≠ m.src.index := fun h => h1 (Pos.index_inj _ _ hpos hsrc h)
    have i2 : pos.index ≠ m.dst.index := fun h => h2 (Pos.index_inj _ _ hpos hdst h)
    rw [get_piece_at_eq _ _ hpos, get_color_at_eq _ _ hpos, get_piece_at_eq _ _ hpos,
      get_color_at_eq _ _ hpos, key, if_neg i1, if_neg i2]
    exact ⟨rfl, rfl⟩

set_option maxRecDepth 100000 in
/-- Witness of C5: the capture with promotion b7xa8=Q in the sample position. -/
theorem C5_witness :
    (sampleBoard.make_move sampleEnv captureMove).get_piece_at captureMove.src =
      some P_EMPTY ∧
    (sampleBoard.make_move sampleEnv captureMove).get_color_at captureMove.src =
      some C_EMPTY ∧
    (sampleBoard.make_move sampleEnv captureMove).get_piece_at captureMove.dst =
      some (if captureMove.promote then captureMove.promote_piece else captureMove.piece) ∧
    (sampleBoard.make_move sampleEnv captureMove).get_color_at captureMove.dst =
      some captureMove.color ∧
    ∀ pos : Pos, pos.onBoard → pos ≠ captureMove.src → pos ≠ captureMove.dst →
      (sampleBoard.make_move sampleEnv captureMove).get_piece_at pos =
        sampleBoard.get_piece_at pos ∧
      (sampleBoard.make_move sampleEnv captureMove).get_color_at pos =
        sampleBoard.get_color_at pos :=
  C5_make_move_squares sampleEnv sampleBoard captureMove (by decide) (by decide) (by decide)
    (by decide) (by decide) (by decide) (by decide)

/-! ### Castling -/

theorem unmake_move_m_board (env : Env) (b : Board) (m : Move) :
    (b.unmake_move env m).m_board =
      (Board.unmove_pieces env
        { b with m_flags := m.m_board_state_before, m_key := m.m_board_key_before } m).m_board :=
  rfl

/-- C6: for a castling move of a king standing on row `r` of the board (no
capture, no promotion, colour Black or White) whose destination column is 6
or 2: after `make_move` the mover's rook stands on `{r,5}` and `{r,7}` is empty
when the column is 6, it stands on `{r,3}` and `{r,0}` is empty when the column
is 2; and after `unmake_move` (on any board) the mover's rook stands on the
corner `{r,7}`, respectively `{r,0}`, and the square `{r,5}`, respectively
`{r,3}`, is empty. -/
theorem C6_castling_rook (env : Env) (P B : Board) (m : Move)
    (hcas : m.castling = true) (hk : m.piece = P_KING) (hpr : m.promote = false)
    (htk : m.takes = false) (htp : m.taken_piece = P_EMPTY)
    (hsrc : m.src.onBoard) (hc : m.color ≤ 1)
    (hcol : m.dst.column = 6 ∨ m.dst.column = 2) :
    let corner : Pos := ⟨m.src.row, if m.dst.column = 6 then 7 else 0⟩
    let transit : Pos := ⟨m.src.row, if m.dst.column = 6 then 5 else 3⟩
    ((P.make_move env m).get_piece_at transit = some P_ROOK ∧
      (P.make_move env m).get_color_at transit = some m.color ∧
      (P.make_move env m).get_piece_at corner = some P_EMPTY ∧
      (P.make_move env m).get_color_at corner = some C_EMPTY) ∧
    ((B.unmake_move env m).get_piece_at corner = some P_ROOK ∧
      (B.unmake_move env m).get_color_at corner = some m.color ∧
      (B.unmake_move env m).get_piece_at transit = some P_EMPTY ∧
      (B.unmake_move env m).get_color_at transit = some C_EMPTY) := by
  intro corner transit
  obtain ⟨r1, r2⟩ := rook_squares m hsrc hcol
  obtain ⟨o1, o2⟩ := rook_onBoard m hsrc hcol
  have hc1 : corner = rook_src m := r1.symm
  have hc2 : transit = rook_dst m := r2.symm
  have hne : (rook_src m).index ≠ (rook_dst m).index := by
    intro h
    have := Pos.index_inj _ _ o1 o2 h
    rw [r1, r2] at this
    rcases hcol with hcol | hcol <;> rw [hcol] at this <;> simp at this
  obtain ⟨f1, f2, f3, f4⟩ := squareCode_facts P_ROOK (by decide) _ hc
  have hr0 : P_ROOK ≠ 0 := by decide
  have hmv : squareCode (if m.promote = true then m.promote_piece else m.piece) m.color < 16 := by
    rw [hpr, hk]; simp only [Bool.false_eq_true, if_false]
    exact squareCode_lt _ _ (by decide) hc
  have h1 : squareCode m.piece m.color < 16 := by
    rw [hk]; exact squareCode_lt _ _ (by decide) hc
  have h3 : squareCode m.taken_piece (if m.takes = true then other_color m.color else C_BLACK)
      < 16 := by
    rw [htp, htk]; simp only [Bool.false_eq_true, if_false]; decide
  have h4 : squareCode P_PAWN (if m.takes = true then other_color m.color else C_BLACK)
      < 16 := by
    rw [htk]; simp only [Bool.false_eq_true, if_false]; decide
  have keyM1 : nibbleAt (P.make_move env m).m_board (rook_dst m).index =
      squareCode P_ROOK m.color := by
    rw [nibble_make_move env P m _ hmv hc]
    simp only [hcas, true_and, if_true]
  have keyM2 : nibbleAt (P.make_move env m).m_board (rook_src m).index = 0 := by
    rw [nibble_make_move env P m _ hmv hc]
    simp only [hcas, true_and, if_true, hne, if_false]
  have keyU1 : nibbleAt (B.unmake_move env m).m_board (rook_dst m).index = 0 := by
    rw [unmake_move_m_board, nibble_unmove_pieces env _ m _ h1 hc h3 h4]
    simp only [hcas, true_and, if_true]
  have keyU2 : nibbleAt (B.unmake_move env m).m_board (rook_src m).index =
      squareCode P_ROOK m.color := by
    rw [unmake_move_m_board, nibble_unmove_pieces env _ m _ h1 hc h3 h4]
    simp only [hcas, true_and, if_true, hne, if_false]
  have hz : ¬ (squareCode P_ROOK m.color = 0) := fun h => hr0 (f3.1 h).1
  rw [hc1, hc2]
  refine ⟨⟨?_, ?_, ?_, ?_⟩, ⟨?_, ?_, ?_, ?_⟩⟩
  · rw [get_piece_at_eq _ _ o2, keyM1, f2]
  · rw [get_color_at_eq _ _ o2, keyM1, if_neg hz, f4 hr0]
  · rw [get_piece_at_eq _ _ o1, keyM2]; rfl
  · rw [get_color_at_eq _ _ o1, keyM2]; rfl
  · rw [get_piece_at_eq _ _ o1, keyU2, f2]
  · rw [get_color_at_eq _ _ o1, keyU2, if_neg hz, f4 hr0]
  · rw [get_piece_at_eq _ _ o2, keyU1]; rfl
  · rw [get_color_at_eq _ _ o2, keyU1]; rfl

set_option maxRecDepth 100000 in
/-- Witness of C6: the castling move Ke1-g1 of the sample position, made and
then unmade. -/
theorem C6_witness :
    let corner : Pos := ⟨castlingMove.src.row, if castlingMove.dst.column = 6 then 7 else 0⟩
    let transit : Pos := ⟨castlingMove.src.row, if castlingMove.dst.column = 6 then 5 else 3⟩
    ((sampleBoard.make_move sampleEnv castlingMove).get_piece_at transit = some P_ROOK ∧
      (sampleBoard.make_move sampleEnv castlingMove).get_color_at transit =
        some castlingMove.color ∧
      (sampleBoard.make_move sampleEnv castlingMove).get_piece_at corner = some P_EMPTY ∧
      (sampleBoard.make_move sampleEnv castlingMove).get_color_at corner = some C_EMPTY) ∧
    (((sampleBoard.make_move sampleEnv castlingMove).unmake_move sampleEnv
        castlingMove).get_piece_at corner = some P_ROOK ∧
      ((sampleBoard.make_move sampleEnv castlingMove).unmake_move sampleEnv
        castlingMove).get_color_at corner = some castlingMove.color ∧
      ((sampleBoard.make_move sampleEnv castlingMove).unmake_move sampleEnv
        castlingMove).get_piece_at transit = some P_EMPTY ∧
      ((sampleBoard.make_move sampleEnv castlingMove).unmake_move sampleEnv
        castlingMove).get_color_at transit = some C_EMPTY) :=
  C6_castling_rook sampleEnv sampleBoard (sampleBoard.make_move sampleEnv castlingMove)
    castlingMove (by decide) (by decide) (by decide) (by decide) (by decide) (by decide)
    (by decide) (by decide)

/-! ### Castling rights -/

theorem get_castle_rights_lt (b : Board) : b.get_castle_rights < 256 :=
  Nat.mod_lt _ (by norm_num)

theorem castle_rights_by_moving_le (r : Nat) (m : Move) : castle_rights_by_moving r m ≤ r := by
  unfold castle_rights_by_moving
  simp only
  split_ifs <;> first | exact Nat.le_refl _ | exact Nat.and_le_left

theorem castle_rights_by_capturing_le (r : Nat) (m : Move) :
    castle_rights_by_capturing r m ≤ r := by
  unfold castle_rights_by_capturing
  simp only
  split_ifs <;> first | exact Nat.le_refl _ | exact Nat.and_le_left

theorem new_castle_rights_le (old : Nat) (m : Move) : new_castle_rights old m ≤ old :=
  Nat.le_trans (castle_rights_by_capturing_le _ m) (castle_rights_by_moving_le _ m)

theorem make_move_castle_rights (env : Env) (P : Board) (m : Move) :
    (P.make_move env m).get_castle_rights = new_castle_rights P.get_castle_rights m := by
  have h1 : (P.make_move env m).m_flags.castle_rights =
      ((P.castle_key_step env m).move_pieces env m).m_flags.castle_rights := by
    unfold Board.make_move Board.castle_key_step Board.set_king_checked Board.set_next_move
      Board.set_en_passant_pos
    simp only
    split_ifs <;> rfl
  unfold Board.get_castle_rights at *
  rw [h1, move_pieces_m_flags, castle_key_step_m_flags]
  unfold Board.get_castle_rights
  by_cases h : new_castle_rights (P.m_flags.castle_rights % 256) m = P.m_flags.castle_rights % 256
  · rw [if_neg (not_not.mpr h), h]
  · rw [if_pos h]
    apply Nat.mod_eq_of_lt
    exact Nat.lt_of_le_of_lt (new_castle_rights_le _ m) (Nat.mod_lt _ (by norm_num))

theorem land_255 (r : Nat) (h : r < 256) : r &&& 255 = r := by
  have := Nat.and_pow_two_sub_one_eq_mod r 8
  simp only [Nat.reducePow, Nat.add_one_sub_one] at this
  rw [this]; exact Nat.mod_eq_of_lt h

theorem castle_rights_by_moving_eq (r : Nat) (h : r < 256) (m : Move) :
    castle_rights_by_moving r m = r &&& (0xFF ^^^ clearedByMoving m) := by
  have eKR : ¬ (P_KING = P_ROOK) := by decide
  have eRK : ¬ (P_ROOK = P_KING) := by decide
  have e0 : (0xFF ^^^ 0 : Nat) = 255 := by decide
  unfold castle_rights_by_moving clearedByMoving moverBits
  simp only [beq_iff_eq]
  by_cases hK : m.piece = P_KING
  · simp only [hK, eKR, if_true, if_false]
  · by_cases hR : m.piece = P_ROOK
    · by_cases h0 : m.src.column = 0
      · simp only [hR, eRK, h0, if_true, if_false, true_and, and_self]
      · by_cases h7 : m.src.column = 7
        · simp only [hR, eRK, h0, h7, if_true, if_false, true_and, and_self, and_false]
          split <;> rfl
        · simp only [hR, eRK, h0, h7, if_true, if_false, true_and, and_self, and_false, e0]
          exact (land_255 r h).symm
    · simp only [hK, hR, if_true, if_false, false_and, e0]
      exact (land_255 r h).symm

/-- The block "by capturing" leaves the mover's own two bits alone. -/
theorem castle_rights_by_capturing_mover (r : Nat) (m : Move) :
    castle_rights_by_capturing r m &&& moverBits m.color = r &&& moverBits m.color := by
  unfold castle_rights_by_capturing moverBits
  simp only [beq_iff_eq]
  by_cases hW : m.color = C_WHITE <;>
  by_cases hT : (m.takes = true ∧ m.taken_piece = P_ROOK) <;>
  by_cases d7 : m.dst.column = 7 <;>
  by_cases d0 : m.dst.column = 0 <;>
  simp only [hW, hT, d7, d0, if_true, if_false, and_self,
    (by decide : ¬ ((0 : Int) = 7))] <;>
  (rw [Nat.and_assoc]; rfl)

theorem land_absorb (r x : Nat) : (r &&& x) &&& r = r &&& x := by
  rw [Nat.and_comm r x, Nat.and_assoc, Nat.and_self]

theorem castle_rights_by_moving_sub (r : Nat) (m : Move) :
    castle_rights_by_moving r m &&& r = castle_rights_by_moving r m := by
  unfold castle_rights_by_moving
  simp only
  split_ifs <;> first | exact Nat.and_self _ | exact land_absorb _ _

theorem castle_rights_by_capturing_sub (r : Nat) (m : Move) :
    castle_rights_by_capturing r m &&& r = castle_rights_by_capturing r m := by
  unfold castle_rights_by_capturing
  simp only
  split_ifs <;> first | exact Nat.and_self _ | exact land_absorb _ _

theorem new_castle_rights_sub (old : Nat) (m : Move) :
    new_castle_rights old m &&& old = new_castle_rights old m := by
  unfold new_castle_rights
  have h1 := castle_rights_by_capturing_sub (castle_rights_by_moving old m) m
  have h2 := castle_rights_by_moving_sub old m
  calc castle_rights_by_capturing (castle_rights_by_moving old m) m &&& old
      = (castle_rights_by_capturing (castle_rights_by_moving old m) m &&&
          castle_rights_by_moving old m) &&& old := by rw [h1]
    _ = castle_rights_by_capturing (castle_rights_by_moving old m) m &&&
          (castle_rights_by_moving old m &&& old) := by rw [Nat.and_assoc]
    _ = castle_rights_by_capturing (castle_rights_by_moving old m) m := by rw [h2, h1]

/-- C7: the mover's two castling-right bits after `make_move` are those before
with exactly the bits of `clearedByMoving` cleared (both for a king move, the
queenside bit for a rook leaving column 0, the kingside bit for a rook leaving
column 7), and every castling bit set after `make_move` was set before it. -/
theorem C7_castle_rights_by_moving (env : Env) (P : Board) (m : Move) :
    (P.make_move env m).get_castle_rights &&& moverBits m.color =
      (P.get_castle_rights &&& moverBits m.color) &&& (0xFF ^^^ clearedByMoving m) ∧
    ∀ i : Nat, (P.make_move env m).get_castle_rights.testBit i = true →
      P.get_castle_rights.testBit i = true := by
  rw [make_move_castle_rights]
  constructor
  · unfold new_castle_rights
    rw [castle_rights_by_capturing_mover,
      castle_rights_by_moving_eq _ (get_castle_rights_lt P) m, Nat.and_assoc, Nat.and_assoc,
      Nat.and_comm (0xFF ^^^ clearedByMoving m)]
  · intro i hi
    rw [← new_castle_rights_sub, Nat.testBit_land, Bool.and_eq_true] at hi
    exact hi.2

/-! ### A rook captured away from the back rank -/

set_option maxRecDepth 100000 in
/-- C8, the code at the failing input: in `offRankBoard` Black holds the
kingside castling right and king and rook stand on e8 and h8; the legal capture
Be2xh5 of the other black rook, on column 7 of row 4, makes `make_move` clear
Black's kingside right all the same. -/
theorem C8_rook_captured_off_back_rank :
    LegalRecord sampleEnv offRankBoard offRankCapture ∧
    offRankCapture.dst = ⟨4, 7⟩ ∧
    offRankBoard.get_piece_at ⟨7, 4⟩ = some P_KING ∧
    offRankBoard.get_piece_at ⟨7, 7⟩ = some P_ROOK ∧
    offRankBoard.get_castle_rights &&& CR_KING_BLACK = CR_KING_BLACK ∧
    (offRankBoard.make_move sampleEnv offRankCapture).get_castle_rights &&& CR_KING_BLACK = 0 ∧
    (offRankBoard.make_move sampleEnv offRankCapture).get_piece_at ⟨7, 7⟩ = some P_ROOK := by
  decide

/-! ### En-passant state -/

theorem make_move_en_passant (env : Env) (P : Board) (m : Move) :
    (P.make_move env m).m_flags.en_passant =
      if m.piece = P_PAWN ∧ (m.src.row - m.dst.row).natAbs = 2 then
        u8 m.dst.column ||| CAN_EN_PASSANT
      else 0 := by
  unfold Board.make_move Board.set_king_checked Board.set_next_move Board.set_en_passant_pos
  simp only
  split_ifs <;> rfl

theorem make_null_move_has_en_passant (env : Env) (P : Board) (n : NullMove) :
    (P.make_null_move env n).has_en_passant = false := by
  unfold Board.make_null_move
  simp only
  split
  · show ((0 : Nat) &&& CAN_EN_PASSANT != 0) = false
    decide
  · rename_i h; simpa using h

theorem en_passant_bits : ∀ c < 8,
    ((c ||| CAN_EN_PASSANT) &&& CAN_EN_PASSANT != 0) = true ∧
    (c ||| CAN_EN_PASSANT) &&& 7 = c := by
  decide

/-- C9: after `make_move` of a move whose destination is a square of the
board, the en-passant state is present iff the moving piece is a pawn and
source and destination rows differ by 2, and then its file is the destination
column; after `make_null_move` the en-passant state is absent. -/
theorem C9_en_passant_state (env : Env) (P : Board) (m : Move) (hd : m.dst.onBoard) :
    ((P.make_move env m).has_en_passant = true ↔
      (m.piece = P_PAWN ∧ (m.src.row - m.dst.row).natAbs = 2)) ∧
    ((P.make_move env m).has_en_passant = true →
      ((P.make_move env m).en_passant_file : Int) = m.dst.column) ∧
    ∀ n : NullMove, (P.make_null_move env n).has_en_passant = false := by
  obtain ⟨-, -, h3, h4⟩ := hd
  have hcol : u8 m.dst.column < 8 := by unfold u8; omega
  have hcol' : ((u8 m.dst.column : Nat) : Int) = m.dst.column := by unfold u8; omega
  obtain ⟨b1, b2⟩ := en_passant_bits _ hcol
  refine ⟨?_, ?_, ?_⟩
  · unfold Board.has_en_passant
    rw [make_move_en_passant]
    by_cases h : m.piece = P_PAWN ∧ (m.src.row - m.dst.row).natAbs = 2
    · rw [if_pos h]; exact ⟨fun _ => h, fun _ => b1⟩
    · rw [if_neg h]
      constructor
      · intro hh; exact absurd hh (by decide)
      · intro hh; exact absurd hh h
  · unfold Board.has_en_passant Board.en_passant_file
    rw [make_move_en_passant]
    by_cases h : m.piece = P_PAWN ∧ (m.src.row - m.dst.row).natAbs = 2
    · rw [if_pos h]; intro _; rw [b2]; exact hcol'
    · rw [if_neg h]; intro hh; exact absurd hh (by decide)
  · intro n
    exact make_null_move_has_en_passant env P n

set_option maxRecDepth 100000 in
/-- Witness of C9: the double pawn push b7-b5 on the sample position. -/
theorem C9_witness :
    ((sampleBoard.make_move sampleEnv doublePush).has_en_passant = true ↔
      (doublePush.piece = P_PAWN ∧ (doublePush.src.row - doublePush.dst.row).natAbs = 2)) ∧
    ((sampleBoard.make_move sampleEnv doublePush).has_en_passant = true →
      ((sampleBoard.make_move sampleEnv doublePush).en_passant_file : Int) =
        doublePush.dst.column) ∧
    ∀ n : NullMove, (sampleBoard.make_null_move sampleEnv n).has_en_passant = false :=
  C9_en_passant_state sampleEnv sampleBoard doublePush (by decide)

/-! ### Check bits and the attack query -/

theorem make_move_eq_set_king_checked (env : Env) (P : Board) (m : Move) :
    ∃ b : Board, P.make_move env m =
      b.set_king_checked
        (b.compute_king_checked env C_BLACK ||| (b.compute_king_checked env C_WHITE <<< 1)) :=
  ⟨_, rfl⟩

theorem check_bits_decode : ∀ x ≤ 1, ∀ y ≤ 1,
    (((x ||| (y <<< 1)) >>> C_BLACK) &&& 1 = x) ∧ (((x ||| (y <<< 1)) >>> C_WHITE) &&& 1 = y) := by
  decide

theorem compute_king_checked_le (env : Env) (b : Board) (c : Color) :
    b.compute_king_checked env c ≤ 1 := by
  unfold Board.compute_king_checked
  simp only
  split <;> decide

/-- On an occupied square `is_square_attacked` asks the generator once and leaves the board
as it is. -/
theorem is_square_attacked_occupied (env : Env) (b : Board) (pos : Pos) (c : Color)
    (pc : Piece) (h : b.get_piece_at pos = some pc) (hpc : pc ≠ P_EMPTY) :
    b.is_square_attacked env pos c = some (env.find_move_to_position b pos c == 1, b) := by
  unfold Board.is_square_attacked
  rw [h]
  have : (pc == P_EMPTY) = false := by simpa using hpc
  simp only [this, Bool.false_eq_true, if_false]

/-- The sentinel pawn put on an empty square by `is_square_attacked` is removed again. -/
theorem sentinel_removed (b : Board) (pos : Pos) (c : Color) (hwf : b.wf) (hc : c ≤ 1)
    (h0 : nibbleAt b.m_board pos.index = 0) :
    (b.set_piece_at pos P_PAWN c).set_piece_at pos P_EMPTY C_BLACK = b := by
  have e1 : ¬ (P_PAWN = P_KING) := by decide
  have e2 : ¬ (P_EMPTY = P_KING) := by decide
  apply Board.ext_fields
  · apply array_ext _ _ (wf_set_piece_at _ _ _ _ (wf_set_piece_at _ _ _ _ hwf)) hwf
    intro k
    rw [set_piece_at_m_board, set_piece_at_m_board,
      nibbleAt_writeNibble _ _ _ _ (by decide : squareCode P_EMPTY C_BLACK < 16),
      nibbleAt_writeNibble _ _ _ _ (squareCode_lt P_PAWN c (by decide) hc)]
    by_cases hk : k = pos.index
    · rw [if_pos hk, hk, h0]; rfl
    · rw [if_neg hk, if_neg hk]
  · rw [set_piece_at_m_flags, set_piece_at_m_flags]
  · rw [set_piece_at_m_key, set_piece_at_m_key]
  · rw [set_piece_at_m_half, set_piece_at_m_half]
  · rw [set_piece_at_m_ply, set_piece_at_m_ply]
  · rw [set_piece_at_m_king_pos, set_piece_at_m_king_pos, if_neg e1, if_neg e2]

/-- On a square of the board `is_square_attacked` returns with the board as it found it,
when empty squares carry the code 0 and the attacker is Black or White. -/
theorem is_square_attacked_frame (env : Env) (b : Board) (pos : Pos) (c : Color)
    (hpos : pos.onBoard) (hc : c ≤ 1) (hwf : b.wf)
    (hclean : b.get_piece_at pos = some P_EMPTY → b.get_color_at pos = some C_EMPTY) :
    ∃ r : Bool, b.is_square_attacked env pos c = some (r, b) := by
  have hg := get_piece_at_eq b pos hpos
  by_cases he : nibbleAt b.m_board pos.index &&& 7 = P_EMPTY
  · rw [he] at hg
    have h0 := nibbleAt_of_empty b pos hpos (hclean hg)
    unfold Board.is_square_attacked
    rw [hg]
    simp only [beq_self_eq_true, if_true]
    rw [sentinel_removed b pos (other_color c) hwf (other_color_le c hc) h0]
    exact ⟨_, rfl⟩
  · exact ⟨_, is_square_attacked_occupied env b pos c _ hg he⟩

/-- C10: when the generator's answer does not depend on the stored check bits
and, after `make_move`, the cached king square of each colour holds that
colour's king, the stored check bit of each colour `C` is set iff
`is_square_attacked(king_square(C), opponent(C))` answers true on the resulting
position (both bits are recomputed); and on every board whose empty squares
carry the code 0, `is_square_attacked` on a square of the board by Black or
White returns with the board unchanged, sentinel pawn included. -/
theorem C10_check_bits (env : Env) (P : Board) (m : Move)
    (henv : ∀ (b : Board) (v : Nat) (pos : Pos) (c : Color),
      env.find_move_to_position (b.set_king_checked v) pos c =
        env.find_move_to_position b pos c)
    (hking : ∀ C : Color, C ≤ 1 →
      (P.make_move env m).get_piece_at ((P.make_move env m).get_king_pos C) = some P_KING) :
    (∀ C : Color, C ≤ 1 →
      ((P.make_move env m).is_king_checked C = true ↔
        ∃ B' : Board, (P.make_move env m).is_square_attacked env
          ((P.make_move env m).get_king_pos C) (other_color C) = some (true, B'))) ∧
    (∀ (b : Board) (pos : Pos) (c : Color), pos.onBoard → c ≤ 1 → b.wf →
      (b.get_piece_at pos = some P_EMPTY → b.get_color_at pos = some C_EMPTY) →
      ∃ r : Bool, b.is_square_attacked env pos c = some (r, b)) := by
  refine ⟨?_, fun b pos c h1 h2 h3 h4 => is_square_attacked_frame env b pos c h1 h2 h3 h4⟩
  intro C hC
  have hk := hking C hC
  rw [is_square_attacked_occupied env _ _ _ P_KING hk (by decide)]
  obtain ⟨b, hb⟩ := make_move_eq_set_king_checked env P m
  have hbit : (P.make_move env m).is_king_checked C =
      (env.find_move_to_position (P.make_move env m) ((P.make_move env m).get_king_pos C)
        (other_color C) == 1) := by
    rw [hb]
    have hx := compute_king_checked_le env b C_BLACK
    have hy := compute_king_checked_le env b C_WHITE
    obtain ⟨d1, d2⟩ := check_bits_decode _ hx _ hy
    have hCC : C = C_BLACK ∨ C = C_WHITE := Nat.le_one_iff_eq_zero_or_eq_one.mp hC
    rw [henv]
    show ((b.compute_king_checked env C_BLACK ||| (b.compute_king_checked env C_WHITE <<< 1))
        >>> C &&& 1 == 1) = (env.find_move_to_position b (b.get_king_pos C) (other_color C) == 1)
    rcases hCC with h | h <;> rw [h]
    · rw [d1]; unfold Board.compute_king_checked; simp only
      split <;> simp_all
    · rw [d2]; unfold Board.compute_king_checked; simp only
      split <;> simp_all
  rw [hbit]
  constructor
  · intro h; exact ⟨_, by rw [h]⟩
  · rintro ⟨B', hB'⟩
    have := Option.some.inj hB'
    exact (Prod.mk.inj this).1

set_option maxRecDepth 100000 in
/-- Witness of C10: the quiet king move of the sample position with the sample generator. -/
theorem C10_witness :
    (∀ C : Color, C ≤ 1 →
      ((sampleBoard.make_move sampleEnv quietMove).is_king_checked C = true ↔
        ∃ B' : Board, (sampleBoard.make_move sampleEnv quietMove).is_square_attacked sampleEnv
          ((sampleBoard.make_move sampleEnv quietMove).get_king_pos C) (other_color C) =
            some (true, B'))) ∧
    (∀ (b : Board) (pos : Pos) (c : Color), pos.onBoard → c ≤ 1 → b.wf →
      (b.get_piece_at pos = some P_EMPTY → b.get_color_at pos = some C_EMPTY) →
      ∃ r : Bool, b.is_square_attacked sampleEnv pos c = some (r, b)) :=
  C10_check_bits sampleEnv sampleBoard quietMove (fun _ _ _ _ => rfl)
    (by
      intro C hC
      rcases Nat.le_one_iff_eq_zero_or_eq_one.mp hC with h | h <;> rw [h] <;> decide)

/-! ### Hash key -/

theorem xorRange_congr (g g' : Nat → Nat) (n : Nat) (h : ∀ i, i < n → g i = g' i) :
    xorRange g n = xorRange g' n := by
  induction n with
  | zero => rfl
  | succ n ih =>
    unfold xorRange
    rw [ih (fun i hi => h i (Nat.lt_succ_of_lt hi)), h n (Nat.lt_succ_self n)]

/-- Changing one term of the XOR changes the XOR by the old and the new term. -/
theorem xorRange_update (g g' : Nat → Nat) (n k : Nat) (hk : k < n)
    (h : ∀ i, i ≠ k → g' i = g i) :
    xorRange g' n = xorRange g n ^^^ g k ^^^ g' k := by
  induction n with
  | zero => exact absurd hk (Nat.not_lt_zero k)
  | succ n ih =>
    unfold xorRange
    by_cases hkn : k = n
    · subst hkn
      rw [xorRange_congr g' g k (fun i hi => h i (Nat.ne_of_lt hi))]
      rw [Nat.xor_assoc (xorRange g k) (g k) (g k), Nat.xor_self, Nat.xor_zero]
    · have hlt : k < n := by omega
      rw [ih hlt, h n (fun e => hkn e.symm)]
      ac_rfl

theorem xorRange_xor (g g' : Nat → Nat) (n : Nat) :
    xorRange (fun i => g i ^^^ g' i) n = xorRange g n ^^^ xorRange g' n := by
  induction n with
  | zero => unfold xorRange; exact (Nat.xor_self 0).symm
  | succ n ih =>
    unfold xorRange
    rw [ih]
    ac_rfl

theorem castleHash_xor (Z : Zobrist) (a b : Nat) :
    castleHash Z (a ^^^ b) = castleHash Z a ^^^ castleHash Z b := by
  unfold castleHash
  rw [← xorRange_xor]
  apply xorRange_congr
  intro i _
  simp only [Nat.testBit_xor]
  cases a.testBit i <;> cases b.testBit i <;> simp

theorem squareKey_eq (Z : Zobrist) (b : Board) (k : Nat) (hk : k < 64) :
    squareKey Z b k = nibbleKey Z k (nibbleAt b.m_board k) := by
  have hpos : (⟨(k / 8 : Nat), (k % 8 : Nat)⟩ : Pos).onBoard := by
    unfold Pos.onBoard; simp only; omega
  have hidx : (⟨(k / 8 : Nat), (k % 8 : Nat)⟩ : Pos).index = k := by
    unfold Pos.index; simp only; omega
  unfold squareKey nibbleKey
  rw [get_piece_at_eq _ _ hpos, get_color_at_eq _ _ hpos, hidx]
  simp only
  by_cases h0 : nibbleAt b.m_board k &&& 7 = P_EMPTY
  · rw [if_pos h0, if_pos h0]
  · rw [if_neg h0, if_neg h0]
    have hne : ¬ (nibbleAt b.m_board k = 0) := by
      intro h; rw [h] at h0; exact h0 (by decide)
    rw [if_neg hne]

theorem nibbleKey_code (Z : Zobrist) (k : Nat) (p : Piece) (c : Color) (hp1 : 1 ≤ p)
    (hp : p ≤ 6) (hc : c ≤ 1) : nibbleKey Z k (squareCode p c) = Z.piece k c p := by
  obtain ⟨f1, f2, f3, f4⟩ := squareCode_facts p hp c hc
  have hp0 : p ≠ 0 := Nat.pos_iff_ne_zero.mp hp1
  unfold nibbleKey
  rw [f2, f4 hp0]
  exact if_neg hp0

theorem nibbleKey_zero (Z : Zobrist) (k : Nat) : nibbleKey Z k 0 = 0 := by
  unfold nibbleKey; rfl

/-- The XOR over the squares after one `set_piece_at`. -/
theorem squares_set_piece_at (Z : Zobrist) (b : Board) (pos : Pos) (p : Piece) (c : Color)
    (hpos : pos.onBoard) (hp : p ≤ 6) (hc : c ≤ 1) :
    xorRange (squareKey Z (b.set_piece_at pos p c)) 64 =
      xorRange (squareKey Z b) 64 ^^^ nibbleKey Z pos.index (nibbleAt b.m_board pos.index) ^^^
        nibbleKey Z pos.index (squareCode p c) := by
  have hi := (Pos.index_eq pos hpos).2
  have hv := (squareCode_facts p hp c hc).1
  rw [xorRange_update (squareKey Z b) (squareKey Z (b.set_piece_at pos p c)) 64 pos.index hi,
    squareKey_eq Z b _ hi, squareKey_eq Z _ _ hi, set_piece_at_m_board,
    nibbleAt_writeNibble _ _ _ _ hv, if_pos rfl]
  intro i hne
  by_cases h64 : i < 64
  · rw [squareKey_eq Z _ _ h64, squareKey_eq Z _ _ h64, set_piece_at_m_board,
      nibbleAt_writeNibble _ _ _ _ hv, if_neg hne]
  · -- squares beyond the board: both getters abort
    unfold squareKey Board.get_piece_at Board.get_color_at
    have : (((i % 8 : Nat) : Int) > 7) ∨ (((i / 8 : Nat) : Int) > 7) := by omega
    simp only [this, if_true]

theorem nibbleAt_set_other (b : Board) (pos pos' : Pos) (p : Piece) (c : Color)
    (hp : p ≤ 6) (hc : c ≤ 1) (h : pos.onBoard) (h' : pos'.onBoard) (hne : pos' ≠ pos) :
    nibbleAt (b.set_piece_at pos p c).m_board pos'.index = nibbleAt b.m_board pos'.index := by
  rw [nibbleAt_set_piece_at b pos pos' p c hp hc h h', if_neg hne]

theorem rook_distinct (m : Move) (hsrc : m.src.onBoard) (h4 : m.src.column = 4)
    (hcol : m.dst.column = 6 ∨ m.dst.column = 2) :
    rook_src m ≠ m.src ∧ rook_src m ≠ m.dst ∧ rook_dst m ≠ m.src ∧ rook_dst m ≠ m.dst ∧
    rook_dst m ≠ rook_src m := by
  obtain ⟨r1, r2⟩ := rook_squares m hsrc hcol
  rw [r1, r2]
  refine ⟨?_, ?_, ?_, ?_, ?_⟩ <;> intro h <;> have hh := congrArg Pos.column h <;>
    simp only at hh <;> rcases hcol with hc | hc <;> rw [hc] at hh <;>
    (first | (rw [h4] at hh; simp at hh) | simp at hh)

/-- The XOR over the squares after the block "MOVE PIECES AROUND" of a legal move. -/
theorem squares_move_pieces (Z : Zobrist) (env : Env) (P b : Board) (m : Move)
    (hm : LegalRecord env P m) (hb : b.m_board = P.m_board)
    (hf : m.en_passant = true → b.m_flags = P.m_flags) :
    xorRange (squareKey Z (b.move_pieces env m)) 64 =
      xorRange (squareKey Z b) 64
      ^^^ Z.piece m.src.index m.color m.piece
      ^^^ Z.piece m.dst.index m.color (if m.promote then m.promote_piece else m.piece)
      ^^^ (if m.takes then
            (if m.en_passant then
              Z.piece (env.get_en_passant_pos P.m_flags).index (other_color m.color) P_PAWN
             else Z.piece m.dst.index (other_color m.color) m.taken_piece)
           else 0)
      ^^^ (if m.castling then
            Z.piece (rook_src m).index m.color P_ROOK ^^^
              Z.piece (rook_dst m).index m.color P_ROOK
           else 0) := by
  obtain ⟨-, ⟨hsrc, hdst, hne, hc, hp1, hp6, hps, hcs, hk, -⟩, ⟨ht1, ht2, ht3, ht4⟩, hep, hca⟩ := hm
  have hoc := other_color_le m.color hc
  have hmv1 : 1 ≤ (if m.promote = true then m.promote_piece else m.piece) := by
    split
    · rename_i h; exact Nat.le_trans (by decide) (ht4 h).2.1
    · exact hp1
  have hmv6 : (if m.promote = true then m.promote_piece else m.piece) ≤ 6 := by
    split
    · rename_i h; exact Nat.le_trans (ht4 h).2.2 (by decide)
    · exact hp6
  have hS : nibbleAt b.m_board m.src.index = squareCode m.piece m.color := by
    rw [hb]; exact nibbleAt_of_holds P m.src m.piece m.color hsrc hp6 hc hps hcs
  have e0 : squareCode P_EMPTY C_BLACK = 0 := by decide
  have hE6 : P_EMPTY ≤ 6 := by decide
  have hB1 : C_BLACK ≤ 1 := by decide
  have hR6 : P_ROOK ≤ 6 := by decide
  have hgoal : (if m.promote = true then b.set_piece_at m.dst m.promote_piece m.color
      else b.set_piece_at m.dst m.piece m.color) =
      b.set_piece_at m.dst (if m.promote = true then m.promote_piece else m.piece)
        m.color := by
    split <;> rfl
  have step : xorRange (squareKey Z ((b.set_piece_at m.dst
        (if m.promote = true then m.promote_piece else m.piece) m.color).set_piece_at m.src
        P_EMPTY C_BLACK)) 64 =
      xorRange (squareKey Z b) 64 ^^^ nibbleKey Z m.dst.index (nibbleAt b.m_board m.dst.index)
        ^^^ Z.piece m.dst.index m.color (if m.promote = true then m.promote_piece else m.piece)
        ^^^ Z.piece m.src.index m.color m.piece := by
    rw [squares_set_piece_at Z _ m.src P_EMPTY C_BLACK hsrc hE6 hB1,
      nibbleAt_set_other b m.dst m.src _ m.color hmv6 hc hdst hsrc hne, hS,
      squares_set_piece_at Z b m.dst _ m.color hdst hmv6 hc, e0, nibbleKey_zero,
      nibbleKey_code Z _ _ m.color hmv1 hmv6 hc, nibbleKey_code Z _ m.piece m.color hp1 hp6 hc,
      Nat.xor_zero]
  have other : ∀ pos : Pos, pos.onBoard → pos ≠ m.src → pos ≠ m.dst →
      nibbleAt ((b.set_piece_at m.dst
        (if m.promote = true then m.promote_piece else m.piece) m.color).set_piece_at m.src
        P_EMPTY C_BLACK).m_board pos.index = nibbleAt P.m_board pos.index := by
    intro pos hpos h1 h2
    rw [nibbleAt_set_other _ m.src pos _ _ hE6 hB1 hsrc hpos h1,
      nibbleAt_set_other _ m.dst pos _ _ hmv6 hc hdst hpos h2, hb]
  unfold Board.move_pieces
  simp only
  rw [hgoal]
  cases he : m.en_passant
  · cases hcas : m.castling
    · simp only [Bool.false_eq_true, if_false]
      rw [step]
      cases htk : m.takes
      · have hD : nibbleAt b.m_board m.dst.index = 0 := by
          rw [hb]; exact nibbleAt_of_empty P m.dst hdst (ht3 (Or.inl htk))
        rw [hD, nibbleKey_zero]
        simp only [Bool.false_eq_true, if_false, Nat.xor_zero]
        ac_rfl
      · obtain ⟨a1, a2, a3, a4⟩ := ht1 htk he
        have hD : nibbleAt b.m_board m.dst.index =
            squareCode m.taken_piece (other_color m.color) := by
          rw [hb]
          exact nibbleAt_of_holds P m.dst m.taken_piece _ hdst (Nat.le_trans a2 (by decide)) hoc
            a3 a4
        rw [hD, nibbleKey_code Z _ _ _ a1 (Nat.le_trans a2 (by decide)) hoc]
        simp only [if_true, Bool.false_eq_true, if_false, Nat.xor_zero]
        ac_rfl
    · obtain ⟨c1, c2, c3, c4, c5, c6, c7, c8⟩ := hca hcas
      obtain ⟨o1, o2⟩ := rook_onBoard m hsrc c5
      obtain ⟨d1, d2, d3, d4, d5⟩ := rook_distinct m hsrc c3 c5
      have hD : nibbleAt b.m_board m.dst.index = 0 := by
        rw [hb]; exact nibbleAt_of_empty P m.dst hdst (ht3 (Or.inl c2))
      have hRS := nibbleAt_of_holds P _ P_ROOK m.color o1 hR6 hc c6 c7
      have hRD := nibbleAt_of_empty P _ o2 c8
      simp only [Bool.false_eq_true, if_false, if_true]
      rw [squares_set_piece_at Z _ (rook_dst m) P_ROOK m.color o2 hR6 hc,
        nibbleAt_set_other _ (rook_src m) (rook_dst m) _ _ hE6 hB1 o1 o2 d5,
        other _ o2 d3 d4, hRD,
        squares_set_piece_at Z _ (rook_src m) P_EMPTY C_BLACK o1 hE6 hB1,
        other _ o1 d1 d2, hRS, step, hD, e0,
        nibbleKey_code Z (rook_dst m).index P_ROOK m.color (by decide) hR6 hc,
        nibbleKey_code Z (rook_src m).index P_ROOK m.color (by decide) hR6 hc, c2]
      simp only [Bool.false_eq_true, if_false, Nat.xor_zero, nibbleKey_zero]
      ac_rfl
  · obtain ⟨e1, e2, e3, e4, e5, e6, e7, e8, e9⟩ := hep he
    have hD : nibbleAt b.m_board m.dst.index = 0 := by
      rw [hb]; exact nibbleAt_of_empty P m.dst hdst (ht3 (Or.inr he))
    have hE := nibbleAt_of_holds P _ P_PAWN _ e5 (by decide) hoc e8 e9
    simp only [if_true, set_piece_at_m_flags, hf he, e3, Bool.false_eq_true, if_false]
    rw [squares_set_piece_at Z _ _ P_EMPTY C_BLACK e5 hE6 hB1, other _ e5 e6 e7, hE, step, hD,
      e0, nibbleKey_code Z _ P_PAWN _ (by decide) (by decide) hoc, e1]
    simp only [if_true, Nat.xor_zero, nibbleKey_zero]
    ac_rfl

theorem squareKey_congr (Z : Zobrist) (b b' : Board) (h : b.m_board = b'.m_board) :
    squareKey Z b = squareKey Z b' := by
  funext k
  unfold squareKey Board.get_piece_at Board.get_color_at
  rw [h]

theorem make_move_next_move (env : Env) (P : Board) (m : Move) :
    (P.make_move env m).get_next_move = other_color P.get_next_move := by
  have h1 : (P.make_move env m).m_flags.next_move =
      other_color ((P.castle_key_step env m).move_pieces env m).m_flags.next_move := by
    unfold Board.make_move Board.castle_key_step Board.set_king_checked Board.set_next_move
      Board.set_en_passant_pos Board.get_next_move
    simp only
    split_ifs <;> rfl
  unfold Board.get_next_move
  rw [h1, move_pieces_m_flags, castle_key_step_m_flags]
  split <;> rfl

theorem make_move_m_key (env : Env) (P : Board) (m : Move) :
    (P.make_move env m).m_key = (P.castle_key_step env m).m_key := by
  have h1 : (P.make_move env m).m_key = ((P.castle_key_step env m).move_pieces env m).m_key := by
    unfold Board.make_move Board.castle_key_step Board.set_king_checked Board.set_next_move
      Board.set_en_passant_pos
    simp only
    split_ifs <;> rfl
  rw [h1, move_pieces_m_key]

/-- The key left by `make_move` when the hash keyer is the modelled one. -/
theorem make_move_m_key_zobrist (Z : Zobrist) (gen : Board → Pos → Color → Nat)
    (epPos : Flags → Pos) (P : Board) (m : Move)
    (hep : m.en_passant = true → new_castle_rights P.get_castle_rights m = P.get_castle_rights) :
    (P.make_move (zobristEnv Z gen epPos) m).m_key =
      P.m_key
      ^^^ Z.piece m.src.index m.color m.piece
      ^^^ Z.piece m.dst.index m.color (if m.promote then m.promote_piece else m.piece)
      ^^^ (if m.takes then
            (if m.en_passant then Z.piece (epPos P.m_flags).index (other_color m.color) P_PAWN
             else Z.piece m.dst.index (other_color m.color) m.taken_piece)
           else 0)
      ^^^ (if m.castling then
            Z.piece (rook_src m).index m.color P_ROOK ^^^
              Z.piece (rook_dst m).index m.color P_ROOK
           else 0)
      ^^^ Z.side
      ^^^ enPassantHash Z P
      ^^^ (if m.piece = P_PAWN ∧ (m.src.row - m.dst.row).natAbs = 2 then
            Z.en_passant (u8 m.dst.column) else 0)
      ^^^ castleHash Z (P.get_castle_rights ^^^ new_castle_rights P.get_castle_rights m) := by
  rw [make_move_m_key]
  unfold Board.castle_key_step zobristEnv hash_make_move enPassantHash Board.has_en_passant
    Board.en_passant_file Board.set_castle_rights
  simp only
  by_cases hn : new_castle_rights P.get_castle_rights m = P.get_castle_rights
  · simp only [hn, ne_eq, not_true_eq_false, if_false]
  · simp only [hn, ne_eq, not_false_eq_true, if_true]
    cases he : m.en_passant
    · simp only [Bool.false_eq_true, if_false]
    · exact absurd (hep he) hn

theorem wf_make_move (env : Env) (P : Board) (m : Move) (h : P.wf) : (P.make_move env m).wf := by
  unfold Board.wf
  rw [make_move_m_board]
  apply wf_move_pieces
  unfold Board.wf
  rw [castle_key_step_m_board]
  exact h

theorem side_toggle (Z : Zobrist) : ∀ c ≤ 1,
    (if other_color c = C_BLACK then Z.side else 0) =
      (if c = C_BLACK then Z.side else 0) ^^^ Z.side := by
  intro c hc
  rcases Nat.le_one_iff_eq_zero_or_eq_one.mp hc with h | h <;> rw [h]
  · have : ¬ (other_color 0 = C_BLACK) := by decide
    rw [if_neg this, if_pos (by decide)]
    exact (Nat.xor_self _).symm
  · have : other_color 1 = C_BLACK := by decide
    rw [if_pos this, if_neg (by decide)]
    exact (Nat.zero_xor _).symm

/-- With the modelled hash keyer, `make_move` of a legal record keeps the key equal to the
full hash. -/
theorem make_move_keeps_key (Z : Zobrist) (gen : Board → Pos → Color → Nat)
    (epPos : Flags → Pos) (P : Board) (m : Move)
    (hm : LegalRecord (zobristEnv Z gen epPos) P m) (hkey : P.m_key = full_hash Z P) :
    (P.make_move (zobristEnv Z gen epPos) m).m_key =
      full_hash Z (P.make_move (zobristEnv Z gen epPos) m) := by
  have hm' := hm
  obtain ⟨-, ⟨hsrc, hdst, hne, hc, hp1, hp6, hps, hcs, hk, hnm⟩, -, hep, -⟩ := hm'
  have hncr : m.en_passant = true →
      new_castle_rights P.get_castle_rights m = P.get_castle_rights := by
    intro he
    obtain ⟨e1, e2, e3, e4, -⟩ := hep he
    exact new_castle_rights_pawn _ m e2 e4
  -- the squares
  have hS := squares_move_pieces Z (zobristEnv Z gen epPos) P
    (P.castle_key_step (zobristEnv Z gen epPos) m) m hm
    (castle_key_step_m_board _ P m)
    (fun he => by
      rw [castle_key_step_m_flags, hncr he]
      simp only [ne_eq, not_true_eq_false, if_false])
  rw [squareKey_congr Z _ P (castle_key_step_m_board _ P m),
    ← squareKey_congr Z _ _ (make_move_m_board (zobristEnv Z gen epPos) P m)] at hS
  -- the castling rights
  have hC : castleHash Z (P.make_move (zobristEnv Z gen epPos) m).get_castle_rights =
      castleHash Z P.get_castle_rights ^^^
        castleHash Z (P.get_castle_rights ^^^ new_castle_rights P.get_castle_rights m) := by
    rw [make_move_castle_rights, castleHash_xor, Nat.xor_cancel_left]
  -- the en-passant file
  have hE : enPassantHash Z (P.make_move (zobristEnv Z gen epPos) m) =
      (if m.piece = P_PAWN ∧ (m.src.row - m.dst.row).natAbs = 2 then
        Z.en_passant (u8 m.dst.column) else 0) := by
    have hcol : u8 m.dst.column < 8 := by
      obtain ⟨-, -, h3, h4⟩ := hdst
      unfold u8; omega
    obtain ⟨b1, b2⟩ := en_passant_bits _ hcol
    unfold enPassantHash Board.has_en_passant Board.en_passant_file
    rw [make_move_en_passant]
    by_cases h : m.piece = P_PAWN ∧ (m.src.row - m.dst.row).natAbs = 2
    · rw [if_pos h, if_pos h, if_pos b1, b2]
    · rw [if_neg h, if_neg h]; rfl
  -- the side to move
  have hSi : sideHash Z (P.make_move (zobristEnv Z gen epPos) m) = sideHash Z P ^^^ Z.side := by
    unfold sideHash
    rw [make_move_next_move]
    exact side_toggle Z _ (hnm ▸ hc)
  rw [make_move_m_key_zobrist Z gen epPos P m hncr, hkey]
  unfold full_hash
  rw [hS, hC, hE, hSi]
  simp only [zobristEnv]
  have hx : ∀ e x : Nat, e ^^^ e ^^^ x = x := by
    intro e x; rw [Nat.xor_self, Nat.zero_xor]
  generalize enPassantHash Z P = e
  generalize (if m.piece = P_PAWN ∧ (m.src.row - m.dst.row).natAbs = 2 then
        Z.en_passant (u8 m.dst.column) else 0) = en
  have : en = e ^^^ e ^^^ en := (hx e en).symm
  conv => rhs; rw [this]
  ac_rfl

theorem chain_sound (env : Env) (Z : Zobrist) (gen : Board → Pos → Color → Nat)
    (epPos : Flags → Pos) (henv : env = zobristEnv Z gen epPos) :
    ∀ (st : List Move) (b : Board), Chain env Z st b → b.wf ∧ b.m_key = full_hash Z b := by
  intro st
  induction st with
  | nil => intro b h; exact h
  | cons m rest ih =>
    intro b h
    obtain ⟨P, hl, hb, hc⟩ := h
    obtain ⟨hw, hk⟩ := ih P hc
    subst henv
    rw [hb]
    exact ⟨wf_make_move _ P m hw, make_move_keeps_key Z gen epPos P m hl hk⟩

theorem play_chain (env : Env) (Z : Zobrist) (gen : Board → Pos → Color → Nat)
    (epPos : Flags → Pos) (henv : env = zobristEnv Z gen epPos) :
    ∀ (ops : List Op) (b : Board) (st : List Move) (s : Board × List Move),
      Chain env Z st b → play env ops (b, st) = some s → Chain env Z s.2 s.1 := by
  intro ops
  induction ops with
  | nil =>
    intro b st s hc hp
    unfold play at hp
    rw [← Option.some.inj hp]; exact hc
  | cons op ops ih =>
    intro b st s hc hp
    cases op with
    | make m =>
      unfold play at hp
      by_cases hl : LegalRecord env b m
      · rw [if_pos hl] at hp
        have hch : Chain env Z (m :: st) (b.make_move env m) := by
          unfold Chain; exact ⟨b, hl, rfl, hc⟩
        exact ih _ _ s hch hp
      · rw [if_neg hl] at hp; exact absurd hp (by simp)
    | unmake =>
      cases st with
      | nil => unfold play at hp; exact absurd hp (by simp)
      | cons m rest =>
        unfold play at hp
        obtain ⟨P, hl, hb, hc'⟩ := hc
        have hw := (chain_sound env Z gen epPos henv rest P hc').1
        rw [hb, unmake_make env P m hw hl] at hp
        exact ih _ _ s hc' hp

theorem full_hash_m_key (Z : Zobrist) (b : Board) (k : Nat) :
    full_hash Z { b with m_key := k } = full_hash Z b := rfl

/-- C3: with the hash keyer modelled from the spec, the key left by
`load_position` is the full hash of the board, and after any sequence of
`make_move` of legal records and `unmake_move` of the matching moves played from
the loaded board the key is the full hash of the board reached. -/
theorem C3_key_is_full_hash (Z : Zobrist) (gen : Board → Pos → Color → Nat)
    (epPos : Flags → Pos) (reader : Board → String → Option Board) (b b0 : Board)
    (fen : String) (ops : List Op) (s : Board × List Move)
    (hload : Board.load_position reader Z b fen = some b0) (hwf : b0.wf)
    (hplay : play (zobristEnv Z gen epPos) ops (b0, []) = some s) :
    b0.m_key = full_hash Z b0 ∧ s.1.m_key = full_hash Z s.1 := by
  have hkey : b0.m_key = full_hash Z b0 := by
    unfold Board.load_position at hload
    cases hr : reader b fen with
    | none => rw [hr] at hload; exact absurd hload (by simp)
    | some b1 =>
      rw [hr] at hload
      rw [← Option.some.inj hload]
      exact (full_hash_m_key Z b1 _).symm
  refine ⟨hkey, ?_⟩
  have hc : Chain (zobristEnv Z gen epPos) Z [] b0 := ⟨hwf, hkey⟩
  have := play_chain (zobristEnv Z gen epPos) Z gen epPos rfl ops b0 [] s hc hplay
  exact (chain_sound (zobristEnv Z gen epPos) Z gen epPos rfl s.2 s.1 this).2

theorem loadedBoard_wf : loadedBoard.wf := sampleBoard_wf

set_option maxRecDepth 100000 in
theorem loaded_play :
    play sampleZobristEnv [Op.make loadedQuiet, Op.unmake, Op.make loadedCapture]
      (loadedBoard, []) =
      some ((((loadedBoard.make_move sampleZobristEnv loadedQuiet).unmake_move sampleZobristEnv
        loadedQuiet).make_move sampleZobristEnv loadedCapture), [loadedCapture]) := by
  have h1 : LegalRecord sampleZobristEnv loadedBoard loadedQuiet := by decide
  have h2 : LegalRecord sampleZobristEnv
      ((loadedBoard.make_move sampleZobristEnv loadedQuiet).unmake_move sampleZobristEnv
        loadedQuiet) loadedCapture := by
    rw [unmake_make sampleZobristEnv loadedBoard loadedQuiet loadedBoard_wf h1]
    decide
  unfold play
  rw [if_pos h1]
  unfold play
  unfold play
  rw [if_pos h2]
  unfold play
  rfl

/-- Witness of C3: the sample position loaded, then Ke1-e2 made and unmade and
b7xa8=Q made. -/
theorem C3_witness :
    loadedBoard.m_key = full_hash sampleZobrist loadedBoard ∧
    (((loadedBoard.make_move sampleZobristEnv loadedQuiet).unmake_move sampleZobristEnv
        loadedQuiet).make_move sampleZobristEnv loadedCapture).m_key =
      full_hash sampleZobrist
        (((loadedBoard.make_move sampleZobristEnv loadedQuiet).unmake_move sampleZobristEnv
          loadedQuiet).make_move sampleZobristEnv loadedCapture) :=
  C3_key_is_full_hash sampleZobrist sampleEnv.find_move_to_position
    sampleEnv.get_en_passant_pos sampleReader emptyBoard loadedBoard "sample"
    [Op.make loadedQuiet, Op.unmake, Op.make loadedCapture]
    ((((loadedBoard.make_move sampleZobristEnv loadedQuiet).unmake_move sampleZobristEnv
        loadedQuiet).make_move sampleZobristEnv loadedCapture), [loadedCapture])
    rfl loadedBoard_wf loaded_play

theorem holds_iff_nibble (b : Board) (pos : Pos) (h : pos.onBoard) (p : Piece) (c : Color)
    (hp1 : 1 ≤ p) (hp : p ≤ 6) (hc : c ≤ 1) :
    (b.get_piece_at pos = some p ∧ b.get_color_at pos = some c) ↔
      nibbleAt b.m_board pos.index = squareCode p c := by
  constructor
  · rintro ⟨h1, h2⟩
    exact nibbleAt_of_holds b pos p c h hp hc h1 h2
  · intro hn
    obtain ⟨f1, f2, f3, f4⟩ := squareCode_facts p hp c hc
    have hp0 : p ≠ 0 := Nat.pos_iff_ne_zero.mp hp1
    have hne : ¬ (squareCode p c = 0) := fun h0 => hp0 (f3.mp h0).1
    rw [get_piece_at_eq _ _ h, get_color_at_eq _ _ h, hn, f2, f4 hp0]
    exact ⟨rfl, by rw [if_neg hne]⟩

theorem onBoard_iff (pos : Pos) :
    pos.onBoard ↔ ∃ r < 8, ∃ col < 8, pos = ⟨((r : Nat) : Int), ((col : Nat) : Int)⟩ := by
  constructor
  · obtain ⟨r, c⟩ := pos
    rintro ⟨a1, a2, a3, a4⟩
    simp only at a1 a2 a3 a4
    refine ⟨r.toNat, by omega, c.toNat, by omega, ?_⟩
    simp only [Pos.mk.injEq]
    constructor <;> omega
  · rintro ⟨r, hr, col, hcol, rfl⟩
    refine ⟨?_, ?_, ?_, ?_⟩ <;> simp only <;> omega

theorem kings_iff (b : Board) : KingsCached b ↔ KingsN b.m_board b.m_king_pos := by
  unfold KingsCached KingsN Board.get_king_pos
  constructor
  · intro h c hc
    obtain ⟨h1, h2⟩ := h c (Nat.lt_succ_of_le hc)
    refine ⟨h1, ?_⟩
    intro pos hpos
    obtain ⟨r, hr, col, hcol, rfl⟩ := (onBoard_iff pos).mp hpos
    rw [← holds_iff_nibble b _ hpos P_KING c (by decide) (by decide) hc]
    exact h2 r hr col hcol
  · intro h c hc
    have hc1 : c ≤ 1 := Nat.le_of_lt_succ hc
    obtain ⟨h1, h2⟩ := h c hc1
    refine ⟨h1, ?_⟩
    intro r hr col hcol
    have hpos : (⟨((r : Nat) : Int), ((col : Nat) : Int)⟩ : Pos).onBoard :=
      (onBoard_iff _).mpr ⟨r, hr, col, hcol, rfl⟩
    rw [holds_iff_nibble b _ hpos P_KING c (by decide) (by decide) hc1]
    exact h2 _ hpos

theorem king_code : ∀ p ≤ 6, ∀ c ≤ 1, ∀ d ≤ 1,
    (squareCode p c = squareCode P_KING d ↔ (p = P_KING ∧ c = d)) ∧
    0 ≠ squareCode P_KING d := by
  decide

theorem index_ne (p q : Pos) (hp : p.onBoard) (hq : q.onBoard) (h : p ≠ q) :
    p.index ≠ q.index := fun hi => h (Pos.index_inj p q hp hq hi)

theorem make_move_touched (env : Env) (P : Board) (m : Move) (hm : LegalRecord env P m) :
    ∃ T : Nat → Prop, T m.src.index ∧ T m.dst.index ∧
      (∀ k, ¬ T k → nibbleAt (P.make_move env m).m_board k = nibbleAt P.m_board k) ∧
      (∀ k, T k → k ≠ m.src.index → ∀ d ≤ 1, nibbleAt P.m_board k ≠ squareCode P_KING d) ∧
      (∀ k, T k → k ≠ m.dst.index → ∀ d ≤ 1,
        nibbleAt (P.make_move env m).m_board k ≠ squareCode P_KING d) ∧
      nibbleAt (P.make_move env m).m_board m.dst.index =
        squareCode (if m.promote then m.promote_piece else m.piece) m.color := by
  obtain ⟨-, ⟨hsrc, hdst, hne, hc, hp1, hp6, hps, hcs, hk, -⟩,
    ⟨ht1, ht2, ht3, ht4⟩, hep, hca⟩ := hm
  have hoc := other_color_le m.color hc
  have hmoved : (if m.promote = true then m.promote_piece else m.piece) ≤ 6 := by
    split
    · rename_i h; exact Nat.le_trans (ht4 h).2.2 (by decide)
    · exact hp6
  have hsd : m.src.index ≠ m.dst.index := index_ne _ _ hsrc hdst hne
  have k0 : ∀ d ≤ 1, (0 : Nat) ≠ squareCode P_KING d := by decide
  have kR : ∀ c ≤ 1, ∀ d ≤ 1, squareCode P_ROOK c ≠ squareCode P_KING d := by decide
  have kP : ∀ c ≤ 1, ∀ d ≤ 1, squareCode P_PAWN c ≠ squareCode P_KING d := by decide
  have kT : ∀ p ≤ 5, ∀ c ≤ 1, ∀ d ≤ 1, squareCode p c ≠ squareCode P_KING d := by decide
  have hform := fun k => nibble_make_move env P m k (squareCode_lt _ _ hmoved hc) hc
  -- the destination square of `P` holds no king
  have hD : ∀ d ≤ 1, nibbleAt P.m_board m.dst.index ≠ squareCode P_KING d := by
    intro d hd
    cases htk : m.takes
    · rw [nibbleAt_of_empty P m.dst hdst (ht3 (Or.inl htk))]; exact k0 d hd
    · cases he : m.en_passant
      · obtain ⟨a1, a2, a3, a4⟩ := ht1 htk he
        rw [nibbleAt_of_holds P m.dst m.taken_piece _ hdst (Nat.le_trans a2 (by decide)) hoc a3 a4]
        exact kT _ a2 _ hoc d hd
      · rw [nibbleAt_of_empty P m.dst hdst (ht3 (Or.inr he))]; exact k0 d hd
  cases he : m.en_passant
  · cases hcas : m.castling
    · refine ⟨fun k => k = m.src.index ∨ k = m.dst.index, Or.inl rfl, Or.inr rfl, ?_, ?_, ?_, ?_⟩
      · intro k hk
        rw [hform k, he, hcas]
        simp only [Bool.false_eq_true, false_and, if_false]
        rw [if_neg (fun h => hk (Or.inl h)), if_neg (fun h => hk (Or.inr h))]
      · intro k hk hks d hd
        rcases hk with h | h
        · exact absurd h hks
        · rw [h]; exact hD d hd
      · intro k hk hkd d hd
        rcases hk with h | h
        · rw [hform k, he, hcas]
          simp only [Bool.false_eq_true, false_and, if_false]
          rw [if_pos h]; exact k0 d hd
        · exact absurd h hkd
      · rw [hform, he, hcas]
        simp only [Bool.false_eq_true, false_and, if_false]
        rw [if_neg (fun h => hsd h.symm)]
        exact if_pos trivial
    · obtain ⟨c1, c2, c3, c4, c5, c6, c7, c8⟩ := hca hcas
      obtain ⟨hrs, hrd⟩ := rook_onBoard m hsrc c5
      obtain ⟨d1, d2, d3, d4, d5⟩ := rook_distinct m hsrc c3 c5
      have i1 := index_ne _ _ hrs hsrc d1
      have i2 := index_ne _ _ hrs hdst d2
      have i3 := index_ne _ _ hrd hsrc d3
      have i4 := index_ne _ _ hrd hdst d4
      have i5 := index_ne _ _ hrd hrs d5
      have hRS := nibbleAt_of_holds P _ P_ROOK m.color hrs (by decide) hc c6 c7
      have hRD := nibbleAt_of_empty P _ hrd c8
      refine ⟨fun k => k = (rook_dst m).index ∨ k = (rook_src m).index ∨ k = m.src.index ∨
        k = m.dst.index, Or.inr (Or.inr (Or.inl rfl)), Or.inr (Or.inr (Or.inr rfl)), ?_, ?_, ?_, ?_⟩
      · intro k hk
        rw [hform k, he, hcas]
        simp only [Bool.false_eq_true, false_and, if_false, true_and]
        rw [if_neg (fun h => hk (Or.inl h)), if_neg (fun h => hk (Or.inr (Or.inl h))),
          if_neg (fun h => hk (Or.inr (Or.inr (Or.inl h)))),
          if_neg (fun h => hk (Or.inr (Or.inr (Or.inr h))))]
      · intro k hk hks d hd
        rcases hk with h | h | h | h
        · rw [h, hRD]; exact k0 d hd
        · rw [h, hRS]; exact kR _ hc d hd
        · exact absurd h hks
        · rw [h]; exact hD d hd
      · intro k hk hkd d hd
        rw [hform k, he, hcas]
        simp only [Bool.false_eq_true, false_and, if_false, true_and]
        rcases hk with h | h | h | h
        · rw [if_pos h]; exact kR _ hc d hd
        · rw [if_neg (fun h2 => i5 (h2.symm.trans h)), if_pos h]; exact k0 d hd
        · rw [if_neg (fun h2 => i3 (h2.symm.trans h)), if_neg (fun h2 => i1 (h2.symm.trans h)),
            if_pos h]
          exact k0 d hd
        · exact absurd h hkd
      · rw [hform, he, hcas]
        simp only [Bool.false_eq_true, false_and, if_false, true_and]
        rw [if_neg (fun h => i4 h.symm), if_neg (fun h => i2 h.symm),
          if_neg (fun h => hsd h.symm)]
        exact if_pos trivial
  · obtain ⟨e1, e2, e3, e4, e5, e6, e7, e8, e9⟩ := hep he
    have hE := nibbleAt_of_holds P _ P_PAWN _ e5 (by decide) hoc e8 e9
    have hfl : (P.castle_key_step env m).m_flags = P.m_flags := by
      rw [castle_key_step_m_flags, new_castle_rights_pawn _ m e2 e4]
      simp only [ne_eq, not_true_eq_false, if_false]
    have j1 := index_ne _ _ e5 hsrc e6
    have j2 := index_ne _ _ e5 hdst e7
    refine ⟨fun k => k = (env.get_en_passant_pos P.m_flags).index ∨ k = m.src.index ∨
      k = m.dst.index, Or.inr (Or.inl rfl), Or.inr (Or.inr rfl), ?_, ?_, ?_, ?_⟩
    · intro k hk
      rw [hform k, he, e3, hfl]
      simp only [Bool.false_eq_true, false_and, if_false, true_and]
      rw [if_neg (fun h => hk (Or.inl h)), if_neg (fun h => hk (Or.inr (Or.inl h))),
        if_neg (fun h => hk (Or.inr (Or.inr h)))]
    · intro k hk hks d hd
      rcases hk with h | h | h
      · rw [h, hE]; exact kP _ hoc d hd
      · exact absurd h hks
      · rw [h]; exact hD d hd
    · intro k hk hkd d hd
      rw [hform k, he, e3, hfl]
      simp only [Bool.false_eq_true, false_and, if_false, true_and]
      rcases hk with h | h | h
      · rw [if_pos h]; exact k0 d hd
      · rw [if_neg (fun h2 => j1 (h2.symm.trans h)), if_pos h]; exact k0 d hd
      · exact absurd h hkd
    · rw [hform, he, e3, hfl]
      simp only [Bool.false_eq_true, false_and, if_false, true_and]
      rw [if_neg (fun h => j2 h.symm), if_neg (fun h => hsd h.symm)]
      exact if_pos trivial

theorem make_move_king_cache (env : Env) (P : Board) (m : Move) (hm : LegalRecord env P m) :
    (P.make_move env m).m_king_pos =
      if m.piece = P_KING then (fun c' => if c' = m.color then m.dst else P.m_king_pos c')
      else P.m_king_pos := by
  obtain ⟨-, -, ⟨-, -, -, ht4⟩, -, -⟩ := hm
  rw [make_move_m_king_pos, move_pieces_m_king_pos, castle_key_step_m_king_pos]
  cases hp : m.promote
  · simp only [Bool.false_eq_true, if_false]
  · obtain ⟨a1, a2, a3⟩ := ht4 hp
    have n1 : ¬ (m.promote_piece = P_KING) := by
      intro h; rw [h] at a3; exact absurd a3 (by decide)
    have n2 : ¬ (m.piece = P_KING) := by
      intro h; rw [h] at a1; exact absurd a1 (by decide)
    simp only [if_true, if_neg n1, if_neg n2]

theorem kings_make_move_iff (env : Env) (P : Board) (m : Move) (hm : LegalRecord env P m) :
    KingsN P.m_board P.m_king_pos ↔
      KingsN (P.make_move env m).m_board (P.make_move env m).m_king_pos := by
  obtain ⟨T, tS, tD, f1, f2, f4, f5⟩ := make_move_touched env P m hm
  have hkp := make_move_king_cache env P m hm
  obtain ⟨-, ⟨hsrc, hdst, hne, hc, hp1, hp6, hps, hcs, hk, -⟩, ⟨-, -, -, ht4⟩, -, -⟩ := hm
  have hS : nibbleAt P.m_board m.src.index = squareCode m.piece m.color :=
    nibbleAt_of_holds P m.src m.piece m.color hsrc hp6 hc hps hcs
  have hmoved : (if m.promote = true then m.promote_piece else m.piece) ≤ 6 := by
    split
    · rename_i h; exact Nat.le_trans (ht4 h).2.2 (by decide)
    · exact hp6
  have hmk : (if m.promote = true then m.promote_piece else m.piece) = P_KING ↔
      m.piece = P_KING := by
    cases hp : m.promote
    · simp only [Bool.false_eq_true, if_false]
    · obtain ⟨a1, a2, a3⟩ := ht4 hp
      simp only [if_true]
      constructor
      · intro h; rw [h] at a3; exact absurd a3 (by decide)
      · intro h; rw [h] at a1; exact absurd a1 (by decide)
  unfold KingsN
  apply forall_congr'
  intro c
  apply imp_congr_right
  intro hc1
  have kc := fun p hp => (king_code p hp m.color hc c hc1).1
  by_cases hK : m.piece = P_KING ∧ m.color = c
  · obtain ⟨hK1, hK2⟩ := hK
    have e1 : P.m_king_pos c = m.src := by rw [← hK2]; exact hk hK1
    have e2 : (P.make_move env m).m_king_pos c = m.dst := by
      rw [hkp, if_pos hK1]; simp only [hK2, if_true]
    have hSX : nibbleAt P.m_board m.src.index = squareCode P_KING c := by
      rw [hS]; exact (kc _ hp6).mpr ⟨hK1, hK2⟩
    have hDX : nibbleAt (P.make_move env m).m_board m.dst.index = squareCode P_KING c := by
      rw [f5]; exact (kc _ hmoved).mpr ⟨hmk.mpr hK1, hK2⟩
    rw [e1, e2]
    constructor
    · rintro ⟨-, h⟩
      refine ⟨hdst, ?_⟩
      intro pos hpos
      constructor
      · intro hx
        by_contra hpd
        by_cases hT : T pos.index
        · exact f4 _ hT (index_ne _ _ hpos hdst hpd) c hc1 hx
        · rw [f1 _ hT] at hx
          have := (h pos hpos).mp hx
          rw [this] at hT
          exact hT tS
      · intro hx; rw [hx]; exact hDX
    · rintro ⟨-, h⟩
      refine ⟨hsrc, ?_⟩
      intro pos hpos
      constructor
      · intro hx
        by_contra hps
        by_cases hT : T pos.index
        · exact f2 _ hT (index_ne _ _ hpos hsrc hps) c hc1 hx
        · rw [← f1 _ hT] at hx
          have := (h pos hpos).mp hx
          rw [this] at hT
          exact hT tD
      · intro hx; rw [hx]; exact hSX
  · have e2 : (P.make_move env m).m_king_pos c = P.m_king_pos c := by
      rw [hkp]
      by_cases hK1 : m.piece = P_KING
      · rw [if_pos hK1]
        have : ¬ (c = m.color) := fun h => hK ⟨hK1, h.symm⟩
        simp only [if_neg this]
      · rw [if_neg hK1]
    have hSX : nibbleAt P.m_board m.src.index ≠ squareCode P_KING c := by
      rw [hS]; exact fun h => hK ((kc _ hp6).mp h)
    have hDX : nibbleAt (P.make_move env m).m_board m.dst.index ≠ squareCode P_KING c := by
      rw [f5]; exact fun h => hK ⟨hmk.mp ((kc _ hmoved).mp h).1, ((kc _ hmoved).mp h).2⟩
    have key : ∀ pos : Pos, pos.onBoard →
        (nibbleAt P.m_board pos.index = squareCode P_KING c ↔
          nibbleAt (P.make_move env m).m_board pos.index = squareCode P_KING c) := by
      intro pos hpos
      by_cases hT : T pos.index
      · have n1 : nibbleAt P.m_board pos.index ≠ squareCode P_KING c := by
          by_cases hs : pos.index = m.src.index
          · rw [hs]; exact hSX
          · exact f2 _ hT hs c hc1
        have n2 : nibbleAt (P.make_move env m).m_board pos.index ≠ squareCode P_KING c := by
          by_cases hd : pos.index = m.dst.index
          · rw [hd]; exact hDX
          · exact f4 _ hT hd c hc1
        exact ⟨fun h => absurd h n1, fun h => absurd h n2⟩
      · rw [f1 _ hT]
    rw [e2]
    apply and_congr_right
    intro _
    apply forall_congr'
    intro pos
    apply imp_congr_right
    intro hpos
    rw [key pos hpos]

theorem kings_make_move (env : Env) (P : Board) (m : Move) (hm : LegalRecord env P m) :
    KingsCached P ↔ KingsCached (P.make_move env m) := by
  rw [kings_iff, kings_iff]
  exact kings_make_move_iff env P m hm

theorem kings_congr (b b2 : Board) (h1 : b2.m_board = b.m_board)
    (h2 : b2.m_king_pos = b.m_king_pos) : KingsCached b2 ↔ KingsCached b := by
  rw [kings_iff, kings_iff, h1, h2]

theorem make_null_move_squares (env : Env) (b : Board) (n : NullMove) :
    (b.make_null_move env n).m_board = b.m_board ∧
    (b.make_null_move env n).m_king_pos = b.m_king_pos := by
  unfold Board.make_null_move Board.set_next_move Board.set_en_passant_pos
  simp only
  split <;> exact ⟨rfl, rfl⟩

theorem unmake_null_move_squares (b : Board) (n : NullMove) :
    (b.unmake_null_move n).m_board = b.m_board ∧
    (b.unmake_null_move n).m_king_pos = b.m_king_pos := by
  unfold Board.unmake_null_move Board.set_next_move
  exact ⟨rfl, rfl⟩

/-- Claim C11: the cached king squares stay the actual king squares (invariant
I2) through `make_move` of a legal move, through the `unmake_move` that takes
it back, and through `make_null_move` and `unmake_null_move`. -/
theorem C11_king_cache_preserved (env : Env) (P : Board) (m : Move) (hwf : P.wf)
    (hm : LegalRecord env P m) :
    (KingsCached P → KingsCached (P.make_move env m)) ∧
    (KingsCached (P.make_move env m) →
      KingsCached ((P.make_move env m).unmake_move env m)) ∧
    (∀ (B : Board) (n : NullMove), KingsCached B →
      KingsCached (B.make_null_move env n) ∧ KingsCached (B.unmake_null_move n)) := by
  refine ⟨(kings_make_move env P m hm).mp, ?_, ?_⟩
  · intro h
    rw [unmake_make env P m hwf hm]
    exact (kings_make_move env P m hm).mpr h
  · intro B n h
    obtain ⟨a1, a2⟩ := make_null_move_squares env B n
    obtain ⟨b1, b2⟩ := unmake_null_move_squares B n
    exact ⟨(kings_congr B _ a1 a2).mpr h, (kings_congr B _ b1 b2).mpr h⟩

/-- Witness of C11 on the sample position with the castling move, which moves
the king and so changes the cache. -/
theorem C11_witness :
    LegalRecord sampleEnv sampleBoard castlingMove ∧ KingsCached sampleBoard ∧
    KingsCached (sampleBoard.make_move sampleEnv castlingMove) ∧
    KingsCached
      ((sampleBoard.make_move sampleEnv castlingMove).unmake_move sampleEnv castlingMove) :=
  have hl : LegalRecord sampleEnv sampleBoard castlingMove := by decide
  have h := C11_king_cache_preserved sampleEnv sampleBoard castlingMove sampleBoard_wf hl
  have h0 : KingsCached sampleBoard := by decide
  ⟨hl, h0, h.1 h0, h.2.1 (h.1 h0)⟩

theorem fields_of_ok (fen_position : String)
    (h : (fen_read_fields emptyBoard fen_position).toBool = true) :
    fen_read_fields emptyBoard fen_position = .ok (fields_of fen_position) := by
  unfold fields_of
  cases hx : fen_read_fields emptyBoard fen_position with
  | ok r => rfl
  | error e => rw [hx] at h; exact absurd h (by simp [Except.toBool])

set_option maxRecDepth 1000000 in
theorem fen_roundtrip_start : reload fenEnv startFen = some startFen.toList := by
  decide

/-- Claim C12 fails on the position after 1. e4: the reader keeps only the
file of the en-passant square, and `write_fen_position` prints the square of
the accessor `get_en_passant_pos`, the pawn on e4, where the text read has the
target square e3. -/
theorem C12_en_passant_square_rewritten :
    reload fenEnv e4Fen =
      some "rnbqkbnr/pppppppp/8/8/4P3/8/PPPP1PPP/RNBQKBNR b KQkq e4 0 1".toList ∧
    reload fenEnv e4Fen ≠ some e4Fen.toList := by
  set_option maxRecDepth 1000000 in decide

/-- Claim C14 fails on a text of 65 squares: no exception is raised and the
65th square is written at row -1, column 0, which is byte 124 of the packed
array, beyond its 32 bytes. -/
theorem C14_square_65_written :
    loaded_byte overFen 124 = some (squareCode P_QUEEN C_WHITE) ∧
    emptyBoard.m_board 124 = 0 ∧ squareCode P_QUEEN C_WHITE ≠ 0 := by
  set_option maxRecDepth 1000000 in decide

theorem wrap32_small (x : Int) (h1 : -2147483648 ≤ x) (h2 : x < 2147483648) : wrap32 x = x := by
  unfold wrap32; omega

/-- Claim C15: when the full-move number read from the FEN text is `f` with
`1 ≤ f` (and `f < 2^30`, so that `2 * full_move` stays an `int`), the ply count
`p` left by the reader has `p/2 + 1 = f`; it is `2f - 2` when White is to move
and `2f - 1` when Black is, so it is even exactly when White is to move. -/
theorem C15_ply_of_full_move (b0 b : Board) (fen_position : String) (reader : IStream)
    (f : Int) (hfields : fen_read_fields b0 fen_position = .ok (b, reader))
    (hf : (read_int (read_int reader 0).2 1).1 = f) (h1 : 1 ≤ f) (h2 : f < 2 ^ 30) :
    ∃ b1, FenReader.load_position b0 fen_position = .ok b1 ∧
      b1.get_next_move = b.get_next_move ∧
      (b1.get_full_move : Int) = f ∧ (b1.m_ply_count : Int) / 2 + 1 = f ∧
      (b1.get_next_move = C_WHITE → (b1.m_ply_count : Int) = 2 * f - 2) ∧
      (b1.get_next_move ≠ C_WHITE → (b1.m_ply_count : Int) = 2 * f - 1) ∧
      (b1.m_ply_count % 2 = 0 ↔ b1.get_next_move = C_WHITE) := by
  refine ⟨fen_read_counters b reader, ?_, ?_⟩
  · unfold FenReader.load_position; rw [hfields]
  · have w1 : wrap32 (2 * f) = 2 * f := wrap32_small _ (by omega) (by omega)
    have w2 : wrap32 (2 * f - 2) = 2 * f - 2 := wrap32_small _ (by omega) (by omega)
    have w3 : wrap32 (2 * f - 1) = 2 * f - 1 := wrap32_small _ (by omega) (by omega)
    unfold fen_read_counters Board.get_full_move
    simp only [hf, w1, w2, w3]
    by_cases hw : (b.set_half_move (read_int reader 0).1).get_next_move = C_WHITE
    · rw [if_pos hw]
      have hw3 : b.m_flags.next_move = C_WHITE := hw
      have hp : (((2 * f - 2).toNat : Nat) : Int) = 2 * f - 2 := Int.toNat_of_nonneg (by omega)
      unfold Board.set_ply_count Board.get_next_move Board.set_half_move
      simp only
      generalize (2 * f - 2).toNat = p at hp
      refine ⟨trivial, ?_, ?_, ?_, ?_, ?_⟩
      · push_cast; omega
      · omega
      · intro _; exact hp
      · intro h; exact absurd hw3 h
      · exact ⟨fun _ => hw3, fun _ => by omega⟩
    · rw [if_neg hw]
      have hw3 : ¬ (b.m_flags.next_move = C_WHITE) := hw
      have hp : (((2 * f - 1).toNat : Nat) : Int) = 2 * f - 1 := Int.toNat_of_nonneg (by omega)
      unfold Board.set_ply_count Board.get_next_move Board.set_half_move
      simp only
      generalize (2 * f - 1).toNat = p at hp
      refine ⟨trivial, ?_, ?_, ?_, ?_, ?_⟩
      · push_cast; omega
      · omega
      · intro h; exact absurd h hw3
      · intro _; exact hp
      · exact ⟨fun h => by omega, fun h => absurd h hw3⟩

/-- Witness of C15: a position text with White to move and full-move number 31
leaves the ply count 60. -/
theorem C15_witness :
    (fen_read_fields emptyBoard move31Fen).toBool = true ∧
    (read_int (read_int (fields_of move31Fen).2 0).2 1).1 = 31 ∧
    ∃ b1, FenReader.load_position emptyBoard move31Fen = .ok b1 ∧
      b1.get_next_move = (fields_of move31Fen).1.get_next_move ∧
      (b1.get_full_move : Int) = 31 ∧ (b1.m_ply_count : Int) / 2 + 1 = 31 ∧
      (b1.get_next_move = C_WHITE → (b1.m_ply_count : Int) = 2 * 31 - 2) ∧
      (b1.get_next_move ≠ C_WHITE → (b1.m_ply_count : Int) = 2 * 31 - 1) ∧
      (b1.m_ply_count % 2 = 0 ↔ b1.get_next_move = C_WHITE) :=
  have h0 : (fen_read_fields emptyBoard move31Fen).toBool = true := by
    set_option maxRecDepth 1000000 in decide
  have hf : (read_int (read_int (fields_of move31Fen).2 0).2 1).1 = 31 := by
    set_option maxRecDepth 1000000 in decide
  ⟨h0, hf, C15_ply_of_full_move emptyBoard (fields_of move31Fen).1 move31Fen
    (fields_of move31Fen).2 31 (fields_of_ok move31Fen h0) hf (by decide) (by decide)⟩

theorem i8_u8 (x : Int) (h1 : -128 ≤ x) (h2 : x ≤ 127) : i8 (u8 x) = x := by
  unfold i8 u8
  split <;> omega

theorem next_square_after (n : Nat) (h : n ≤ 1000) :
    next_square (square_after n) = square_after (n + 1) := by
  unfold next_square square_after
  simp only
  rw [i8_u8 _ (by omega) (by omega)]
  by_cases h7 : n % 8 = 7
  · rw [if_pos (by omega), i8_u8 _ (by omega) (by omega)]
    simp only [Pos.mk.injEq]
    constructor <;> omega
  · rw [if_neg (by omega)]
    simp only [Pos.mk.injEq]
    constructor <;> omega

theorem fill_empty_after : ∀ (d : Nat) (b : Board) (n : Nat), n + d ≤ 1000 →
    (fill_empty d b (square_after n)).2 = square_after (n + d) := by
  intro d
  induction d with
  | zero => intro b n _; rfl
  | succ d ih =>
    intro b n h
    unfold fill_empty
    rw [next_square_after n (by omega), ih _ (n + 1) (by omega)]
    congr 1
    omega

theorem letter_iff (c : Char) : c ∈ piece_letters ↔ get_piece_by_char_fen c ≠ P_INVALID_PIECE := by
  unfold get_piece_by_char_fen piece_letters
  simp only [List.mem_cons, List.mem_singleton, List.not_mem_nil, or_false]
  constructor
  · intro h
    rcases h with h | h | h | h | h | h | h | h | h | h | h | h <;> subst h <;> decide
  · intro h
    split_ifs at h with h1 h2 h3 h4 h5 h6
    · rcases h1 with h | h <;> simp [h]
    · rcases h2 with h | h <;> simp [h]
    · rcases h3 with h | h <;> simp [h]
    · rcases h4 with h | h <;> simp [h]
    · rcases h5 with h | h <;> simp [h]
    · rcases h6 with h | h <;> simp [h]
    · exact absurd rfl h

theorem digit_facts (c : Char) (h1 : '1' ≤ c) (h2 : c ≤ '8') :
    c ≠ ' ' ∧ c ≠ '/' ∧ c ∉ piece_letters ∧ 1 ≤ c.toNat - '0'.toNat ∧
      c.toNat - '0'.toNat ≤ 8 := by
  have a1 : 49 ≤ c.toNat := h1
  have a2 : c.toNat ≤ 56 := h2
  have key : ∀ x : Char, ¬ (49 ≤ x.toNat ∧ x.toNat ≤ 56) → c ≠ x := by
    intro x hx h; subst h; exact hx ⟨a1, a2⟩
  refine ⟨key _ (by decide), key _ (by decide), ?_, ?_, ?_⟩
  · unfold piece_letters
    simp only [List.mem_cons, List.mem_singleton, List.not_mem_nil, or_false, not_or]
    refine ⟨?_, ?_, ?_, ?_, ?_, ?_, ?_, ?_, ?_, ?_, ?_, ?_⟩ <;> exact key _ (by decide)
  · have : '0'.toNat = 48 := by decide
    omega
  · have : '0'.toNat = 48 := by decide
    omega

theorem square_after_row (n : Nat) : ¬ ((square_after n).row > 7) := by
  unfold square_after; simp only; omega

theorem loop_slash (cs : List Char) (b : Board) (n : Nat) :
    fen_read_position_loop ('/' :: cs) b (square_after n) =
      if n % 8 ≠ 0 then .error .invalid_fen_string
      else fen_read_position_loop cs b (square_after n) := by
  rw [fen_read_position_loop]
  have h1 : ¬ ('/' = ' ') := by decide
  rw [if_neg h1, if_pos rfl]
  have hrow : ¬ ((square_after n).row ≥ 8) := by unfold square_after; simp only; omega
  by_cases h : n % 8 = 0
  · have hcol : ¬ ((square_after n).column ≠ 0) := by
      unfold square_after; simp only; omega
    rw [if_neg (by rintro (h2 | h2); exact hcol h2; exact hrow h2), if_neg (by omega)]
  · have hcol : (square_after n).column ≠ 0 := by
      unfold square_after; simp only; omega
    rw [if_pos (Or.inl hcol), if_pos h]

theorem loop_piece (c : Char) (cs : List Char) (b : Board) (n : Nat) (h : c ∈ piece_letters) :
    fen_read_position_loop (c :: cs) b (square_after n) =
      fen_read_position_loop cs
        (b.set_piece_at (square_after n) (get_piece_by_char_fen c) (get_color_by_char_fen c))
        (next_square (square_after n)) := by
  have h1 : c ≠ ' ' := by rintro rfl; exact absurd h (by decide)
  have h2 : c ≠ '/' := by rintro rfl; exact absurd h (by decide)
  rw [fen_read_position_loop, if_neg h1, if_neg h2, if_neg (square_after_row n)]
  simp only
  rw [if_pos ((letter_iff c).mp h)]

theorem loop_digit (c : Char) (cs : List Char) (b : Board) (n : Nat)
    (h1 : '1' ≤ c) (h2 : c ≤ '8') :
    fen_read_position_loop (c :: cs) b (square_after n) =
      fen_read_position_loop cs (fill_empty (c.toNat - '0'.toNat) b (square_after n)).1
        (fill_empty (c.toNat - '0'.toNat) b (square_after n)).2 := by
  obtain ⟨d1, d2, d3, -, -⟩ := digit_facts c h1 h2
  have d4 : ¬ (get_piece_by_char_fen c ≠ P_INVALID_PIECE) := fun h => d3 ((letter_iff c).mpr h)
  rw [fen_read_position_loop, if_neg d1, if_neg d2, if_neg (square_after_row n)]
  simp only
  rw [if_neg d4, if_pos ⟨h1, h2⟩]

theorem loop_other (c : Char) (cs : List Char) (b : Board) (n : Nat)
    (h1 : ¬ placement_char c) (h2 : c ≠ ' ') :
    fen_read_position_loop (c :: cs) b (square_after n) = .error .invalid_fen_string := by
  unfold placement_char at h1
  simp only [not_or] at h1
  obtain ⟨a1, a2, a3⟩ := h1
  have d4 : ¬ (get_piece_by_char_fen c ≠ P_INVALID_PIECE) := fun h => a1 ((letter_iff c).mpr h)
  rw [fen_read_position_loop, if_neg h2, if_neg a3, if_neg (square_after_row n)]
  simp only
  rw [if_neg d4, if_neg a2]

theorem position_prefix : ∀ (pre tail : List Char) (b : Board) (n : Nat),
    (∀ x ∈ pre, placement_char x) → n + squares_described pre ≤ 64 →
    fen_read_position_loop (pre ++ tail) b (square_after n) = .error .invalid_fen_string ∨
    ∃ b1, fen_read_position_loop (pre ++ tail) b (square_after n) =
      fen_read_position_loop tail b1 (square_after (n + squares_described pre)) := by
  intro pre
  induction pre with
  | nil => intro tail b n _ _; exact Or.inr ⟨b, rfl⟩
  | cons c cs ih =>
    intro tail b n hall hn
    have hc := hall c (List.mem_cons_self _ _)
    have hcs : ∀ x ∈ cs, placement_char x := fun x hx => hall x (List.mem_cons_of_mem _ hx)
    unfold squares_described at hn ⊢
    rw [List.cons_append]
    rcases hc with hl | ⟨hd1, hd2⟩ | hs
    · have e : squares_of_char c = 1 := by unfold squares_of_char; rw [if_pos hl]
      rw [e] at hn ⊢
      rw [loop_piece c _ b n hl, next_square_after n (by omega)]
      rcases ih tail _ (n + 1) hcs (by omega) with h | ⟨b1, h⟩
      · exact Or.inl h
      · refine Or.inr ⟨b1, ?_⟩
        rw [h]; congr 2; omega
    · obtain ⟨-, -, d3, d4, d5⟩ := digit_facts c hd1 hd2
      have e : squares_of_char c = c.toNat - '0'.toNat := by
        unfold squares_of_char; rw [if_neg d3, if_pos ⟨hd1, hd2⟩]
      rw [e] at hn ⊢
      rw [loop_digit c _ b n hd1 hd2, fill_empty_after _ b n (by omega)]
      rcases ih tail (fill_empty (c.toNat - '0'.toNat) b (square_after n)).1
        (n + (c.toNat - '0'.toNat)) hcs (by omega) with h | ⟨b1, h⟩
      · exact Or.inl h
      · refine Or.inr ⟨b1, ?_⟩
        rw [h]; congr 2; omega
    · subst hs
      have e : squares_of_char '/' = 0 := by decide
      rw [e] at hn ⊢
      rw [loop_slash]
      by_cases h8 : n % 8 ≠ 0
      · rw [if_pos h8]; exact Or.inl rfl
      · rw [if_neg h8]
        rcases ih tail b n hcs (by omega) with h | ⟨b1, h⟩
        · exact Or.inl h
        · refine Or.inr ⟨b1, ?_⟩
          rw [h]; congr 2; omega

theorem skip_spaces_replicate (k : Nat) (l : List Char) :
    skip_spaces (List.replicate k ' ' ++ l) = skip_spaces l := by
  induction k with
  | zero => rfl
  | succ k ih =>
    rw [List.replicate_succ, List.cons_append, skip_spaces, if_pos rfl, ih]

theorem skip_spaces_head (c : Char) (cs : List Char) (h : c ≠ ' ') :
    skip_spaces (c :: cs) = ⟨c :: cs, false⟩ := by
  rw [skip_spaces, if_neg h]

theorem load_error_of_position (b : Board) (fen_position : String)
    (h : fen_read_position b (remove_whitespace ⟨fen_position.toList, false⟩) =
      .error .invalid_fen_string) :
    FenReader.load_position b fen_position = .error .invalid_fen_string := by
  unfold FenReader.load_position fen_read_fields
  simp only [h]

theorem position_error_of_loop (b : Board) (l : List Char) (c : Char) (cs : List Char)
    (k : Nat) (hl : l = c :: cs) (hc : c ≠ ' ')
    (h : fen_read_position_loop l b (square_after 0) = .error .invalid_fen_string) :
    FenReader.load_position b (String.mk (List.replicate k ' ' ++ l)) =
      .error .invalid_fen_string := by
  apply load_error_of_position
  have e : remove_whitespace ⟨(String.mk (List.replicate k ' ' ++ l)).toList, false⟩ =
      ⟨l, false⟩ := by
    unfold remove_whitespace
    simp only [Bool.false_eq_true, if_false]
    show skip_spaces (List.replicate k ' ' ++ l) = _
    rw [skip_spaces_replicate, hl, skip_spaces_head c cs hc]
  rw [e]
  unfold fen_read_position IStream.pending
  simp only [Bool.false_eq_true, if_false]
  have e0 : (⟨7, 0⟩ : Pos) = square_after 0 := by decide
  rw [e0, h]

theorem skip_spaces_pending : ∀ (l : List Char) (c : Char) (cs : List Char),
    (skip_spaces l).pending = c :: cs → c ≠ ' ' := by
  intro l
  induction l with
  | nil => intro c cs h; exact absurd h (by simp [skip_spaces, IStream.pending])
  | cons x xs ih =>
    intro c cs h
    rw [skip_spaces] at h
    by_cases hx : x = ' '
    · rw [if_pos hx] at h; exact ih c cs h
    · rw [if_neg hx] at h
      simp only [IStream.pending, Bool.false_eq_true, if_false, List.cons.injEq] at h
      rw [← h.1]; exact hx

theorem remove_whitespace_pending (input : IStream) (c : Char) (cs : List Char)
    (h : (remove_whitespace input).pending = c :: cs) : c ≠ ' ' := by
  unfold remove_whitespace at h
  by_cases hb : input.bad = true
  · rw [if_pos hb] at h
    unfold IStream.pending at h
    rw [if_pos hb] at h
    exact absurd h (by simp)
  · rw [if_neg hb] at h
    exact skip_spaces_pending _ c cs h

theorem position_pending (b b1 : Board) (input r : IStream) (c : Char) (cs : List Char)
    (h : fen_read_position b input = .ok (b1, r)) (hp : r.pending = c :: cs) : c ≠ ' ' := by
  unfold fen_read_position at h
  split at h
  · exact absurd h (by simp)
  · rename_i b2 r2 _
    simp only [Except.ok.injEq, Prod.mk.injEq] at h
    rw [← h.2] at hp
    exact remove_whitespace_pending _ c cs hp

theorem side_error (b : Board) (r : IStream) (c : Char) (cs : List Char)
    (hp : r.pending = c :: cs) (h0 : c ≠ ' ') (h1 : c ≠ 'w') (h2 : c ≠ 'b') :
    fen_read_next_to_move b r = .error .invalid_fen_string := by
  unfold fen_read_next_to_move
  rw [hp]
  simp only [if_neg h0, if_neg h1, if_neg h2]

theorem castle_loop_error : ∀ (pre : List Char) (c : Char) (cs : List Char) (acc : Nat),
    (∀ x ∈ pre, x ∈ ['K', 'Q', 'k', 'q']) → c ∉ ['K', 'Q', 'k', 'q', '-', ' '] →
    fen_read_castle_rights_loop (pre ++ c :: cs) acc = .error .invalid_fen_string := by
  intro pre
  induction pre with
  | nil =>
    intro c cs acc _ hc
    simp only [List.mem_cons, List.mem_singleton, List.not_mem_nil, or_false, not_or] at hc
    obtain ⟨a1, a2, a3, a4, a5, a6⟩ := hc
    rw [List.nil_append, fen_read_castle_rights_loop,
      if_neg (by rintro (h | h); exact a6 h; exact a5 h), if_neg a3, if_neg a4, if_neg a1,
      if_neg a2]
  | cons x xs ih =>
    intro c cs acc hall hc
    have hx := hall x (List.mem_cons_self _ _)
    have hxs : ∀ y ∈ xs, y ∈ ['K', 'Q', 'k', 'q'] := fun y hy =>
      hall y (List.mem_cons_of_mem _ hy)
    rw [List.cons_append, fen_read_castle_rights_loop]
    simp only [List.mem_cons, List.mem_singleton, List.not_mem_nil, or_false] at hx
    rcases hx with h | h | h | h <;> subst h <;>
      simp only [Char.reduceEq, or_self, if_false, if_true] <;> exact ih c cs _ hxs hc

theorem placement_not_space (x : Char) (h : placement_char x) : x ≠ ' ' := by
  rintro rfl; exact absurd h (by decide)

theorem placement_error (b : Board) (k : Nat) (pre : List Char) (c : Char) (rest : List Char)
    (hall : ∀ x ∈ pre, placement_char x) (hn : squares_described pre ≤ 64)
    (hc : c ≠ ' ')
    (hstep : ∀ b1, fen_read_position_loop (c :: rest) b1
      (square_after (0 + squares_described pre)) = .error .invalid_fen_string) :
    FenReader.load_position b (String.mk (List.replicate k ' ' ++ (pre ++ c :: rest))) =
      .error .invalid_fen_string := by
  have hloop : fen_read_position_loop (pre ++ c :: rest) b (square_after 0) =
      .error .invalid_fen_string := by
    rcases position_prefix pre (c :: rest) b 0 hall (by omega) with h | ⟨b1, h⟩
    · exact h
    · rw [h]; exact hstep b1
  cases pre with
  | nil => exact position_error_of_loop b _ c rest k rfl hc hloop
  | cons x xs =>
    exact position_error_of_loop b _ x (xs ++ c :: rest) k rfl
      (placement_not_space x (hall x (List.mem_cons_self _ _))) hloop

/-- The text `dashFen` refutes C13 as stated: its castling field is `-a`, yet
`load_position` returns without an exception, because `fen_read_castle_rights`
stops at the dash and the en-passant reader takes the `a` for a file. -/
theorem C13_dash_then_letter_accepted :
    after_side emptyBoard dashFen = some ⟨"-a - 0 1".toList, false⟩ ∧
    'a' ∉ ['K', 'Q', 'k', 'q', '-', ' '] ∧
    (FenReader.load_position emptyBoard dashFen).toBool = true := by
  set_option maxRecDepth 1000000 in decide

/-- Claim C13, amended: `load_position` raises `invalid_fen_string` when, with
at most 64 squares described so far in the piece-placement field, (a) a
character other than a piece letter, a digit `1..8`, `/` or the space that ends
the field occurs, or (b) a `/` occurs while the squares described are not a
multiple of 8; when the character read for the side to move is neither `w` nor
`b`; and when a character other than `K`, `Q`, `k`, `q` occurs in the castling
field before its first `-` or space. -/
theorem C13_invalid_fen_string (b : Board) :
    (∀ (k : Nat) (pre : List Char) (c : Char) (rest : List Char),
      (∀ x ∈ pre, placement_char x) → squares_described pre ≤ 64 →
      ¬ placement_char c → c ≠ ' ' →
      FenReader.load_position b (String.mk (List.replicate k ' ' ++ (pre ++ c :: rest))) =
        .error .invalid_fen_string) ∧
    (∀ (k : Nat) (pre : List Char) (rest : List Char),
      (∀ x ∈ pre, placement_char x) → squares_described pre ≤ 64 →
      squares_described pre % 8 ≠ 0 →
      FenReader.load_position b (String.mk (List.replicate k ' ' ++ (pre ++ '/' :: rest))) =
        .error .invalid_fen_string) ∧
    (∀ (fen_position : String) (r : IStream) (c : Char) (cs : List Char),
      after_position b fen_position = some r → r.pending = c :: cs → c ≠ 'w' → c ≠ 'b' →
      FenReader.load_position b fen_position = .error .invalid_fen_string) ∧
    (∀ (fen_position : String) (r : IStream) (pre : List Char) (c : Char) (cs : List Char),
      after_side b fen_position = some r → r.pending = pre ++ c :: cs →
      (∀ x ∈ pre, x ∈ ['K', 'Q', 'k', 'q']) → c ∉ ['K', 'Q', 'k', 'q', '-', ' '] →
      FenReader.load_position b fen_position = .error .invalid_fen_string) := by
  refine ⟨?_, ?_, ?_, ?_⟩
  · intro k pre c rest hall hn hc hsp
    exact placement_error b k pre c rest hall hn hsp (fun b1 => loop_other c rest b1 _ hc hsp)
  · intro k pre rest hall hn h8
    apply placement_error b k pre '/' rest hall hn (by decide)
    intro b1
    rw [loop_slash, if_pos (by omega)]
  · intro fen_position r c cs h hp h1 h2
    unfold after_position at h
    split at h
    · exact absurd h (by simp)
    · rename_i b1 r1 hpos
      simp only [Option.some.injEq] at h
      subst h
      have h0 := position_pending b b1 _ r1 c cs hpos hp
      unfold FenReader.load_position fen_read_fields
      simp only [hpos, side_error b1 r1 c cs hp h0 h1 h2]
  · intro fen_position r pre c cs h hp hall hc
    unfold after_side at h
    split at h
    · exact absurd h (by simp)
    · rename_i b1 r1 hpos
      split at h
      · exact absurd h (by simp)
      · rename_i b2 r2 hside
        simp only [Option.some.injEq] at h
        subst h
        have hcr : fen_read_castle_rights b2 r2 = .error .invalid_fen_string := by
          unfold fen_read_castle_rights
          rw [hp, castle_loop_error pre c cs _ hall hc]
        unfold FenReader.load_position fen_read_fields
        simp only [hpos, hside, hcr]

/-- Witness of C13: one rejected text for each of the four cases. -/
theorem C13_witness :
    FenReader.load_position emptyBoard
        (String.mk (List.replicate 0 ' ' ++ ("rnbqkbnr/pp".toList ++ 'x' :: "5/8 w - - 0 1".toList))) =
      .error .invalid_fen_string ∧
    FenReader.load_position emptyBoard
        (String.mk (List.replicate 1 ' ' ++ ("rnbqkbnr/ppp4".toList ++ '/' :: "8 w - - 0 1".toList))) =
      .error .invalid_fen_string ∧
    FenReader.load_position emptyBoard "8/8/8/8/8/8/8/8 x - - 0 1" =
      .error .invalid_fen_string ∧
    FenReader.load_position emptyBoard "8/8/8/8/8/8/8/8 w Ka - 0 1" =
      .error .invalid_fen_string :=
  have h := C13_invalid_fen_string emptyBoard
  ⟨h.1 0 "rnbqkbnr/pp".toList 'x' "5/8 w - - 0 1".toList (by decide) (by decide) (by decide)
      (by decide),
    h.2.1 1 "rnbqkbnr/ppp4".toList "8 w - - 0 1".toList (by decide) (by decide) (by decide),
    h.2.2.1 "8/8/8/8/8/8/8/8 x - - 0 1" ⟨"x - - 0 1".toList, false⟩ 'x' " - - 0 1".toList
      (by set_option maxRecDepth 1000000 in decide) (by decide) (by decide) (by decide),
    h.2.2.2 "8/8/8/8/8/8/8/8 w Ka - 0 1" ⟨"Ka - 0 1".toList, false⟩ ['K'] 'a' " - 0 1".toList
      (by set_option maxRecDepth 1000000 in decide) (by decide) (by decide) (by decide)⟩

theorem poll_frame (e : NegamaxEngine) :
    e.poll.2.m_hash = e.m_hash ∧ e.poll.2.m_killers = e.m_killers ∧
    e.poll.2.m_stats = e.m_stats ∧ e.poll.2.m_total_nodes = e.m_total_nodes ∧
    e.poll.2.m_total_quiescence_nodes = e.m_total_quiescence_nodes := by
  unfold NegamaxEngine.poll
  split
  · exact ⟨rfl, rfl, rfl, rfl, rfl⟩
  · split <;> exact ⟨rfl, rfl, rfl, rfl, rfl⟩

theorem poll_of_set (e : NegamaxEngine) (h : e.m_stop_required = true) : e.poll = (true, e) := by
  unfold NegamaxEngine.poll; rw [if_pos h]

/-- Claim C16: when the stop flag is found set at the entry of `negamax`, the
call returns `beta` at once, for every board, depth and window, with the board
and the parent PV as they were and the transposition table, the killer table
and the node counters of the engine unchanged; when the flag was already set
the whole engine is unchanged. -/
theorem C16_stop_returns_beta (S : SearchEnv) (fuel : Nat) (e : NegamaxEngine) (b : Board)
    (max_depth remaining_depth current_depth color alpha beta : Int)
    (parentPv previousPv : List Move) (topLevelOrdering : Option (List Move))
    (hstop : e.poll.1 = true) :
    negamax S (fuel + 1) e b max_depth remaining_depth current_depth color alpha beta parentPv
      previousPv topLevelOrdering = some ⟨beta, e.poll.2, b, parentPv, topLevelOrdering⟩ ∧
    e.poll.2.m_hash = e.m_hash ∧ e.poll.2.m_killers = e.m_killers ∧
    e.poll.2.m_stats = e.m_stats ∧ e.poll.2.m_total_nodes = e.m_total_nodes ∧
    e.poll.2.m_total_quiescence_nodes = e.m_total_quiescence_nodes ∧
    (e.m_stop_required = true → e.poll.2 = e) := by
  obtain ⟨h1, h2, h3, h4, h5⟩ := poll_frame e
  refine ⟨?_, h1, h2, h3, h4, h5, ?_⟩
  · rw [negamax]
    simp only [hstop, if_true]
  · intro h; rw [poll_of_set e h]

/-- Witness of C16: the stopped engine on the sample position, at depth 3 with
the full window. -/
theorem C16_witness :
    stoppedEngine.poll.1 = true ∧
    negamax sampleSearch 1 stoppedEngine sampleBoard 3 3 0 1 (-999999) 999999 [] [] none =
      some ⟨999999, stoppedEngine.poll.2, sampleBoard, [], none⟩ ∧
    stoppedEngine.poll.2 = stoppedEngine :=
  have h0 : stoppedEngine.poll.1 = true := by decide
  have h := C16_stop_returns_beta sampleSearch 0 stoppedEngine sampleBoard 3 3 0 1 (-999999)
    999999 [] [] none h0
  ⟨h0, h.1, h.2.2.2.2.2.2 (by decide)⟩

/-- Claim C17: with the stop flag unset and the bucket of the position holding
the position key, (1) a stored depth `≥ remaining_depth` with the Exact tag
makes `negamax` return `beta` if the stored score is `≥ beta`, `alpha` if it is
`≤ alpha` and the stored score otherwise, with the board as it was, the hash
move as parent PV and only the hit counter changed: no move is generated or
made; (2) a stored depth `< remaining_depth` lets the frame go on into the rest
of `negamax` with the same `alpha` and the engine as the poll left it. -/
theorem C17_tt_exact_hit (S : SearchEnv) (fuel : Nat) (e : NegamaxEngine) (b : Board)
    (max_depth remaining_depth current_depth color alpha beta : Int)
    (parentPv previousPv : List Move) (topLevelOrdering : Option (List Move))
    (hstop : e.poll.1 = false)
    (hkey : (e.m_hash (S.bucket b.get_key)).key = b.get_key) :
    ((e.m_hash (S.bucket b.get_key)).depth ≥ remaining_depth →
      (e.m_hash (S.bucket b.get_key)).exact_score = true →
      negamax S (fuel + 1) e b max_depth remaining_depth current_depth color alpha beta
          parentPv previousPv topLevelOrdering =
        some ⟨if (e.m_hash (S.bucket b.get_key)).score ≥ beta then beta
            else if (e.m_hash (S.bucket b.get_key)).score ≤ alpha then alpha
            else (e.m_hash (S.bucket b.get_key)).score,
          e.poll.2.update_stats max_depth current_depth
            (fun st => { st with num_hash_hits := st.num_hash_hits + 1 }),
          b,
          [S.generate_move_for_squares b (e.m_hash (S.bucket b.get_key)).hashmove_src
            (e.m_hash (S.bucket b.get_key)).hashmove_dst
            (e.m_hash (S.bucket b.get_key)).promote_piece],
          topLevelOrdering⟩) ∧
    ((e.m_hash (S.bucket b.get_key)).depth < remaining_depth →
      tt_probe S e.poll.2 b max_depth remaining_depth current_depth alpha beta parentPv =
        .go alpha e.poll.2
          (S.generate_move_for_squares b (e.m_hash (S.bucket b.get_key)).hashmove_src
            (e.m_hash (S.bucket b.get_key)).hashmove_dst
            (e.m_hash (S.bucket b.get_key)).promote_piece)
          ((S.generate_move_for_squares b (e.m_hash (S.bucket b.get_key)).hashmove_src
            (e.m_hash (S.bucket b.get_key)).hashmove_dst
            (e.m_hash (S.bucket b.get_key)).promote_piece).src.row != -1) ∧
      negamax S (fuel + 1) e b max_depth remaining_depth current_depth color alpha beta
          parentPv previousPv topLevelOrdering =
        negamax_search S (negamax S fuel) (quiesce S fuel) e.poll.2 b max_depth
          remaining_depth current_depth color alpha beta parentPv previousPv topLevelOrdering
          (S.generate_move_for_squares b (e.m_hash (S.bucket b.get_key)).hashmove_src
            (e.m_hash (S.bucket b.get_key)).hashmove_dst
            (e.m_hash (S.bucket b.get_key)).promote_piece)
          ((S.generate_move_for_squares b (e.m_hash (S.bucket b.get_key)).hashmove_src
            (e.m_hash (S.bucket b.get_key)).hashmove_dst
            (e.m_hash (S.bucket b.get_key)).promote_piece).src.row != -1)) := by
  have hh : e.poll.2.m_hash = e.m_hash := (poll_frame e).1
  have hne : ¬ (e.poll.1 = true) := by rw [hstop]; decide
  constructor
  · intro hd hx
    rw [negamax]
    simp only [if_neg hne]
    unfold tt_probe
    simp only [hh, hkey, if_true, hd, ge_iff_le, hx, collect_pv]
    split_ifs <;> rfl
  · intro hd
    have hnd : ¬ ((e.m_hash (S.bucket b.get_key)).depth ≥ remaining_depth) := by omega
    have hp : tt_probe S e.poll.2 b max_depth remaining_depth current_depth alpha beta
        parentPv = .go alpha e.poll.2
          (S.generate_move_for_squares b (e.m_hash (S.bucket b.get_key)).hashmove_src
            (e.m_hash (S.bucket b.get_key)).hashmove_dst
            (e.m_hash (S.bucket b.get_key)).promote_piece)
          ((S.generate_move_for_squares b (e.m_hash (S.bucket b.get_key)).hashmove_src
            (e.m_hash (S.bucket b.get_key)).hashmove_dst
            (e.m_hash (S.bucket b.get_key)).promote_piece).src.row != -1) := by
      unfold tt_probe
      simp only [hh, hkey, if_true, if_neg hnd]
    refine ⟨hp, ?_⟩
    rw [negamax]
    simp only [if_neg hne, hp]

/-- Witness of C17 on the sample position, whose key has an Exact entry of
depth 5 and score 40: at remaining depth 3 the score is returned, at remaining
depth 7 the frame goes on with its `alpha`. -/
theorem C17_witness :
    negamax sampleSearch 1 hitEngine sampleBoard 3 3 0 1 (-999999) 999999 [] [] none =
      some ⟨40, hitEngine.poll.2.update_stats 3 0
          (fun st => { st with num_hash_hits := st.num_hash_hits + 1 }),
        sampleBoard, [Move.default], none⟩ ∧
    negamax sampleSearch 1 hitEngine sampleBoard 7 7 0 1 (-999999) 999999 [] [] none =
      negamax_search sampleSearch (negamax sampleSearch 0) (quiesce sampleSearch 0)
        hitEngine.poll.2 sampleBoard 7 7 0 1 (-999999) 999999 [] [] none Move.default false :=
  ⟨(C17_tt_exact_hit sampleSearch 0 hitEngine sampleBoard 3 3 0 1 (-999999) 999999 [] [] none
      (by decide) (by decide)).1 (by decide) (by decide),
    ((C17_tt_exact_hit sampleSearch 0 hitEngine sampleBoard 7 7 0 1 (-999999) 999999 [] []
      none (by decide) (by decide)).2 (by decide)).2⟩

/-- Claim C18: at the write of the transposition table of a `negamax` frame,
the bucket of the position key is overwritten, in key, depth, score, best-move
squares, promotion piece and bound tag, when its key is 0 or the remaining
depth is greater than its depth; otherwise the table is left as it was. No
other bucket changes in either case. -/
theorem C18_tt_replacement (S : SearchEnv) (e : NegamaxEngine) (bkey : Nat)
    (max_depth remaining_depth current_depth alpha : Int) (bestMove : Move)
    (cutoff raise_alpha : Bool) :
    (((e.m_hash (S.bucket bkey)).key = 0 ∨
        remaining_depth > (e.m_hash (S.bucket bkey)).depth) →
      (tt_store S e bkey max_depth remaining_depth current_depth alpha bestMove cutoff
          raise_alpha).m_hash (S.bucket bkey) =
        { key := bkey, depth := remaining_depth, score := alpha
          exact_score := !cutoff && raise_alpha
          lower_bound := cutoff
          upper_bound := !cutoff && !raise_alpha
          hashmove_src := bestMove.src.to_val, hashmove_dst := bestMove.dst.to_val
          promote_piece := bestMove.promote_piece }) ∧
    (¬ ((e.m_hash (S.bucket bkey)).key = 0 ∨
        remaining_depth > (e.m_hash (S.bucket bkey)).depth) →
      (tt_store S e bkey max_depth remaining_depth current_depth alpha bestMove cutoff
          raise_alpha).m_hash = e.m_hash) ∧
    (∀ i, i ≠ S.bucket bkey →
      (tt_store S e bkey max_depth remaining_depth current_depth alpha bestMove cutoff
          raise_alpha).m_hash i = e.m_hash i) := by
  refine ⟨?_, ?_, ?_⟩
  · intro h
    unfold tt_store NegamaxEngine.update_stats
    simp only [h, decide_True, if_true]
    cases cutoff <;> cases raise_alpha <;> rfl
  · intro h
    funext i
    unfold tt_store NegamaxEngine.update_stats
    simp only [h, decide_False, Bool.false_eq_true, if_false, ite_self]
    split
    · rename_i hi; rw [hi]
    · rfl
  · intro i hi
    unfold tt_store NegamaxEngine.update_stats
    simp only [if_neg hi]

/-- Witness of C18: the empty bucket of the engine at rest is overwritten, and
the depth-5 entry of `hitEngine` is kept by a frame of remaining depth 3. -/
theorem C18_witness :
    (tt_store sampleSearch idleEngine 12345 3 3 0 25 quietMove false true).m_hash 0 =
      { key := 12345, depth := 3, score := 25, exact_score := true, lower_bound := false
        upper_bound := false, hashmove_src := 4, hashmove_dst := 12
        promote_piece := P_EMPTY } ∧
    (tt_store sampleSearch hitEngine 12345 3 3 0 25 quietMove false true).m_hash =
      hitEngine.m_hash :=
  have h1 := C18_tt_replacement sampleSearch idleEngine 12345 3 3 0 25 quietMove false true
  have h2 := C18_tt_replacement sampleSearch hitEngine 12345 3 3 0 25 quietMove false true
  ⟨h1.1 (by decide), h2.2.1 (by decide)⟩

/-- Claim C20 fails on a quiet position: with the stop flag unset, stand-pat
`100`, `alpha = -50`, `beta = 500`, no capture to try and the side to move not
in check, `quiesce` returns 0 where the claim has `max alpha 100 = 100`; the
code takes the absence of a legal capture for a stalemate. -/
theorem C20_quiet_position_scores_zero :
    idleEngine.poll.1 = false ∧
    (1 : Int) * quietSearch.evaluate_board kingsBoard = 100 ∧
    quietSearch.enumerate_moves kingsBoard true = [] ∧
    kingsBoard.is_king_checked kingsBoard.get_next_move = false ∧
    (quiesce quietSearch 1 idleEngine kingsBoard 1 (-50) 500 0).map SearchResult.val = some 0 ∧
    max (-50 : Int) 100 = 100 := by
  decide

theorem probe_go (p : Probe) (h : p.is_ret = false) :
    p = .go p.alpha p.e p.hash_move p.has_hash_move := by
  cases p with
  | ret v e pv => exact absurd h (by simp [Probe.is_ret])
  | go a e hm hh => rfl

theorem negamax_loop_all_illegal (S : SearchEnv) (rec : NegamaxCall) (clr : Color)
    (max_depth remaining_depth current_depth color beta : Int) (previousPv : List Move)
    (b : Board) (hwf : b.wf) :
    ∀ (moves : List Move) (s : LoopState), s.b = b →
      (∀ m ∈ moves, LegalRecord S.env b m) → NoLegalMove S b clr moves →
      ∃ s1, negamax_loop S rec clr max_depth remaining_depth current_depth color beta
          previousPv moves s = some (.finished s1) ∧
        s1.b = b ∧ s1.num_legal_move = s.num_legal_move ∧ s1.e = s.e ∧ s1.alpha = s.alpha ∧
        s1.parentPv = s.parentPv ∧ s1.cutoff = s.cutoff ∧ s1.raise_alpha = s.raise_alpha ∧
        s1.bestMove = s.bestMove := by
  intro moves
  induction moves with
  | nil =>
    intro s hb _ _
    exact ⟨s, by rw [negamax_loop], hb, rfl, rfl, rfl, rfl, rfl, rfl, rfl⟩
  | cons move rest ih =>
    intro s hb hrec hnone
    have hrest : ∀ m ∈ rest, LegalRecord S.env b m := fun m hm =>
      hrec m (List.mem_cons_of_mem _ hm)
    have hnrest : NoLegalMove S b clr rest := fun m hm => hnone m (List.mem_cons_of_mem _ hm)
    rw [negamax_loop]
    by_cases hskip : move.legal_checked = true ∧ ¬ move.legal = true
    · rw [if_pos hskip]
      obtain ⟨s1, h1, h2⟩ := ih { s with moveList := s.moveList ++ [move] } hb hrest hnrest
      exact ⟨s1, h1, h2⟩
    · rw [if_neg hskip]
      have hchk : (b.make_move S.env move).is_king_checked clr = true := by
        rcases hnone move (List.mem_cons_self _ _) with h | h
        · exact absurd ⟨h.1, by rw [h.2]; decide⟩ hskip
        · exact h
      have hback : (b.make_move S.env move).unmake_move S.env
          { move with legal_checked := true, legal := false, evaluation := INT32_MIN } = b :=
        unmake_make S.env b move hwf (hrec move (List.mem_cons_self _ _))
      simp only [hb, hchk, if_true, hback]
      obtain ⟨s1, h1, h2⟩ := ih
        { s with num_move_visited := s.num_move_visited + 1, b := b,
                 moveList := s.moveList ++ [{ move with legal_checked := true, legal := false,
                                                        evaluation := INT32_MIN }] }
        rfl hrest hnrest
      exact ⟨s1, h1, h2⟩

/-- Claim C19: a `negamax` frame with remaining depth `≥ 1`, the stop flag
unset and no transposition cutoff, none of whose moves is legal, returns
`-20000 + 5 * current_depth` when the side to move is in check and 0 otherwise,
with the board as it was; so of two mates the one at the smaller
`current_depth` has the strictly lower score. The moves are records built from
the position, which is what lets `unmake_move` take each one back. -/
theorem C19_no_legal_move (S : SearchEnv) (fuel : Nat) (e : NegamaxEngine) (b : Board)
    (max_depth remaining_depth current_depth color alpha beta : Int)
    (parentPv previousPv : List Move) (topLevelOrdering : Option (List Move))
    (hstop : e.poll.1 = false) (hrd : 1 ≤ remaining_depth)
    (hprobe : (tt_probe S e.poll.2 b max_depth remaining_depth current_depth alpha beta
      parentPv).is_ret = false)
    (hwf : b.wf)
    (hrec : ∀ m ∈ frame_moves S e b max_depth remaining_depth current_depth alpha beta
      parentPv previousPv topLevelOrdering, LegalRecord S.env b m)
    (hnone : NoLegalMove S b b.get_next_move
      (frame_moves S e b max_depth remaining_depth current_depth alpha beta parentPv
        previousPv topLevelOrdering)) :
    (∃ r, negamax S (fuel + 1) e b max_depth remaining_depth current_depth color alpha beta
        parentPv previousPv topLevelOrdering = some r ∧
      r.val = (if b.is_king_checked b.get_next_move then -20000 + 5 * current_depth else 0) ∧
      r.b = b) ∧
    (∀ d1 d2 : Int, d1 < d2 → -20000 + 5 * d1 < -20000 + 5 * d2) := by
  refine ⟨?_, fun d1 d2 h => by omega⟩
  have hne : ¬ (e.poll.1 = true) := by rw [hstop]; decide
  have hrd0 : ¬ (remaining_depth = 0) := by omega
  rw [negamax]
  simp only [if_neg hne]
  rw [probe_go _ hprobe]
  simp only
  unfold negamax_search
  simp only [if_neg hrd0]
  obtain ⟨s1, h1, h2, h3, -⟩ := negamax_loop_all_illegal S (negamax S fuel) b.get_next_move
    max_depth remaining_depth current_depth color beta previousPv b hwf _
    ⟨{ (tt_probe S e.poll.2 b max_depth remaining_depth current_depth alpha beta parentPv).e
        with m_total_nodes := (tt_probe S e.poll.2 b max_depth remaining_depth current_depth
          alpha beta parentPv).e.m_total_nodes + 1 },
      b, (tt_probe S e.poll.2 b max_depth remaining_depth current_depth alpha beta
        parentPv).alpha, parentPv, [], Move.default, -999999, false, false, false, 0, 0, []⟩
    rfl hrec hnone
  unfold frame_moves at h1
  simp only at h1 h3
  rw [h1]
  simp only [h3, if_true, h2]
  by_cases hc : b.is_king_checked b.get_next_move = true
  · simp only [hc, if_true]
    exact ⟨_, rfl, rfl, rfl⟩
  · simp only [hc, if_false]
    exact ⟨_, rfl, rfl, rfl⟩

/-- Witness of C19: the sample position with White in check and every square
attacked, so that neither of its two moves is legal: the frame at depth 0
returns the mate score -20000. -/
theorem C19_witness :
    NoLegalMove checkSearch checkedBoard checkedBoard.get_next_move
      (frame_moves checkSearch idleEngine checkedBoard 2 2 0 (-999999) 999999 [] []
        (some checkedMoves)) ∧
    ∃ r, negamax checkSearch 1 idleEngine checkedBoard 2 2 0 1 (-999999) 999999 [] []
        (some checkedMoves) = some r ∧ r.val = -20000 ∧ r.b = checkedBoard :=
  have hn : NoLegalMove checkSearch checkedBoard checkedBoard.get_next_move
      (frame_moves checkSearch idleEngine checkedBoard 2 2 0 (-999999) 999999 [] []
        (some checkedMoves)) := by decide
  ⟨hn, (C19_no_legal_move checkSearch 0 idleEngine checkedBoard 2 2 0 1 (-999999) 999999 [] []
    (some checkedMoves) (by decide) (by decide) (by decide) (fun i => sampleBoard_wf i)
    (by decide) hn).1⟩

theorem quiesce_loop_all_illegal (S : SearchEnv) (rec : QuiesceCall)
    (color beta current_depth : Int) (e : NegamaxEngine) (b : Board) (hwf : b.wf)
    (alpha : Int) :
    ∀ (moves : List Move), (∀ m ∈ moves, LegalRecord S.env b m) →
      (∀ m ∈ moves, (b.make_move S.env m).is_king_checked m.color = true) →
      quiesce_loop S rec color beta current_depth moves e b alpha 0 =
        if b.is_king_checked b.get_next_move then some ⟨-20000 + 5 * current_depth, e, b⟩
        else some ⟨0, e, b⟩ := by
  intro moves
  induction moves with
  | nil => intro _ _; rw [quiesce_loop]; simp only [if_true]
  | cons move rest ih =>
    intro hrec hill
    rw [quiesce_loop]
    simp only [hill move (List.mem_cons_self _ _), if_true,
      unmake_make S.env b move hwf (hrec move (List.mem_cons_self _ _))]
    exact ih (fun m hm => hrec m (List.mem_cons_of_mem _ hm))
      (fun m hm => hill m (List.mem_cons_of_mem _ hm))

theorem quiesce_without_legal_capture (S : SearchEnv) (fuel : Nat) (e : NegamaxEngine)
    (b : Board) (color alpha beta current_depth : Int)
    (hstop : e.poll.1 = false) (h1 : ¬ (color * S.evaluate_board b + 4000 < alpha))
    (h2 : ¬ (color * S.evaluate_board b ≥ beta)) (hwf : b.wf)
    (hrec : ∀ m ∈ S.reorder_mvv_lva b (S.enumerate_moves b true), LegalRecord S.env b m)
    (hill : ∀ m ∈ S.reorder_mvv_lva b (S.enumerate_moves b true),
      (b.make_move S.env m).is_king_checked m.color = true)
    (hchk : b.is_king_checked b.get_next_move = false) :
    (quiesce S (fuel + 1) e b color alpha beta current_depth).map SearchResult.val =
      some 0 := by
  have hne : ¬ (e.poll.1 = true) := by rw [hstop]; decide
  rw [quiesce]
  simp only [if_neg hne, if_neg h1, if_neg h2]
  rw [quiesce_loop_all_illegal S _ color beta current_depth _ b hwf _ _ hrec hill]
  simp only [hchk, Bool.false_eq_true, if_false, Option.map_some']

theorem move_count_wanted_in_range (f : Nat) (h : f ≤ 60) :
    move_count_wanted f = max (60 - (f : Int)) 10 := by
  unfold move_count_wanted
  simp only
  have h1 : f % 4294967296 = f := Nat.mod_eq_of_lt (by omega)
  have h2 : (60 + 4294967296 - f) % 4294967296 = 60 - f := by omega
  rw [h1, h2]
  rw [if_pos (by omega)]
  omega

theorem clock_allocation_in_range (basetime f : Nat) (h : f ≤ 60) :
    (clock_allocation basetime 0 f : Int) = (basetime : Int) / max (60 - (f : Int)) 10 := by
  unfold clock_allocation
  rw [if_neg (by decide), move_count_wanted_in_range f h]
  have h3 : (max (60 - (f : Int)) 10 % 18446744073709551616).toNat =
      (max (60 - (f : Int)) 10).toNat := by
    congr 1; omega
  rw [h3]
  have h4 : ((max (60 - (f : Int)) 10).toNat : Int) = max (60 - (f : Int)) 10 :=
    Int.toNat_of_nonneg (by omega)
  rw [← h4]
  norm_cast

/-- Claim C23 fails for full-move numbers above 60: at full-move 61 the
`unsigned` difference `60u - 61` wraps to `2^32 - 1`, `move_count_wanted` is
`-1`, and a clock of 60000 ms is divided by `2^64 - 1`: the allocation is 0,
where the claim has `60000 / max(60 - 61, 10) = 6000`. -/
theorem C23_divisor_wraps_after_move_60 :
    move_count_wanted 61 = -1 ∧ clock_allocation 60000 0 61 = 0 ∧
    (60000 : Int) / max (60 - 61) 10 = 6000 ∧
    time_budget ⟨0, 0, 60000, 60000, 0⟩ C_WHITE 61 = 0 := by
  decide

theorem capped_allocation_in_range (time basetime : Nat) (h1 : 200 ≤ basetime)
    (h2 : basetime < 18446744073709551616) :
    capped_allocation time basetime = min time (max 15 (basetime - 200)) := by
  unfold capped_allocation
  have h : (basetime + 18446744073709551616 - 200) % 18446744073709551616 = basetime - 200 := by
    omega
  rw [h]

/-- Claim C24 fails for clocks below 200 ms: with 100 ms left and one move to
go the allocation is 100 ms, because `basetime - 200ull` wraps to `2^64 - 100`
and the cap is that value; the claim has `min(100, max(15, 100 - 200)) = 15`. -/
theorem C24_cap_wraps_below_200 :
    clock_allocation 100 1 1 = 100 ∧ capped_allocation 100 100 = 100 ∧
    time_budget ⟨0, 0, 100, 100, 1⟩ C_WHITE 1 = 100 ∧
    min (100 : Int) (max 15 (100 - 200)) = 15 := by
  decide

theorem legal_lines_succ (S : SearchEnv) (d : Nat) (b : Board) :
    (legal_lines S (d + 1) b).length =
      ((legal_moves S b).map (fun m => (legal_lines S d (b.make_move S.env m)).length)).sum := by
  rw [legal_lines, List.length_flatMap]
  congr 1
  apply List.map_congr_left
  intro m _
  simp only [Function.comp, List.length_map]

theorem legal_lines_one (S : SearchEnv) (b : Board) :
    (legal_lines S 1 b).length = (legal_moves S b).length := by
  rw [legal_lines_succ]
  simp only [legal_lines, List.length_singleton, List.map_const', List.sum_replicate, smul_eq_mul,
    mul_one]

theorem getD_set_nat : ∀ (l : List Nat) (i j a : Nat),
    (l.set i a).getD j 0 = if i = j ∧ i < l.length then a else l.getD j 0 := by
  intro l
  induction l with
  | nil => intro i j a; simp
  | cons x xs ih =>
    intro i j a
    cases i with
    | zero =>
      cases j with
      | zero => simp
      | succ j => simp
    | succ i =>
      cases j with
      | zero => simp
      | succ j =>
        simp only [List.set_cons_succ, List.getD_cons_succ, ih, List.length_cons,
          Nat.add_lt_add_iff_right, Nat.add_right_cancel_iff]

theorem line_sum_nil (S : SearchEnv) (b : Board) (j : Nat) : line_sum S [] b j = 0 := rfl

theorem line_sum_cons (S : SearchEnv) (m : Move) (ms : List Move) (b : Board) (j : Nat) :
    line_sum S (m :: ms) b j =
      (if is_legal S b m then (legal_lines S j (b.make_move S.env m)).length else 0) +
        line_sum S ms b j := by
  unfold line_sum
  by_cases h : is_legal S b m = true
  · rw [List.filter_cons_of_pos h, if_pos h, List.map_cons, List.sum_cons]
  · rw [List.filter_cons_of_neg h, if_neg h, Nat.zero_add]

theorem perft_loop_spec (S : SearchEnv) (D r : Nat) (b : Board) (hwf : b.wf)
    (ih : ∀ (b1 : Board) (res1 : List Nat), b1.wf → res1.length = D →
      ∃ res2, perft S D r b1 res1 = some ⟨(legal_lines S r b1).length, b1, res2⟩ ∧
        res2.length = D ∧
        ∀ i, res2.getD i 0 = res1.getD i 0 +
          (if D - r ≤ i ∧ i < D then (legal_lines S (i - (D - r) + 1) b1).length else 0)) :
    ∀ (ms : List Move) (res : List Nat) (total n : Nat),
      (∀ m ∈ ms, LegalRecord S.env b m) → res.length = D →
      ∃ res2, perft_loop S (perft S D r) b.get_next_move ms b res total n =
          some (total + line_sum S ms b r, b, res2, n + (ms.filter (is_legal S b)).length) ∧
        res2.length = D ∧
        ∀ i, res2.getD i 0 = res.getD i 0 +
          (if D - r ≤ i ∧ i < D then line_sum S ms b (i - (D - r) + 1) else 0) := by
  intro ms
  induction ms with
  | nil =>
    intro res total n _ hlen
    refine ⟨res, ?_, hlen, ?_⟩
    · rw [perft_loop]; simp [line_sum_nil]
    · intro i; simp [line_sum_nil]
  | cons m ms ihm =>
    intro res total n hrec hlen
    have hm := hrec m (List.mem_cons_self _ _)
    have hms : ∀ x ∈ ms, LegalRecord S.env b x := fun x hx => hrec x (List.mem_cons_of_mem _ hx)
    have hcol : m.color = b.get_next_move := hm.2.1.2.2.2.2.2.2.2.2.2
    have hback := unmake_make S.env b m hwf hm
    rw [perft_loop]
    by_cases hl : is_legal S b m = true
    · have hchk : ¬ ((b.make_move S.env m).is_king_checked b.get_next_move = true) := by
        unfold is_legal at hl
        rw [hcol] at hl
        simpa using hl
      simp only [if_neg hchk]
      obtain ⟨res1, e1, l1, p1⟩ := ih (b.make_move S.env m) res (wf_make_move S.env b m hwf) hlen
      rw [e1]
      simp only [hback]
      obtain ⟨res2, e2, l2, p2⟩ := ihm res1 (total + (legal_lines S r (b.make_move S.env m)).length)
        (n + 1) hms l1
      refine ⟨res2, ?_, l2, ?_⟩
      · rw [e2, line_sum_cons, if_pos hl, List.filter_cons_of_pos hl, List.length_cons]
        congr 2
        · omega
        · congr 2; omega
      · intro i
        rw [p2 i, p1 i]
        by_cases hi : D - r ≤ i ∧ i < D
        · simp only [if_pos hi, line_sum_cons, if_pos hl]; omega
        · simp only [if_neg hi]
    · have hchk : (b.make_move S.env m).is_king_checked b.get_next_move = true := by
        unfold is_legal at hl
        rw [hcol] at hl
        simpa using hl
      simp only [hchk, if_true, hback]
      obtain ⟨res2, e2, l2, p2⟩ := ihm res total n hms hlen
      refine ⟨res2, ?_, l2, ?_⟩
      · rw [e2, line_sum_cons, if_neg hl, List.filter_cons_of_neg hl, Nat.zero_add]
      · intro i
        rw [p2 i]
        simp only [line_sum_cons, if_neg hl, Nat.zero_add]

theorem perft_spec (S : SearchEnv) (hS : GeneratorSound S) (D : Nat) :
    ∀ (r : Nat) (b : Board) (res : List Nat), b.wf → r ≤ D → res.length = D →
      ∃ res2, perft S D r b res = some ⟨(legal_lines S r b).length, b, res2⟩ ∧
        res2.length = D ∧
        ∀ i, res2.getD i 0 = res.getD i 0 +
          (if D - r ≤ i ∧ i < D then (legal_lines S (i - (D - r) + 1) b).length else 0) := by
  intro r
  induction r with
  | zero =>
    intro b res _ _ hlen
    refine ⟨res, ?_, hlen, ?_⟩
    · rw [perft]; rfl
    · intro i
      rw [if_neg (by omega), Nat.add_zero]
  | succ r ih =>
    intro b res hwf hr hlen
    obtain ⟨res1, e1, l1, p1⟩ := perft_loop_spec S D r b hwf
      (fun b1 res1 h1 h2 => ih b1 res1 h1 (by omega) h2)
      (S.enumerate_moves b false) res 0 0 (hS b hwf) hlen
    rw [perft]
    simp only [e1]
    have hi0 : (0 : Int) ≤ (D : Int) - ((r + 1 : Nat) : Int) := by omega
    have hi1 : ((D : Int) - ((r + 1 : Nat) : Int)).toNat = D - (r + 1) := by omega
    rw [hi1]
    have hlt : D - (r + 1) < res1.length := by omega
    rw [if_pos ⟨hi0, hlt⟩]
    refine ⟨res1.set (D - (r + 1)) (res1.getD (D - (r + 1)) 0 +
      (0 + (List.filter (is_legal S b) (S.enumerate_moves b false)).length)), ?_, ?_, ?_⟩
    · congr 2
      rw [Nat.zero_add, legal_lines_succ]
      rfl
    · rw [List.length_set]; exact l1
    · intro i
      rw [getD_set_nat, p1, p1]
      by_cases hi : D - (r + 1) = i
      · rw [if_pos ⟨hi, hlt⟩, if_neg (by omega), if_pos (by omega)]
        have : i - (D - (r + 1)) + 1 = 1 := by omega
        rw [this, legal_lines_one, Nat.zero_add, hi, Nat.add_zero]
        rfl
      · rw [if_neg (fun h => hi h.1)]
        by_cases hi2 : D - r ≤ i ∧ i < D
        · rw [if_pos hi2, if_pos (by omega)]
          have : i - (D - (r + 1)) + 1 = (i - (D - r) + 1) + 1 := by omega
          rw [this, legal_lines_succ]
          rfl
        · rw [if_neg hi2, if_neg (by omega)]

theorem perft_loop_congr (S S1 : SearchEnv) (henv : S1.env = S.env)
    (rec rec1 : Board → List Nat → Option PerftResult) (hrec : ∀ b res, rec1 b res = rec b res)
    (clr : Color) :
    ∀ (ms : List Move) (b : Board) (res : List Nat) (total n : Nat),
      perft_loop S1 rec1 clr ms b res total n = perft_loop S rec clr ms b res total n := by
  intro ms
  induction ms with
  | nil => intro b res total n; rw [perft_loop, perft_loop]
  | cons m ms ih =>
    intro b res total n
    rw [perft_loop, perft_loop]
    simp only [henv, hrec, ih]

theorem perft_congr (S S1 : SearchEnv) (henv : S1.env = S.env)
    (hgen : S1.enumerate_moves = S.enumerate_moves) (D : Int) :
    ∀ (r : Nat) (b : Board) (res : List Nat), perft S1 D r b res = perft S D r b res := by
  intro r
  induction r with
  | zero => intro b res; rw [perft, perft]
  | succ r ih =>
    intro b res
    rw [perft, perft]
    simp only [hgen, perft_loop_congr S S1 henv (perft S D r) (perft S1 D r) ih]

theorem getD_replicate_zero (d i : Nat) : (List.replicate d 0).getD i 0 = 0 := by
  induction d generalizing i with
  | zero => simp
  | succ d ih =>
    cases i with
    | zero => simp [List.replicate_succ]
    | succ i => simp only [List.replicate_succ, List.getD_cons_succ, ih]

theorem perftSearch_sound : GeneratorSound perftSearch := by
  intro b _ m hm
  have h := (List.mem_filter.mp hm).2
  exact of_decide_eq_true h

/-- Claim C21: for a generator that gives move records of the board, `perft(B, d,
d, counters)` with `d` counters returns the number of sequences of `d`
consecutive legal moves from `B` (1 when `d = 0`), a generated move being legal
when the king of the mover is not in check once it is made, and it leaves the
board equal to `B`. It reads nothing but the generator and the board
collaborators: it takes no transposition table, and another evaluator, piece
values or orderings give the same result. -/
theorem C21_perft_counts (S : SearchEnv) (hS : GeneratorSound S) (b : Board) (hwf : b.wf)
    (d : Nat) (counters : List Nat) (hlen : counters.length = d) :
    (∃ res2, perft S d d b counters = some ⟨(legal_lines S d b).length, b, res2⟩) ∧
    (legal_lines S 0 b).length = 1 ∧
    (∀ S1 : SearchEnv, S1.env = S.env → S1.enumerate_moves = S.enumerate_moves →
      perft S1 d d b counters = perft S d d b counters) := by
  refine ⟨?_, rfl, fun S1 h1 h2 => perft_congr S S1 h1 h2 d d b counters⟩
  obtain ⟨res2, e, -⟩ := perft_spec S hS d d b counters hwf (Nat.le_refl d) hlen
  exact ⟨res2, e⟩

/-- Witness of C21 on the sample position with the king-step generator: two
plies deep there are two sequences of legal moves. -/
theorem C21_witness :
    GeneratorSound perftSearch ∧ (legal_lines perftSearch 2 sampleBoard).length = 2 ∧
    ∃ res2, perft perftSearch 2 2 sampleBoard [0, 0] =
      some ⟨(legal_lines perftSearch 2 sampleBoard).length, sampleBoard, res2⟩ :=
  ⟨perftSearch_sound, by set_option maxRecDepth 1000000 in decide,
    (C21_perft_counts perftSearch perftSearch_sound sampleBoard sampleBoard_wf 2 [0, 0] rfl).1⟩

/-- Claim C22: after `do_perft` at depth `d ≥ 1`, which starts `perft(B, d, d,
counters)` on `d` zeroed counters, `counters[k]` is for every `k < d` the number
of sequences of `k + 1` legal moves from `B`, the value returned is
`counters[d - 1]`, and every index `max_depth - remaining_depth` used was
within the counters (the model gives no result otherwise). -/
theorem C22_perft_counters (S : SearchEnv) (hS : GeneratorSound S) (b : Board) (hwf : b.wf)
    (d : Nat) (hd : 1 ≤ d) :
    ∃ r, do_perft S b d = some r ∧ r.b = b ∧ r.res.length = d ∧
      (∀ k, k < d → r.res.getD k 0 = (legal_lines S (k + 1) b).length) ∧
      r.total = r.res.getD (d - 1) 0 := by
  obtain ⟨res2, e, l, p⟩ := perft_spec S hS d d b (List.replicate d 0) hwf (Nat.le_refl d)
    (List.length_replicate d 0)
  have hk : ∀ k, k < d → res2.getD k 0 = (legal_lines S (k + 1) b).length := by
    intro k hk
    rw [p k, getD_replicate_zero, Nat.zero_add, if_pos (by omega)]
    congr 2
    omega
  refine ⟨_, e, rfl, l, hk, ?_⟩
  show (legal_lines S d b).length = res2.getD (d - 1) 0
  rw [hk (d - 1) (by omega)]
  congr 2
  omega

/-- Witness of C22 on the sample position with the king-step generator: the
counters of depth 2 are 1 and 2, and 2 is returned. -/
theorem C22_witness :
    (legal_lines perftSearch 1 sampleBoard).length = 1 ∧
    (legal_lines perftSearch 2 sampleBoard).length = 2 ∧
    ∃ r, do_perft perftSearch sampleBoard 2 = some r ∧ r.b = sampleBoard ∧ r.res.length = 2 ∧
      (∀ k, k < 2 → r.res.getD k 0 = (legal_lines perftSearch (k + 1) sampleBoard).length) ∧
      r.total = r.res.getD (2 - 1) 0 :=
  ⟨by set_option maxRecDepth 1000000 in decide, by set_option maxRecDepth 1000000 in decide,
    C22_perft_counters perftSearch perftSearch_sound sampleBoard sampleBoard_wf 2 (by decide)⟩

theorem quiesce_loop_prune (S : SearchEnv) (rec : QuiesceCall) (color beta current_depth : Int)
    (move : Move) (rest : List Move) (e : NegamaxEngine) (b : Board) (alpha : Int) (n : Nat)
    (hwf : b.wf) (hrec : LegalRecord S.env b move)
    (hlegal : (b.make_move S.env move).is_king_checked move.color = false)
    (hprune : S.piece_value move.taken_piece + (if move.promote then 1750 else 975) < alpha) :
    quiesce_loop S rec color beta current_depth (move :: rest) e b alpha n =
      some ⟨alpha, e, b⟩ := by
  rw [quiesce_loop]
  have hback : (b.make_move S.env move).unmake_move S.env
      { move with legal_checked := true, legal := true } = b := unmake_make S.env b move hwf hrec
  have hp : S.piece_value move.taken_piece + (if move.promote = true then 975 + 775 else 975) <
      alpha := by
    split at hprune
    · rename_i h; rw [if_pos h]; exact hprune
    · rename_i h; rw [if_neg h]; exact hprune
  simp only [hlegal, Bool.false_eq_true, if_false, hp, if_true, hback]

theorem quiesce_loop_skip (S : SearchEnv) (rec : QuiesceCall) (color beta current_depth : Int)
    (e : NegamaxEngine) (b : Board) (alpha : Int) (n : Nat) (hwf : b.wf) (tail : List Move) :
    ∀ (pre : List Move), (∀ m ∈ pre, LegalRecord S.env b m) →
      (∀ m ∈ pre, (b.make_move S.env m).is_king_checked m.color = true) →
      quiesce_loop S rec color beta current_depth (pre ++ tail) e b alpha n =
        quiesce_loop S rec color beta current_depth tail e b alpha n := by
  intro pre
  induction pre with
  | nil => intro _ _; rfl
  | cons m ms ih =>
    intro hrec hill
    rw [List.cons_append, quiesce_loop]
    simp only [hill m (List.mem_cons_self _ _), if_true,
      unmake_make S.env b m hwf (hrec m (List.mem_cons_self _ _))]
    exact ih (fun x hx => hrec x (List.mem_cons_of_mem _ hx))
      (fun x hx => hill x (List.mem_cons_of_mem _ hx))

/-- Claim C28: in `quiesce`, when the loop comes to a legal capture with
`value(captured piece) + delta < alpha`, where `delta` is 975, or 1750 for a
promotion, it unmakes the move and returns the current `alpha` at once: the
result is the same whatever the recursive call and the later moves are, the
engine is untouched and the board is the one before the move. For the first
legal capture of the list this makes `quiesce` return `alpha` raised to the
stand-pat value, with the board as at entry. -/
theorem C28_delta_prune (S : SearchEnv) (color beta current_depth : Int) (move : Move)
    (b : Board) (hwf : b.wf) (hrec : LegalRecord S.env b move)
    (hlegal : (b.make_move S.env move).is_king_checked move.color = false) :
    (∀ (rec : QuiesceCall) (rest : List Move) (e : NegamaxEngine) (alpha : Int) (n : Nat),
      S.piece_value move.taken_piece + (if move.promote then 1750 else 975) < alpha →
      quiesce_loop S rec color beta current_depth (move :: rest) e b alpha n =
        some ⟨alpha, e, b⟩) ∧
    (∀ (fuel : Nat) (e : NegamaxEngine) (alpha : Int) (pre rest : List Move),
      e.poll.1 = false → ¬ (color * S.evaluate_board b + 4000 < alpha) →
      color * S.evaluate_board b < beta →
      S.reorder_mvv_lva b (S.enumerate_moves b true) = pre ++ move :: rest →
      (∀ m ∈ pre, LegalRecord S.env b m) →
      (∀ m ∈ pre, (b.make_move S.env m).is_king_checked m.color = true) →
      S.piece_value move.taken_piece + (if move.promote then 1750 else 975) <
        max alpha (color * S.evaluate_board b) →
      quiesce S (fuel + 1) e b color alpha beta current_depth =
        some ⟨max alpha (color * S.evaluate_board b),
          { e.poll.2 with
            m_total_quiescence_nodes := e.poll.2.m_total_quiescence_nodes + 1 }, b⟩) := by
  constructor
  · intro rec rest e alpha n hp
    exact quiesce_loop_prune S rec color beta current_depth move rest e b alpha n hwf hrec
      hlegal hp
  · intro fuel e alpha pre rest hstop h1 h2 hlist hpre hill hp
    have hne : ¬ (e.poll.1 = true) := by rw [hstop]; decide
    have h2n : ¬ (color * S.evaluate_board b ≥ beta) := by omega
    have hmax : (if alpha < color * S.evaluate_board b then color * S.evaluate_board b
        else alpha) = max alpha (color * S.evaluate_board b) := by
      split <;> omega
    rw [quiesce]
    simp only [if_neg hne, if_neg h1, if_neg h2n, hlist, hmax]
    rw [quiesce_loop_skip S _ color beta current_depth _ b _ 0 hwf (move :: rest) pre hpre hill]
    exact quiesce_loop_prune S _ color beta current_depth move rest _ b _ 0 hwf hrec hlegal hp

/-- Witness of C28 on the sample position: the capture b7xa8=Q takes a rook
worth 200 and promotes, and `200 + 1750 < 3000`: with `alpha = 3000` the loop
and `quiesce` return 3000 with the sample position back. -/
theorem C28_witness :
    LegalRecord sampleSearch.env sampleBoard captureMove ∧
    quiesce_loop sampleSearch (fun _ _ _ _ _ _ => none) 1 5000 0 [captureMove] idleEngine
      sampleBoard 3000 0 = some ⟨3000, idleEngine, sampleBoard⟩ ∧
    quiesce sampleSearch 1 idleEngine sampleBoard 1 3000 5000 0 =
      some ⟨3000, { idleEngine.poll.2 with
        m_total_quiescence_nodes := idleEngine.poll.2.m_total_quiescence_nodes + 1 },
        sampleBoard⟩ :=
  have hl : LegalRecord sampleSearch.env sampleBoard captureMove := by decide
  have h := C28_delta_prune sampleSearch 1 5000 0 captureMove sampleBoard sampleBoard_wf hl
    (by decide)
  ⟨hl, h.1 (fun _ _ _ _ _ _ => none) [] idleEngine 3000 0 (by decide),
    h.2 0 idleEngine 3000 [] [] (by decide) (by decide) (by decide) (by decide)
      (by decide) (by decide) (by decide)⟩

theorem negamax_loop_cons (S : SearchEnv) (rec : NegamaxCall) (clr : Color)
    (max_depth remaining_depth current_depth color beta : Int) (previousPv : List Move)
    (move : Move) (rest : List Move) (s : LoopState) :
    negamax_loop S rec clr max_depth remaining_depth current_depth color beta previousPv
        (move :: rest) s =
      match loop_step S rec clr max_depth remaining_depth current_depth color beta previousPv
          move s with
      | none => none
      | some (.next s1) =>
        negamax_loop S rec clr max_depth remaining_depth current_depth color beta previousPv
          rest s1
      | some (.stop s1) => some (.finished { s1 with moveList := s1.moveList ++ rest })
      | some (.ret val s1) => some (.returned val { s1 with moveList := s1.moveList ++ rest }) := by
  rw [negamax_loop]
  unfold loop_step
  by_cases h1 : move.legal_checked = true ∧ ¬ move.legal = true
  · simp only [if_pos h1]
  · simp only [if_neg h1]
    by_cases h2 : (s.b.make_move S.env move).is_king_checked clr = true
    · simp only [h2, if_true]
    · simp only [h2, Bool.false_eq_true, if_false]
      cases hsm : search_move rec max_depth remaining_depth current_depth color s.alpha beta
          previousPv s.use_aspiration s.e (s.b.make_move S.env move) s.currentPv with
      | none => rfl
      | some r =>
        obtain ⟨val, e, b, currentPv⟩ := r
        simp only [step_result]
        split_ifs <;> simp only [List.append_assoc, List.singleton_append]

theorem step_result_inv (max_depth current_depth beta : Int) (move : Move) (s : LoopState)
    (val a0 : Int) (hinv : LoopInv a0 s) :
    (∀ s1, step_result max_depth current_depth beta move s val = .next s1 → LoopInv a0 s1) ∧
    (∀ s1, step_result max_depth current_depth beta move s val = .stop s1 →
      s1.cutoff = true ∧ s1.alpha = beta ∧ s1.raise_alpha = s.raise_alpha) := by
  obtain ⟨i1, i2, i3, i4⟩ := hinv
  unfold LoopInv
  have f1 : (if val > s.oldval then { s with oldval := val, bestMove := move } else s).alpha =
      s.alpha := by split <;> rfl
  have f2 : (if val > s.oldval then { s with oldval := val, bestMove := move } else s).cutoff =
      s.cutoff := by split <;> rfl
  have f3 : (if val > s.oldval then { s with oldval := val, bestMove := move }
      else s).raise_alpha = s.raise_alpha := by split <;> rfl
  have f4 : (if val > s.oldval then { s with oldval := val, bestMove := move }
      else s).use_aspiration = s.use_aspiration := by split <;> rfl
  unfold step_result
  simp only
  generalize (if val > s.oldval then { s with oldval := val, bestMove := move } else s) = t
    at f1 f2 f3 f4 ⊢
  by_cases hb : val ≥ beta
  · simp only [if_pos hb]
    constructor
    · intro s1 h
      split_ifs at h
    · intro s1 h
      split_ifs at h <;> cases h <;> exact ⟨rfl, rfl, f3⟩
  · simp only [if_neg hb]
    constructor
    · intro s1 h
      by_cases ha : val > t.alpha
      · rw [if_pos ha] at h
        cases h
        rw [f1] at ha
        exact ⟨f2.trans i1, rfl, (by simp only; omega), ⟨fun _ => (by simp only; omega), fun _ => rfl⟩⟩
      · rw [if_neg ha] at h
        cases h
        exact ⟨f2.trans i1, (by simp only; rw [f4, f3]; exact i2), (by simp only; rw [f1]; exact i3),
          (by simp only; rw [f3, f1]; exact i4)⟩
    · intro s1 h
      split_ifs at h

theorem loop_step_inv (S : SearchEnv) (rec : NegamaxCall) (clr : Color)
    (max_depth remaining_depth current_depth color beta : Int) (previousPv : List Move)
    (move : Move) (s : LoopState) (a0 : Int) (hinv : LoopInv a0 s) :
    (∀ s1, loop_step S rec clr max_depth remaining_depth current_depth color beta previousPv
      move s = some (.next s1) → LoopInv a0 s1) ∧
    (∀ s1, loop_step S rec clr max_depth remaining_depth current_depth color beta previousPv
      move s = some (.stop s1) →
        s1.cutoff = true ∧ s1.alpha = beta ∧ s1.raise_alpha = s.raise_alpha) := by
  unfold loop_step
  by_cases h1 : move.legal_checked = true ∧ ¬ move.legal = true
  · simp only [if_pos h1]
    exact ⟨fun s1 h => by cases h; exact hinv, fun s1 h => by cases h⟩
  · simp only [if_neg h1]
    by_cases h2 : (s.b.make_move S.env move).is_king_checked clr = true
    · simp only [h2, if_true]
      exact ⟨fun s1 h => by cases h; exact hinv, fun s1 h => by cases h⟩
    · simp only [h2, Bool.false_eq_true, if_false]
      cases hsm : search_move rec max_depth remaining_depth current_depth color s.alpha beta
          previousPv s.use_aspiration s.e (s.b.make_move S.env move) s.currentPv with
      | none => exact ⟨fun s1 h => (by cases h), fun s1 h => (by cases h)⟩
      | some r =>
        obtain ⟨val, e, b, currentPv⟩ := r
        simp only [Option.some.injEq]
        exact step_result_inv max_depth current_depth beta _ _ val a0 hinv

theorem loop_inv_start (s0 : LoopState) (h1 : s0.cutoff = false) (h2 : s0.raise_alpha = false)
    (h3 : s0.use_aspiration = false) : LoopInv s0.alpha s0 := by
  refine ⟨h1, by rw [h2, h3], Int.le_refl _, ?_⟩
  rw [h2]
  constructor
  · intro h; cases h
  · intro h; omega

theorem negamax_loop_finished (S : SearchEnv) (rec : NegamaxCall) (clr : Color)
    (max_depth remaining_depth current_depth color beta : Int) (previousPv : List Move)
    (a0 : Int) :
    ∀ (moves : List Move) (s s1 : LoopState), LoopInv a0 s →
      negamax_loop S rec clr max_depth remaining_depth current_depth color beta previousPv
        moves s = some (.finished s1) →
      (s1.cutoff = true ∧ s1.alpha = beta) ∨ LoopInv a0 s1 := by
  intro moves
  induction moves with
  | nil =>
    intro s s1 hinv h
    rw [negamax_loop] at h
    cases h
    exact Or.inr hinv
  | cons move rest ih =>
    intro s s1 hinv h
    rw [negamax_loop_cons] at h
    obtain ⟨g1, g2⟩ := loop_step_inv S rec clr max_depth remaining_depth current_depth color
      beta previousPv move s a0 hinv
    cases hst : loop_step S rec clr max_depth remaining_depth current_depth color beta
        previousPv move s with
    | none => rw [hst] at h; cases h
    | some x =>
      rw [hst] at h
      cases x with
      | next s2 => exact ih s2 s1 (g1 s2 hst) h
      | stop s2 =>
        simp only [Option.some.injEq, LoopExit.finished.injEq] at h
        subst h
        obtain ⟨c1, c2, -⟩ := g2 s2 hst
        exact Or.inl ⟨c1, c2⟩
      | ret v s2 => cases h

theorem run_moves_spec (S : SearchEnv) (rec : NegamaxCall) (clr : Color)
    (max_depth remaining_depth current_depth color beta : Int) (previousPv : List Move)
    (s0 : LoopState) (rest : List Move) :
    ∀ (pre : List Move) (s s1 : LoopState),
      LoopReach S rec clr max_depth remaining_depth current_depth color beta previousPv s0 s →
      run_moves S rec clr max_depth remaining_depth current_depth color beta previousPv pre s =
        some s1 →
      LoopReach S rec clr max_depth remaining_depth current_depth color beta previousPv s0 s1 ∧
      negamax_loop S rec clr max_depth remaining_depth current_depth color beta previousPv
          (pre ++ rest) s =
        negamax_loop S rec clr max_depth remaining_depth current_depth color beta previousPv
          rest s1 := by
  intro pre
  induction pre with
  | nil =>
    intro s s1 hr h
    rw [run_moves] at h
    cases h
    exact ⟨hr, rfl⟩
  | cons move ms ih =>
    intro s s1 hr h
    rw [run_moves] at h
    rw [List.cons_append, negamax_loop_cons]
    cases hst : loop_step S rec clr max_depth remaining_depth current_depth color beta
        previousPv move s with
    | none => rw [hst] at h; cases h
    | some x =>
      rw [hst] at h
      cases x with
      | next s2 => exact ih s2 s1 (LoopReach.step s s2 move hr hst) h
      | stop s2 => cases h
      | ret v s2 => cases h

theorem loop_reach_inv (S : SearchEnv) (rec : NegamaxCall) (clr : Color)
    (max_depth remaining_depth current_depth color beta : Int) (previousPv : List Move)
    (s0 s : LoopState) (h0 : LoopInv s0.alpha s0)
    (hr : LoopReach S rec clr max_depth remaining_depth current_depth color beta previousPv
      s0 s) : LoopInv s0.alpha s := by
  induction hr with
  | start => exact h0
  | step s s1 move _ hst ih =>
    exact (loop_step_inv S rec clr max_depth remaining_depth current_depth color beta
      previousPv move s s0.alpha ih).1 s1 hst

theorem finished_eq (x : Option LoopExit) (d : LoopState)
    (h : x.map LoopExit.is_finished = some true) : x = some (.finished (exit_state x d)) := by
  cases x with
  | none => cases h
  | some r =>
    cases r with
    | returned v s => simp [LoopExit.is_finished] at h
    | finished s => rfl

theorem next_eq (x : Option StepExit) (d : LoopState) (h : is_next x = true) :
    x = some (.next (next_state x d)) := by
  cases x with
  | none => simp [is_next] at h
  | some r =>
    cases r with
    | next s => rfl
    | stop s => simp [is_next] at h
    | ret v s => simp [is_next] at h

/-- Claim C27: when the move loop of a frame has ended and the write of the
transposition table replaces the bucket, the entry written holds the final
`alpha` of the frame as score and the remaining depth as depth, and exactly one
bound tag: LowerBound exactly when the loop ended by a beta-cutoff (then
`alpha` is `beta`), Exact exactly when there was no cutoff and `alpha` was
raised above its value at entry, UpperBound exactly when there was no cutoff
and `alpha` is still its value at entry. -/
theorem C27_bound_tag (S : SearchEnv) (rec : NegamaxCall) (clr : Color)
    (max_depth remaining_depth current_depth color beta : Int) (previousPv moves : List Move)
    (s0 s1 : LoopState) (e : NegamaxEngine) (bkey : Nat)
    (h0 : s0.cutoff = false ∧ s0.raise_alpha = false ∧ s0.use_aspiration = false)
    (hloop : negamax_loop S rec clr max_depth remaining_depth current_depth color beta
      previousPv moves s0 = some (.finished s1))
    (hrep : (e.m_hash (S.bucket bkey)).key = 0 ∨
      remaining_depth > (e.m_hash (S.bucket bkey)).depth) :
    ∃ n, (tt_store S e bkey max_depth remaining_depth current_depth s1.alpha s1.bestMove
        s1.cutoff s1.raise_alpha).m_hash (S.bucket bkey) = n ∧
      n.score = s1.alpha ∧ n.depth = remaining_depth ∧
      ((n.exact_score = true ∧ n.lower_bound = false ∧ n.upper_bound = false) ∨
        (n.exact_score = false ∧ n.lower_bound = true ∧ n.upper_bound = false) ∨
        (n.exact_score = false ∧ n.lower_bound = false ∧ n.upper_bound = true)) ∧
      (n.lower_bound = true ↔ s1.cutoff = true) ∧
      (s1.cutoff = true → s1.alpha = beta) ∧
      (n.exact_score = true ↔ (s1.cutoff = false ∧ s0.alpha < s1.alpha)) ∧
      (n.upper_bound = true ↔ (s1.cutoff = false ∧ s1.alpha = s0.alpha)) := by
  have hinv := loop_inv_start s0 h0.1 h0.2.1 h0.2.2
  have hfin := negamax_loop_finished S rec clr max_depth remaining_depth current_depth color
    beta previousPv s0.alpha moves s0 s1 hinv hloop
  have hentry : (tt_store S e bkey max_depth remaining_depth current_depth s1.alpha
      s1.bestMove s1.cutoff s1.raise_alpha).m_hash (S.bucket bkey) =
      { key := bkey, depth := remaining_depth, score := s1.alpha
        exact_score := !s1.cutoff && s1.raise_alpha
        lower_bound := s1.cutoff
        upper_bound := !s1.cutoff && !s1.raise_alpha
        hashmove_src := s1.bestMove.src.to_val, hashmove_dst := s1.bestMove.dst.to_val
        promote_piece := s1.bestMove.promote_piece } := by
    unfold tt_store NegamaxEngine.update_stats
    simp only [hrep, decide_True, if_true]
    cases s1.cutoff <;> cases s1.raise_alpha <;> rfl
  refine ⟨_, hentry, rfl, rfl, ?_⟩
  simp only
  rcases hfin with ⟨c1, c2⟩ | ⟨j1, -, j3, j4⟩
  · refine ⟨?_, ?_, ?_, ?_, ?_⟩
    · rw [c1]; exact Or.inr (Or.inl ⟨rfl, rfl, rfl⟩)
    · trivial
    · exact fun _ => c2
    · rw [c1]
      exact ⟨fun h => (by cases h), fun h => (by cases h.1)⟩
    · rw [c1]
      exact ⟨fun h => (by cases h), fun h => (by cases h.1)⟩
  · have hup : s1.alpha = s0.alpha ↔ s1.raise_alpha = false := by
      constructor
      · intro h
        cases hr : s1.raise_alpha
        · rfl
        · have := j4.mp hr; omega
      · intro h
        have : ¬ (s0.alpha < s1.alpha) := fun hlt => by rw [j4.mpr hlt] at h; cases h
        omega
    refine ⟨?_, ?_, ?_, ?_, ?_⟩
    · rw [j1]
      cases s1.raise_alpha
      · exact Or.inr (Or.inr ⟨rfl, rfl, rfl⟩)
      · exact Or.inl ⟨rfl, rfl, rfl⟩
    · trivial
    · intro h; rw [j1] at h; cases h
    · rw [j1]
      simp only [Bool.not_false, Bool.true_and, true_and]
      exact j4
    · rw [j1, hup]
      simp only [Bool.not_false, Bool.true_and, true_and, Bool.not_eq_true']

/-- Witness of C27: in the run `raisingLoop` the first move raises `alpha` from
0 to 30 and no move cuts: the entry written has score 30, depth 3 and the
Exact tag. -/
theorem C27_witness :
    raisingLoop.map LoopExit.is_finished = some true ∧
    (exit_state raisingLoop sampleStart).alpha = 30 ∧
    ∃ n, (tt_store sampleSearch idleEngine 12345 3 3 0 (exit_state raisingLoop sampleStart).alpha
        (exit_state raisingLoop sampleStart).bestMove
        (exit_state raisingLoop sampleStart).cutoff
        (exit_state raisingLoop sampleStart).raise_alpha).m_hash (sampleSearch.bucket 12345) = n ∧
      n.score = (exit_state raisingLoop sampleStart).alpha ∧ n.depth = 3 ∧
      (n.exact_score = true ↔
        ((exit_state raisingLoop sampleStart).cutoff = false ∧
          sampleStart.alpha < (exit_state raisingLoop sampleStart).alpha)) :=
  have hf : raisingLoop.map LoopExit.is_finished = some true := by
    set_option maxRecDepth 1000000 in decide
  have ha : (exit_state raisingLoop sampleStart).alpha = 30 := by
    set_option maxRecDepth 1000000 in decide
  match C27_bound_tag sampleSearch (spyCall (-30)) C_WHITE 3 3 0 1 100 [] [quietMove, captureMove]
      sampleStart (exit_state raisingLoop sampleStart) idleEngine 12345 ⟨rfl, rfl, rfl⟩
      (finished_eq raisingLoop sampleStart hf) (by decide) with
  | ⟨n, h1, h2, h3, _, _, _, h7, _⟩ => ⟨hf, ha, n, h1, h2, h3, h7⟩

/-- The run `failLowLoop` refutes C29 as stated: both moves are legal and the
remaining depth is 3, the first move does not raise `alpha`, and the second
move is then searched with the full window `(-100, 0)` again, not with the null
window `(-1, 0)`. -/
theorem C29_second_move_full_window :
    is_legal sampleSearch sampleBoard quietMove = true ∧
    is_legal sampleSearch sampleBoard promotionMove = true ∧
    failLowLoop.map (fun x => windows_seen x.state.currentPv) =
      some [(-100, 0), (-100, 0)] := by
  set_option maxRecDepth 1000000 in decide

/-- Claim C29, amended: the first search of a legal move uses the null window
`[-alpha - 1, -alpha]` exactly when the flag `use_aspiration` is set and the
remaining depth is at least 2, and the full window `[-beta, -alpha]` otherwise;
in the states the loop goes through the flag is set exactly when an earlier
move has raised `alpha` above its value at entry. The first explored legal
move is therefore searched with the full window, and so is every later move as
long as no move has raised `alpha`. -/
theorem C29_first_window (S : SearchEnv) (rec : NegamaxCall) (clr : Color)
    (max_depth remaining_depth current_depth color beta : Int) (previousPv : List Move) :
    (∀ (alpha : Int) (use_aspiration : Bool) (e : NegamaxEngine) (b : Board)
        (currentPv : List Move),
      search_move rec max_depth remaining_depth current_depth color alpha beta previousPv
          use_aspiration e b currentPv =
        match rec e b max_depth (remaining_depth - 1) (current_depth + 1) (-color)
            (if use_aspiration = true ∧ remaining_depth ≥ 2 then -alpha - 1 else -beta) (-alpha)
            currentPv previousPv none with
        | none => none
        | some r =>
          if use_aspiration = true ∧ remaining_depth ≥ 2 ∧ -r.val > alpha ∧ -r.val < beta then
            widen_loop rec max_depth remaining_depth current_depth color alpha beta
              (beta - alpha) previousPv 4 0 (-r.val) (-alpha - 1) r.e r.b r.parentPv
          else some (-r.val, r.e, r.b, r.parentPv)) ∧
    (∀ (s0 s : LoopState), s0.cutoff = false → s0.raise_alpha = false →
      s0.use_aspiration = false →
      LoopReach S rec clr max_depth remaining_depth current_depth color beta previousPv s0 s →
      (s.use_aspiration = true ↔ s0.alpha < s.alpha) ∧ s0.alpha ≤ s.alpha) := by
  constructor
  · intro alpha ua e b cpv
    unfold search_move
    by_cases h : ua = true ∧ remaining_depth ≥ 2
    · simp only [if_pos h]
      cases rec e b max_depth (remaining_depth - 1) (current_depth + 1) (-color) (-alpha - 1)
          (-alpha) cpv previousPv none with
      | none => rfl
      | some r =>
        simp only [h.1, h.2, true_and]
    · simp only [if_neg h]
      cases rec e b max_depth (remaining_depth - 1) (current_depth + 1) (-color) (-beta)
          (-alpha) cpv previousPv none with
      | none => rfl
      | some r =>
        simp only
        rw [if_neg (fun hh => h ⟨hh.1, hh.2.1⟩)]
  · intro s0 s h1 h2 h3 hr
    obtain ⟨-, j2, j3, j4⟩ := loop_reach_inv S rec clr max_depth remaining_depth current_depth
      color beta previousPv s0 s (loop_inv_start s0 h1 h2 h3) hr
    rw [j2]
    exact ⟨j4, j3⟩

/-- Witness of C29: after the first move of `raisingLoop`, which raises `alpha`
from 0 to 30, the flag is set; and the first search of a move at remaining
depth 3 with the flag set asks for the null window. -/
theorem C29_witness :
    is_next (loop_step sampleSearch (spyCall (-30)) C_WHITE 3 3 0 1 100 [] quietMove
      sampleStart) = true ∧
    ((next_state (loop_step sampleSearch (spyCall (-30)) C_WHITE 3 3 0 1 100 [] quietMove
        sampleStart) sampleStart).use_aspiration = true ↔
      sampleStart.alpha < (next_state (loop_step sampleSearch (spyCall (-30)) C_WHITE 3 3 0 1
        100 [] quietMove sampleStart) sampleStart).alpha) ∧
    (search_move (spyCall (-30)) 3 3 0 1 30 100 [] true idleEngine sampleBoard []).map
      (fun r => windows_seen r.2.2.2) = some [(-31, -30)] :=
  have hn : is_next (loop_step sampleSearch (spyCall (-30)) C_WHITE 3 3 0 1 100 [] quietMove
      sampleStart) = true := by set_option maxRecDepth 1000000 in decide
  have h := C29_first_window sampleSearch (spyCall (-30)) C_WHITE 3 3 0 1 100 []
  ⟨hn,
    (h.2 sampleStart _ rfl rfl rfl
      (LoopReach.step sampleStart _ quietMove LoopReach.start (next_eq _ sampleStart hn))).1,
    by rw [h.1]; decide⟩

theorem widen_loop_done (rec : NegamaxCall)
    (max_depth remaining_depth current_depth color alpha beta w : Int) (previousPv : List Move)
    (n k : Nat) (hk : 3 < k) (val lower : Int) (e : NegamaxEngine) (b : Board)
    (currentPv : List Move) :
    widen_loop rec max_depth remaining_depth current_depth color alpha beta w previousPv n k val
      lower e b currentPv = some (val, e, b, currentPv) := by
  cases n with
  | zero => rw [widen_loop]
  | succ n =>
    rw [widen_loop, if_neg (fun h => by omega)]

/-- The search of a move with every search returning -50 refutes C30 as stated:
with window `(0, 100)` the null-window probe gives 50, and the first re-search
has the lower bound -12, the quotient `100 / 8` rounded down, where the claim
has `-0 - ⌈100 / 8⌉ = -13`. -/
theorem C30_first_widening_rounds_down :
    (search_move (spyCall (-50)) 3 3 0 1 0 100 [] true idleEngine sampleBoard []).map
      (fun r => windows_seen r.2.2.2) =
      some [(-1, 0), (-12, 0), (-25, 0), (-50, 0), (-100, 0)] ∧
    -(0 : Int) - (100 + 7) / 8 = -13 := by
  decide

/-- Claim C30, amended: after a null-window probe the re-searches of a move are
those of `widen_spec` over the four lower bounds of `widen_bounds`: each is
made only while the last value is strictly between `alpha` and `beta` and the
last lower bound is above `-beta`; the first three bounds are `-alpha` minus
the quotient of `beta - alpha` by 8, 4 and 2, rounded towards zero, but at
least one below the bound before, and the fourth is `-beta`; more turns of the
loop change nothing, so a move is re-searched at most four times. When `beta -
alpha` is a multiple of 8 and at least 16 the bounds are `-alpha - (beta -
alpha)/8`, `-alpha - (beta - alpha)/4`, `-alpha - (beta - alpha)/2`, `-beta`. -/
theorem C30_widening (rec : NegamaxCall)
    (max_depth remaining_depth current_depth color alpha beta : Int) (previousPv : List Move) :
    (∀ (n : Nat), 4 ≤ n → ∀ (val : Int) (e : NegamaxEngine) (b : Board) (currentPv : List Move),
      widen_loop rec max_depth remaining_depth current_depth color alpha beta (beta - alpha)
          previousPv n 0 val (-alpha - 1) e b currentPv =
        widen_spec rec max_depth remaining_depth current_depth color alpha beta previousPv
          (widen_bounds alpha beta) (-alpha - 1) val e b currentPv) ∧
    (widen_bounds alpha beta).length = 4 ∧
    (8 ∣ beta - alpha → 16 ≤ beta - alpha →
      widen_bounds alpha beta =
        [-alpha - (beta - alpha) / 8, -alpha - (beta - alpha) / 4, -alpha - (beta - alpha) / 2,
          -beta]) := by
  refine ⟨?_, rfl, ?_⟩
  · intro n hn val e b cpv
    obtain ⟨m, rfl⟩ : ∃ m, n = m + 4 := ⟨n - 4, by omega⟩
    have s0 : (8 >>> 0 : Nat) = 8 := rfl
    have s1 : (8 >>> 1 : Nat) = 4 := rfl
    have s2 : (8 >>> 2 : Nat) = 2 := rfl
    have k1 : (0 + 1 : Nat) = 1 := rfl
    have k2 : (1 + 1 : Nat) = 2 := rfl
    have k3 : (2 + 1 : Nat) = 3 := rfl
    have g0 : (0 : Nat) ≤ 3 ∧ (0 : Nat) < 3 := by decide
    have g1 : (1 : Nat) ≤ 3 ∧ (1 : Nat) < 3 := by decide
    have g2 : (2 : Nat) ≤ 3 ∧ (2 : Nat) < 3 := by decide
    have g3 : (3 : Nat) ≤ 3 ∧ ¬ ((3 : Nat) < 3) := by decide
    unfold widen_bounds
    simp only
    rw [widen_loop, widen_spec]
    simp only [g0.1, g0.2, and_true, if_true, s0, Nat.cast_ofNat, k1]
    split_ifs with c0
    · split
      · rename_i h; first | rfl | simp only [h]
      · rename_i r1 h
        try simp only [h]
        rw [widen_loop, widen_spec]
        simp only [g1.1, g1.2, and_true, if_true, s1, Nat.cast_ofNat, k2]
        split_ifs with c1
        · split
          · rename_i h; first | rfl | simp only [h]
          · rename_i r2 h
            try simp only [h]
            rw [widen_loop, widen_spec]
            simp only [g2.1, g2.2, and_true, if_true, s2, Nat.cast_ofNat, k3]
            split_ifs with c2
            · split
              · rename_i h; first | rfl | simp only [h]
              · rename_i r3 h
                try simp only [h]
                rw [widen_loop, widen_spec]
                simp only [g3.1, g3.2, and_true, if_false]
                split_ifs with c3
                · split
                  · rfl
                  · rename_i r4 h
                    try simp only [h]
                    rw [widen_loop_done _ _ _ _ _ _ _ _ _ _ _ (by omega), widen_spec]
                · rfl
            · rfl
        · rfl
    · rfl
  · intro h8 h16
    obtain ⟨q, hq⟩ := h8
    have t8 : Int.tdiv (beta - alpha) 8 = (beta - alpha) / 8 :=
      Int.tdiv_eq_ediv (by omega) (by decide)
    have t4 : Int.tdiv (beta - alpha) 4 = (beta - alpha) / 4 :=
      Int.tdiv_eq_ediv (by omega) (by decide)
    have t2 : Int.tdiv (beta - alpha) 2 = (beta - alpha) / 2 :=
      Int.tdiv_eq_ediv (by omega) (by decide)
    unfold widen_bounds
    simp only [t8, t4, t2]
    have e1 : min (-alpha - (beta - alpha) / 8) (-alpha - 1 - 1) = -alpha - (beta - alpha) / 8 := by
      omega
    rw [e1]
    have e2 : min (-alpha - (beta - alpha) / 4) (-alpha - (beta - alpha) / 8 - 1) =
        -alpha - (beta - alpha) / 4 := by omega
    rw [e2]
    have e3 : min (-alpha - (beta - alpha) / 2) (-alpha - (beta - alpha) / 4 - 1) =
        -alpha - (beta - alpha) / 2 := by omega
    rw [e3]

/-- Witness of C30: with window `(0, 100)` the four lower bounds are -12, -25,
-50 and -100; seven turns of fuel give what the four bounds give; and with
window `(0, 96)`, a multiple of 8, the bounds are -12, -24, -48 and -96. -/
theorem C30_witness :
    widen_bounds 0 100 = [-12, -25, -50, -100] ∧
    widen_loop (spyCall (-50)) 3 3 0 1 0 100 (100 - 0) [] 7 0 50 (-0 - 1) idleEngine
        sampleBoard [] =
      widen_spec (spyCall (-50)) 3 3 0 1 0 100 [] (widen_bounds 0 100) (-0 - 1) 50 idleEngine
        sampleBoard [] ∧
    widen_bounds 0 96 = [-0 - (96 - 0) / 8, -0 - (96 - 0) / 4, -0 - (96 - 0) / 2, -96] :=
  ⟨by decide,
    (C30_widening (spyCall (-50)) 3 3 0 1 0 100 []).1 7 (by decide) 50 idleEngine sampleBoard [],
    (C30_widening (spyCall (-50)) 3 3 0 1 0 96 []).2.2 (by decide) (by decide)⟩

theorem run_getD (x : Option UciRun) (h : x.isSome = true) : x = some (x.getD noRun) := by
  cases x with
  | none => cases h
  | some r => rfl

theorem deepening_step_done (S : SearchEnv) (fuel : Nat) (elapsed : Int → Nat)
    (max_time_ms : Nat) (color depth : Int) (s : DriverState) (hf : s.moveFound = false)
    (i : Bool) (s1 : DriverState)
    (h : deepening_step S fuel elapsed max_time_ms color depth s = some (.done i s1)) :
    s1.moveFound = false := by
  unfold deepening_step at h
  simp only at h
  split at h
  · cases h
  · rename_i r hr
    split_ifs at h with h1 h2 h3
    · simp only [Option.some.injEq, IterExit.done.injEq] at h
      obtain ⟨_, rfl⟩ := h
      exact hf
    · simp only [Option.some.injEq, IterExit.done.injEq] at h
      obtain ⟨_, rfl⟩ := h
      exact hf
    · simp only [Option.some.injEq] at h
      cases h
    · simp only [Option.some.injEq, IterExit.done.injEq] at h
      obtain ⟨_, rfl⟩ := h
      rfl

theorem some_getD (x : Option NegamaxResult) (h : x.isSome = true) :
    x = some (x.getD noResult) := by
  cases x with
  | none => cases h
  | some r => rfl

theorem deepening_step_published (S : SearchEnv) (fuel : Nat) (elapsed : Int → Nat)
    (max_time_ms : Nat) (color depth : Int) (s : DriverState) (hp : Published s) :
    (∀ s1, deepening_step S fuel elapsed max_time_ms color depth s = some (.next s1) →
      Published s1) ∧
    (∀ i s1, deepening_step S fuel elapsed max_time_ms color depth s = some (.done i s1) →
      Published s1) := by
  constructor
  · intro s1 h
    unfold deepening_step at h
    simp only at h
    split at h
    · cases h
    · rename_i r hr
      split_ifs at h with h1 h2 h3
      · simp only [Option.some.injEq] at h
        cases h
      · simp only [Option.some.injEq] at h
        cases h
      · simp only [Option.some.injEq, IterExit.next.injEq] at h
        subst h
        intro _
        refine ⟨?_, rfl⟩
        intro hnil
        have h4 : r.parentPv = [] := hnil
        rw [h4] at h3
        exact absurd h3 (by decide)
      · simp only [Option.some.injEq] at h
        cases h
  · intro i s1 h
    unfold deepening_step at h
    simp only at h
    split at h
    · cases h
    · rename_i r hr
      split_ifs at h with h1 h2 h3
      · simp only [Option.some.injEq, IterExit.done.injEq] at h
        obtain ⟨_, rfl⟩ := h
        exact hp
      · simp only [Option.some.injEq, IterExit.done.injEq] at h
        obtain ⟨_, rfl⟩ := h
        exact hp
      · simp only [Option.some.injEq] at h
        cases h
      · simp only [Option.some.injEq, IterExit.done.injEq] at h
        obtain ⟨_, rfl⟩ := h
        intro hf
        cases hf

/-- Failing input for C26: on the sample position, where the king step e1-e2
is legal and a run of `go depth 1` left alone sends it, a run of `go depth 1`
whose first poll of the stop flag sees a stop request ends without any
`bestmove`. -/
theorem C26_stopped_run_sends_nothing :
    stoppedRun.map (fun r => r.sent) = some [] ∧
    sampleRun.map (fun r => r.sent) = some [bestStep] ∧
    king_step sampleBoard ⟨0, 4⟩ ⟨1, 4⟩ ∈ legal_moves driveSearch sampleBoard := by
  set_option maxRecDepth 1000000 in decide

/-- What a run of `_start_uci_background` sends: the move left by
`iterative_deepening` when it leaves `moveFound` set, and nothing when it leaves
it unset; nothing is sent when the first iteration ends the driver (stop
request, time budget exceeded or empty PV at depth 1). The run ends with both
stop flags and `m_running` cleared. -/
theorem run_sends_found_move (S : SearchEnv) (fuel : Nat) (elapsed : Int → Nat)
    (timer_polls : Nat) (e : NegamaxEngine) (b : Board) (p : GoParams) (run : UciRun)
    (h : start_uci_background S fuel elapsed timer_polls e b p = some run) :
    run.sent.length ≤ 1 ∧
    run.e.m_stop_required = false ∧ run.e.m_stop_required_by_timeout = false ∧
    run.e.m_running = false ∧
    (∃ i s, iterative_deepening S fuel elapsed
        (e.go_start timer_polls (time_budget p b.get_next_move b.get_full_move)) b (go_depth p)
        Move.default (time_budget p b.get_next_move b.get_full_move) = some (i, s) ∧
      (s.moveFound = true → run.sent = [s.bestMove]) ∧
      (s.moveFound = false → run.sent = [])) ∧
    (∀ i s1, deepening_step S fuel elapsed (time_budget p b.get_next_move b.get_full_move)
        (if b.get_next_move = C_WHITE then 1 else -1) 1
        ⟨(e.go_start timer_polls (time_budget p b.get_next_move b.get_full_move)).set_max_depth
          (go_depth p), b, Move.default, false, [], []⟩ = some (.done i s1) →
      run.sent = []) := by
  unfold start_uci_background at h
  simp only at h
  split at h
  · cases h
  · rename_i i s hs
    simp only [Option.some.injEq] at h
    subst h
    have hsent : (s.moveFound = true → (if s.moveFound = true then [s.bestMove] else []) =
        [s.bestMove]) ∧ (s.moveFound = false →
        (if s.moveFound = true then [s.bestMove] else []) = ([] : List Move)) := by
      constructor
      · intro hm; rw [if_pos hm]
      · intro hm; rw [hm]; rfl
    refine ⟨?_, rfl, rfl, rfl, ⟨i, s, hs, hsent.1, hsent.2⟩, ?_⟩
    · show (if s.moveFound = true then [s.bestMove] else []).length ≤ 1
      split_ifs
      · exact Nat.le_refl 1
      · exact Nat.zero_le 1
    · intro i1 s1 hstep
      show (if s.moveFound = true then [s.bestMove] else []) = []
      apply hsent.2
      unfold iterative_deepening at hs
      simp only at hs
      generalize (if b.get_next_move = C_WHITE then (1 : Int) else -1) = color at hs hstep
      cases hn : (go_depth p).toNat with
      | zero =>
        rw [hn, deepening_loop] at hs
        cases hs
        rfl
      | succ n =>
        rw [hn, deepening_loop] at hs
        split_ifs at hs with hd
        · rw [hstep] at hs
          simp only [Option.some.injEq, Prod.mk.injEq] at hs
          rw [← hs.2]
          exact deepening_step_done _ _ _ _ _ _ _ rfl i1 s1 hstep
        · simp only [Option.some.injEq, Prod.mk.injEq] at hs
          rw [← hs.2]

/-! ### The killer table -/

theorem push_killer_eq (ks : List (List Move)) (cd : Int) (m : Move) :
    push_killer ks cd m =
      if (ks.getD cd.toNat []).any (fun x => x.same m) = true then ks
      else ks.set cd.toNat
        (if (ks.getD cd.toNat [] ++ [m]).length > 10 then (ks.getD cd.toNat [] ++ [m]).drop 1
         else ks.getD cd.toNat [] ++ [m]) := by
  unfold push_killer
  simp only
  split_ifs <;> rfl

theorem push_killer_length (ks : List (List Move)) (cd : Int) (m : Move) :
    (push_killer ks cd m).length = ks.length := by
  rw [push_killer_eq]
  split_ifs
  · rfl
  · exact List.length_set _ _ _
  · exact List.length_set _ _ _

theorem killer_list_push (l : List Move) (m : Move) (hl : KillerListOk l)
    (ht : m.takes = false) (hnew : l.any (fun x => x.same m) = false) :
    KillerListOk (if (l ++ [m]).length > 10 then (l ++ [m]).drop 1 else l ++ [m]) := by
  obtain ⟨h1, h2, h3⟩ := hl
  have hp : (l ++ [m]).Pairwise (fun a b => a.same b = false) := by
    rw [List.pairwise_append]
    refine ⟨h2, List.pairwise_singleton _ _, ?_⟩
    intro a ha b hb
    rw [List.mem_singleton] at hb
    subst hb
    cases hs : a.same b with
    | false => rfl
    | true =>
      have : l.any (fun x => x.same b) = true := List.any_eq_true.mpr ⟨a, ha, hs⟩
      rw [hnew] at this
      cases this
  have hm : ∀ x ∈ l ++ [m], x.takes = false := by
    intro x hx
    rw [List.mem_append, List.mem_singleton] at hx
    cases hx with
    | inl h => exact h3 x h
    | inr h => rw [h]; exact ht
  have hlen : (l ++ [m]).length = l.length + 1 := by
    rw [List.length_append]; rfl
  split_ifs with hc
  · refine ⟨?_, hp.sublist (List.drop_sublist 1 _), fun x hx => hm x (List.mem_of_mem_drop hx)⟩
    rw [List.length_drop, hlen]
    omega
  · refine ⟨?_, hp, hm⟩
    omega

theorem killers_push (ks : List (List Move)) (cd : Int) (m : Move) (hk : KillersOk ks)
    (ht : m.takes = false) : KillersOk (push_killer ks cd m) := by
  rw [push_killer_eq]
  by_cases hin : (ks.getD cd.toNat []).any (fun x => x.same m) = true
  · rw [if_pos hin]
    exact hk
  · rw [if_neg hin]
    intro l hl
    cases List.mem_or_eq_of_mem_set hl with
    | inl h => exact hk l h
    | inr h =>
      rw [h]
      have hold : KillerListOk (ks.getD cd.toNat []) := by
        by_cases hi : cd.toNat < ks.length
        · rw [List.getD_eq_getElem _ _ hi]
          exact hk _ (List.getElem_mem _)
        · rw [List.getD_eq_default _ _ (Nat.le_of_not_lt hi)]
          exact ⟨Nat.zero_le _, List.Pairwise.nil, fun x hx => by cases hx⟩
      apply killer_list_push _ _ hold ht
      cases hs : (ks.getD cd.toNat []).any (fun x => x.same m) with
      | false => rfl
      | true => exact absurd hs hin

/-- Counterexample input for C32: on the sample position with White mated (no
move is legal), the frame returns the mate score -20000 and has written the
bucket of the position, empty before: key, depth 2, score `alpha = -999999`
and the tag UpperBound. -/
theorem C32_table_written_before_mate_return :
    NoLegalMove checkSearch checkedBoard checkedBoard.get_next_move
      (frame_moves checkSearch idleEngine checkedBoard 2 2 0 (-999999) 999999 [] []
        (some checkedMoves)) ∧
    idleEngine.m_hash (checkSearch.bucket checkedBoard.get_key) = emptyEntry ∧
    (negamax checkSearch 1 idleEngine checkedBoard 2 2 0 1 (-999999) 999999 [] []
        (some checkedMoves)).map
      (fun r => (r.val, r.e.m_hash (checkSearch.bucket checkedBoard.get_key))) =
      some (-20000, ⟨12345, 2, -999999, false, false, true, -9, -9, P_EMPTY⟩) := by
  set_option maxRecDepth 1000000 in decide

/-- Counterexample input for C33: a search of depth 1 on the sample position
whose root frame finds the stop flag unset and whose first child frame finds it
set. The root frame, inside its move loop when the flag is raised, goes through
its other moves and then writes the bucket of the root position, empty before:
depth 1, score -999999, tag UpperBound; the same search left alone writes the
exact score 0. -/
theorem C33_stopped_search_writes_table :
    ({ idleEngine with stop_clock := some 1 } : NegamaxEngine).poll.1 = false ∧
    idleEngine.m_hash (driveSearch.bucket sampleBoard.get_key) = emptyEntry ∧
    (negamax driveSearch 3 { idleEngine with stop_clock := some 1 } sampleBoard 1 1 0 1
        (-999999) 999999 [] [] none).map
      (fun r => (r.val, r.e.m_stop_required,
        r.e.m_hash (driveSearch.bucket sampleBoard.get_key))) =
      some (-999999, true, ⟨12345, 1, -999999, false, false, true, -9, -9, P_EMPTY⟩) ∧
    (negamax driveSearch 3 idleEngine sampleBoard 1 1 0 1 (-999999) 999999 [] [] none).map
      (fun r => (r.val, r.e.m_stop_required,
        r.e.m_hash (driveSearch.bucket sampleBoard.get_key))) =
      some (0, false, ⟨12345, 1, 0, true, false, false, 4, 12, P_EMPTY⟩) := by
  set_option maxRecDepth 1000000 in decide

theorem quiesce_loop_nil_cases (S : SearchEnv) (rec : QuiesceCall) (color beta current_depth : Int)
    (e : NegamaxEngine) (b : Board) (alpha : Int) (n : Nat) (r : SearchResult)
    (h : quiesce_loop S rec color beta current_depth [] e b alpha n = some r) :
    r.e = e ∧ r.b = b ∧
      ((n = 0 ∧ (r.val = -20000 + 5 * current_depth ∨ r.val = 0)) ∨ (n ≠ 0 ∧ r.val = alpha)) := by
  rw [quiesce_loop] at h
  by_cases hn : n = 0
  · rw [if_pos hn] at h
    simp only at h
    by_cases hc : b.is_king_checked b.get_next_move = true
    · rw [if_pos hc] at h
      cases h
      exact ⟨rfl, rfl, Or.inl ⟨hn, Or.inl rfl⟩⟩
    · rw [if_neg hc] at h
      cases h
      exact ⟨rfl, rfl, Or.inl ⟨hn, Or.inr rfl⟩⟩
  · rw [if_neg hn] at h
    cases h
    exact ⟨rfl, rfl, Or.inr ⟨hn, rfl⟩⟩

theorem quiesce_loop_cons_cases (S : SearchEnv) (rec : QuiesceCall)
    (color beta current_depth : Int) (move : Move) (rest : List Move)
    (e : NegamaxEngine) (b : Board) (alpha : Int) (n : Nat) (r : SearchResult)
    (h : quiesce_loop S rec color beta current_depth (move :: rest) e b alpha n = some r) :
    ((b.make_move S.env move).is_king_checked move.color = true ∧
      quiesce_loop S rec color beta current_depth rest e
        ((b.make_move S.env move).unmake_move S.env move) alpha n = some r) ∨
    ((b.make_move S.env move).is_king_checked move.color = false ∧
      (r = ⟨alpha, e, (b.make_move S.env move).unmake_move S.env
          { move with legal_checked := true, legal := true }⟩ ∨
       ∃ r1, rec e (b.make_move S.env move) (-color) (-beta) (-alpha) (current_depth + 1) =
          some r1 ∧
        (r = ⟨beta, r1.e, r1.b.unmake_move S.env
            { move with legal_checked := true, legal := true }⟩ ∨
         ∃ a1, quiesce_loop S rec color beta current_depth rest r1.e
            (r1.b.unmake_move S.env { move with legal_checked := true, legal := true })
            a1 (n + 1) = some r))) := by
  rw [quiesce_loop] at h
  simp only at h
  by_cases h1 : (b.make_move S.env move).is_king_checked move.color = true
  · rw [if_pos h1] at h
    exact Or.inl ⟨h1, h⟩
  · rw [if_neg h1] at h
    have h1f : (b.make_move S.env move).is_king_checked move.color = false := by
      cases hc : (b.make_move S.env move).is_king_checked move.color with
      | false => rfl
      | true => exact absurd hc h1
    refine Or.inr ⟨h1f, ?_⟩
    generalize (if move.promote = true then (975 : Int) + 775 else 975) = delta at h
    by_cases h2 : S.piece_value move.taken_piece + delta < alpha
    · rw [if_pos h2] at h
      left
      cases h
      rfl
    · rw [if_neg h2] at h
      right
      cases hr : rec e (b.make_move S.env move) (-color) (-beta) (-alpha) (current_depth + 1) with
      | none => rw [hr] at h; cases h
      | some r1 =>
        rw [hr] at h
        simp only at h
        refine ⟨r1, rfl, ?_⟩
        by_cases h3 : -r1.val ≥ beta
        · rw [if_pos h3] at h
          left
          cases h
          rfl
        · rw [if_neg h3] at h
          exact Or.inr ⟨_, h⟩

theorem quiesce_loop_killers (S : SearchEnv) (rec : QuiesceCall) (color beta current_depth : Int)
    (hrec : ∀ e b c a be d r, rec e b c a be d = some r → r.e.m_killers = e.m_killers) :
    ∀ (moves : List Move) (e : NegamaxEngine) (b : Board) (alpha : Int) (n : Nat)
      (r : SearchResult),
      quiesce_loop S rec color beta current_depth moves e b alpha n = some r →
      r.e.m_killers = e.m_killers := by
  intro moves
  induction moves with
  | nil =>
    intro e b alpha n r h
    rw [(quiesce_loop_nil_cases S rec color beta current_depth e b alpha n r h).1]
  | cons move rest ih =>
    intro e b alpha n r h
    rcases quiesce_loop_cons_cases S rec color beta current_depth move rest e b alpha n r h with
      ⟨-, h1⟩ | ⟨-, h1 | ⟨r1, hr1, h2 | ⟨a1, h2⟩⟩⟩
    · exact ih _ _ _ _ _ h1
    · rw [h1]
    · rw [h2]; exact hrec _ _ _ _ _ _ r1 hr1
    · rw [ih _ _ _ _ _ h2]; exact hrec _ _ _ _ _ _ r1 hr1

theorem quiesce_cases (S : SearchEnv) (fuel : Nat) (e : NegamaxEngine) (b : Board)
    (color alpha beta current_depth : Int) (r : SearchResult)
    (h : quiesce S (fuel + 1) e b color alpha beta current_depth = some r) :
    (r.b = b ∧ (r.e = e.poll.2 ∨ r.e = { e.poll.2 with
        m_total_quiescence_nodes := e.poll.2.m_total_quiescence_nodes + 1 })) ∨
    ∃ a1, quiesce_loop S (quiesce S fuel) color beta current_depth
      (S.reorder_mvv_lva b (S.enumerate_moves b true))
      { e.poll.2 with m_total_quiescence_nodes := e.poll.2.m_total_quiescence_nodes + 1 } b a1 0 =
        some r := by
  rw [quiesce] at h
  simp only at h
  by_cases h1 : e.poll.1 = true
  · rw [if_pos h1] at h
    cases h
    exact Or.inl ⟨rfl, Or.inl rfl⟩
  · rw [if_neg h1] at h
    by_cases h2 : color * S.evaluate_board b + 4000 < alpha
    · rw [if_pos h2] at h
      cases h
      exact Or.inl ⟨rfl, Or.inl rfl⟩
    · rw [if_neg h2] at h
      by_cases h3 : color * S.evaluate_board b ≥ beta
      · rw [if_pos h3] at h
        cases h
        exact Or.inl ⟨rfl, Or.inr rfl⟩
      · rw [if_neg h3] at h
        exact Or.inr ⟨_, h⟩

theorem quiesce_killers (S : SearchEnv) :
    ∀ (fuel : Nat) (e : NegamaxEngine) (b : Board) (color alpha beta current_depth : Int)
      (r : SearchResult),
      quiesce S fuel e b color alpha beta current_depth = some r →
      r.e.m_killers = e.m_killers := by
  intro fuel
  induction fuel with
  | zero => intro e b color alpha beta cd r h; rw [quiesce] at h; cases h
  | succ fuel ih =>
    intro e b color alpha beta cd r h
    have hp := (poll_frame e).2.1
    rcases quiesce_cases S fuel e b color alpha beta cd r h with ⟨-, h1 | h1⟩ | ⟨a1, h1⟩
    · rw [h1]; exact hp
    · rw [h1]; exact hp
    · rw [quiesce_loop_killers S (quiesce S fuel) color beta cd ih _ _ _ _ _ _ h1]
      exact hp

theorem widen_loop_killers (rec : NegamaxCall) (Q : List (List Move) → Prop)
    (max_depth remaining_depth current_depth color alpha beta w : Int) (previousPv : List Move)
    (hrec : ∀ e b md rd cd c a be pv ppv tlo r, rec e b md rd cd c a be pv ppv tlo = some r →
      Q e.m_killers → Q r.e.m_killers) :
    ∀ (n k : Nat) (val lower : Int) (e : NegamaxEngine) (b : Board) (currentPv : List Move)
      (out : Int × NegamaxEngine × Board × List Move),
      widen_loop rec max_depth remaining_depth current_depth color alpha beta w previousPv n k
        val lower e b currentPv = some out →
      Q e.m_killers → Q out.2.1.m_killers := by
  intro n
  induction n with
  | zero =>
    intro k val lower e b cpv out h hq
    rw [widen_loop] at h
    cases h
    exact hq
  | succ n ih =>
    intro k val lower e b cpv out h hq
    rw [widen_loop] at h
    simp only at h
    by_cases h1 : val > alpha ∧ val < beta ∧ lower > -beta ∧ k ≤ 3
    · rw [if_pos h1] at h
      split at h
      · cases h
      · rename_i r hr
        exact ih _ _ _ _ _ _ _ h (hrec _ _ _ _ _ _ _ _ _ _ _ _ hr hq)
    · rw [if_neg h1] at h
      cases h
      exact hq

theorem search_move_killers (rec : NegamaxCall) (Q : List (List Move) → Prop)
    (max_depth remaining_depth current_depth color alpha beta : Int) (previousPv : List Move)
    (hrec : ∀ e b md rd cd c a be pv ppv tlo r, rec e b md rd cd c a be pv ppv tlo = some r →
      Q e.m_killers → Q r.e.m_killers)
    (ua : Bool) (e : NegamaxEngine) (b : Board) (currentPv : List Move)
    (out : Int × NegamaxEngine × Board × List Move)
    (h : search_move rec max_depth remaining_depth current_depth color alpha beta previousPv ua
      e b currentPv = some out) (hq : Q e.m_killers) : Q out.2.1.m_killers := by
  unfold search_move at h
  by_cases h1 : ua = true ∧ remaining_depth ≥ 2
  · rw [if_pos h1] at h
    split at h
    · cases h
    · rename_i r hr
      have hq1 := hrec _ _ _ _ _ _ _ _ _ _ _ _ hr hq
      simp only at h
      by_cases h2 : -r.val > alpha ∧ -r.val < beta
      · rw [if_pos h2] at h
        exact widen_loop_killers rec Q _ _ _ _ _ _ _ _ hrec _ _ _ _ _ _ _ _ h hq1
      · rw [if_neg h2] at h
        cases h
        exact hq1
  · rw [if_neg h1] at h
    split at h
    · cases h
    · rename_i r hr
      cases h
      exact hrec _ _ _ _ _ _ _ _ _ _ _ _ hr hq

/-! ### The move loop of `negamax`, case by case -/

theorem step_result_frame (max_depth current_depth beta : Int) (move : Move) (s : LoopState)
    (val : Int) :
    (step_result max_depth current_depth beta move s val).state.b = s.b ∧
    (step_result max_depth current_depth beta move s val).state.num_legal_move =
      s.num_legal_move ∧
    (∀ v s1, step_result max_depth current_depth beta move s val = .ret v s1 → v = beta) ∧
    (∀ a0 : Int, a0 ≤ s.alpha → s.alpha ≤ beta →
      a0 ≤ (step_result max_depth current_depth beta move s val).state.alpha ∧
      (step_result max_depth current_depth beta move s val).state.alpha ≤ beta) ∧
    (∀ Q : List (List Move) → Prop,
      (∀ ks cd m, m.takes = false → Q ks → Q (push_killer ks cd m)) →
      Q s.e.m_killers →
      Q (step_result max_depth current_depth beta move s val).state.e.m_killers) := by
  have f1 : (if val > s.oldval then { s with oldval := val, bestMove := move } else s).alpha =
      s.alpha := by split <;> rfl
  have f2 : (if val > s.oldval then { s with oldval := val, bestMove := move } else s).b =
      s.b := by split <;> rfl
  have f3 : (if val > s.oldval then { s with oldval := val, bestMove := move }
      else s).num_legal_move = s.num_legal_move := by split <;> rfl
  have f4 : (if val > s.oldval then { s with oldval := val, bestMove := move }
      else s).e = s.e := by split <;> rfl
  unfold step_result
  simp only
  generalize (if val > s.oldval then { s with oldval := val, bestMove := move } else s) = t
    at f1 f2 f3 f4 ⊢
  by_cases hb : val ≥ beta
  · simp only [if_pos hb]
    by_cases hp : t.e.poll.1 = true
    · simp only [hp, if_true]
      refine ⟨f2, f3, ?_, ?_, ?_⟩
      · intro v s1 h
        cases h
        rfl
      · intro a0 h1 h2
        exact ⟨by show a0 ≤ beta; omega, Int.le_refl beta⟩
      · intro Q hQ hq
        show Q t.e.poll.2.m_killers
        rw [(poll_frame _).2.1, f4]
        exact hq
    · simp only [hp, Bool.false_eq_true, if_false]
      by_cases hk : ¬ move.takes = true ∧ ¬ move.killer = true
      · simp only [if_pos hk]
        refine ⟨f2, f3, ?_, ?_, ?_⟩
        · intro v s1 h
          cases h
        · intro a0 h1 h2
          exact ⟨by show a0 ≤ beta; omega, Int.le_refl beta⟩
        · intro Q hQ hq
          show Q (push_killer t.e.poll.2.m_killers _ _)
          apply hQ
          · cases ht : move.takes with
            | false => rfl
            | true => exact absurd ht hk.1
          · rw [(poll_frame _).2.1, f4]
            exact hq
      · simp only [if_neg hk]
        refine ⟨f2, f3, ?_, ?_, ?_⟩
        · intro v s1 h
          cases h
        · intro a0 h1 h2
          exact ⟨by show a0 ≤ beta; omega, Int.le_refl beta⟩
        · intro Q hQ hq
          show Q t.e.poll.2.m_killers
          rw [(poll_frame _).2.1, f4]
          exact hq
  · simp only [if_neg hb]
    by_cases ha : val > t.alpha
    · simp only [if_pos ha]
      refine ⟨f2, f3, ?_, ?_, ?_⟩
      · intro v s1 h
        cases h
      · intro a0 h1 h2
        exact ⟨by show a0 ≤ val; omega, by show val ≤ beta; omega⟩
      · intro Q hQ hq
        show Q t.e.m_killers
        rw [f4]
        exact hq
    · simp only [if_neg ha]
      refine ⟨f2, f3, ?_, ?_, ?_⟩
      · intro v s1 h
        cases h
      · intro a0 h1 h2
        exact ⟨by show a0 ≤ t.alpha; omega, by show t.alpha ≤ beta; omega⟩
      · intro Q hQ hq
        show Q t.e.m_killers
        rw [f4]
        exact hq

theorem loop_step_cases (S : SearchEnv) (rec : NegamaxCall) (clr : Color)
    (max_depth remaining_depth current_depth color beta : Int) (previousPv : List Move)
    (move : Move) (s : LoopState) (x : StepExit)
    (h : loop_step S rec clr max_depth remaining_depth current_depth color beta previousPv
      move s = some x) :
    ((move.legal_checked = true ∧ move.legal = false) ∧
      x = .next { s with moveList := s.moveList ++ [move] }) ∨
    (¬ (move.legal_checked = true ∧ move.legal = false) ∧
      (s.b.make_move S.env move).is_king_checked clr = true ∧
      x = .next { s with
        num_move_visited := s.num_move_visited + 1
        b := (s.b.make_move S.env move).unmake_move S.env
          { move with legal_checked := true, legal := false, evaluation := INT32_MIN }
        moveList := s.moveList ++
          [{ move with legal_checked := true, legal := false, evaluation := INT32_MIN }] }) ∨
    (¬ (move.legal_checked = true ∧ move.legal = false) ∧
      (s.b.make_move S.env move).is_king_checked clr = false ∧
      ∃ val e1 b1 cpv,
        search_move rec max_depth remaining_depth current_depth color s.alpha beta previousPv
          s.use_aspiration s.e (s.b.make_move S.env move) s.currentPv = some (val, e1, b1, cpv) ∧
        x = step_result max_depth current_depth beta
          { move with legal_checked := true, legal := true }
          { s with
            num_move_visited := s.num_move_visited + 1
            num_legal_move := s.num_legal_move + 1
            e := e1
            b := b1.unmake_move S.env { move with legal_checked := true, legal := true }
            currentPv := cpv } val) := by
  unfold loop_step at h
  by_cases h1 : move.legal_checked = true ∧ ¬ move.legal = true
  · rw [if_pos h1] at h
    cases h
    refine Or.inl ⟨⟨h1.1, ?_⟩, rfl⟩
    cases hl : move.legal with
    | false => rfl
    | true => exact absurd hl h1.2
  · rw [if_neg h1] at h
    have h1f : ¬ (move.legal_checked = true ∧ move.legal = false) := by
      intro hh
      exact h1 ⟨hh.1, by rw [hh.2]; decide⟩
    simp only at h
    by_cases h2 : (s.b.make_move S.env move).is_king_checked clr = true
    · rw [if_pos h2] at h
      cases h
      exact Or.inr (Or.inl ⟨h1f, h2, rfl⟩)
    · rw [if_neg h2] at h
      have h2f : (s.b.make_move S.env move).is_king_checked clr = false := by
        cases hc : (s.b.make_move S.env move).is_king_checked clr with
        | false => rfl
        | true => exact absurd hc h2
      refine Or.inr (Or.inr ⟨h1f, h2f, ?_⟩)
      cases hsm : search_move rec max_depth remaining_depth current_depth color s.alpha beta
          previousPv s.use_aspiration s.e (s.b.make_move S.env move) s.currentPv with
      | none => rw [hsm] at h; cases h
      | some out =>
        obtain ⟨val, e1, b1, cpv⟩ := out
        rw [hsm] at h
        simp only [Option.some.injEq] at h
        exact ⟨val, e1, b1, cpv, rfl, h.symm⟩

theorem negamax_loop_induct (S : SearchEnv) (rec : NegamaxCall) (clr : Color)
    (max_depth remaining_depth current_depth color beta : Int) (previousPv : List Move)
    (P : LoopState → Prop) (hlist : ∀ s l, P s → P { s with moveList := l }) :
    ∀ (moves : List Move),
      (∀ move ∈ moves, ∀ s x, P s →
        loop_step S rec clr max_depth remaining_depth current_depth color beta previousPv
          move s = some x → P x.state) →
      ∀ (s : LoopState) (out : LoopExit), P s →
        negamax_loop S rec clr max_depth remaining_depth current_depth color beta previousPv
          moves s = some out → P out.state := by
  intro moves
  induction moves with
  | nil =>
    intro _ s out hp h
    rw [negamax_loop] at h
    cases h
    exact hp
  | cons move rest ih =>
    intro hstep s out hp h
    rw [negamax_loop_cons] at h
    cases hx : loop_step S rec clr max_depth remaining_depth current_depth color beta
        previousPv move s with
    | none => rw [hx] at h; cases h
    | some x =>
      have hpx := hstep move (List.mem_cons_self _ _) s x hp hx
      rw [hx] at h
      cases x with
      | next s1 =>
        exact ih (fun m hm => hstep m (List.mem_cons_of_mem _ hm)) s1 out hpx h
      | stop s1 =>
        simp only [Option.some.injEq] at h
        rw [← h]
        exact hlist _ _ hpx
      | ret v s1 =>
        simp only [Option.some.injEq] at h
        rw [← h]
        exact hlist _ _ hpx

theorem negamax_loop_returned (S : SearchEnv) (rec : NegamaxCall) (clr : Color)
    (max_depth remaining_depth current_depth color beta : Int) (previousPv : List Move) :
    ∀ (moves : List Move) (s s1 : LoopState) (v : Int),
      negamax_loop S rec clr max_depth remaining_depth current_depth color beta previousPv
        moves s = some (.returned v s1) → v = beta := by
  intro moves
  induction moves with
  | nil =>
    intro s s1 v h
    rw [negamax_loop] at h
    cases h
  | cons move rest ih =>
    intro s s1 v h
    rw [negamax_loop_cons] at h
    cases hx : loop_step S rec clr max_depth remaining_depth current_depth color beta
        previousPv move s with
    | none => rw [hx] at h; cases h
    | some x =>
      rw [hx] at h
      cases x with
      | next s2 => exact ih s2 s1 v h
      | stop s2 => cases h
      | ret v2 s2 =>
        simp only [Option.some.injEq, LoopExit.returned.injEq] at h
        rw [← h.1]
        rcases loop_step_cases S rec clr max_depth remaining_depth current_depth color beta
          previousPv move s _ hx with ⟨-, h1⟩ | ⟨-, -, h1⟩ | ⟨-, -, val, e1, b1, cpv, -, h1⟩
        · cases h1
        · cases h1
        · exact (step_result_frame _ _ _ _ _ _).2.2.1 v2 s2 h1.symm

/-! ### A frame of `negamax`, case by case -/

theorem update_stats_frame (e : NegamaxEngine) (md cd : Int) (f : Stats → Stats) :
    (e.update_stats md cd f).m_killers = e.m_killers ∧
    (e.update_stats md cd f).m_hash = e.m_hash := ⟨rfl, rfl⟩

theorem tt_store_killers (S : SearchEnv) (e : NegamaxEngine) (bkey : Nat)
    (md rd cd alpha : Int) (bestMove : Move) (cutoff raise_alpha : Bool) :
    (tt_store S e bkey md rd cd alpha bestMove cutoff raise_alpha).m_killers = e.m_killers :=
  rfl

theorem tt_probe_killers (S : SearchEnv) (e : NegamaxEngine) (b : Board)
    (md rd cd alpha beta : Int) (parentPv : List Move) :
    (tt_probe S e b md rd cd alpha beta parentPv).e.m_killers = e.m_killers := by
  unfold tt_probe
  simp only
  split_ifs <;> rfl

theorem negamax_cases (S : SearchEnv) (fuel : Nat) (e : NegamaxEngine) (b : Board)
    (md rd cd color alpha beta : Int) (parentPv previousPv : List Move)
    (tlo : Option (List Move)) (r : NegamaxResult)
    (h : negamax S (fuel + 1) e b md rd cd color alpha beta parentPv previousPv tlo = some r) :
    (e.poll.1 = true ∧ r = ⟨beta, e.poll.2, b, parentPv, tlo⟩) ∨
    (e.poll.1 = false ∧
      (tt_probe S e.poll.2 b md rd cd alpha beta parentPv).is_ret = true ∧
      r = ⟨(tt_probe S e.poll.2 b md rd cd alpha beta parentPv).alpha,
        (tt_probe S e.poll.2 b md rd cd alpha beta parentPv).e, b, r.parentPv, tlo⟩) ∨
    (e.poll.1 = false ∧
      (tt_probe S e.poll.2 b md rd cd alpha beta parentPv).is_ret = false ∧
      negamax_search S (negamax S fuel) (quiesce S fuel)
        (tt_probe S e.poll.2 b md rd cd alpha beta parentPv).e b md rd cd color
        (tt_probe S e.poll.2 b md rd cd alpha beta parentPv).alpha beta parentPv previousPv tlo
        (tt_probe S e.poll.2 b md rd cd alpha beta parentPv).hash_move
        (tt_probe S e.poll.2 b md rd cd alpha beta parentPv).has_hash_move = some r) := by
  rw [negamax] at h
  by_cases h1 : e.poll.1 = true
  · rw [if_pos h1] at h
    cases h
    exact Or.inl ⟨h1, rfl⟩
  · rw [if_neg h1] at h
    have h1f : e.poll.1 = false := by
      cases hc : e.poll.1 with
      | false => rfl
      | true => exact absurd hc h1
    cases hp : tt_probe S e.poll.2 b md rd cd alpha beta parentPv with
    | ret v e1 pv1 =>
      rw [hp] at h
      cases h
      exact Or.inr (Or.inl ⟨h1f, rfl, rfl⟩)
    | go a1 e1 hm hhm =>
      rw [hp] at h
      exact Or.inr (Or.inr ⟨h1f, rfl, h⟩)

theorem negamax_search_cases (S : SearchEnv) (rec : NegamaxCall) (qrec : QuiesceCall)
    (e : NegamaxEngine) (b : Board) (md rd cd color alpha beta : Int)
    (parentPv previousPv : List Move) (tlo : Option (List Move)) (hm : Move) (hhm : Bool)
    (r : NegamaxResult)
    (h : negamax_search S rec qrec e b md rd cd color alpha beta parentPv previousPv tlo hm hhm =
      some r) :
    (rd = 0 ∧ ∃ q, qrec (e.update_stats md cd
          (fun st => { st with num_leaf_nodes := st.num_leaf_nodes + 1 })) b color alpha beta cd =
        some q ∧ r = ⟨q.val, q.e, q.b, parentPv, tlo⟩) ∨
    (rd ≠ 0 ∧ ∃ x,
      negamax_loop S rec b.get_next_move md rd cd color beta previousPv
        (negamax_move_list S { e with m_total_nodes := e.m_total_nodes + 1 } b rd cd previousPv
          tlo hm hhm)
        (loop_start { e with m_total_nodes := e.m_total_nodes + 1 } b alpha parentPv) = some x ∧
      ((∃ v s, x = .returned v s ∧ r = ⟨v, s.e, s.b, s.parentPv, tlo⟩) ∨
       (∃ s, x = .finished s ∧ r.b = s.b ∧ r.parentPv = s.parentPv ∧
          r.e = tt_store S (s.e.update_stats md cd (fun st =>
            { st with
              num_move_visited := st.num_move_visited + s.num_move_visited
              num_move_skipped := st.num_move_skipped + (s.moveList.length - s.num_move_visited)
              num_move_generated := st.num_move_generated + s.moveList.length
              num_nodes := st.num_nodes + 1 })) b.get_key md rd cd s.alpha s.bestMove s.cutoff
            s.raise_alpha ∧
          ((s.num_legal_move = 0 ∧ (r.val = -20000 + 5 * cd ∨ r.val = 0)) ∨
           (s.num_legal_move ≠ 0 ∧ r.val = s.alpha))))) := by
  unfold negamax_search at h
  simp only at h
  by_cases h0 : rd = 0
  · rw [if_pos h0] at h
    left
    refine ⟨h0, ?_⟩
    split at h
    · cases h
    · rename_i q hq
      cases h
      exact ⟨q, hq, rfl⟩
  · rw [if_neg h0] at h
    right
    refine ⟨h0, ?_⟩
    split at h
    · cases h
    · rename_i v s hx
      cases h
      exact ⟨_, hx, Or.inl ⟨v, s, rfl, rfl⟩⟩
    · rename_i s hx
      refine ⟨_, hx, Or.inr ⟨s, rfl, ?_⟩⟩
      by_cases hn : s.num_legal_move = 0
      · rw [if_pos hn] at h
        by_cases hc : s.b.is_king_checked b.get_next_move = true
        · rw [if_pos hc] at h
          cases h
          exact ⟨rfl, rfl, rfl, Or.inl ⟨hn, Or.inl rfl⟩⟩
        · rw [if_neg hc] at h
          cases h
          exact ⟨rfl, rfl, rfl, Or.inl ⟨hn, Or.inr rfl⟩⟩
      · rw [if_neg hn] at h
        by_cases hd : cd = 0
        · rw [if_pos hd] at h
          cases h
          exact ⟨rfl, rfl, rfl, Or.inr ⟨hn, rfl⟩⟩
        · rw [if_neg hd] at h
          cases h
          exact ⟨rfl, rfl, rfl, Or.inr ⟨hn, rfl⟩⟩

theorem loop_step_killers (S : SearchEnv) (rec : NegamaxCall) (clr : Color)
    (max_depth remaining_depth current_depth color beta : Int) (previousPv : List Move)
    (Q : List (List Move) → Prop)
    (hQ : ∀ ks cd m, m.takes = false → Q ks → Q (push_killer ks cd m))
    (hrec : ∀ e b md rd cd c a be pv ppv tlo r, rec e b md rd cd c a be pv ppv tlo = some r →
      Q e.m_killers → Q r.e.m_killers)
    (move : Move) (s : LoopState) (x : StepExit) (hq : Q s.e.m_killers)
    (h : loop_step S rec clr max_depth remaining_depth current_depth color beta previousPv
      move s = some x) : Q x.state.e.m_killers := by
  rcases loop_step_cases S rec clr max_depth remaining_depth current_depth color beta
    previousPv move s x h with ⟨-, h1⟩ | ⟨-, -, h1⟩ | ⟨-, -, val, e1, b1, cpv, hsm, h1⟩
  · rw [h1]; exact hq
  · rw [h1]; exact hq
  · rw [h1]
    apply (step_result_frame _ _ _ _ _ _).2.2.2.2 Q hQ
    exact search_move_killers rec Q _ _ _ _ _ _ _ hrec _ _ _ _ _ hsm hq

theorem negamax_killers (S : SearchEnv) (Q : List (List Move) → Prop)
    (hQ : ∀ ks cd m, m.takes = false → Q ks → Q (push_killer ks cd m)) :
    ∀ (fuel : Nat) (e : NegamaxEngine) (b : Board) (md rd cd color alpha beta : Int)
      (parentPv previousPv : List Move) (tlo : Option (List Move)) (r : NegamaxResult),
      negamax S fuel e b md rd cd color alpha beta parentPv previousPv tlo = some r →
      Q e.m_killers → Q r.e.m_killers := by
  intro fuel
  induction fuel with
  | zero =>
    intro e b md rd cd color alpha beta ppv prev tlo r h
    rw [negamax] at h
    cases h
  | succ fuel ih =>
    intro e b md rd cd color alpha beta ppv prev tlo r h hq
    have hp := (poll_frame e).2.1
    rcases negamax_cases S fuel e b md rd cd color alpha beta ppv prev tlo r h with
      ⟨-, h1⟩ | ⟨-, -, h1⟩ | ⟨-, -, h1⟩
    · rw [h1]
      show Q e.poll.2.m_killers
      rw [hp]; exact hq
    · rw [h1]
      show Q (tt_probe S e.poll.2 b md rd cd alpha beta ppv).e.m_killers
      rw [tt_probe_killers, hp]; exact hq
    · have hq1 : Q (tt_probe S e.poll.2 b md rd cd alpha beta ppv).e.m_killers := by
        rw [tt_probe_killers, hp]; exact hq
      rcases negamax_search_cases S _ _ _ b md rd cd color _ beta ppv prev tlo _ _ r h1 with
        ⟨-, q, hqr, h2⟩ | ⟨-, x, hx, ⟨v, s, hxs, h2⟩ | ⟨s, hxs, -, -, h2, -⟩⟩
      · rw [h2]
        show Q q.e.m_killers
        rw [quiesce_killers S fuel _ _ _ _ _ _ _ hqr]
        exact hq1
      · have := negamax_loop_induct S (negamax S fuel) b.get_next_move md rd cd color beta prev
          (fun s => Q s.e.m_killers) (fun s l hs => hs) _
          (fun move _ s x hs hstep => loop_step_killers S _ _ _ _ _ _ _ _ Q hQ ih move s x hs hstep)
          _ x hq1 hx
        rw [hxs] at this
        rw [h2]
        exact this
      · have := negamax_loop_induct S (negamax S fuel) b.get_next_move md rd cd color beta prev
          (fun s => Q s.e.m_killers) (fun s l hs => hs) _
          (fun move _ s x hs hstep => loop_step_killers S _ _ _ _ _ _ _ _ Q hQ ih move s x hs hstep)
          _ x hq1 hx
        rw [hxs] at this
        rw [h2, tt_store_killers]
        exact this

theorem killers_replicate (n : Nat) : KillersOk (List.replicate n []) := by
  intro l hl
  rw [List.eq_of_mem_replicate hl]
  exact ⟨Nat.zero_le _, List.Pairwise.nil, fun x hx => by cases hx⟩

theorem push_killer_getD (ks : List (List Move)) (cd : Int) (m : Move)
    (hi : cd.toNat < ks.length) :
    (push_killer ks cd m).getD cd.toNat [] =
      (if (ks.getD cd.toNat []).any (fun x => x.same m) = true then ks.getD cd.toNat []
       else if (ks.getD cd.toNat [] ++ [m]).length > 10 then (ks.getD cd.toNat [] ++ [m]).drop 1
       else ks.getD cd.toNat [] ++ [m]) ∧
    ∀ i, i ≠ cd.toNat → (push_killer ks cd m).getD i [] = ks.getD i [] := by
  rw [push_killer_eq]
  by_cases hin : (ks.getD cd.toNat []).any (fun x => x.same m) = true
  · simp only [if_pos hin]
    exact ⟨trivial, fun _ _ => trivial⟩
  · simp only [if_neg hin]
    constructor
    · rw [List.getD_eq_getElem?_getD, List.getElem?_set_self hi]
      rfl
    · intro i hne
      rw [List.getD_eq_getElem?_getD, List.getElem?_set_ne (fun h => hne h.symm)]
      exact (List.getD_eq_getElem?_getD _ _ _).symm

/-- Claim C31: on a beta-cutoff (with no stop request found) by a move that is
neither a capture nor flagged killer, the killer table becomes `push_killer` of
the move, flagged killer, at `current_depth`; any other turn of the move loop
leaves the table alone. `push_killer` leaves the list of `current_depth` alone
when it holds an equal move, and otherwise appends the move and then drops the
oldest entry if the list has more than 10; the other lists are untouched. So a
search keeps every per-ply list at 10 entries at most, without two equal
entries and without captures, and `set_max_depth` starts from such a table. -/
theorem C31_killer_lists (S : SearchEnv) :
    (∀ (max_depth current_depth beta : Int) (move : Move) (s : LoopState) (val : Int),
      val ≥ beta → s.e.poll.1 = false → move.takes = false → move.killer = false →
      ∃ s1, step_result max_depth current_depth beta move s val = .stop s1 ∧
        s1.e.m_killers = push_killer s.e.m_killers current_depth
          { move with killer := true
                      mate_killer := decide (val ≥ 20000 - (max_depth + 1) * 5) }) ∧
    (∀ (max_depth current_depth beta : Int) (move : Move) (s : LoopState) (val : Int),
      val < beta ∨ move.takes = true ∨ move.killer = true →
      (step_result max_depth current_depth beta move s val).state.e.m_killers =
        s.e.m_killers) ∧
    (∀ (ks : List (List Move)) (cd : Int) (m : Move), cd.toNat < ks.length →
      (push_killer ks cd m).getD cd.toNat [] =
        (if (ks.getD cd.toNat []).any (fun x => x.same m) = true then ks.getD cd.toNat []
         else if (ks.getD cd.toNat [] ++ [m]).length > 10 then
           (ks.getD cd.toNat [] ++ [m]).drop 1
         else ks.getD cd.toNat [] ++ [m]) ∧
      ∀ i, i ≠ cd.toNat → (push_killer ks cd m).getD i [] = ks.getD i []) ∧
    (∀ (fuel : Nat) (e : NegamaxEngine) (b : Board) (md rd cd color alpha beta : Int)
      (parentPv previousPv : List Move) (tlo : Option (List Move)) (r : NegamaxResult),
      negamax S fuel e b md rd cd color alpha beta parentPv previousPv tlo = some r →
      KillersOk e.m_killers → KillersOk r.e.m_killers) ∧
    (∀ (e : NegamaxEngine) (D : Int), KillersOk (e.set_max_depth D).m_killers) := by
  refine ⟨?_, ?_, push_killer_getD, negamax_killers S KillersOk
    (fun ks cd m ht hk => killers_push ks cd m hk ht), ?_⟩
  · intro md cd beta move s val hb hp ht hk
    have f4 : (if val > s.oldval then { s with oldval := val, bestMove := move } else s).e =
        s.e := by split <;> rfl
    unfold step_result
    simp only
    generalize (if val > s.oldval then { s with oldval := val, bestMove := move } else s) = t
      at f4 ⊢
    have hp1 : ¬ (t.e.poll.1 = true) := by rw [f4, hp]; decide
    have hk1 : ¬ move.takes = true ∧ ¬ move.killer = true := by
      rw [ht, hk]; exact ⟨by decide, by decide⟩
    rw [if_pos hb, if_neg hp1, if_pos hk1]
    refine ⟨_, rfl, ?_⟩
    show push_killer t.e.poll.2.m_killers _ _ = _
    rw [(poll_frame _).2.1, f4]
  · intro md cd beta move s val hc
    have f4 : (if val > s.oldval then { s with oldval := val, bestMove := move } else s).e =
        s.e := by split <;> rfl
    have f1 : (if val > s.oldval then { s with oldval := val, bestMove := move } else s).alpha =
        s.alpha := by split <;> rfl
    unfold step_result
    simp only
    generalize (if val > s.oldval then { s with oldval := val, bestMove := move } else s) = t
      at f1 f4 ⊢
    by_cases hb : val ≥ beta
    · have hk : ¬ (¬ move.takes = true ∧ ¬ move.killer = true) := by
        intro hh
        rcases hc with h | h | h
        · omega
        · exact hh.1 h
        · exact hh.2 h
      rw [if_pos hb, if_neg hk]
      by_cases hp : t.e.poll.1 = true
      · rw [if_pos hp]
        show t.e.poll.2.m_killers = _
        rw [(poll_frame _).2.1, f4]
      · rw [if_neg hp]
        show t.e.poll.2.m_killers = _
        rw [(poll_frame _).2.1, f4]
    · rw [if_neg hb]
      by_cases ha : val > t.alpha
      · rw [if_pos ha]
        show t.e.m_killers = _
        rw [f4]
      · rw [if_neg ha]
        show t.e.m_killers = _
        rw [f4]
  · intro e D
    exact killers_replicate _

/-- Witness of C31: the search `cutSearch` cuts on the king step e1-e2 and
leaves it, flagged killer, as the one entry of the killer list of depth 0. -/
theorem C31_witness :
    (cutSearch.getD noResult).e.m_killers =
      [[{ bestStep with killer := true }], []] ∧
    KillersOk (cutSearch.getD noResult).e.m_killers :=
  ⟨by set_option maxRecDepth 1000000 in decide,
   (C31_killer_lists driveSearch).2.2.2.1 3 idleEngine sampleBoard 1 1 0 1 (-10) 0 [] [] none
     (cutSearch.getD noResult)
     (some_getD cutSearch (by set_option maxRecDepth 1000000 in decide))
     (killers_replicate 2)⟩

/-! ### Fail-hard bounds -/

theorem tt_probe_alpha (S : SearchEnv) (e : NegamaxEngine) (b : Board)
    (md rd cd alpha beta : Int) (parentPv : List Move) (hab : alpha ≤ beta) :
    alpha ≤ (tt_probe S e b md rd cd alpha beta parentPv).alpha ∧
    (tt_probe S e b md rd cd alpha beta parentPv).alpha ≤ beta := by
  unfold tt_probe
  simp only
  split_ifs <;> simp only [Probe.alpha] <;> omega

theorem loop_step_alpha (S : SearchEnv) (rec : NegamaxCall) (clr : Color)
    (max_depth remaining_depth current_depth color beta : Int) (previousPv : List Move)
    (move : Move) (s : LoopState) (x : StepExit) (a0 : Int)
    (h1 : a0 ≤ s.alpha) (h2 : s.alpha ≤ beta)
    (h : loop_step S rec clr max_depth remaining_depth current_depth color beta previousPv
      move s = some x) : a0 ≤ x.state.alpha ∧ x.state.alpha ≤ beta := by
  rcases loop_step_cases S rec clr max_depth remaining_depth current_depth color beta
    previousPv move s x h with ⟨-, hx⟩ | ⟨-, -, hx⟩ | ⟨-, -, val, e1, b1, cpv, -, hx⟩
  · rw [hx]; exact ⟨h1, h2⟩
  · rw [hx]; exact ⟨h1, h2⟩
  · rw [hx]
    exact (step_result_frame _ _ _ _ _ _).2.2.2.1 a0 h1 h2

theorem loop_reach_alpha (S : SearchEnv) (rec : NegamaxCall) (clr : Color)
    (max_depth remaining_depth current_depth color beta : Int) (previousPv : List Move)
    (s0 s : LoopState) (h0 : s0.alpha ≤ beta)
    (hr : LoopReach S rec clr max_depth remaining_depth current_depth color beta previousPv
      s0 s) : s0.alpha ≤ s.alpha ∧ s.alpha ≤ beta := by
  induction hr with
  | start => exact ⟨Int.le_refl _, h0⟩
  | step s1 s2 move _ hstep ih =>
    exact loop_step_alpha S rec clr max_depth remaining_depth current_depth color beta
      previousPv move s1 _ s0.alpha ih.1 ih.2 hstep

/-- Claim C35: a `negamax` call with `alpha <= beta` and remaining depth `>= 1`
that returns from the stop check or from the transposition probe, or whose move
loop counts at least one legal move, returns a value `r` with
`alpha <= r <= beta`. In the move loop of a frame entered with `alpha <= beta`,
no turn lowers `alpha` and none takes it above `beta`. -/
theorem C35_fail_hard (S : SearchEnv) (fuel : Nat) (e : NegamaxEngine) (b : Board)
    (max_depth remaining_depth current_depth color alpha beta : Int)
    (parentPv previousPv : List Move) (topLevelOrdering : Option (List Move))
    (r : NegamaxResult) (hab : alpha ≤ beta) (hrd : 1 ≤ remaining_depth)
    (hleg : e.poll.1 = true ∨
      (tt_probe S e.poll.2 b max_depth remaining_depth current_depth alpha beta
        parentPv).is_ret = true ∨
      frame_legal_count S fuel e b max_depth remaining_depth current_depth color alpha beta
        parentPv previousPv topLevelOrdering ≠ some 0)
    (h : negamax S (fuel + 1) e b max_depth remaining_depth current_depth color alpha beta
      parentPv previousPv topLevelOrdering = some r) :
    (alpha ≤ r.val ∧ r.val ≤ beta) ∧
    (∀ (rec : NegamaxCall) (clr : Color) (s0 s : LoopState) (move : Move) (x : StepExit),
      s0.alpha ≤ beta →
      LoopReach S rec clr max_depth remaining_depth current_depth color beta previousPv s0 s →
      loop_step S rec clr max_depth remaining_depth current_depth color beta previousPv
        move s = some x →
      s.alpha ≤ x.state.alpha ∧ x.state.alpha ≤ beta) := by
  constructor
  · have hpa := tt_probe_alpha S e.poll.2 b max_depth remaining_depth current_depth alpha beta
      parentPv hab
    rcases negamax_cases S fuel e b max_depth remaining_depth current_depth color alpha beta
      parentPv previousPv topLevelOrdering r h with ⟨-, h1⟩ | ⟨-, -, h1⟩ | ⟨hp, hret, h1⟩
    · rw [h1]
      exact ⟨hab, Int.le_refl _⟩
    · rw [h1]
      exact hpa
    · have hleg1 : frame_legal_count S fuel e b max_depth remaining_depth current_depth color
          alpha beta parentPv previousPv topLevelOrdering ≠ some 0 := by
        rcases hleg with hl | hl | hl
        · rw [hp] at hl; cases hl
        · rw [hret] at hl; cases hl
        · exact hl
      rcases negamax_search_cases S _ _ _ b max_depth remaining_depth current_depth color _ beta
        parentPv previousPv topLevelOrdering _ _ r h1 with
        ⟨h0, -⟩ | ⟨-, x, hx, ⟨v, s, hxs, h2⟩ | ⟨s, hxs, -, -, -, h2⟩⟩
      · omega
      · rw [hxs] at hx
        rw [h2, negamax_loop_returned _ _ _ _ _ _ _ _ _ _ _ _ _ hx]
        exact ⟨hab, Int.le_refl _⟩
      · have hinv := negamax_loop_induct S (negamax S fuel) b.get_next_move max_depth
          remaining_depth current_depth color beta previousPv
          (fun t => (tt_probe S e.poll.2 b max_depth remaining_depth current_depth alpha beta
            parentPv).alpha ≤ t.alpha ∧ t.alpha ≤ beta)
          (fun t l ht => ht) _
          (fun move _ t y ht hstep => loop_step_alpha S _ _ _ _ _ _ _ _ move t y _ ht.1 ht.2 hstep)
          _ x ⟨Int.le_refl _, hpa.2⟩ hx
        rw [hxs] at hinv hx
        rcases h2 with ⟨hn, -⟩ | ⟨-, hv⟩
        · exfalso
          apply hleg1
          unfold frame_legal_count frame_loop frame_moves
          simp only
          rw [hx]
          simp only [Option.map_some', LoopExit.state, hn]
        · rw [hv]
          have := hinv.1
          have := hinv.2
          simp only [LoopExit.state] at *
          omega
  · intro rec clr s0 s move x h0 hr hstep
    have hs := loop_reach_alpha S rec clr max_depth remaining_depth current_depth color beta
      previousPv s0 s h0 hr
    exact loop_step_alpha S rec clr max_depth remaining_depth current_depth color beta
      previousPv move s x s.alpha (Int.le_refl _) hs.2 hstep

/-- Witness of C35: the search of depth 1 on the sample position with the window
`(-10, 0)` cuts on its first legal move and returns a value between -10 and 0. -/
theorem C35_witness :
    frame_legal_count driveSearch 2 idleEngine sampleBoard 1 1 0 1 (-10) 0 [] [] none =
      some 1 ∧
    (-10 ≤ (cutSearch.getD noResult).val ∧ (cutSearch.getD noResult).val ≤ 0) :=
  ⟨by set_option maxRecDepth 1000000 in decide,
   (C35_fail_hard driveSearch 2 idleEngine sampleBoard 1 1 0 1 (-10) 0 [] [] none
     (cutSearch.getD noResult) (by decide) (by decide)
     (Or.inr (Or.inr (by set_option maxRecDepth 1000000 in decide)))
     (some_getD cutSearch (by set_option maxRecDepth 1000000 in decide))).1⟩

/-! ### The board after a search -/

theorem quiesce_loop_board (S : SearchEnv) (rec : QuiesceCall) (color beta current_depth : Int)
    (hrec : ∀ e b c a be d r, b.wf → rec e b c a be d = some r → r.b = b)
    (b : Board) (hwf : b.wf) :
    ∀ (moves : List Move), (∀ m ∈ moves, LegalRecord S.env b m) →
      ∀ (e : NegamaxEngine) (alpha : Int) (n : Nat) (r : SearchResult),
      quiesce_loop S rec color beta current_depth moves e b alpha n = some r → r.b = b := by
  intro moves
  induction moves with
  | nil =>
    intro _ e alpha n r h
    exact (quiesce_loop_nil_cases S rec color beta current_depth e b alpha n r h).2.1
  | cons move rest ih =>
    intro hm e alpha n r h
    have hmove := hm move (List.mem_cons_self _ _)
    have hrest : ∀ m ∈ rest, LegalRecord S.env b m := fun m hx => hm m (List.mem_cons_of_mem _ hx)
    have hum : (b.make_move S.env move).unmake_move S.env move = b :=
      unmake_make S.env b move hwf hmove
    have hum1 : (b.make_move S.env move).unmake_move S.env
        { move with legal_checked := true, legal := true } = b := hum
    rcases quiesce_loop_cons_cases S rec color beta current_depth move rest e b alpha n r h with
      ⟨-, h1⟩ | ⟨-, h1 | ⟨r1, hr1, h2 | ⟨a1, h2⟩⟩⟩
    · rw [hum] at h1
      exact ih hrest _ _ _ _ h1
    · rw [h1]
      exact hum1
    · have hb1 := hrec _ _ _ _ _ _ r1 (wf_make_move S.env b move hwf) hr1
      rw [h2]
      show r1.b.unmake_move S.env _ = b
      rw [hb1]
      exact hum1
    · have hb1 := hrec _ _ _ _ _ _ r1 (wf_make_move S.env b move hwf) hr1
      rw [hb1, hum1] at h2
      exact ih hrest _ _ _ _ h2

theorem quiesce_board (S : SearchEnv) (hS : MovesSound S) :
    ∀ (fuel : Nat) (e : NegamaxEngine) (b : Board) (color alpha beta current_depth : Int)
      (r : SearchResult), b.wf →
      quiesce S fuel e b color alpha beta current_depth = some r → r.b = b := by
  intro fuel
  induction fuel with
  | zero => intro e b color alpha beta cd r _ h; rw [quiesce] at h; cases h
  | succ fuel ih =>
    intro e b color alpha beta cd r hwf h
    rcases quiesce_cases S fuel e b color alpha beta cd r h with ⟨h1, -⟩ | ⟨a1, h1⟩
    · exact h1
    · exact quiesce_loop_board S (quiesce S fuel) color beta cd
        (fun e b c a be d r hb hr => ih e b c a be d r hb hr) b hwf _ (hS b hwf).1 _ _ _ _ h1

theorem widen_loop_board (rec : NegamaxCall)
    (max_depth remaining_depth current_depth color alpha beta w : Int) (previousPv : List Move)
    (b : Board)
    (hrec : ∀ e md rd cd c a be pv ppv r, rec e b md rd cd c a be pv ppv none = some r →
      r.b = b) :
    ∀ (n k : Nat) (val lower : Int) (e : NegamaxEngine) (currentPv : List Move)
      (out : Int × NegamaxEngine × Board × List Move),
      widen_loop rec max_depth remaining_depth current_depth color alpha beta w previousPv n k
        val lower e b currentPv = some out → out.2.2.1 = b := by
  intro n
  induction n with
  | zero =>
    intro k val lower e cpv out h
    rw [widen_loop] at h
    cases h
    rfl
  | succ n ih =>
    intro k val lower e cpv out h
    rw [widen_loop] at h
    simp only at h
    by_cases h1 : val > alpha ∧ val < beta ∧ lower > -beta ∧ k ≤ 3
    · rw [if_pos h1] at h
      split at h
      · cases h
      · rename_i r hr
        rw [hrec _ _ _ _ _ _ _ _ _ r hr] at h
        exact ih _ _ _ _ _ _ h
    · rw [if_neg h1] at h
      cases h
      rfl

theorem search_move_board (rec : NegamaxCall)
    (max_depth remaining_depth current_depth color alpha beta : Int) (previousPv : List Move)
    (b : Board)
    (hrec : ∀ e md rd cd c a be pv ppv r, rec e b md rd cd c a be pv ppv none = some r →
      r.b = b)
    (ua : Bool) (e : NegamaxEngine) (currentPv : List Move)
    (out : Int × NegamaxEngine × Board × List Move)
    (h : search_move rec max_depth remaining_depth current_depth color alpha beta previousPv ua
      e b currentPv = some out) : out.2.2.1 = b := by
  unfold search_move at h
  by_cases h1 : ua = true ∧ remaining_depth ≥ 2
  · rw [if_pos h1] at h
    split at h
    · cases h
    · rename_i r hr
      have hb := hrec _ _ _ _ _ _ _ _ _ r hr
      simp only at h
      by_cases h2 : -r.val > alpha ∧ -r.val < beta
      · rw [if_pos h2, hb] at h
        exact widen_loop_board rec _ _ _ _ _ _ _ _ b hrec _ _ _ _ _ _ _ h
      · rw [if_neg h2] at h
        cases h
        exact hb
  · rw [if_neg h1] at h
    split at h
    · cases h
    · rename_i r hr
      cases h
      exact hrec _ _ _ _ _ _ _ _ _ r hr

theorem loop_step_board (S : SearchEnv) (rec : NegamaxCall) (clr : Color)
    (max_depth remaining_depth current_depth color beta : Int) (previousPv : List Move)
    (hrec : ∀ e b md rd cd c a be pv ppv r, b.wf →
      rec e b md rd cd c a be pv ppv none = some r → r.b = b)
    (b : Board) (hwf : b.wf) (move : Move) (hmove : LegalRecord S.env b move)
    (s : LoopState) (x : StepExit) (hs : s.b = b)
    (h : loop_step S rec clr max_depth remaining_depth current_depth color beta previousPv
      move s = some x) : x.state.b = b := by
  have hum : (b.make_move S.env move).unmake_move S.env move = b :=
    unmake_make S.env b move hwf hmove
  rcases loop_step_cases S rec clr max_depth remaining_depth current_depth color beta
    previousPv move s x h with ⟨-, hx⟩ | ⟨-, -, hx⟩ | ⟨-, -, val, e1, b1, cpv, hsm, hx⟩
  · rw [hx]; exact hs
  · rw [hx, hs]; exact hum
  · rw [hs] at hsm
    have hb1 : b1 = b.make_move S.env move :=
      search_move_board rec _ _ _ _ _ _ _ _
        (fun e md rd cd c a be pv ppv r hr =>
          hrec e _ md rd cd c a be pv ppv r (wf_make_move S.env b move hwf) hr) _ _ _ _ hsm
    rw [hx, (step_result_frame _ _ _ _ _ _).1, hb1]
    exact hum

theorem negamax_board (S : SearchEnv) (hS : MovesSound S) :
    ∀ (fuel : Nat) (e : NegamaxEngine) (b : Board) (md rd cd color alpha beta : Int)
      (parentPv previousPv : List Move) (tlo : Option (List Move)) (r : NegamaxResult),
      b.wf → (∀ l, tlo = some l → ∀ m ∈ l, LegalRecord S.env b m) →
      negamax S fuel e b md rd cd color alpha beta parentPv previousPv tlo = some r →
      r.b = b := by
  intro fuel
  induction fuel with
  | zero =>
    intro e b md rd cd color alpha beta ppv prev tlo r _ _ h
    rw [negamax] at h
    cases h
  | succ fuel ih =>
    intro e b md rd cd color alpha beta ppv prev tlo r hwf htlo h
    rcases negamax_cases S fuel e b md rd cd color alpha beta ppv prev tlo r h with
      ⟨-, h1⟩ | ⟨-, -, h1⟩ | ⟨-, -, h1⟩
    · rw [h1]
    · rw [h1]
    · rcases negamax_search_cases S _ _ _ b md rd cd color _ beta ppv prev tlo _ _ r h1 with
        ⟨-, q, hqr, h2⟩ | ⟨-, x, hx, hcase⟩
      · rw [h2]
        exact quiesce_board S hS fuel _ b _ _ _ _ q hwf hqr
      · have hlist : ∀ m ∈ negamax_move_list S
            { (tt_probe S e.poll.2 b md rd cd alpha beta ppv).e with
              m_total_nodes := (tt_probe S e.poll.2 b md rd cd alpha beta ppv).e.m_total_nodes + 1 }
            b rd cd prev tlo (tt_probe S e.poll.2 b md rd cd alpha beta ppv).hash_move
            (tt_probe S e.poll.2 b md rd cd alpha beta ppv).has_hash_move,
            LegalRecord S.env b m := by
          intro m hm
          unfold negamax_move_list at hm
          simp only at hm
          cases tlo with
          | none => exact (hS b hwf).2 _ _ _ _ _ _ m hm
          | some l =>
            simp only at hm
            by_cases hl : l.length > 0
            · rw [if_pos hl] at hm
              exact htlo l rfl m hm
            · rw [if_neg hl] at hm
              exact (hS b hwf).2 _ _ _ _ _ _ m hm
        have hinv := negamax_loop_induct S (negamax S fuel) b.get_next_move md rd cd color beta
          prev (fun t => t.b = b) (fun t l ht => ht) _
          (fun move hmem t y ht hstep => loop_step_board S _ _ _ _ _ _ _ _
            (fun e b md rd cd c a be pv ppv r hb hr =>
              ih e b md rd cd c a be pv ppv none r hb (fun l hl => by cases hl) hr)
            b hwf move (hlist move hmem) t y ht hstep)
          _ x rfl hx
        rcases hcase with ⟨v, s, hxs, h2⟩ | ⟨s, hxs, h2, -⟩
        · rw [hxs] at hinv
          rw [h2]
          exact hinv
        · rw [hxs] at hinv
          rw [h2]
          exact hinv

theorem driveSearch_sound : MovesSound driveSearch := by
  intro b hwf
  constructor
  · intro m hm
    exact absurd hm (List.not_mem_nil _)
  · intro cd rd pv ks hm hhm m hmem
    exact perftSearch_sound b hwf m hmem

/-- Claim C34: when the move lists are made of records of the position they are
asked for (which is what gives the make/unmake round trip), `negamax` and
`quiesce` return with the board they were given, and so does every turn of the
move loop of `negamax`, however it ends (illegal move, next move, `break` on a
cutoff, `return` under a stop request): each `make_move` is taken back by the
`unmake_move` of the same move. -/
theorem C34_board_restored (S : SearchEnv) (hS : MovesSound S) :
    (∀ (fuel : Nat) (e : NegamaxEngine) (b : Board) (md rd cd color alpha beta : Int)
      (parentPv previousPv : List Move) (tlo : Option (List Move)) (r : NegamaxResult),
      b.wf → (∀ l, tlo = some l → ∀ m ∈ l, LegalRecord S.env b m) →
      negamax S fuel e b md rd cd color alpha beta parentPv previousPv tlo = some r →
      r.b = b) ∧
    (∀ (fuel : Nat) (e : NegamaxEngine) (b : Board) (color alpha beta current_depth : Int)
      (r : SearchResult), b.wf →
      quiesce S fuel e b color alpha beta current_depth = some r → r.b = b) ∧
    (∀ (fuel : Nat) (clr : Color) (md rd cd color beta : Int) (previousPv : List Move)
      (move : Move) (s : LoopState) (x : StepExit),
      s.b.wf → LegalRecord S.env s.b move →
      loop_step S (negamax S fuel) clr md rd cd color beta previousPv move s = some x →
      x.state.b = s.b) :=
  ⟨negamax_board S hS, quiesce_board S hS,
   fun fuel clr md rd cd color beta previousPv move s x hwf hmove h =>
     loop_step_board S (negamax S fuel) clr md rd cd color beta previousPv
       (fun e b md rd cd c a be pv ppv r hb hr =>
         negamax_board S hS fuel e b md rd cd c a be pv ppv none r hb
           (fun l hl => by cases hl) hr)
       s.b hwf move hmove s x rfl h⟩

/-- Witness of C34: the search `cutSearch`, which makes and takes back the king
step e1-e2 and cuts on it, returns with the sample position. -/
theorem C34_witness :
    cutSearch = some (cutSearch.getD noResult) ∧
    (cutSearch.getD noResult).b = sampleBoard :=
  ⟨some_getD cutSearch (by set_option maxRecDepth 1000000 in decide),
   (C34_board_restored driveSearch driveSearch_sound).1 3 idleEngine sampleBoard 1 1 0 1
     (-10) 0 [] [] none (cutSearch.getD noResult) (fun i => sampleBoard_wf i)
     (fun l hl => by cases hl)
     (some_getD cutSearch (by set_option maxRecDepth 1000000 in decide))⟩

/-! ### Depth bookkeeping -/

theorem widen_loop_congr (rec rec1 : NegamaxCall) (Q : List (List Move) → Prop)
    (md rd cd color alpha beta w : Int) (previousPv : List Move)
    (hagree : ∀ e b c a be pv ppv, Q e.m_killers →
      rec e b md (rd - 1) (cd + 1) c a be pv ppv none =
        rec1 e b md (rd - 1) (cd + 1) c a be pv ppv none)
    (hpres : ∀ e b md rd cd c a be pv ppv tlo r, rec e b md rd cd c a be pv ppv tlo = some r →
      Q e.m_killers → Q r.e.m_killers) :
    ∀ (n k : Nat) (val lower : Int) (e : NegamaxEngine) (b : Board) (currentPv : List Move),
      Q e.m_killers →
      widen_loop rec md rd cd color alpha beta w previousPv n k val lower e b currentPv =
        widen_loop rec1 md rd cd color alpha beta w previousPv n k val lower e b currentPv := by
  intro n
  induction n with
  | zero =>
    intro k val lower e b cpv _
    rw [widen_loop, widen_loop]
  | succ n ih =>
    intro k val lower e b cpv hq
    rw [widen_loop, widen_loop]
    simp only
    by_cases h1 : val > alpha ∧ val < beta ∧ lower > -beta ∧ k ≤ 3
    · rw [if_pos h1, if_pos h1, ← hagree _ _ _ _ _ _ _ hq]
      cases hr : rec e b md (rd - 1) (cd + 1) (-color)
          (if k < 3 then min (-alpha - Int.tdiv w (8 >>> k : Nat)) (lower - 1) else -beta)
          (-alpha) cpv previousPv none with
      | none => rfl
      | some r =>
        simp only
        exact ih _ _ _ _ _ _ (hpres _ _ _ _ _ _ _ _ _ _ _ _ hr hq)
    · rw [if_neg h1, if_neg h1]

theorem search_move_congr (rec rec1 : NegamaxCall) (Q : List (List Move) → Prop)
    (md rd cd color alpha beta : Int) (previousPv : List Move)
    (hagree : ∀ e b c a be pv ppv, Q e.m_killers →
      rec e b md (rd - 1) (cd + 1) c a be pv ppv none =
        rec1 e b md (rd - 1) (cd + 1) c a be pv ppv none)
    (hpres : ∀ e b md rd cd c a be pv ppv tlo r, rec e b md rd cd c a be pv ppv tlo = some r →
      Q e.m_killers → Q r.e.m_killers)
    (ua : Bool) (e : NegamaxEngine) (b : Board) (currentPv : List Move) (hq : Q e.m_killers) :
    search_move rec md rd cd color alpha beta previousPv ua e b currentPv =
      search_move rec1 md rd cd color alpha beta previousPv ua e b currentPv := by
  unfold search_move
  by_cases h1 : ua = true ∧ rd ≥ 2
  · rw [if_pos h1, if_pos h1, ← hagree _ _ _ _ _ _ _ hq]
    cases hr : rec e b md (rd - 1) (cd + 1) (-color) (-alpha - 1) (-alpha) currentPv
        previousPv none with
    | none => rfl
    | some r =>
      simp only
      by_cases h2 : -r.val > alpha ∧ -r.val < beta
      · rw [if_pos h2, if_pos h2]
        exact widen_loop_congr rec rec1 Q md rd cd color alpha beta _ previousPv hagree hpres
          _ _ _ _ _ _ _ (hpres _ _ _ _ _ _ _ _ _ _ _ _ hr hq)
      · rw [if_neg h2, if_neg h2]
  · rw [if_neg h1, if_neg h1, ← hagree _ _ _ _ _ _ _ hq]

theorem loop_step_congr (S : SearchEnv) (rec rec1 : NegamaxCall) (clr : Color)
    (Q : List (List Move) → Prop) (md rd cd color beta : Int) (previousPv : List Move)
    (hagree : ∀ e b c a be pv ppv, Q e.m_killers →
      rec e b md (rd - 1) (cd + 1) c a be pv ppv none =
        rec1 e b md (rd - 1) (cd + 1) c a be pv ppv none)
    (hpres : ∀ e b md rd cd c a be pv ppv tlo r, rec e b md rd cd c a be pv ppv tlo = some r →
      Q e.m_killers → Q r.e.m_killers)
    (move : Move) (s : LoopState) (hq : Q s.e.m_killers) :
    loop_step S rec clr md rd cd color beta previousPv move s =
      loop_step S rec1 clr md rd cd color beta previousPv move s := by
  unfold loop_step
  simp only
  rw [search_move_congr rec rec1 Q md rd cd color s.alpha beta previousPv hagree hpres _ _ _ _ hq]

theorem negamax_loop_congr (S : SearchEnv) (rec rec1 : NegamaxCall) (clr : Color)
    (Q : List (List Move) → Prop)
    (hQ : ∀ ks cd m, m.takes = false → Q ks → Q (push_killer ks cd m))
    (md rd cd color beta : Int) (previousPv : List Move)
    (hagree : ∀ e b c a be pv ppv, Q e.m_killers →
      rec e b md (rd - 1) (cd + 1) c a be pv ppv none =
        rec1 e b md (rd - 1) (cd + 1) c a be pv ppv none)
    (hpres : ∀ e b md rd cd c a be pv ppv tlo r, rec e b md rd cd c a be pv ppv tlo = some r →
      Q e.m_killers → Q r.e.m_killers) :
    ∀ (moves : List Move) (s : LoopState), Q s.e.m_killers →
      negamax_loop S rec clr md rd cd color beta previousPv moves s =
        negamax_loop S rec1 clr md rd cd color beta previousPv moves s := by
  intro moves
  induction moves with
  | nil =>
    intro s _
    rw [negamax_loop, negamax_loop]
  | cons move rest ih =>
    intro s hq
    rw [negamax_loop_cons, negamax_loop_cons,
      ← loop_step_congr S rec rec1 clr Q md rd cd color beta previousPv hagree hpres move s hq]
    cases hx : loop_step S rec clr md rd cd color beta previousPv move s with
    | none => rfl
    | some x =>
      cases x with
      | next s1 =>
        exact ih s1 (loop_step_killers S rec clr md rd cd color beta previousPv Q hQ hpres
          move s _ hq hx)
      | stop s1 => rfl
      | ret v s1 => rfl

theorem negamax_search_congr (S : SearchEnv) (rec rec1 : NegamaxCall) (qrec : QuiesceCall)
    (Q : List (List Move) → Prop)
    (hQ : ∀ ks cd m, m.takes = false → Q ks → Q (push_killer ks cd m))
    (e : NegamaxEngine) (b : Board) (md rd cd color alpha beta : Int)
    (parentPv previousPv : List Move) (tlo : Option (List Move)) (hm : Move) (hhm : Bool)
    (hagree : rd ≠ 0 → ∀ e b c a be pv ppv, Q e.m_killers →
      rec e b md (rd - 1) (cd + 1) c a be pv ppv none =
        rec1 e b md (rd - 1) (cd + 1) c a be pv ppv none)
    (hpres : ∀ e b md rd cd c a be pv ppv tlo r, rec e b md rd cd c a be pv ppv tlo = some r →
      Q e.m_killers → Q r.e.m_killers)
    (hq : Q e.m_killers) :
    negamax_search S rec qrec e b md rd cd color alpha beta parentPv previousPv tlo hm hhm =
      negamax_search S rec1 qrec e b md rd cd color alpha beta parentPv previousPv tlo hm hhm := by
  unfold negamax_search
  simp only
  by_cases h0 : rd = 0
  · rw [if_pos h0, if_pos h0]
  · rw [if_neg h0, if_neg h0,
      negamax_loop_congr S rec rec1 b.get_next_move Q hQ md rd cd color beta previousPv
        (hagree h0) hpres _ _ hq]

theorem push_killer_keeps_length (n : Nat) (ks : List (List Move)) (cd : Int) (m : Move)
    (_ : m.takes = false) (hq : ks.length = n) : (push_killer ks cd m).length = n :=
  (push_killer_length ks cd m).trans hq

theorem negamax_checked_eq (S : SearchEnv) (D : Int) :
    ∀ (fuel : Nat) (e : NegamaxEngine) (b : Board) (md rd cd color alpha beta : Int)
      (parentPv previousPv : List Move) (tlo : Option (List Move)),
      e.m_killers.length = D.toNat → cd + rd = md → md ≤ D → 0 ≤ cd → 0 ≤ rd →
      negamax_checked S D fuel e b md rd cd color alpha beta parentPv previousPv tlo =
        negamax S fuel e b md rd cd color alpha beta parentPv previousPv tlo := by
  intro fuel
  induction fuel with
  | zero =>
    intro e b md rd cd color alpha beta ppv prev tlo _ _ _ _ _
    rw [negamax_checked, negamax]
  | succ fuel ih =>
    intro e b md rd cd color alpha beta ppv prev tlo hlen h1 h2 h3 h4
    have hg : FrameInBounds D e md rd cd := by
      refine ⟨h1, h2, h3, h4, fun h => ?_⟩
      rw [hlen]
      omega
    rw [negamax_checked, negamax, if_pos hg]
    by_cases hp : e.poll.1 = true
    · rw [if_pos hp, if_pos hp]
    · rw [if_neg hp, if_neg hp]
      have hk := tt_probe_killers S e.poll.2 b md rd cd alpha beta ppv
      cases hpr : tt_probe S e.poll.2 b md rd cd alpha beta ppv with
      | ret v e1 pv1 => rfl
      | go a1 e1 hm hhm =>
        rw [hpr] at hk
        simp only [Probe.e] at hk
        simp only
        symm
        apply negamax_search_congr S (negamax S fuel) (negamax_checked S D fuel) (quiesce S fuel)
          (fun ks => ks.length = D.toNat)
          (push_killer_keeps_length _)
        · intro h0 e2 b2 c a be pv ppv2 hq
          exact (ih e2 b2 md (rd - 1) (cd + 1) c a be pv ppv2 none hq (by omega) h2 (by omega)
            (by omega)).symm
        · intro e2 b2 md2 rd2 cd2 c a be pv ppv2 tlo2 r hr hq
          exact negamax_killers S (fun ks => ks.length = D.toNat)
            (push_killer_keeps_length _) fuel e2 b2 md2 rd2 cd2 c a
            be pv ppv2 tlo2 r hr hq
        · rw [hk, (poll_frame e).2.1]
          exact hlen

theorem deepening_step_by_negamax (S : SearchEnv) (fuel : Nat) (elapsed : Int → Nat)
    (max_time_ms : Nat) (color depth : Int) (s : DriverState) :
    deepening_step_by (negamax S fuel) elapsed max_time_ms color depth s =
      deepening_step S fuel elapsed max_time_ms color depth s := rfl

theorem deepening_step_killers (S : SearchEnv) (fuel : Nat) (elapsed : Int → Nat)
    (max_time_ms : Nat) (color depth : Int) (s s1 : DriverState) (n : Nat)
    (hq : s.e.m_killers.length = n)
    (h : deepening_step S fuel elapsed max_time_ms color depth s = some (.next s1)) :
    s1.e.m_killers.length = n := by
  unfold deepening_step at h
  simp only at h
  split at h
  · cases h
  · rename_i r hr
    have hk := negamax_killers S (fun ks => ks.length = n)
      (push_killer_keeps_length _) fuel _ _ _ _ _ _ _ _ _ _ _ r hr hq
    split_ifs at h with h1 h2 h3
    · simp only [Option.some.injEq] at h
      cases h
    · simp only [Option.some.injEq] at h
      cases h
    · simp only [Option.some.injEq, IterExit.next.injEq] at h
      subst h
      show r.e.poll.2.m_killers.length = n
      rw [(poll_frame _).2.1]
      exact hk
    · simp only [Option.some.injEq] at h
      cases h

theorem deepening_loop_by_eq (S : SearchEnv) (D : Int) (fuel : Nat) (elapsed : Int → Nat)
    (max_time_ms : Nat) (color : Int) :
    ∀ (n : Nat) (depth : Int) (s : DriverState), 0 ≤ depth →
      s.e.m_killers.length = D.toNat →
      deepening_loop_by (negamax_checked S D fuel) elapsed max_time_ms color D n depth s =
        deepening_loop S fuel elapsed max_time_ms color D n depth s := by
  intro n
  induction n with
  | zero =>
    intro depth s _ _
    rw [deepening_loop_by, deepening_loop]
  | succ n ih =>
    intro depth s hd hlen
    rw [deepening_loop_by, deepening_loop]
    by_cases hle : depth ≤ D
    · rw [if_pos hle, if_pos hle]
      have hstep : deepening_step_by (negamax_checked S D fuel) elapsed max_time_ms color depth s =
          deepening_step S fuel elapsed max_time_ms color depth s := by
        rw [← deepening_step_by_negamax]
        unfold deepening_step_by
        simp only
        rw [negamax_checked_eq S D fuel
          { s.e with m_total_nodes := 0, m_total_quiescence_nodes := 0 } s.b depth depth 0 color (-999999) 999999 []
          s.previousPv (some s.topLevelOrdering) hlen (by omega) hle (by omega) hd]
      rw [hstep]
      cases hx : deepening_step S fuel elapsed max_time_ms color depth s with
      | none => rfl
      | some x =>
        cases x with
        | done i s1 => rfl
        | next s1 =>
          exact ih (depth + 1) s1 (by omega)
            (deepening_step_killers S fuel elapsed max_time_ms color depth s s1 _ hlen hx)
    · rw [if_neg hle, if_neg hle]

/-- Claim C36: `set_max_depth(D)` gives the killer table `D` lists, and a search
keeps that number. Every frame of `negamax` reached from
`iterative_deepening(b, D, ...)` is `FrameInBounds`: `current_depth +
remaining_depth` is the `max_depth` of the iteration, which is at most `D`, and
when `remaining_depth >= 1` the index `current_depth` is below the size of the
killer table. This is stated with `negamax_checked`, which fails on a frame that
is not `FrameInBounds`: the driver gives the same result with it as with
`negamax`, and so does every call whose depths add up to a `max_depth` of at
most `D` on an engine with `D` killer lists. -/
theorem C36_killer_index_in_bounds (S : SearchEnv) (D : Int) (fuel : Nat) :
    (∀ e : NegamaxEngine, (e.set_max_depth D).m_killers.length = D.toNat) ∧
    (∀ (e : NegamaxEngine) (b : Board) (md rd cd color alpha beta : Int)
      (parentPv previousPv : List Move) (tlo : Option (List Move)) (r : NegamaxResult),
      negamax S fuel e b md rd cd color alpha beta parentPv previousPv tlo = some r →
      r.e.m_killers.length = e.m_killers.length) ∧
    (∀ (elapsed : Int → Nat) (e : NegamaxEngine) (b : Board) (bestMove : Move)
      (max_time_ms : Nat),
      iterative_deepening_by (negamax_checked S D fuel) elapsed e b D bestMove max_time_ms =
        iterative_deepening S fuel elapsed e b D bestMove max_time_ms) ∧
    (∀ (e : NegamaxEngine) (b : Board) (md rd cd color alpha beta : Int)
      (parentPv previousPv : List Move) (tlo : Option (List Move)),
      e.m_killers.length = D.toNat → cd + rd = md → md ≤ D → 0 ≤ cd → 0 ≤ rd →
      negamax_checked S D fuel e b md rd cd color alpha beta parentPv previousPv tlo =
        negamax S fuel e b md rd cd color alpha beta parentPv previousPv tlo) := by
  have hset : ∀ e : NegamaxEngine, (e.set_max_depth D).m_killers.length = D.toNat := by
    intro e
    exact List.length_replicate _ _
  refine ⟨hset, ?_, ?_, negamax_checked_eq S D fuel⟩
  · intro e b md rd cd color alpha beta ppv prev tlo r hr
    exact negamax_killers S (fun ks => ks.length = e.m_killers.length)
      (push_killer_keeps_length _) fuel e b md rd cd color alpha
      beta ppv prev tlo r hr rfl
  · intro elapsed e b bestMove max_time_ms
    unfold iterative_deepening_by iterative_deepening
    exact deepening_loop_by_eq S D fuel elapsed max_time_ms _ _ 1 _ (by omega) (hset e)

/-- Witness of C36: the driver run to depth 2 on the sample position gives a
result, the same with the checked search; a frame asked for with
`max_depth = 3` on the table of two lists is refused by the check. -/
theorem C36_witness :
    deepRun.isSome = true ∧
    iterative_deepening_by (negamax_checked driveSearch 2 5) (fun _ => 0) idleEngine sampleBoard
      2 Move.default 0 = deepRun ∧
    (negamax_checked driveSearch 2 5 (freshEngine 2) sampleBoard 3 3 0 1 (-999999) 999999 [] []
      none).isSome = false :=
  ⟨by set_option maxRecDepth 1000000 in decide,
   (C36_killer_index_in_bounds driveSearch 2 5).2.2.1 (fun _ => 0) idleEngine sampleBoard
     Move.default 0,
   by set_option maxRecDepth 1000000 in decide⟩

/-! ### The table write of a frame without a legal move, and of a frame above a stop -/

theorem tt_probe_hash (S : SearchEnv) (e : NegamaxEngine) (b : Board)
    (md rd cd alpha beta : Int) (parentPv : List Move) :
    (tt_probe S e b md rd cd alpha beta parentPv).e.m_hash = e.m_hash := by
  unfold tt_probe
  simp only
  split_ifs <;> rfl

theorem tt_store_fail_low (S : SearchEnv) (e : NegamaxEngine) (bkey : Nat)
    (md rd cd alpha : Int) (bestMove : Move)
    (hrep : (e.m_hash (S.bucket bkey)).key = 0 ∨ rd > (e.m_hash (S.bucket bkey)).depth) :
    (tt_store S e bkey md rd cd alpha bestMove false false).m_hash (S.bucket bkey) =
      { key := bkey, depth := rd, score := alpha
        exact_score := false, lower_bound := false, upper_bound := true
        hashmove_src := bestMove.src.to_val, hashmove_dst := bestMove.dst.to_val
        promote_piece := bestMove.promote_piece } := by
  unfold tt_store NegamaxEngine.update_stats
  simp only [hrep, decide_True, if_true]
  rfl

theorem no_legal_move_writes_table (S : SearchEnv) (fuel : Nat) (e : NegamaxEngine) (b : Board)
    (max_depth remaining_depth current_depth color alpha beta : Int)
    (parentPv previousPv : List Move) (topLevelOrdering : Option (List Move))
    (hstop : e.poll.1 = false) (hrd : 1 ≤ remaining_depth)
    (hprobe : (tt_probe S e.poll.2 b max_depth remaining_depth current_depth alpha beta
      parentPv).is_ret = false)
    (hwf : b.wf)
    (hrec : ∀ m ∈ frame_moves S e b max_depth remaining_depth current_depth alpha beta
      parentPv previousPv topLevelOrdering, LegalRecord S.env b m)
    (hnone : NoLegalMove S b b.get_next_move
      (frame_moves S e b max_depth remaining_depth current_depth alpha beta parentPv
        previousPv topLevelOrdering))
    (hrep : (e.m_hash (S.bucket b.get_key)).key = 0 ∨
      remaining_depth > (e.m_hash (S.bucket b.get_key)).depth) :
    ∃ r, negamax S (fuel + 1) e b max_depth remaining_depth current_depth color alpha beta
        parentPv previousPv topLevelOrdering = some r ∧
      r.val = (if b.is_king_checked b.get_next_move then -20000 + 5 * current_depth else 0) ∧
      r.e.m_hash (S.bucket b.get_key) =
        { key := b.get_key, depth := remaining_depth
          score := (tt_probe S e.poll.2 b max_depth remaining_depth current_depth alpha beta
            parentPv).alpha
          exact_score := false, lower_bound := false, upper_bound := true
          hashmove_src := Move.default.src.to_val, hashmove_dst := Move.default.dst.to_val
          promote_piece := Move.default.promote_piece } := by
  have hne : ¬ (e.poll.1 = true) := by rw [hstop]; decide
  have hrd0 : ¬ (remaining_depth = 0) := by omega
  obtain ⟨s1, h1, h2, h3, h4, h5, -, h7, h8, h9⟩ :=
    negamax_loop_all_illegal S (negamax S fuel) b.get_next_move
    max_depth remaining_depth current_depth color beta previousPv b hwf
    (frame_moves S e b max_depth remaining_depth current_depth alpha beta parentPv previousPv
      topLevelOrdering)
    (loop_start
      { (tt_probe S e.poll.2 b max_depth remaining_depth current_depth alpha beta parentPv).e
        with m_total_nodes := (tt_probe S e.poll.2 b max_depth remaining_depth current_depth
          alpha beta parentPv).e.m_total_nodes + 1 }
      b (tt_probe S e.poll.2 b max_depth remaining_depth current_depth alpha beta
        parentPv).alpha parentPv)
    rfl hrec hnone
  have hex : ∃ r, negamax S (fuel + 1) e b max_depth remaining_depth current_depth color alpha
      beta parentPv previousPv topLevelOrdering = some r ∧
      r.val = (if b.is_king_checked b.get_next_move then -20000 + 5 * current_depth else 0) := by
    rw [negamax]
    simp only [if_neg hne]
    rw [probe_go _ hprobe]
    simp only
    unfold negamax_search
    simp only [if_neg hrd0]
    unfold frame_moves loop_start at h1
    simp only at h1
    rw [h1]
    have h3' : s1.num_legal_move = 0 := h3
    simp only [h3', if_true, h2]
    by_cases hc : b.is_king_checked b.get_next_move = true
    · simp only [hc, if_true]
      exact ⟨_, rfl, rfl⟩
    · simp only [hc, if_false]
      exact ⟨_, rfl, rfl⟩
  obtain ⟨r, hr, hval⟩ := hex
  refine ⟨r, hr, hval, ?_⟩
  rcases negamax_cases S fuel e b max_depth remaining_depth current_depth color alpha beta
    parentPv previousPv topLevelOrdering r hr with ⟨g1, -⟩ | ⟨-, g1, -⟩ | ⟨-, -, g1⟩
  · exact absurd g1 hne
  · rw [hprobe] at g1; cases g1
  · rcases negamax_search_cases S _ _ _ b max_depth remaining_depth current_depth color _ beta
      parentPv previousPv topLevelOrdering _ _ r g1 with ⟨g0, -⟩ | ⟨-, x, hx, hcase⟩
    · exact absurd g0 hrd0
    · have hx1 : x = .finished s1 := by
        have := hx.symm.trans h1
        exact Option.some.inj this
      rcases hcase with ⟨v, s, hxs, -⟩ | ⟨s, hxs, -, -, he, -⟩
      · rw [hx1] at hxs; cases hxs
      · rw [hx1] at hxs
        cases hxs
        rw [he, h7, h8, h5, h9]
        apply tt_store_fail_low
        show (s1.e.m_hash (S.bucket b.get_key)).key = 0 ∨
          remaining_depth > (s1.e.m_hash (S.bucket b.get_key)).depth
        rw [h4]
        show ((tt_probe S e.poll.2 b max_depth remaining_depth current_depth alpha beta
          parentPv).e.m_hash (S.bucket b.get_key)).key = 0 ∨ remaining_depth >
          ((tt_probe S e.poll.2 b max_depth remaining_depth current_depth alpha beta
            parentPv).e.m_hash (S.bucket b.get_key)).depth
        rw [tt_probe_hash, (poll_frame e).1]
        exact hrep

theorem negamax_stopped (S : SearchEnv) (fuel : Nat) (e : NegamaxEngine) (b : Board)
    (md rd cd color alpha beta : Int) (parentPv previousPv : List Move)
    (tlo : Option (List Move)) (hstop : e.m_stop_required = true) :
    negamax S (fuel + 1) e b md rd cd color alpha beta parentPv previousPv tlo =
      some ⟨beta, e, b, parentPv, tlo⟩ := by
  rw [negamax]
  simp only [poll_of_set e hstop, if_true]

theorem search_move_stopped (S : SearchEnv) (fuel : Nat)
    (md rd cd color alpha beta : Int) (previousPv : List Move) (ua : Bool)
    (e : NegamaxEngine) (b : Board) (currentPv : List Move)
    (hstop : e.m_stop_required = true) :
    search_move (negamax S (fuel + 1)) md rd cd color alpha beta previousPv ua e b currentPv =
      some (alpha, e, b, currentPv) := by
  unfold search_move
  by_cases h1 : ua = true ∧ rd ≥ 2
  · rw [if_pos h1, negamax_stopped S fuel e b _ _ _ _ _ _ _ _ _ hstop]
    simp only
    have h2 : ¬ (- -alpha > alpha ∧ - -alpha < beta) := by omega
    rw [if_neg h2, Int.neg_neg]
  · rw [if_neg h1, negamax_stopped S fuel e b _ _ _ _ _ _ _ _ _ hstop]
    simp only
    rw [Int.neg_neg]

theorem loop_step_stopped (S : SearchEnv) (fuel : Nat) (clr : Color)
    (md rd cd color beta : Int) (previousPv : List Move) (move : Move) (s : LoopState)
    (hstop : s.e.m_stop_required = true) (hab : s.alpha < beta) :
    ∃ s1, loop_step S (negamax S (fuel + 1)) clr md rd cd color beta previousPv move s =
        some (.next s1) ∧
      s1.e = s.e ∧ s1.alpha = s.alpha ∧ s1.cutoff = s.cutoff ∧
      s1.raise_alpha = s.raise_alpha := by
  unfold loop_step
  by_cases h1 : move.legal_checked = true ∧ ¬ move.legal = true
  · rw [if_pos h1]
    exact ⟨_, rfl, rfl, rfl, rfl, rfl⟩
  · rw [if_neg h1]
    simp only
    by_cases h2 : (s.b.make_move S.env move).is_king_checked clr = true
    · rw [if_pos h2]
      exact ⟨_, rfl, rfl, rfl, rfl, rfl⟩
    · rw [if_neg h2, search_move_stopped S fuel _ _ _ _ _ _ _ _ _ _ _ hstop]
      simp only
      unfold step_result
      simp only
      have hb : ¬ (s.alpha ≥ beta) := by omega
      rw [if_neg hb]
      by_cases ha : s.alpha > s.oldval
      · simp only [if_pos ha]
        have ha2 : ¬ (s.alpha > s.alpha) := by omega
        rw [if_neg ha2]
        exact ⟨_, rfl, rfl, rfl, rfl, rfl⟩
      · simp only [if_neg ha]
        have ha2 : ¬ (s.alpha > s.alpha) := by omega
        rw [if_neg ha2]
        exact ⟨_, rfl, rfl, rfl, rfl, rfl⟩

theorem stopped_loop_finishes (S : SearchEnv) (fuel : Nat) (clr : Color)
    (md rd cd color beta : Int) (previousPv : List Move) :
    ∀ (moves : List Move) (s : LoopState), s.e.m_stop_required = true → s.alpha < beta →
      ∃ s1, negamax_loop S (negamax S (fuel + 1)) clr md rd cd color beta previousPv moves s =
          some (.finished s1) ∧
        s1.e = s.e ∧ s1.alpha = s.alpha ∧ s1.cutoff = s.cutoff ∧
        s1.raise_alpha = s.raise_alpha := by
  intro moves
  induction moves with
  | nil =>
    intro s _ _
    rw [negamax_loop]
    exact ⟨s, rfl, rfl, rfl, rfl, rfl⟩
  | cons move rest ih =>
    intro s hstop hab
    obtain ⟨s1, h1, h2, h3, h4, h5⟩ := loop_step_stopped S fuel clr md rd cd color beta
      previousPv move s hstop hab
    rw [negamax_loop_cons, h1]
    simp only
    obtain ⟨s2, g1, g2, g3, g4, g5⟩ := ih s1 (by rw [h2]; exact hstop) (by rw [h3]; exact hab)
    exact ⟨s2, g1, g2.trans h2, g3.trans h3, g4.trans h4, g5.trans h5⟩

/-! ### The iterations of the driver, case by case -/

theorem deepening_step_cases (S : SearchEnv) (fuel : Nat) (elapsed : Int → Nat)
    (max_time_ms : Nat) (color depth : Int) (s : DriverState) (x : IterExit)
    (h : deepening_step S fuel elapsed max_time_ms color depth s = some x) :
    ∃ r, negamax S fuel { s.e with m_total_nodes := 0, m_total_quiescence_nodes := 0 } s.b depth
        depth 0 color (-999999) 999999 [] s.previousPv (some s.topLevelOrdering) = some r ∧
      ((((r.e.m_stop_required_by_timeout = true ∨ max_time_ms > 0) ∧
          elapsed depth > max_time_ms) ∧
        ∃ s1, x = .done false s1 ∧ s1.bestMove = s.bestMove ∧ s1.moveFound = s.moveFound ∧
          s1.previousPv = s.previousPv) ∨
      (¬ ((r.e.m_stop_required_by_timeout = true ∨ max_time_ms > 0) ∧
          elapsed depth > max_time_ms) ∧
        ((r.e.poll.1 = true ∧
          ∃ s1, x = .done true s1 ∧ s1.bestMove = s.bestMove ∧ s1.moveFound = s.moveFound ∧
            s1.previousPv = s.previousPv) ∨
         (r.e.poll.1 = false ∧ r.parentPv ≠ [] ∧
          ∃ s1, x = .next s1 ∧ s1.bestMove = r.parentPv.headD Move.default ∧
            s1.moveFound = true ∧ s1.previousPv = r.parentPv) ∨
         (r.e.poll.1 = false ∧ r.parentPv = [] ∧
          ∃ s1, x = .done false s1 ∧ s1.bestMove = s.bestMove ∧ s1.moveFound = false ∧
            s1.previousPv = s.previousPv)))) := by
  unfold deepening_step at h
  simp only at h
  split at h
  · cases h
  · rename_i r hr
    refine ⟨r, hr, ?_⟩
    by_cases h1 : (r.e.m_stop_required_by_timeout = true ∨ max_time_ms > 0) ∧
        elapsed depth > max_time_ms
    · rw [if_pos h1] at h
      simp only [Option.some.injEq] at h
      exact Or.inl ⟨h1, _, h.symm, rfl, rfl, rfl⟩
    · rw [if_neg h1] at h
      refine Or.inr ⟨h1, ?_⟩
      by_cases h2 : r.e.poll.1 = true
      · rw [if_pos h2] at h
        simp only [Option.some.injEq] at h
        exact Or.inl ⟨h2, _, h.symm, rfl, rfl, rfl⟩
      · rw [if_neg h2] at h
        have h2f : r.e.poll.1 = false := by
          cases hc : r.e.poll.1 with
          | false => rfl
          | true => exact absurd hc h2
        by_cases h3 : r.parentPv.length > 0
        · rw [if_pos h3] at h
          simp only [Option.some.injEq] at h
          refine Or.inr (Or.inl ⟨h2f, ?_, _, h.symm, rfl, rfl, rfl⟩)
          intro hnil
          rw [hnil] at h3
          exact absurd h3 (by decide)
        · rw [if_neg h3] at h
          simp only [Option.some.injEq] at h
          refine Or.inr (Or.inr ⟨h2f, ?_, _, h.symm, rfl, rfl, rfl⟩)
          cases hpv : r.parentPv with
          | nil => rfl
          | cons a l => rw [hpv] at h3; exact absurd (Nat.succ_pos _) h3

theorem tracked_end (S : SearchEnv) (fuel : Nat) (elapsed : Int → Nat) (max_time_ms : Nat)
    (color : Int) (s sf : DriverState) (hT : Tracked s) (h1 : sf.bestMove = s.bestMove)
    (h2 : sf.moveFound = s.moveFound) (h3 : sf.previousPv = s.previousPv) :
    (sf.previousPv ≠ [] → sf.bestMove = sf.previousPv.headD Move.default) ∧
    (sf.previousPv = [] → s.previousPv = [] ∧ sf.bestMove = s.bestMove ∧
      sf.moveFound = false) ∧
    (sf.moveFound = true → sf.previousPv ≠ []) ∧
    (sf.moveFound = true ∨ sf.previousPv = [] ∨
      EmptyIteration S fuel elapsed max_time_ms color sf) := by
  rw [h1, h2, h3]
  rcases hT with ⟨t1, t2⟩ | ⟨t1, t2, t3⟩
  · exact ⟨fun h => absurd t1 h, fun _ => ⟨t1, rfl, t2⟩,
      (fun h => by rw [t2] at h; cases h), Or.inr (Or.inl t1)⟩
  · exact ⟨fun _ => t3, fun h => absurd h t1, fun _ => t1, Or.inl t2⟩

theorem deepening_loop_tracked (S : SearchEnv) (fuel : Nat) (elapsed : Int → Nat)
    (max_time_ms : Nat) (color max_depth : Int) :
    ∀ (n : Nat) (depth : Int) (s : DriverState) (res : Bool × DriverState), Tracked s →
      deepening_loop S fuel elapsed max_time_ms color max_depth n depth s = some res →
      (res.2.previousPv ≠ [] → res.2.bestMove = res.2.previousPv.headD Move.default) ∧
      (res.2.previousPv = [] → s.previousPv = [] ∧ res.2.bestMove = s.bestMove ∧
        res.2.moveFound = false) ∧
      (res.2.moveFound = true → res.2.previousPv ≠ []) ∧
      (res.2.moveFound = true ∨ res.2.previousPv = [] ∨
        EmptyIteration S fuel elapsed max_time_ms color res.2) := by
  intro n
  induction n with
  | zero =>
    intro depth s res hT h
    rw [deepening_loop] at h
    cases h
    exact tracked_end S fuel elapsed max_time_ms color s s hT rfl rfl rfl
  | succ n ih =>
    intro depth s res hT h
    rw [deepening_loop] at h
    by_cases hd : depth ≤ max_depth
    · rw [if_pos hd] at h
      cases hst : deepening_step S fuel elapsed max_time_ms color depth s with
      | none => rw [hst] at h; cases h
      | some x =>
        rw [hst] at h
        obtain ⟨r, hr, hcase⟩ := deepening_step_cases S fuel elapsed max_time_ms color depth s x
          hst
        rcases hcase with ⟨_, s1, hx, g1, g2, g3⟩ |
          ⟨hnt, ⟨_, s1, hx, g1, g2, g3⟩ | ⟨_, hpv, s1, hx, g1, g2, g3⟩ |
            ⟨hp, hpv, s1, hx, g1, g2, g3⟩⟩
        · rw [hx] at h
          simp only [Option.some.injEq] at h
          rw [← h]
          exact tracked_end S fuel elapsed max_time_ms color s s1 hT g1 g2 g3
        · rw [hx] at h
          simp only [Option.some.injEq] at h
          rw [← h]
          exact tracked_end S fuel elapsed max_time_ms color s s1 hT g1 g2 g3
        · rw [hx] at h
          simp only at h
          have hT1 : Tracked s1 := Or.inr ⟨by rw [g3]; exact hpv, g2, by rw [g1, g3]⟩
          obtain ⟨k1, k2, k3, k4⟩ := ih (depth + 1) s1 res hT1 h
          refine ⟨k1, ?_, k3, k4⟩
          intro hnil
          have := (k2 hnil).1
          rw [g3] at this
          exact absurd this hpv
        · rw [hx] at h
          simp only [Option.some.injEq] at h
          rw [← h]
          refine ⟨?_, ?_, ?_, ?_⟩
          · intro hne
            show s1.bestMove = s1.previousPv.headD Move.default
            have hne1 : s.previousPv ≠ [] := by
              rw [← g3]; exact hne
            rcases hT with ⟨t1, -⟩ | ⟨-, -, t3⟩
            · exact absurd t1 hne1
            · rw [g1, g3]; exact t3
          · intro hnil
            exact ⟨by rw [← g3]; exact hnil, g1, g2⟩
          · intro hm
            have hm1 : s1.moveFound = true := hm
            rw [g2] at hm1
            cases hm1
          · exact Or.inr (Or.inr ⟨depth, s, r, hr, hnt, hp, hpv, g2, g1, g3⟩)
    · rw [if_neg hd] at h
      cases h
      exact tracked_end S fuel elapsed max_time_ms color s s hT rfl rfl rfl

/-- Counterexample for C25: two runs of `iterative_deepening` to depth 1, with
nobody to raise the stop flag and no time budget, whose first iteration is over
with an empty PV; each ends with `moveFound` unset and `bestMove` still the move
given at entry. The first is on the mated position, which has no legal move.
The second is on the sample position, where the king step e1-e2 is legal, with
the table that the search `cancelledRun`, stopped in its first child frame,
leaves: the bucket of the position holds depth 1, score -999999 and the tag
UpperBound, and the root frame returns on the probe. -/
theorem C25_empty_pv_clears_move_found :
    (legal_moves mateSearch checkedBoard = [] ∧
      mateSearchResult.map (fun r => (r.val, r.parentPv, r.e.poll.1)) =
        some (-20000, [], false) ∧
      mateRun.map (fun x => (x.1, x.2.moveFound, x.2.bestMove)) =
        some (false, false, Move.default)) ∧
    (king_step sampleBoard ⟨0, 4⟩ ⟨1, 4⟩ ∈ legal_moves driveSearch sampleBoard ∧
      staleEngine.m_stop_required = false ∧ staleEngine.stop_clock = none ∧
      staleEngine.m_hash (driveSearch.bucket sampleBoard.get_key) =
        ⟨12345, 1, -999999, false, false, true, -9, -9, P_EMPTY⟩ ∧
      staleSearch.map (fun r => (r.val, r.parentPv, r.e.poll.1)) =
        some (-999999, [], false) ∧
      staleRun.map (fun x => (x.1, x.2.moveFound, x.2.bestMove)) =
        some (false, false, Move.default)) := by
  set_option maxRecDepth 1000000 in decide

/-- Claim C25, amended: with the search of an iteration of
`iterative_deepening` over, (1) if the time budget is not found exceeded, the
stop flag is not found set and the PV is not empty, `bestMove` becomes the
first move of that PV, `moveFound` is set and the PV becomes `previousPv`;
(2) if the budget is found exceeded, or (3) the stop flag is found set, the
driver ends with `bestMove`, `moveFound` and `previousPv` as they were; (4) if
neither is found and the PV is empty, the driver ends with `moveFound` unset and
`bestMove` and `previousPv` as they were. So when `iterative_deepening` ends,
`bestMove` is the first move of `previousPv`, the PV of the last iteration that
published one, or the move given at entry when none did; `moveFound` is set
only if an iteration published, and then it is unset only by an iteration of
case (4). -/
theorem C25_last_published_iteration (S : SearchEnv) (fuel : Nat) (elapsed : Int → Nat)
    (max_time_ms : Nat) :
    (∀ (color depth : Int) (s : DriverState) (r : NegamaxResult),
      negamax S fuel { s.e with m_total_nodes := 0, m_total_quiescence_nodes := 0 } s.b depth
        depth 0 color (-999999) 999999 [] s.previousPv (some s.topLevelOrdering) = some r →
      (¬ ((r.e.m_stop_required_by_timeout = true ∨ max_time_ms > 0) ∧
          elapsed depth > max_time_ms) →
        r.e.poll.1 = false → r.parentPv ≠ [] →
        ∃ s1, deepening_step S fuel elapsed max_time_ms color depth s = some (.next s1) ∧
          s1.bestMove = r.parentPv.headD Move.default ∧ s1.moveFound = true ∧
          s1.previousPv = r.parentPv) ∧
      ((r.e.m_stop_required_by_timeout = true ∨ max_time_ms > 0) ∧
          elapsed depth > max_time_ms →
        ∃ s1, deepening_step S fuel elapsed max_time_ms color depth s = some (.done false s1) ∧
          s1.bestMove = s.bestMove ∧ s1.moveFound = s.moveFound ∧
          s1.previousPv = s.previousPv) ∧
      (¬ ((r.e.m_stop_required_by_timeout = true ∨ max_time_ms > 0) ∧
          elapsed depth > max_time_ms) →
        r.e.poll.1 = true →
        ∃ s1, deepening_step S fuel elapsed max_time_ms color depth s = some (.done true s1) ∧
          s1.bestMove = s.bestMove ∧ s1.moveFound = s.moveFound ∧
          s1.previousPv = s.previousPv) ∧
      (¬ ((r.e.m_stop_required_by_timeout = true ∨ max_time_ms > 0) ∧
          elapsed depth > max_time_ms) →
        r.e.poll.1 = false → r.parentPv = [] →
        ∃ s1, deepening_step S fuel elapsed max_time_ms color depth s = some (.done false s1) ∧
          s1.bestMove = s.bestMove ∧ s1.moveFound = false ∧
          s1.previousPv = s.previousPv)) ∧
    (∀ (e : NegamaxEngine) (b : Board) (max_depth : Int) (bestMove : Move) (i : Bool)
      (sf : DriverState),
      iterative_deepening S fuel elapsed e b max_depth bestMove max_time_ms = some (i, sf) →
      (sf.previousPv ≠ [] → sf.bestMove = sf.previousPv.headD Move.default) ∧
      (sf.previousPv = [] → sf.bestMove = bestMove ∧ sf.moveFound = false) ∧
      (sf.moveFound = true → sf.previousPv ≠ []) ∧
      (sf.moveFound = true ∨ sf.previousPv = [] ∨
        EmptyIteration S fuel elapsed max_time_ms (if b.get_next_move = C_WHITE then 1 else -1)
          sf)) := by
  constructor
  · intro color depth s r hneg
    refine ⟨?_, ?_, ?_, ?_⟩
    · intro ht hs hpv
      have hlen : r.parentPv.length > 0 := by
        cases hr : r.parentPv with
        | nil => exact absurd hr hpv
        | cons x xs => simp
      have hs2 : ¬ (r.e.poll.1 = true) := by rw [hs]; decide
      unfold deepening_step
      simp only [hneg, if_neg ht, if_neg hs2, if_pos hlen]
      exact ⟨_, rfl, rfl, rfl, rfl⟩
    · intro ht
      unfold deepening_step
      simp only [hneg, if_pos ht]
      exact ⟨_, rfl, rfl, rfl, rfl⟩
    · intro ht hs
      unfold deepening_step
      simp only [hneg, if_neg ht, hs, if_true]
      exact ⟨_, rfl, rfl, rfl, rfl⟩
    · intro ht hs hpv
      have hlen : ¬ (r.parentPv.length > 0) := by
        rw [hpv]; decide
      have hs2 : ¬ (r.e.poll.1 = true) := by rw [hs]; decide
      unfold deepening_step
      simp only [hneg, if_neg ht, if_neg hs2, if_neg hlen]
      exact ⟨_, rfl, rfl, rfl, rfl⟩
  · intro e b max_depth bestMove i sf h
    unfold iterative_deepening at h
    simp only at h
    obtain ⟨k1, k2, k3, k4⟩ := deepening_loop_tracked S fuel elapsed max_time_ms _ max_depth
      max_depth.toNat 1 ⟨e.set_max_depth max_depth, b, bestMove, false, [], []⟩ (i, sf)
      (Or.inl ⟨rfl, rfl⟩) h
    exact ⟨k1, fun hnil => ⟨(k2 hnil).2.1, (k2 hnil).2.2⟩, k3, k4⟩

/-- Witness for C25: the first iteration of `go depth 1` on the sample
position runs to its end and publishes the king step e1-e2, the head of its
PV. -/
theorem C25_witness :
    firstSearch = some (firstSearch.getD noResult) ∧
    (firstSearch.getD noResult).parentPv.headD Move.default = bestStep ∧
    ∃ s1, deepening_step driveSearch 3 (fun _ => 0) 0 1 1 driveStart = some (.next s1) ∧
      s1.bestMove = (firstSearch.getD noResult).parentPv.headD Move.default ∧
      s1.moveFound = true ∧ s1.previousPv = (firstSearch.getD noResult).parentPv :=
  ⟨some_getD firstSearch (by set_option maxRecDepth 1000000 in decide),
   by set_option maxRecDepth 1000000 in decide,
   ((C25_last_published_iteration driveSearch 3 (fun _ => 0) 0).1 1 1 driveStart
      (firstSearch.getD noResult)
      (some_getD firstSearch (by set_option maxRecDepth 1000000 in decide))).1
      (by set_option maxRecDepth 1000000 in decide)
      (by set_option maxRecDepth 1000000 in decide)
      (by set_option maxRecDepth 1000000 in decide)⟩

end Tistou
